import Mathlib

/-!
# flaremind: URL normalisation, frontier queue, crawl orchestration, retries and content extraction

A shallow embedding of the Go sources

* `pkg/utils/url.go` (`NormalizeURL`, `IsValidURL`),
* `internal/queue/queue.go` (`Queue`),
* `internal/crawler/link_extractor.go` (`ExtractLinks`),
* `internal/crawler/manager.go` (`CrawlManager.Crawl`),
* `internal/crawler/retry.go` (`Retry`, `IsRetryableError`),
* `internal/crawler/extractor.go` (`calculateContentScore`, `selectBestContent`,
  `ExtractMainContent` with `cleanContent`, `ExtractText`),
* `internal/crawler/renderer.go` (`Render`),
* `cmd/cli/main.go` (the `AllowedDomains` of the configuration, `sanitizeFilename`),

together with the part of the Go standard library they call (`net/url`,
`strings`, `unicode`, `unicode/utf8`, `errors`, the arithmetic of `float64`) and
of the libraries `goquery`, `cascadia`, `golang.org/x/net/html` and
`golang.org/x/time/rate` (a parsed document as a tree of nodes, `Find`, `Text`,
`AttrOr`, `Remove`, `RemoveAttr`, `Html`, tag and class selectors; the burst
test of `Limiter.Wait`).

A Go `string` is a sequence of bytes: it is modelled as a `List Nat`, every
element standing for one byte.  `bytes "http"` is the byte sequence of an
ASCII literal.
-/

set_option autoImplicit false

namespace Flaremind

/-- A Go string: its bytes, in order. -/
abbrev GoString := List Nat

/-- The byte sequence of a literal (one byte per character for ASCII text). -/
def bytes (s : String) : GoString := s.toList.map Char.toNat

/-! ## Package `strings` -/

namespace strings

/-- `strings.HasPrefix(s, p)`. -/
def HasPrefix : GoString → GoString → Bool
  | _, [] => true
  | [], _ :: _ => false
  | a :: s, b :: p => a == b && HasPrefix s p

/-- `strings.HasSuffix(s, p)`. -/
def HasSuffix (s p : GoString) : Bool := HasPrefix s.reverse p.reverse

/-- `strings.TrimSuffix(s, p)`: `s` without the trailing `p`, once, when `s` ends in `p`. -/
def TrimSuffix (s p : GoString) : GoString :=
  if HasSuffix s p then s.take (s.length - p.length) else s

/-- `strings.Index(s, sep)`: the position of the first occurrence of `sep`, if any. -/
def Index : GoString → GoString → Option Nat
  | [], sep => if sep.isEmpty then some 0 else none
  | a :: s, sep =>
    if HasPrefix (a :: s) sep then some 0
    else (Index s sep).map (· + 1)

/-- `strings.LastIndex(s, sep)`: the position of the last occurrence of `sep`, if any. -/
def LastIndex : GoString → GoString → Option Nat
  | [], sep => if sep.isEmpty then some 0 else none
  | a :: s, sep =>
    match LastIndex s sep with
    | some i => some (i + 1)
    | none => if HasPrefix (a :: s) sep then some 0 else none

/-- `strings.Contains(s, sep)`. -/
def Contains (s sep : GoString) : Bool := (Index s sep).isSome

/-- `strings.Count(s, sep)` for a one-byte separator. -/
def CountByte (s : GoString) (c : Nat) : Nat := s.count c

/-- `strings.Cut(s, sep)`: the text before and after the first `sep`, and whether
`sep` was found; `(s, "", false)` when it is absent. -/
def Cut (s sep : GoString) : GoString × GoString × Bool :=
  match Index s sep with
  | some i => (s.take i, s.drop (i + sep.length), true)
  | none => (s, [], false)

/-- The ASCII branch of `strings.ToLower`: `c += 'a' - 'A'` for `'A' <= c <= 'Z'`. -/
def lowerByte (c : Nat) : Nat := if 65 ≤ c ∧ c ≤ 90 then c + 32 else c

end strings

/-! ## Package `unicode/utf8` -/

namespace utf8

/-- `utf8.RuneError`, U+FFFD. -/
def RuneError : Nat := 0xFFFD

/-- A continuation byte in the default range `locb..hicb`. -/
def isCont (b : Nat) : Bool := 0x80 ≤ b && b ≤ 0xBF

/-- The `first` and `acceptRanges` tables for a first byte `s0 >= 0x80`: the size
of the encoding it starts (0 for a byte that starts none) and the range accepted
for the second byte. -/
def firstByte (s0 : Nat) : Nat × Nat × Nat :=
  if s0 < 0xC2 then (0, 0, 0)
  else if s0 < 0xE0 then (2, 0x80, 0xBF)
  else if s0 = 0xE0 then (3, 0xA0, 0xBF)
  else if s0 = 0xED then (3, 0x80, 0x9F)
  else if s0 < 0xF0 then (3, 0x80, 0xBF)
  else if s0 = 0xF0 then (4, 0x90, 0xBF)
  else if s0 < 0xF4 then (4, 0x80, 0xBF)
  else if s0 = 0xF4 then (4, 0x80, 0x8F)
  else (0, 0, 0)

/-- `utf8.DecodeRuneInString`: the first rune and its width.  An ASCII byte is
its own rune; otherwise the first byte names a size, the bytes after it must be
there and be continuation bytes, the second in the accepted range, and then the
rune is made of the low bits; every other case yields `(RuneError, 1)`. -/
def DecodeRune : GoString → Nat × Nat
  | [] => (RuneError, 0)
  | s0 :: rest =>
    if s0 < 0x80 then (s0, 1)
    else
      let sz := (firstByte s0).1
      let tail := rest.take (sz - 1)
      if 2 ≤ sz ∧ tail.length = sz - 1 ∧ tail.all isCont
          ∧ tail.head?.all (fun s1 => (firstByte s0).2.1 ≤ s1 && s1 ≤ (firstByte s0).2.2) then
        (tail.foldl (fun r b => r * 0x40 + b % 0x40)
          (s0 % (if sz = 2 then 0x20 else if sz = 3 then 0x10 else 0x08)), sz)
      else (RuneError, 1)

/-- `utf8.AppendRune`: the UTF-8 encoding of a rune; a surrogate or a value past
U+10FFFF is written as `RuneError`. -/
def EncodeRune (r : Nat) : GoString :=
  if r < 0x80 then [r]
  else if r < 0x800 then [0xC0 + r / 0x40, 0x80 + r % 0x40]
  else if r > 0x10FFFF ∨ (0xD800 ≤ r ∧ r ≤ 0xDFFF) then [0xEF, 0xBF, 0xBD]
  else if r < 0x10000 then [0xE0 + r / 0x1000, 0x80 + (r / 0x40) % 0x40, 0x80 + r % 0x40]
  else [0xF0 + r / 0x40000, 0x80 + (r / 0x1000) % 0x40, 0x80 + (r / 0x40) % 0x40, 0x80 + r % 0x40]

/-- The runes a `for _, c := range s` loop sees: every maximal valid encoding is
one rune, every other byte is one `RuneError`.  `fuel` bounds the number of runes
(a string has at most as many runes as bytes). -/
def runes : Nat → GoString → List Nat
  | 0, _ => []
  | _, [] => []
  | fuel + 1, s0 :: rest =>
    let d := DecodeRune (s0 :: rest)
    d.1 :: runes fuel (rest.drop (d.2 - 1))

end utf8

/-! ## `strings.ToLower` -/

namespace strings

/-- `unicode.ToLower(r)`: the ASCII range is handled inline, every other rune is
looked up in the Unicode case tables, `caseTable r` standing for
`unicode.To(unicode.LowerCase, r)`. -/
def unicodeToLower (caseTable : Nat → Nat) (r : Nat) : Nat :=
  if r ≤ 0x7F then lowerByte r else caseTable r

/-- `strings.Map(mapping, s)`: every rune of `s` replaced by its image, re-encoded. -/
def Map (mapping : Nat → Nat) (s : GoString) : GoString :=
  ((utf8.runes s.length s).map (fun r => utf8.EncodeRune (mapping r))).flatten

/-- `strings.ToLower(s)`: byte-wise on an all-ASCII string, else
`Map(unicode.ToLower, s)`. -/
def ToLower (caseTable : Nat → Nat) (s : GoString) : GoString :=
  if s.all (· < 0x80) then s.map lowerByte
  else Map (unicodeToLower caseTable) s

/-- What the theorems on re-normalisation use of the Unicode case tables: the
lower-case form of a non-ASCII rune is a non-ASCII rune or an ASCII lower-case
letter (in Unicode only U+212A and U+0130 have an ASCII lower-case form, `k` and
`i`). -/
def CaseTableOK (caseTable : Nat → Nat) : Prop :=
  ∀ r, 0x7F < r → 0x7F < caseTable r ∨ (97 ≤ caseTable r ∧ caseTable r ≤ 122)

/-- Two strings of the same length that differ at most in the case of ASCII
letters: byte by byte, the lower-case forms agree. -/
def SameUpToASCIICase (s t : GoString) : Prop :=
  List.Forall₂ (fun a b => lowerByte a = lowerByte b) s t

end strings

/-! ## Package `net/url`

`Parse`, `(*URL).String` and the functions they call, after `net/url/url.go` of
Go 1.21 (a release with `URL.OmitHost`). -/

namespace url

/-- The errors of `net/url`. -/
inductive Error where
  | invalidControlCharacter
  | missingProtocolScheme
  | firstPathSegmentColon
  | escapeError (s : GoString)
  | invalidHost (s : GoString)
  | missingBracket
  | invalidPort (s : GoString)
  | invalidUserinfo
  deriving DecidableEq, Repr

/-- The `encoding` modes of `shouldEscape`, `escape` and `unescape`. -/
inductive Encoding where
  | encodePath
  | encodePathSegment
  | encodeHost
  | encodeZone
  | encodeUserPassword
  | encodeQueryComponent
  | encodeFragment
  deriving DecidableEq, Repr

open Encoding

/-- `ishex(c)`. -/
def ishex (c : Nat) : Bool :=
  (48 ≤ c && c ≤ 57) || (97 ≤ c && c ≤ 102) || (65 ≤ c && c ≤ 70)

/-- `unhex(c)`. -/
def unhex (c : Nat) : Nat :=
  if 48 ≤ c ∧ c ≤ 57 then c - 48
  else if 97 ≤ c ∧ c ≤ 102 then c - 97 + 10
  else if 65 ≤ c ∧ c ≤ 70 then c - 65 + 10
  else 0

/-- The byte `"0123456789ABCDEF"[n]`, for `n < 16` (as `c >> 4` and `c & 15` are for
a byte `c`); a larger `n` indexes no digit and is given the letter after `F`. -/
def upperhex (n : Nat) : Nat := if n < 10 then 48 + n else if n < 16 then 55 + n else 71

/-- `case '!', '$', '&', '\'', '(', ')', '*', '+', ',', ';', '=', ':', '[', ']', '<', '>', '"'`:
the bytes a host may hold unescaped besides letters, digits and marks. -/
def hostSubDelim (c : Nat) : Bool :=
  c ∈ [33, 36, 38, 39, 40, 41, 42, 43, 44, 59, 61, 58, 91, 93, 60, 62, 34]

/-- `shouldEscape(c, mode)`: whether byte `c` is written as `%XX` in the given
part of a URL. -/
def shouldEscape (c : Nat) (mode : Encoding) : Bool :=
  -- §2.3 Unreserved characters (alphanum)
  if (97 ≤ c ∧ c ≤ 122) ∨ (65 ≤ c ∧ c ≤ 90) ∨ (48 ≤ c ∧ c ≤ 57) then false
  else if (mode = encodeHost ∨ mode = encodeZone) ∧ hostSubDelim c then false
  -- '-', '_', '.', '~'
  else if c = 45 ∨ c = 95 ∨ c = 46 ∨ c = 126 then false
  -- '$', '&', '+', ',', '/', ':', ';', '=', '?', '@'
  else if c ∈ [36, 38, 43, 44, 47, 58, 59, 61, 63, 64] then
    match mode with
    | encodePath => c = 63
    | encodePathSegment => c = 47 ∨ c = 59 ∨ c = 44 ∨ c = 63
    | encodeUserPassword => c = 64 ∨ c = 47 ∨ c = 63 ∨ c = 58
    | encodeQueryComponent => true
    | encodeFragment => false
    | _ => true
  -- '!', '(', ')', '*'
  else if mode = encodeFragment ∧ (c = 33 ∨ c = 40 ∨ c = 41 ∨ c = 42) then false
  else true

/-- The checking pass of `unescape`: every `%` is followed by two hex digits, a
host escapes only non-ASCII bytes and `%25`, a zone only bytes a host may hold,
and a host or zone holds no ASCII byte that would have to be escaped. -/
def unescapeCheck (mode : Encoding) : GoString → Except Error Unit
  | [] => .ok ()
  | 37 :: a :: b :: rest =>
    if !ishex a || !ishex b then .error (.escapeError [37, a, b])
    else if mode = encodeHost ∧ unhex a < 8 ∧ [37, a, b] ≠ [37, 50, 53] then
      .error (.escapeError [37, a, b])
    else if mode = encodeZone ∧ [37, a, b] ≠ [37, 50, 53] ∧ unhex a * 16 + unhex b ≠ 32
        ∧ shouldEscape (unhex a * 16 + unhex b) encodeHost then
      .error (.escapeError [37, a, b])
    else unescapeCheck mode rest
  | 37 :: rest => .error (.escapeError (37 :: rest))
  | c :: rest =>
    if (mode = encodeHost ∨ mode = encodeZone) ∧ c < 0x80 ∧ shouldEscape c encodeHost then
      .error (.invalidHost [c])
    else unescapeCheck mode rest

/-- The writing pass of `unescape`: `%XX` becomes the byte `XX`, and `+` a space
in a query component. -/
def unescapeBuild (mode : Encoding) : GoString → GoString
  | [] => []
  | 37 :: a :: b :: rest => (unhex a * 16 + unhex b) :: unescapeBuild mode rest
  | c :: rest =>
    (if c = 43 ∧ mode = encodeQueryComponent then 32 else c) :: unescapeBuild mode rest

/-- `unescape(s, mode)`. -/
def unescape (s : GoString) (mode : Encoding) : Except Error GoString :=
  match unescapeCheck mode s with
  | .error e => .error e
  | .ok () => .ok (unescapeBuild mode s)

/-- `escape(s, mode)`: every byte `shouldEscape` names becomes `%XX` in upper-case
hex (a space becomes `+` in a query component). -/
def escape (s : GoString) (mode : Encoding) : GoString :=
  (s.map (fun c =>
    if c = 32 ∧ mode = encodeQueryComponent then [43]
    else if shouldEscape c mode then [37, upperhex (c / 16), upperhex (c % 16)]
    else [c])).flatten

/-- The scanning loop of `getScheme`; `i0` tells whether the byte is the first. -/
def getSchemeLoop (rawURL : GoString) : Bool → GoString → GoString →
    Except Error (GoString × GoString)
  | _, _, [] => .ok ([], rawURL)
  | i0, acc, c :: rest =>
    if (97 ≤ c ∧ c ≤ 122) ∨ (65 ≤ c ∧ c ≤ 90) then getSchemeLoop rawURL false (acc ++ [c]) rest
    else if (48 ≤ c ∧ c ≤ 57) ∨ c = 43 ∨ c = 45 ∨ c = 46 then
      if i0 then .ok ([], rawURL) else getSchemeLoop rawURL false (acc ++ [c]) rest
    else if c = 58 then
      if i0 then .error .missingProtocolScheme else .ok (acc, rest)
    else .ok ([], rawURL)

/-- `getScheme(rawURL)`: the scheme and what follows its colon, or an empty scheme
and the whole text when there is none. -/
def getScheme (rawURL : GoString) : Except Error (GoString × GoString) :=
  getSchemeLoop rawURL true [] rawURL

/-- `stringContainsCTLByte(s)`. -/
def stringContainsCTLByte (s : GoString) : Bool := s.any (fun b => b < 32 || b == 0x7f)

/-- `validOptionalPort(port)`: empty, or a colon followed by digits only. -/
def validOptionalPort : GoString → Bool
  | [] => true
  | c :: rest => c == 58 && rest.all (fun b => 48 ≤ b && b ≤ 57)

/-- `validUserinfo(s)`. -/
def validUserinfo (s : GoString) : Bool :=
  s.all (fun r =>
    (65 ≤ r && r ≤ 90) || (97 ≤ r && r ≤ 122) || (48 ≤ r && r ≤ 57)
    || decide (r ∈ [45, 46, 95, 58, 126, 33, 36, 38, 39, 40, 41, 42, 43, 44, 59, 61, 37, 64]))

/-- `validEncoded(s, mode)`. -/
def validEncoded (s : GoString) (mode : Encoding) : Bool :=
  s.all (fun c =>
    decide (c ∈ [33, 36, 38, 39, 40, 41, 42, 43, 44, 59, 61, 58, 64, 91, 93, 37])
    || !shouldEscape c mode)

/-- `url.Userinfo`. -/
structure Userinfo where
  username : GoString
  password : GoString
  passwordSet : Bool
  deriving DecidableEq, Repr

/-- `url.URL`. `User = none` is the nil pointer. -/
structure URL where
  Scheme : GoString := []
  Opaque : GoString := []
  User : Option Userinfo := none
  Host : GoString := []
  Path : GoString := []
  RawPath : GoString := []
  OmitHost : Bool := false
  ForceQuery : Bool := false
  RawQuery : GoString := []
  Fragment : GoString := []
  RawFragment : GoString := []
  deriving DecidableEq, Repr

/-- `parseHost(host)`: checks the port and the escapes of a host, an IP literal
in brackets being allowed a zone after `%25`. -/
def parseHost (host : GoString) : Except Error GoString :=
  let plain : Except Error GoString := unescape host encodeHost
  if strings.HasPrefix host [91] then
    match strings.LastIndex host [93] with
    | none => .error .missingBracket
    | some i =>
      let colonPort := host.drop (i + 1)
      if !validOptionalPort colonPort then .error (.invalidPort colonPort)
      else
        match strings.Index (host.take i) [37, 50, 53] with
        | some zone =>
          match unescape (host.take zone) encodeHost with
          | .error e => .error e
          | .ok host1 =>
            match unescape ((host.take i).drop zone) encodeZone with
            | .error e => .error e
            | .ok host2 =>
              match unescape (host.drop i) encodeHost with
              | .error e => .error e
              | .ok host3 => .ok (host1 ++ host2 ++ host3)
        | none => plain
  else
    match strings.LastIndex host [58] with
    | some i =>
      let colonPort := host.drop i
      if !validOptionalPort colonPort then .error (.invalidPort colonPort) else plain
    | none => plain

/-- The user part of `parseAuthority`: `userinfo` is what stands before the last `@`. -/
def parseUserinfo (userinfo : GoString) : Except Error Userinfo :=
  if !validUserinfo userinfo then .error .invalidUserinfo
  else if !strings.Contains userinfo [58] then
    match unescape userinfo encodeUserPassword with
    | .error e => .error e
    | .ok u => .ok { username := u, password := [], passwordSet := false }
  else
    let c := strings.Cut userinfo [58]
    match unescape c.1 encodeUserPassword with
    | .error e => .error e
    | .ok username =>
      match unescape c.2.1 encodeUserPassword with
      | .error e => .error e
      | .ok password => .ok { username := username, password := password, passwordSet := true }

/-- `parseAuthority(authority)`: the user and the host of `[user[:password]@]host[:port]`. -/
def parseAuthority (authority : GoString) : Except Error (Option Userinfo × GoString) :=
  match strings.LastIndex authority [64] with
  | none =>
    match parseHost authority with
    | .error e => .error e
    | .ok host => .ok (none, host)
  | some i =>
    match parseHost (authority.drop (i + 1)) with
    | .error e => .error e
    | .ok host =>
      match parseUserinfo (authority.take i) with
      | .error e => .error e
      | .ok user => .ok (some user, host)

/-- `(*URL).setPath(p)`: `Path` is the unescaped `p`; `RawPath` keeps `p` only when
it is not the default encoding of `Path`. -/
def URL.setPath (u : URL) (p : GoString) : Except Error URL :=
  match unescape p encodePath with
  | .error e => .error e
  | .ok path =>
    .ok { u with Path := path, RawPath := if p = escape path encodePath then [] else p }

/-- `(*URL).setFragment(f)`. -/
def URL.setFragment (u : URL) (f : GoString) : Except Error URL :=
  match unescape f encodeFragment with
  | .error e => .error e
  | .ok frag =>
    .ok { u with Fragment := frag,
                 RawFragment := if f = escape frag encodeFragment then [] else f }

/-- The second half of `parse`: `u` holds the scheme and the query, `rest` is what
stands between them; it is an opaque text, or an authority and a path, or a path. -/
def parseRest (u : URL) (rest : GoString) : Except Error URL :=
  if !strings.HasPrefix rest [47] ∧ u.Scheme ≠ [] then
    -- We consider rootless paths per RFC 3986 as opaque.
    .ok { u with Opaque := rest }
  else if !strings.HasPrefix rest [47]
      ∧ strings.Contains (strings.Cut rest [47]).1 [58] then
    .error .firstPathSegmentColon
  else if (u.Scheme ≠ [] ∨ !strings.HasPrefix rest [47, 47, 47])
      ∧ strings.HasPrefix rest [47, 47] then
    let after := rest.drop 2
    let authority :=
      match strings.Index after [47] with
      | some i => after.take i
      | none => after
    let rest2 :=
      match strings.Index after [47] with
      | some i => after.drop i
      | none => []
    match parseAuthority authority with
    | .error e => .error e
    | .ok (user, host) => URL.setPath { u with User := user, Host := host } rest2
  else if u.Scheme ≠ [] ∧ strings.HasPrefix rest [47] then
    URL.setPath { u with OmitHost := true } rest
  else URL.setPath u rest

/-- `parse(rawURL, viaRequest = false)`: a URL without its fragment.  The first
half splits off the scheme and the query, `parseRest` does the rest. -/
def parse (rawURL : GoString) : Except Error URL :=
  if stringContainsCTLByte rawURL then .error .invalidControlCharacter
  else if rawURL = [42] then .ok { Path := [42] }
  else
    match getScheme rawURL with
    | .error e => .error e
    | .ok (scheme0, rest0) =>
      let scheme := scheme0.map strings.lowerByte
      let forceQuery := strings.HasSuffix rest0 [63] && strings.CountByte rest0 63 == 1
      let rest := if forceQuery then rest0.take (rest0.length - 1) else (strings.Cut rest0 [63]).1
      let rawQuery := if forceQuery then [] else (strings.Cut rest0 [63]).2.1
      parseRest { Scheme := scheme, ForceQuery := forceQuery, RawQuery := rawQuery } rest

/-- `url.Parse(rawURL)`: the text after the first `#` is the fragment. -/
def Parse (rawURL : GoString) : Except Error URL :=
  let c := strings.Cut rawURL [35]
  match parse c.1 with
  | .error e => .error e
  | .ok u => if c.2.1 = [] then .ok u else URL.setFragment u c.2.1

/-- `(*Userinfo).String()`. -/
def Userinfo.String (ui : Userinfo) : GoString :=
  escape ui.username encodeUserPassword
    ++ (if ui.passwordSet then [58] ++ escape ui.password encodeUserPassword else [])

/-- The test `raw != "" && validEncoded(raw, mode)` followed by
`p, err := unescape(raw, mode); err == nil && p == decoded`, shared by
`EscapedPath` and `EscapedFragment`. -/
def rawHintValid (raw decoded : GoString) (mode : Encoding) : Bool :=
  raw ≠ [] && validEncoded raw mode &&
    (match unescape raw mode with
     | .ok p => p == decoded
     | .error _ => false)

/-- `(*URL).EscapedPath()`: `RawPath` when it is a valid encoding of `Path`, else
the default encoding. -/
def URL.EscapedPath (u : URL) : GoString :=
  if rawHintValid u.RawPath u.Path encodePath then u.RawPath
  else if u.Path = [42] then [42]
  else escape u.Path encodePath

/-- `(*URL).EscapedFragment()`. -/
def URL.EscapedFragment (u : URL) : GoString :=
  if rawHintValid u.RawFragment u.Fragment encodeFragment then u.RawFragment
  else escape u.Fragment encodeFragment

/-- `(*URL).String()`: `scheme:opaque?query#fragment` or
`scheme://userinfo@host/path?query#fragment`. -/
def URL.String (u : URL) : GoString :=
  let schemePart := if u.Scheme ≠ [] then u.Scheme ++ [58] else []
  let body :=
    if u.Opaque ≠ [] then u.Opaque
    else
      let auth :=
        if u.Scheme ≠ [] ∨ u.Host ≠ [] ∨ u.User ≠ none then
          if u.OmitHost ∧ u.Host = [] ∧ u.User = none then []
          else
            (if u.Host ≠ [] ∨ u.Path ≠ [] ∨ u.User ≠ none then [47, 47] else [])
            ++ (match u.User with
                | some ui => ui.String ++ [64]
                | none => [])
            ++ (if u.Host ≠ [] then escape u.Host encodeHost else [])
        else []
      let path := u.EscapedPath
      let slash := if path ≠ [] ∧ path.head? ≠ some 47 ∧ u.Host ≠ [] then [47] else []
      let dot :=
        if schemePart ++ auth ++ slash = [] ∧ strings.Contains (strings.Cut path [47]).1 [58]
        then [46, 47] else []
      auth ++ slash ++ dot ++ path
  let query := if u.ForceQuery ∨ u.RawQuery ≠ [] then [63] ++ u.RawQuery else []
  let frag := if u.Fragment ≠ [] then [35] ++ u.EscapedFragment else []
  schemePart ++ body ++ query ++ frag

/-! ### Texts and bytes, for the theorems on re-normalisation -/

/-- No control byte, no `#` and no `?`: what the text between the scheme and the
query of a parsed URL is made of. -/
def Clean (s : GoString) : Prop := ∀ c ∈ s, 32 ≤ c ∧ c ≠ 127 ∧ c ≠ 35 ∧ c ≠ 63

/-- No control byte and no `#`: what the query of a parsed URL is made of. -/
def CleanQ (s : GoString) : Prop := ∀ c ∈ s, 32 ≤ c ∧ c ≠ 127 ∧ c ≠ 35

/-- Every element is a byte. -/
def IsBytes (s : GoString) : Prop := ∀ c ∈ s, c < 256

/-- What `unescape` reads back from the image of byte `c` under `escape`. -/
def redecode (mode : Encoding) (c : Nat) : Nat :=
  if shouldEscape c mode then unhex (upperhex (c / 16)) * 16 + unhex (upperhex (c % 16)) else c

/-- The user as `String` writes it before the host: `userinfo@`, or nothing. -/
def userText : Option Userinfo → GoString
  | some ui => ui.String ++ [64]
  | none => []

/-- The user and the host as `String` writes them after `//`. -/
def URL.authorityText (u : URL) : GoString :=
  userText u.User ++ (if u.Host ≠ [] then escape u.Host encodeHost else [])

/-- What `String` writes between the colon of the scheme and the query, for a URL
with a scheme. -/
def URL.bodyText (u : URL) : GoString :=
  if u.Opaque ≠ [] then u.Opaque
  else
    (if u.OmitHost ∧ u.Host = [] ∧ u.User = none then []
     else (if u.Host ≠ [] ∨ u.Path ≠ [] ∨ u.User ≠ none then [47, 47] else [])
        ++ u.authorityText)
    ++ (if u.EscapedPath ≠ [] ∧ u.EscapedPath.head? ≠ some 47 ∧ u.Host ≠ [] then [47] else [])
    ++ u.EscapedPath

/-- The query as `String` writes it. -/
def URL.queryText (u : URL) : GoString :=
  if u.ForceQuery ∨ u.RawQuery ≠ [] then [63] ++ u.RawQuery else []

end url

/-! ## `pkg/utils/url.go` -/

namespace utils

/-- The `error` values `NormalizeURL` returns. -/
inductive Error where
  | parse (e : url.Error)
  | noScheme
  | badScheme
  deriving DecidableEq, Repr

/-- `NormalizeURL(rawURL)`.  `caseTable` is the Unicode lower-case table that
`strings.ToLower` consults for non-ASCII runes. -/
def NormalizeURL (caseTable : Nat → Nat) (rawURL : GoString) : Except Error GoString :=
  match url.Parse rawURL with
  | .error e => .error (.parse e)
  | .ok u =>
    if u.Scheme = [] then .error .noScheme
    else if u.Scheme ≠ bytes "http" ∧ u.Scheme ≠ bytes "https" then .error .badScheme
    else
      let u := { u with Fragment := [] }
      let u := { u with Scheme := strings.ToLower caseTable u.Scheme }
      let u := { u with Host := strings.ToLower caseTable u.Host }
      let u := if u.Path ≠ bytes "/" then { u with Path := strings.TrimSuffix u.Path (bytes "/") }
               else u
      .ok u.String

/-- `IsValidURL(rawURL)`. -/
def IsValidURL (rawURL : GoString) : Bool :=
  match url.Parse rawURL with
  | .error _ => false
  | .ok u => u.Scheme == bytes "http" || u.Scheme == bytes "https"

/-- `NormalizeURL` accepts `u`. -/
def Normalizes (caseTable : Nat → Nat) (u : GoString) : Prop :=
  ∃ c, NormalizeURL caseTable u = .ok c

/-- The string `l` is a canonical form: `NormalizeURL` returns it for some input. -/
def IsCanonical (caseTable : Nat → Nat) (l : GoString) : Prop :=
  ∃ a, NormalizeURL caseTable a = .ok l

/-- `IsSameDomain(url1, url2)`. -/
def IsSameDomain (url1 url2 : GoString) : Bool :=
  match url.Parse url1, url.Parse url2 with
  | .ok u1, .ok u2 => u1.Host == u2.Host
  | _, _ => false

/-- The path as `NormalizeURL` leaves it: without one trailing slash, the root
path apart. -/
def trimPath (p : GoString) : GoString :=
  if p ≠ bytes "/" then strings.TrimSuffix p (bytes "/") else p

/-- The URL `NormalizeURL` writes out for the parsed URL `u`. -/
def canonical (caseTable : Nat → Nat) (u : url.URL) : url.URL :=
  { u with Fragment := [], Scheme := strings.ToLower caseTable u.Scheme,
           Host := strings.ToLower caseTable u.Host, Path := trimPath u.Path }

end utils

namespace url

open Encoding

/-- A path text as `NormalizeURL` writes it: either `escape` wrote it, or it is a
valid encoding (the raw path of the input) whose decoded form has no trailing
slash to remove. -/
def PathOut (t : GoString) : Prop :=
  (∃ y, t = escape y encodePath)
  ∨ (t ≠ [] ∧ validEncoded t encodePath = true
      ∧ utils.trimPath (unescapeBuild encodePath t) = unescapeBuild encodePath t)

/-- What `NormalizeURL` writes between scheme and query: when it starts with a
slash it is ASCII, and when it starts with one slash only it is a path as
`NormalizeURL` writes it. -/
def GoodBody (b : GoString) : Prop :=
  strings.HasPrefix b [47] = true →
    (∀ c ∈ b, c < 128) ∧ (strings.HasPrefix b [47, 47] = false → PathOut b)

end url

/-! ## Go maps -/

/-- A Go `map[K]V`: its key/value pairs, every key at most once. -/
abbrev GoMap (K V : Type) := List (K × V)

namespace GoMap

variable {K V : Type} [DecidableEq K]

/-- The read `m[k]`: the stored value, or the zero value `zero` for an absent key. -/
def get (m : GoMap K V) (k : K) (zero : V) : V := (m.lookup k).getD zero

/-- The write `m[k] = v`. -/
def set (m : GoMap K V) (k : K) (v : V) : GoMap K V := (k, v) :: m.filter (fun p => p.1 ≠ k)

/-- The number of keys, `len(m)`. -/
def len (m : GoMap K V) : Nat := m.length

end GoMap

/-! ## `internal/queue/queue.go` -/

namespace queue

/-- The fields of `Queue` (the mutex apart: every method below runs under it and
is one atomic step). -/
structure Queue where
  urls : List GoString
  visited : GoMap GoString Bool
  normalized : GoMap GoString GoString
  deriving DecidableEq, Repr

/-- `NewQueue()`. -/
def NewQueue : Queue := { urls := [], visited := [], normalized := [] }

variable (caseTable : Nat → Nat)

/-- `(*Queue).Add(url)`: the queue afterwards and the returned flag. -/
def Queue.Add (q : Queue) (url : GoString) : Queue × Bool :=
  match utils.NormalizeURL caseTable url with
  | .error _ => (q, false)
  | .ok normalized =>
    if q.visited.get normalized false then (q, false)
    else if q.urls.any (fun u => u == normalized) then (q, false)
    else
      ({ q with urls := q.urls ++ [normalized],
                normalized := q.normalized.set url normalized }, true)

/-- `(*Queue).Pop()`: the queue afterwards, the URL and the `ok` flag. -/
def Queue.Pop (q : Queue) : Queue × GoString × Bool :=
  match q.urls with
  | [] => (q, [], false)
  | url :: rest => ({ q with urls := rest }, url, true)

/-- `(*Queue).MarkVisited(url)`. -/
def Queue.MarkVisited (q : Queue) (url : GoString) : Queue :=
  match utils.NormalizeURL caseTable url with
  | .error _ => q
  | .ok normalized => { q with visited := q.visited.set normalized true }

/-- `(*Queue).IsVisited(url)`. -/
def Queue.IsVisited (q : Queue) (url : GoString) : Bool :=
  match utils.NormalizeURL caseTable url with
  | .error _ => false
  | .ok normalized => q.visited.get normalized false

/-- `(*Queue).Size()`. -/
def Queue.Size (q : Queue) : Int := q.urls.length

/-- `(*Queue).VisitedCount()`. -/
def Queue.VisitedCount (q : Queue) : Int := q.visited.len

/-- One call on a queue. -/
inductive Op where
  | add (url : GoString)
  | pop
  | markVisited (url : GoString)
  deriving DecidableEq, Repr

/-- What a call returned: the flag of `Add`, the URL and flag of `Pop`. -/
inductive Ret where
  | added (ok : Bool)
  | popped (url : GoString) (ok : Bool)
  | marked
  deriving DecidableEq, Repr

/-- One call: the queue afterwards and what the call returned. -/
def Queue.call (q : Queue) : Op → Queue × Ret
  | .add url => ((q.Add caseTable url).1, .added (q.Add caseTable url).2)
  | .pop => (q.Pop.1, .popped q.Pop.2.1 q.Pop.2.2)
  | .markVisited url => (q.MarkVisited caseTable url, .marked)

/-- A sequence of calls: the queue afterwards. -/
def Queue.run (q : Queue) : List Op → Queue
  | [] => q
  | op :: ops => Queue.run (q.call caseTable op).1 ops

/-- A sequence of calls: what each call returned, in order. -/
def Queue.trace (q : Queue) : List Op → List Ret
  | [] => []
  | op :: ops => (q.call caseTable op).2 :: Queue.trace (q.call caseTable op).1 ops

/-- The canonical URL `c` is visited or pending. -/
def Known (c : GoString) (q : Queue) : Prop := q.visited.get c false = true ∨ c ∈ q.urls

/-- The URLs that came out of `Pop` with `ok = true`, in order. -/
def poppedURLs : List Ret → List GoString
  | [] => []
  | .popped url true :: rs => url :: poppedURLs rs
  | _ :: rs => poppedURLs rs

/-- The canonical forms of the URLs whose `Add` returned true, in the order of
the calls (`rs` is what the calls `ops` returned). -/
def enqueuedURLs : List Op → List Ret → List GoString
  | .add url :: ops, .added true :: rs =>
    match utils.NormalizeURL caseTable url with
    | .ok normalized => normalized :: enqueuedURLs ops rs
    | .error _ => enqueuedURLs ops rs
  | _ :: ops, _ :: rs => enqueuedURLs ops rs
  | _, _ => []

end queue

/-! ## `internal/models/models.go` -/

namespace models

/-- `PageResult`. -/
structure PageResult where
  URL : GoString
  Markdown : GoString
  Depth : Int
  deriving DecidableEq, Repr

/-- `CrawlConfig`.  `RateLimit` is a `float64` in the source: the rational number
it holds.  The durations `Timeout` and `Delay` are integers. -/
structure CrawlConfig where
  MaxDepth : Int
  MaxPages : Int
  AllowedDomains : List GoString
  MaxWorkers : Int
  Timeout : Int
  RateLimit : Rat
  Delay : Int
  deriving DecidableEq, Repr

end models

/-! ## `internal/crawler/link_extractor.go` -/

namespace crawler

variable (caseTable : Nat → Nat)

/-- Lines 56 to 78 of `ExtractLinks`: the domain restriction on a normalised link. -/
def domainAllowed (baseURL normalized : GoString) (allowedDomains : List GoString) : Bool :=
  if allowedDomains.length > 0 then
    allowedDomains.any (fun domain =>
      let domainURL :=
        if !strings.HasPrefix domain (bytes "http://") && !strings.HasPrefix domain (bytes "https://")
        then bytes "https://" ++ domain else domain
      utils.IsSameDomain normalized domainURL)
  else utils.IsSameDomain normalized baseURL

/-- Lines 45 to 84 of `ExtractLinks`, the body of the `Each` callback from the
point where the href has been resolved to `absoluteURL`: `acc` holds `links` and
`seen`. -/
def extractLink (baseURL : GoString) (allowedDomains : List GoString)
    (acc : List GoString × GoMap GoString Bool) (absoluteURL : GoString) :
    List GoString × GoMap GoString Bool :=
  match utils.NormalizeURL caseTable absoluteURL with
  | .error _ => acc
  | .ok normalized =>
    if !utils.IsValidURL normalized then acc
    else if !domainAllowed baseURL normalized allowedDomains then acc
    else if !acc.2.get normalized false then (acc.1 ++ [normalized], acc.2.set normalized true)
    else acc

/-- `(*LinkExtractor).ExtractLinks(html, allowedDomains)` for a link extractor with
base URL `baseURL`.  The HTML parser and `utils.ResolveURL` are collaborators:
`resolved` lists, in document order, what `ResolveURL(le.baseURL, href)` returned
for every `a[href]` element of the page whose href is not empty and resolves. -/
def ExtractLinks (baseURL : GoString) (resolved : List GoString) (allowedDomains : List GoString) :
    List GoString :=
  (resolved.foldl (extractLink caseTable baseURL allowedDomains) ([], [])).1

end crawler

/-! ## `internal/crawler/manager.go`

`Crawl` starts `maxWorkers` worker goroutines and one dispatch goroutine.  They
share the queue, the depth map and the result list, each behind its own mutex, and
the channel `urlChan`.  The embedding is an explicit interleaving semantics: a
state holds the shared data and the program point of every goroutine, and one
step runs one goroutine from its program point up to and including its next
access to shared data (a critical section, a channel operation) or its next call
of a collaborator (rate limiter, renderer, extractor, converter, HTML parser).
What a collaborator returns is not computed: it is read from the `Oracle` that
comes with the step. -/

namespace crawler

open queue models

/-- The channel element `urlDepth`. -/
structure urlDepth where
  url : GoString
  depth : Int
  deriving DecidableEq, Repr

/-- The program points of a worker goroutine (lines 94 to 191). -/
inductive WorkerPC where
  /-- At the `select` of line 95. -/
  | recv
  /-- Line 104: about to read `len(results)`. -/
  | count (ud : urlDepth)
  /-- Line 113: about to wait for the rate limiter. -/
  | limiter (ud : urlDepth)
  /-- Line 121: about to wait for the delay. -/
  | delay (ud : urlDepth)
  /-- Line 130: about to call `Render`. -/
  | render (ud : urlDepth)
  /-- Line 137: about to call `ExtractMainContent`. -/
  | extract (ud : urlDepth) (html : GoString)
  /-- Line 144: about to call `HTMLToMarkdown` (and then `cache.Set`). -/
  | convert (ud : urlDepth) (html content : GoString)
  /-- Line 160: about to enter the critical section that appends the result. -/
  | save (ud : urlDepth) (html markdown : GoString)
  /-- Line 168: about to test the depth and call `ExtractLinks`. -/
  | links (ud : urlDepth) (html : GoString)
  /-- Line 173: at the head of the loop over the links, `todo` still to visit. -/
  | linkVisited (ud : urlDepth) (todo : List GoString) (addedCount : Int)
  /-- Line 175: about to write `depthMap[link]`. -/
  | linkDepth (ud : urlDepth) (link : GoString) (todo : List GoString) (addedCount : Int)
  /-- Line 178: about to call `q.Add(link)`. -/
  | linkAdd (ud : urlDepth) (link : GoString) (todo : List GoString) (addedCount : Int)
  /-- The goroutine has returned. -/
  | done
  deriving DecidableEq, Repr

/-- The program points of the dispatch goroutine (lines 196 to 286). -/
inductive DispatchPC where
  /-- At the `select` of line 204. -/
  | top
  /-- Line 217: about to call `q.Pop()`. -/
  | pop (currentCount : Int)
  /-- Line 220: the pop found the queue empty; about to sleep, count and read `q.Size()`. -/
  | empty (currentCount : Int)
  /-- Line 235: about to read `q.VisitedCount()` in the first condition. -/
  | visited1 (currentCount currentQueueSize : Int)
  /-- Line 247: about to read `q.VisitedCount()` in the second condition. -/
  | visited2 (currentCount currentQueueSize : Int)
  /-- Line 262: a URL was popped; about to read `q.Size()`. -/
  | size (url : GoString)
  /-- Line 265: about to call `q.IsVisited(url)`. -/
  | isVisited (url : GoString)
  /-- Line 270: about to read `depthMap[url]`. -/
  | depth (url : GoString)
  /-- Line 275: about to call `q.MarkVisited(url)`. -/
  | mark (url : GoString) (depth : Int)
  /-- Line 278: at the `select` that sends to `urlChan`. -/
  | send (url : GoString) (depth : Int)
  /-- The goroutine has returned (and closed `urlChan`). -/
  | done
  deriving DecidableEq, Repr

/-- What the environment decides in one step. -/
structure Oracle where
  /-- In a `select` where `ctx.Done()` and a channel operation are both ready:
  whether the `ctx.Done()` case is taken. -/
  ctxFirst : Bool
  /-- Whether `rateLimiter.Wait(ctx)` returns an error. -/
  waitErr : Bool
  /-- What `Render`, `ExtractMainContent` or `HTMLToMarkdown` returns: `none` is an error. -/
  text : Option GoString
  /-- What the HTML parser and `utils.ResolveURL` yield inside `ExtractLinks`: the
  resolved URL of every `a[href]` element of the page whose href is not empty and
  resolves, in document order; `none` when the document cannot be read and
  `ExtractLinks` returns an error. -/
  links : Option (List GoString)
  deriving DecidableEq, Repr

/-- One step of the interleaving. -/
inductive Event where
  /-- The context is cancelled (by its deadline or by the caller). -/
  | cancel
  /-- The dispatch goroutine runs to its next program point. -/
  | dispatch (o : Oracle)
  /-- Worker `i` runs to its next program point. -/
  | work (i : Nat) (o : Oracle)
  deriving DecidableEq, Repr

/-- The state of one `Crawl` call after its set-up (line 75). -/
structure State where
  q : Queue
  depthMap : GoMap GoString Int
  results : List PageResult
  /-- The elements buffered in `urlChan`, oldest first. -/
  urlChan : List urlDepth
  chanClosed : Bool
  /-- Whether `ctx.Done()` is closed. -/
  cancelled : Bool
  emptyCount : Int
  stableCount : Int
  lastQueueSize : Int
  dispatcher : DispatchPC
  workers : List WorkerPC
  /-- The sends on `urlChan` so far, oldest first (the lines that
  `log.Printf("Dispatched URL to worker: ...")` writes). -/
  dispatched : List urlDepth
  deriving DecidableEq, Repr

/-- The fields of `CrawlManager` the steps read. -/
structure CrawlManager where
  maxWorkers : Nat
  deriving DecidableEq, Repr

variable (caseTable : Nat → Nat)

/-- Lines 47 to 86 of `Crawl`: the start URL is normalised (an error ends the
call), the queue is seeded, and the goroutines are started. -/
def Crawl.start (cm : CrawlManager) (startURL : GoString) : Except utils.Error State :=
  match utils.NormalizeURL caseTable startURL with
  | .error e => .error e
  | .ok normalizedStartURL =>
    .ok { q := (NewQueue.Add caseTable normalizedStartURL).1
          depthMap := GoMap.set [] normalizedStartURL 0
          results := []
          urlChan := []
          chanClosed := false
          cancelled := false
          emptyCount := 0
          stableCount := 0
          lastQueueSize := 0
          dispatcher := .top
          workers := List.replicate cm.maxWorkers .recv
          dispatched := [] }

/-- The dispatch goroutine returns: `defer close(urlChan)`. -/
def State.dispatchReturn (s : State) : State :=
  { s with dispatcher := .done, chanClosed := true }

/-- One step of the dispatch goroutine; `none` when it cannot move (it has
returned, or it is blocked on a full channel). -/
def dispatchStep (cm : CrawlManager) (config : CrawlConfig) (o : Oracle) (s : State) :
    Option State :=
  match s.dispatcher with
  | .top =>
    if s.cancelled then some s.dispatchReturn
    else if (s.results.length : Int) ≥ config.MaxPages then some s.dispatchReturn
    else some { s with dispatcher := .pop s.results.length }
  | .pop currentCount =>
    match s.q.Pop with
    | (_, _, false) => some { s with dispatcher := .empty currentCount }
    | (q, url, true) =>
      some { s with q := q, emptyCount := 0, stableCount := 0, dispatcher := .size url }
  | .empty currentCount =>
    let emptyCount := s.emptyCount + 1
    let currentQueueSize := s.q.Size
    let stable := currentQueueSize = s.lastQueueSize
    let s := { s with emptyCount := if stable then emptyCount else 0
                      stableCount := if stable then s.stableCount + 1 else 0
                      lastQueueSize := currentQueueSize }
    if currentQueueSize = 0 then some { s with dispatcher := .visited1 currentCount currentQueueSize }
    else if currentQueueSize > 0 then
      some { s with emptyCount := 0, stableCount := 0, dispatcher := .top }
    else some { s with dispatcher := .top }
  | .visited1 currentCount currentQueueSize =>
    if s.q.VisitedCount > 0 then
      if s.emptyCount ≥ 50 ∧ s.stableCount ≥ 20 then some s.dispatchReturn
      else some { s with dispatcher := .top }
    else some { s with dispatcher := .visited2 currentCount currentQueueSize }
  | .visited2 _ _ =>
    if s.q.VisitedCount = 0 then
      some { s with emptyCount := 0, stableCount := 0, dispatcher := .top }
    else some { s with dispatcher := .top }
  | .size url => some { s with lastQueueSize := s.q.Size, dispatcher := .isVisited url }
  | .isVisited url =>
    if s.q.IsVisited caseTable url then some { s with dispatcher := .top }
    else some { s with dispatcher := .depth url }
  | .depth url => some { s with dispatcher := .mark url (s.depthMap.get url 0) }
  | .mark url depth =>
    some { s with q := s.q.MarkVisited caseTable url, dispatcher := .send url depth }
  | .send url depth =>
    -- `urlChan` has capacity `cm.maxWorkers`
    let canSend := decide (s.urlChan.length < cm.maxWorkers)
    if s.cancelled ∧ (o.ctxFirst ∨ !canSend) then some s.dispatchReturn
    else if canSend then
      some { s with urlChan := s.urlChan ++ [⟨url, depth⟩]
                    dispatched := s.dispatched ++ [⟨url, depth⟩]
                    dispatcher := .top }
    else none
  | .done => none

/-- Worker `i` moves to program point `pc`. -/
def State.goto (s : State) (i : Nat) (pc : WorkerPC) : State :=
  { s with workers := s.workers.set i pc }

/-- One step of worker `i`; `none` when it cannot move (there is no such worker,
it has returned, or it is blocked on the empty channel). -/
def workerStep (config : CrawlConfig) (o : Oracle) (i : Nat) (s : State) : Option State :=
  match s.workers[i]? with
  | none => none
  | some .recv =>
    let canRecv := decide (s.urlChan ≠ []) || s.chanClosed
    if s.cancelled ∧ (o.ctxFirst ∨ !canRecv) then some (s.goto i .done)
    else
      match s.urlChan with
      | ud :: rest => some ({ s with urlChan := rest }.goto i (.count ud))
      | [] => if s.chanClosed then some (s.goto i .done) else none
  | some (.count ud) =>
    if (s.results.length : Int) ≥ config.MaxPages then some (s.goto i .done)
    else some (s.goto i (.limiter ud))
  | some (.limiter ud) =>
    if config.RateLimit > 0 ∧ o.waitErr then some (s.goto i .recv)
    else some (s.goto i (.delay ud))
  | some (.delay ud) =>
    if config.Delay > 0 ∧ s.cancelled ∧ o.ctxFirst then some (s.goto i .done)
    else some (s.goto i (.render ud))
  | some (.render ud) =>
    match o.text with
    | none => some (s.goto i .recv)
    | some html => some (s.goto i (.extract ud html))
  | some (.extract ud html) =>
    match o.text with
    | none => some (s.goto i .recv)
    | some content => some (s.goto i (.convert ud html content))
  | some (.convert ud html _) =>
    match o.text with
    | none => some (s.goto i .recv)
    | some markdown => some (s.goto i (.save ud html markdown))
  | some (.save ud html markdown) =>
    let result : PageResult := { URL := ud.url, Markdown := markdown, Depth := ud.depth }
    let results :=
      if (s.results.length : Int) < config.MaxPages then s.results ++ [result] else s.results
    some ({ s with results := results }.goto i (.links ud html))
  | some (.links ud _) =>
    if ud.depth < config.MaxDepth then
      match o.links with
      | some resolved =>
        some (s.goto i
          (.linkVisited ud (ExtractLinks caseTable ud.url resolved config.AllowedDomains) 0))
      | none => some (s.goto i .recv)
    else some (s.goto i .recv)
  | some (.linkVisited ud links addedCount) =>
    match links with
    | [] => some (s.goto i .recv)
    | link :: todo =>
      if s.q.IsVisited caseTable link then some (s.goto i (.linkVisited ud todo addedCount))
      else some (s.goto i (.linkDepth ud link todo addedCount))
  | some (.linkDepth ud link todo addedCount) =>
    some ({ s with depthMap := s.depthMap.set link (ud.depth + 1) }.goto i
      (.linkAdd ud link todo addedCount))
  | some (.linkAdd ud link todo addedCount) =>
    let r := s.q.Add caseTable link
    some ({ s with q := r.1 }.goto i
      (.linkVisited ud todo (if r.2 then addedCount + 1 else addedCount)))
  | some .done => none

/-- One step of the interleaving. -/
def step (cm : CrawlManager) (config : CrawlConfig) (e : Event) (s : State) : Option State :=
  match e with
  | .cancel => some { s with cancelled := true }
  | .dispatch o => dispatchStep caseTable cm config o s
  | .work i o => workerStep caseTable config o i s

/-- The state after a sequence of steps; `none` when one of them cannot be taken. -/
def run (cm : CrawlManager) (config : CrawlConfig) : List Event → State → Option State
  | [], s => some s
  | e :: es, s =>
    match step caseTable cm config e s with
    | none => none
    | some s1 => run cm config es s1

/-- The states an execution of `Crawl(ctx, startURL, config)` passes through. -/
def Reachable (cm : CrawlManager) (config : CrawlConfig) (startURL : GoString) (s : State) :
    Prop :=
  ∃ s0 es, Crawl.start caseTable cm startURL = .ok s0 ∧ run caseTable cm config es s0 = some s

/-- Line 289, `wg.Wait()`: `Crawl` returns `results` once every worker has returned. -/
def State.returned (s : State) : Bool := s.workers.all (fun w => w == .done)

/-- A depth within the configured bound. -/
def depthOK (maxDepth d : Int) : Prop := 0 ≤ d ∧ d ≤ maxDepth

/-- The depth a worker holds is within the bound, and below it once the worker
has passed the test `ud.depth < config.MaxDepth` of line 168. -/
def WorkerPC.depthOK (maxDepth : Int) : WorkerPC → Prop
  | .recv => True
  | .count ud => crawler.depthOK maxDepth ud.depth
  | .limiter ud => crawler.depthOK maxDepth ud.depth
  | .delay ud => crawler.depthOK maxDepth ud.depth
  | .render ud => crawler.depthOK maxDepth ud.depth
  | .extract ud _ => crawler.depthOK maxDepth ud.depth
  | .convert ud _ _ => crawler.depthOK maxDepth ud.depth
  | .save ud _ _ => crawler.depthOK maxDepth ud.depth
  | .links ud _ => crawler.depthOK maxDepth ud.depth
  | .linkVisited ud _ _ => 0 ≤ ud.depth ∧ ud.depth < maxDepth
  | .linkDepth ud _ _ _ => 0 ≤ ud.depth ∧ ud.depth < maxDepth
  | .linkAdd ud _ _ _ => 0 ≤ ud.depth ∧ ud.depth < maxDepth
  | .done => True

/-- The depth the dispatch goroutine holds is within the bound. -/
def DispatchPC.depthOK (maxDepth : Int) : DispatchPC → Prop
  | .mark _ d => crawler.depthOK maxDepth d
  | .send _ d => crawler.depthOK maxDepth d
  | _ => True

/-- Every depth stored anywhere in the state is within the bound. -/
structure DepthInv (maxDepth : Int) (s : State) : Prop where
  results : ∀ r ∈ s.results, crawler.depthOK maxDepth r.Depth
  depthMap : ∀ p ∈ s.depthMap, crawler.depthOK maxDepth p.2
  urlChan : ∀ ud ∈ s.urlChan, crawler.depthOK maxDepth ud.depth
  dispatched : ∀ ud ∈ s.dispatched, crawler.depthOK maxDepth ud.depth
  dispatcher : s.dispatcher.depthOK maxDepth
  workers : ∀ w ∈ s.workers, w.depthOK maxDepth

/-- The links a worker still has to enqueue are canonical forms. -/
def WorkerPC.linksOK (caseTable : Nat → Nat) : WorkerPC → Prop
  | .linkVisited _ todo _ => ∀ l ∈ todo, utils.IsCanonical caseTable l
  | .linkDepth _ link todo _ =>
    utils.IsCanonical caseTable link ∧ ∀ l ∈ todo, utils.IsCanonical caseTable l
  | .linkAdd _ link todo _ =>
    utils.IsCanonical caseTable link ∧ ∀ l ∈ todo, utils.IsCanonical caseTable l
  | _ => True

/-- The URL the dispatch goroutine holds between `Pop` and the send. -/
def DispatchPC.url? : DispatchPC → Option GoString
  | .size url => some url
  | .isVisited url => some url
  | .depth url => some url
  | .mark url _ => some url
  | .send url _ => some url
  | _ => none

/-- No canonical form of `url` is the canonical form of a URL sent before. -/
def Fresh (caseTable : Nat → Nat) (dispatched : List urlDepth) (url : GoString) : Prop :=
  ∀ c, utils.NormalizeURL caseTable url = .ok c →
    ∀ ud ∈ dispatched, utils.NormalizeURL caseTable ud.url ≠ .ok c

/-- What the dispatch goroutine knows about its URL at each program point: after
the test of line 265 it is not visited, after line 275 it is visited and no URL
sent before has its canonical form. -/
def DispatchPC.visitOK (caseTable : Nat → Nat) (q : Queue) (dispatched : List urlDepth) :
    DispatchPC → Prop
  | .depth url => q.IsVisited caseTable url = false
  | .mark url _ => q.IsVisited caseTable url = false
  | .send url _ => q.IsVisited caseTable url = true ∧ Fresh caseTable dispatched url
  | _ => True

/-- The invariant behind exactly-once dispatch. -/
structure DispatchInv (caseTable : Nat → Nat) (s : State) : Prop where
  /-- Every pending URL can be normalised again. -/
  pending : ∀ u ∈ s.q.urls, utils.Normalizes caseTable u
  /-- So can the URL the dispatch goroutine holds. -/
  held : ∀ u, s.dispatcher.url? = some u → utils.Normalizes caseTable u
  /-- Every URL sent is visited and can be normalised. -/
  sent : ∀ ud ∈ s.dispatched,
    utils.Normalizes caseTable ud.url ∧ s.q.IsVisited caseTable ud.url = true
  visit : s.dispatcher.visitOK caseTable s.q s.dispatched
  /-- No two URLs sent have the same canonical form. -/
  distinct : s.dispatched.Pairwise (fun a b =>
    utils.NormalizeURL caseTable a.url ≠ utils.NormalizeURL caseTable b.url)
  workers : ∀ w ∈ s.workers, w.linksOK caseTable

/-! ### A sample execution

One worker, one page allowed: the seed `https://example.com` is dispatched,
rendered and saved, and its one link is enqueued. -/

namespace sample

/-- The manager of the sample execution. -/
def cm : CrawlManager := { maxWorkers := 1 }

/-- The configuration of the sample execution. -/
def config : CrawlConfig :=
  { MaxDepth := 1, MaxPages := 1, AllowedDomains := [], MaxWorkers := 1, Timeout := 30,
    RateLimit := 0, Delay := 0 }

/-- The start URL of the sample execution. -/
def startURL : GoString := bytes "https://example.com"

/-- Every collaborator succeeds; the page links to `https://example.com/a`. -/
def oracle : Oracle :=
  { ctxFirst := false, waitErr := false, text := some (bytes "page"),
    links := some [bytes "https://example.com/a"] }

/-- The dispatch goroutine sends the seed, then worker 0 handles it. -/
def events : List Event :=
  List.replicate 7 (.dispatch oracle) ++ List.replicate 13 (.work 0 oracle)

/-- The state after `Crawl`'s set-up. -/
def start : State :=
  match Crawl.start id cm startURL with
  | .ok s => s
  | .error _ =>
    { q := NewQueue, depthMap := [], results := [], urlChan := [], chanClosed := false,
      cancelled := false, emptyCount := 0, stableCount := 0, lastQueueSize := 0,
      dispatcher := .done, workers := [], dispatched := [] }

/-- The state after the sample execution. -/
def final : State := (run id cm config events start).getD start

end sample

end crawler

/-! ## `net/url`: the port -/

namespace url

/-- `splitHostPort(hostPort)`: the host without a valid port and without the
brackets of an IP literal, and the port without its colon. -/
def splitHostPort (hostPort : GoString) : GoString × GoString :=
  let hp : GoString × GoString :=
    match strings.LastIndex hostPort [58] with
    | some colon =>
      if validOptionalPort (hostPort.drop colon) then
        (hostPort.take colon, hostPort.drop (colon + 1))
      else (hostPort, [])
    | none => (hostPort, [])
  let host :=
    if strings.HasPrefix hp.1 [91] && strings.HasSuffix hp.1 [93] then
      (hp.1.take (hp.1.length - 1)).drop 1
    else hp.1
  (host, hp.2)

/-- `(*URL).Port()`. -/
def URL.Port (u : URL) : GoString := (splitHostPort u.Host).2

end url

/-! ## `float64` -/

namespace float64

/-- A value of type `float64`: the finite number `m * 2^e` (the sign of a zero is
not kept, and several pairs stand for one number), an infinity or a NaN. -/
inductive F64 where
  | finite (m : Int) (e : Int)
  | posInf
  | negInf
  | nan

/-- The loop of `log2`, with the number of halvings bounded by `fuel`. -/
def log2Loop : Nat → Nat → Nat
  | 0, _ => 0
  | fuel + 1, n => if n < 2 then 0 else log2Loop fuel (n / 2) + 1

/-- `floor(log2(n))` for positive `n`. -/
def log2 (n : Nat) : Nat := log2Loop n n

/-- The integer nearest to `a/b`, a tie going to the even one. -/
def roundHalfEven (a b : Nat) : Nat :=
  if 2 * (a % b) < b then a / b
  else if b < 2 * (a % b) then a / b + 1
  else if (a / b) % 2 = 0 then a / b else a / b + 1

/-- The `float64` nearest to `m * 2^e` (IEEE 754 binary64, round to nearest, ties
to even): 53 significant bits, the unit in the last place never below `2^-1074`,
and an infinity from `2^1024` on. -/
def round (m e : Int) : F64 :=
  if m = 0 then .finite 0 0
  else
    -- the exponent of the unit in the last place
    let s : Int := max ((log2 m.natAbs : Int) + e) (-1022) - 52
    if s ≤ e then .finite m e
    else
      let n := roundHalfEven m.natAbs (2 ^ (s - e).toNat)
      if 1024 ≤ (log2 n : Int) + s ∧ n ≠ 0 then (if 0 < m then .posInf else .negInf)
      else .finite (if 0 < m then (n : Int) else -(n : Int)) s

/-- The conversion `float64(i)` of an integer. -/
def ofInt (i : Int) : F64 := round i 0

/-- The product `x * y` of two `float64` values. -/
def mul : F64 → F64 → F64
  | .finite a e, .finite b f => round (a * b) (e + f)
  | .nan, _ => .nan
  | _, .nan => .nan
  | .finite a _, .posInf => if a = 0 then .nan else if 0 < a then .posInf else .negInf
  | .finite a _, .negInf => if a = 0 then .nan else if 0 < a then .negInf else .posInf
  | .posInf, .finite b _ => if b = 0 then .nan else if 0 < b then .posInf else .negInf
  | .negInf, .finite b _ => if b = 0 then .nan else if 0 < b then .negInf else .posInf
  | .posInf, .posInf => .posInf
  | .posInf, .negInf => .negInf
  | .negInf, .posInf => .negInf
  | .negInf, .negInf => .posInf

/-- The integer part of `m * 2^e`, the fraction discarded (towards zero). -/
def truncate (m e : Int) : Int :=
  if 0 ≤ e then m * 2 ^ e.toNat
  else if 0 ≤ m then m / 2 ^ (-e).toNat else -((-m) / 2 ^ (-e).toNat)

/-- The conversion `int64(x)` (also `time.Duration(x)`): the fraction is
discarded.  When the value does not fit, the Go specification leaves the result
to the implementation: it is read from `outOfRange`. -/
def toInt64 (outOfRange : F64 → Int) : F64 → Int
  | .finite m e =>
    if -2 ^ 63 ≤ truncate m e ∧ truncate m e < 2 ^ 63 then truncate m e
    else outOfRange (.finite m e)
  | x => outOfRange x

end float64

/-! ## `internal/crawler/retry.go` -/

namespace crawler

open float64

/-- `RetryConfig`.  A `time.Duration` is a number of nanoseconds. -/
structure RetryConfig where
  MaxRetries : Int
  InitialDelay : Int
  MaxDelay : Int
  BackoffMultiplier : F64

/-- `DefaultRetryConfig()`. -/
def DefaultRetryConfig : RetryConfig :=
  { MaxRetries := 3, InitialDelay := 1 * 1000000000, MaxDelay := 10 * 1000000000,
    BackoffMultiplier := .finite 2 0 }

/-- The error `Retry` returns: `ctx.Err()`, or an error of the operation. -/
inductive RetryError (E : Type) where
  | ctx
  | op (e : E)
  deriving DecidableEq

/-- What a call of `Retry` did: the error it returned (`none` is `nil`), how often
it invoked the operation, and the delays it slept in full, oldest first. -/
structure RetryResult (E : Type) where
  err : Option (RetryError E)
  calls : Nat
  sleeps : List Int
  deriving DecidableEq

/-- Lines 63 to 66: the delay after a sleep of `delay`. -/
def nextDelay (outOfRange : F64 → Int) (config : RetryConfig) (delay : Int) : Int :=
  let delay := toInt64 outOfRange (mul (ofInt delay) config.BackoffMultiplier)
  if delay > config.MaxDelay then config.MaxDelay else delay

/-- The loop of `Retry` from the test `attempt <= config.MaxRetries` on.  The
operation is given by what its invocations return, `fn k` for the invocation
after `k` earlier ones (`none` is `nil`); `ctx k` tells whether the `k`-th
`select` of the call finds `ctx.Done()` closed and takes that case.  `fuel`
bounds the number of iterations. -/
def retryLoop {E : Type} (outOfRange : F64 → Int) (ctx : Nat → Bool) (fn : Nat → Option E)
    (config : RetryConfig) :
    Nat → Int → Int → Option E → Nat → List Int → Nat → Option (RetryResult E)
  | 0, _, _, _, _, _, _ => none
  | fuel + 1, attempt, delay, lastErr, calls, sleeps, selects =>
    if attempt ≤ config.MaxRetries then
      if ctx selects then some { err := some .ctx, calls := calls, sleeps := sleeps }
      else
        match fn calls with
        | none => some { err := none, calls := calls + 1, sleeps := sleeps }
        | some err =>
          if attempt = config.MaxRetries then
            some { err := some (.op err), calls := calls + 1, sleeps := sleeps }
          else if ctx (selects + 1) then
            some { err := some .ctx, calls := calls + 1, sleeps := sleeps }
          else
            retryLoop outOfRange ctx fn config fuel (attempt + 1)
              (nextDelay outOfRange config delay) (some err) (calls + 1) (sleeps ++ [delay])
              (selects + 2)
    else some { err := lastErr.map .op, calls := calls, sleeps := sleeps }

/-- `Retry(ctx, fn, config)`; `none` only if the fuel, one more than the number of
attempts allowed, ran out. -/
def Retry {E : Type} (outOfRange : F64 → Int) (ctx : Nat → Bool) (fn : Nat → Option E)
    (config : RetryConfig) : Option (RetryResult E) :=
  retryLoop outOfRange ctx fn config (config.MaxRetries.toNat + 2) 0 config.InitialDelay none
    0 [] 0

/-- An `error` value other than `nil`: its message `Error()`, whether `errors.Is`
finds it to be `context.DeadlineExceeded` or `context.Canceled` itself (it is
that value, or has an `Is` method that says so), and the errors its `Unwrap`
method gives (none, one, or several). -/
inductive GoError where
  | mk (msg : GoString) (isDeadlineExceeded isCanceled : Bool) (unwrap : List GoError)

/-- The message `err.Error()`. -/
def GoError.Error : GoError → GoString
  | .mk msg _ _ _ => msg

/-- Whether the error is `context.DeadlineExceeded` itself. -/
def GoError.isDeadlineExceeded : GoError → Bool
  | .mk _ d _ _ => d

/-- Whether the error is `context.Canceled` itself. -/
def GoError.isCanceled : GoError → Bool
  | .mk _ _ c _ => c

/-- The errors `Unwrap` gives. -/
def GoError.unwrap : GoError → List GoError
  | .mk _ _ _ us => us

/-- The sentinel errors `IsRetryableError` looks for. -/
inductive Sentinel where
  | DeadlineExceeded
  | Canceled

/-- Whether `err` is the sentinel itself. -/
def GoError.isSentinel (err : GoError) : Sentinel → Bool
  | .DeadlineExceeded => err.isDeadlineExceeded
  | .Canceled => err.isCanceled

mutual
/-- `errors.Is(err, target)` for a sentinel `target`: the error itself, then depth
first what it unwraps to. -/
def errorsIs (target : Sentinel) : GoError → Bool
  | .mk msg d c us => (GoError.mk msg d c us).isSentinel target || errorsIsAny target us
/-- The loop of `errors.Is` over what `Unwrap() []error` gives. -/
def errorsIsAny (target : Sentinel) : List GoError → Bool
  | [] => false
  | u :: us => errorsIs target u || errorsIsAny target us
end

/-- `contains(s, substr)` of retry.go. -/
def contains (caseTable : Nat → Nat) (s substr : GoString) : Bool :=
  let s := strings.ToLower caseTable s
  let substr := strings.ToLower caseTable substr
  strings.Contains s substr

/-- `retryablePatterns`. -/
def retryablePatterns : List GoString :=
  [bytes "timeout", bytes "connection", bytes "network", bytes "temporary",
   bytes "temporarily unavailable"]

/-- `IsRetryableError(err)`; `none` is `nil`. -/
def IsRetryableError (caseTable : Nat → Nat) : Option GoError → Bool
  | none => false
  | some err =>
    if errorsIs .DeadlineExceeded err || errorsIs .Canceled err then true
    else retryablePatterns.any (fun pattern => contains caseTable err.Error pattern)

/-- An error is `err` itself or one that `err` wraps, at any depth. -/
inductive GoError.Wraps : GoError → GoError → Prop where
  | self (err : GoError) : GoError.Wraps err err
  | step {err u e : GoError} : u ∈ err.unwrap → GoError.Wraps u e → GoError.Wraps err e

/-- The text `s` has a run of characters that is `p` up to letter case: the
lower-case forms of the characters agree one by one. -/
def ContainsFold (caseTable : Nat → Nat) (s p : GoString) : Prop :=
  ∃ a t b : List Nat, utf8.runes s.length s = a ++ t ++ b ∧
    t.map (strings.unicodeToLower caseTable) =
      (utf8.runes p.length p).map (strings.unicodeToLower caseTable)

end crawler

/-! ## `strings.TrimSpace` -/

namespace utf8

/-- `utf8.RuneStart(b)`. -/
def RuneStart (b : Nat) : Bool := b % 256 / 64 != 2

/-- The loop of `DecodeLastRuneInString` that walks back from `start` to the
first byte that may start a rune, not below `lim`. -/
def lastRuneStart (s : GoString) (lim : Int) : Nat → Int → Int
  | 0, start => start
  | fuel + 1, start =>
    if start ≥ lim then
      if RuneStart (s.getD start.toNat 0) then start else lastRuneStart s lim fuel (start - 1)
    else start

/-- `utf8.DecodeLastRuneInString(s)`: the last rune of `s` and its width. -/
def DecodeLastRune (s : GoString) : Nat × Nat :=
  let stop := s.length
  if stop = 0 then (RuneError, 0)
  else
    let r := s.getD (stop - 1) 0
    if r < 0x80 then (r, 1)
    else
      let lim : Int := if (stop : Int) - 4 < 0 then 0 else (stop : Int) - 4
      let start := lastRuneStart s lim 4 ((stop : Int) - 2)
      let start := if start < 0 then 0 else start.toNat
      let d := DecodeRune ((s.drop start).take (stop - start))
      if start + d.2 ≠ stop then (RuneError, 1) else d

end utf8

namespace unicode

/-- `unicode.IsSpace(r)`. -/
def IsSpace (r : Nat) : Bool :=
  if r ≤ 0xFF then
    r == 9 || r == 10 || r == 11 || r == 12 || r == 13 || r == 32 || r == 0x85 || r == 0xA0
  else
    r == 0x1680 || (0x2000 ≤ r && r ≤ 0x200a) || r == 0x2028 || r == 0x2029 || r == 0x202f
      || r == 0x205f || r == 0x3000

end unicode

namespace strings

/-- The table `asciiSpace`. -/
def asciiSpace (c : Nat) : Bool := c == 9 || c == 10 || c == 11 || c == 12 || c == 13 || c == 32

/-- `indexFunc(s, f, truth)` on what is left of the text, `i` bytes in. -/
def indexFunc (f : Nat → Bool) (truth : Bool) : Nat → GoString → Nat → Option Nat
  | 0, _, _ => none
  | _, [], _ => none
  | fuel + 1, c :: rest, i =>
    let d := utf8.DecodeRune (c :: rest)
    if f d.1 == truth then some i else indexFunc f truth fuel (rest.drop (d.2 - 1)) (i + d.2)

/-- `lastIndexFunc(s, f, truth)` from position `i` down. -/
def lastIndexFunc (f : Nat → Bool) (truth : Bool) (s : GoString) : Nat → Nat → Option Nat
  | 0, _ => none
  | fuel + 1, i =>
    if i > 0 then
      let d := utf8.DecodeLastRune (s.take i)
      if f d.1 == truth then some (i - d.2) else lastIndexFunc f truth s fuel (i - d.2)
    else none

/-- `strings.TrimLeftFunc(s, f)`. -/
def TrimLeftFunc (s : GoString) (f : Nat → Bool) : GoString :=
  match indexFunc f false s.length s 0 with
  | none => []
  | some i => s.drop i

/-- `strings.TrimRightFunc(s, f)`. -/
def TrimRightFunc (s : GoString) (f : Nat → Bool) : GoString :=
  match lastIndexFunc f false s s.length s.length with
  | some i =>
    if s.getD i 0 ≥ 0x80 then s.take (i + (utf8.DecodeRune (s.drop i)).2) else s.take (i + 1)
  | none => s.take 0

/-- `strings.TrimFunc(s, f)`. -/
def TrimFunc (s : GoString) (f : Nat → Bool) : GoString := TrimRightFunc (TrimLeftFunc s f) f

/-- The second loop of `TrimSpace`, on `s[start:stop]` read from its end. -/
def trimSpaceStop : GoString → GoString
  | [] => []
  | c :: r =>
    if c ≥ 0x80 then TrimRightFunc (c :: r).reverse unicode.IsSpace
    else if asciiSpace c then trimSpaceStop r
    else (c :: r).reverse

/-- The first loop of `TrimSpace`, on `s[start:]`. -/
def trimSpaceStart : GoString → GoString
  | [] => []
  | c :: r =>
    if c ≥ 0x80 then TrimFunc (c :: r) unicode.IsSpace
    else if asciiSpace c then trimSpaceStart r
    else trimSpaceStop (c :: r).reverse

/-- `strings.TrimSpace(s)`: the ASCII fast path from both ends, the Unicode-aware
trimming from the first byte that is not ASCII. -/
def TrimSpace (s : GoString) : GoString := trimSpaceStart s

end strings

/-! ## `golang.org/x/net/html` nodes, `cascadia` selectors and `goquery` -/

namespace html

/-- A node of a parsed document: a text node, an element with its attributes
(key and value) and children, or a node of another kind (comment, doctype),
which has no children. -/
inductive Node where
  | text (data : GoString)
  | elem (tag : GoString) (attr : List (GoString × GoString)) (children : List Node)
  | other

/-- The children of a node. -/
def Node.children : Node → List Node
  | .elem _ _ cs => cs
  | _ => []

/-- The attributes of a node. -/
def Node.attr : Node → List (GoString × GoString)
  | .elem _ a _ => a
  | _ => []

end html

namespace cascadia

open html

/-- The loop of `matchInclude(val, s, false)`: `tok` is what has been read of `s`
since the last white space. -/
def matchIncludeLoop (val : GoString) : GoString → GoString → Bool
  | tok, [] => tok ≠ [] && tok == val
  | tok, c :: rest =>
    if c == 32 || c == 9 || c == 13 || c == 10 || c == 12 then
      tok == val || matchIncludeLoop val [] rest
    else matchIncludeLoop val (tok ++ [c]) rest

/-- `matchInclude(val, s, false)`: `val` is one of the words of `s`. -/
def matchInclude (val s : GoString) : Bool := matchIncludeLoop val [] s

/-- A simple selector: `tag`, `.class` or `*`. -/
inductive Simple where
  | tag (name : GoString)
  | cls (name : GoString)
  | universal

/-- A selector as the sources use them: simple selectors joined by commas. -/
abbrev Selector := List Simple

/-- Whether a node matches a simple selector. -/
def Simple.Match : Simple → Node → Bool
  | .tag name, .elem t _ _ => t == name
  | .cls name, .elem _ attr _ => attr.any (fun a => a.1 == bytes "class" && matchInclude name a.2)
  | .universal, .elem _ _ _ => true
  | _, _ => false

/-- Whether a node matches one of the selectors of the group. -/
def Selector.Match (sel : Selector) (n : Node) : Bool := sel.any (fun m => m.Match n)

mutual
/-- `MatchAll(n)`: the matching nodes of the subtree of `n`, `n` included, in
document order. -/
def MatchAll (sel : Selector) : Node → List Node
  | .elem tag attr cs =>
    (if Selector.Match sel (.elem tag attr cs) then [.elem tag attr cs] else []) ++ MatchAllList sel cs
  | .text _ => []
  | .other => []
/-- `MatchAll` over the children of a node, one after the other. -/
def MatchAllList (sel : Selector) : List Node → List Node
  | [] => []
  | n :: ns => MatchAll sel n ++ MatchAllList sel ns
end

end cascadia

namespace goquery

open html cascadia

mutual
/-- `Text()` of one node: the data of the text nodes of its subtree, in
document order. -/
def Text : Node → GoString
  | .text data => data
  | .elem _ _ cs => TextList cs
  | .other => []
/-- `Text()` of a list of nodes. -/
def TextList : List Node → GoString
  | [] => []
  | n :: ns => Text n ++ TextList ns
end

/-- `Find(selector)` on one node: the matching elements below it, in document
order. -/
def Find (n : Node) (sel : Selector) : List Node := MatchAllList sel n.children

/-- `AttrOr(name, def)` on one node: the value of the first attribute with that
key. -/
def AttrOr (n : Node) (name def_ : GoString) : GoString :=
  match n.attr.find? (fun a => a.1 == name) with
  | some a => a.2
  | none => def_

mutual
/-- The effect on a node of `doc.Find(selector).Remove()`: every matching element
below it is taken out of its parent. -/
def RemoveIn (sel : Selector) : Node → Node
  | .elem tag attr cs => .elem tag attr (RemoveAll sel cs)
  | .text data => .text data
  | .other => .other
/-- The effect of `doc.Find(selector).Remove()` on a list of siblings. -/
def RemoveAll (sel : Selector) : List Node → List Node
  | [] => []
  | n :: ns => if Selector.Match sel n then RemoveAll sel ns else RemoveIn sel n :: RemoveAll sel ns
end

end goquery

/-! ## `internal/crawler/extractor.go` -/

namespace crawler

open html cascadia goquery

/-- `contentKeywords`. -/
def contentKeywords : List GoString :=
  [bytes "content", bytes "article", bytes "post", bytes "entry", bytes "main", bytes "body"]

/-- `negativeKeywords`. -/
def negativeKeywords : List GoString :=
  [bytes "ad", bytes "advertisement", bytes "sidebar", bytes "nav", bytes "menu",
   bytes "footer", bytes "header"]

/-- The condition of lines 120 and 128: the lower-cased class or id has the
keyword. -/
def keywordHit (caseTable : Nat → Nat) (s : Node) (keyword : GoString) : Bool :=
  let cls := AttrOr s (bytes "class") []
  let id := AttrOr s (bytes "id") []
  strings.Contains (strings.ToLower caseTable cls) keyword
    || strings.Contains (strings.ToLower caseTable id) keyword

/-- The text `linkText` of line 93: the text of every `a` element below `s`, each
followed by a space. -/
def linkText (s : Node) : GoString :=
  (Find s [.tag (bytes "a")]).foldl (fun linkText a => linkText ++ (Text a ++ bytes " ")) []

/-- The number `textLength` of line 81. -/
def textLength (s : Node) : Nat := (strings.TrimSpace (Text s)).length

/-- The number `linkDensity` of line 93.  A `float64` is modelled by the rational
it holds: the numbers of `calculateContentScore` are counts and lengths and small
multiples of them, and its arithmetic on them is exact for every text shorter
than `2^53` bytes. -/
def linkDensity (s : Node) : Rat :=
  ((strings.TrimSpace (linkText s)).length : Rat) / (textLength s : Rat)

/-- `calculateContentScore(s)` for the selection of one node. -/
def calculateContentScore (caseTable : Nat → Nat) (s : Node) : Rat :=
  if textLength s < 100 then 0
  else if linkDensity s > 0.5 then 0
  else
    let paragraphCount := (Find s [.tag (bytes "p")]).length
    let listCount := (Find s [.tag (bytes "ul"), .tag (bytes "ol")]).length
    let imageCount := (Find s [.tag (bytes "img")]).length
    let score : Rat := (textLength s : Rat)
    let score := score + (paragraphCount : Rat) * 10
    let score := score + (listCount : Rat) * 5
    let score := score + (imageCount : Rat) * 2
    let score := contentKeywords.foldl
      (fun score keyword => if keywordHit caseTable s keyword then score + 50 else score) score
    let score := negativeKeywords.foldl
      (fun score keyword => if keywordHit caseTable s keyword then score - 100 else score) score
    score

/-- The loop of `selectBestContent`: `bestScore` and `bestSelection` after the
candidates given. -/
def selectBestLoop (caseTable : Nat → Nat) : List Node → Rat × Option Node → Rat × Option Node
  | [], best => best
  | s :: rest, (bestScore, bestSelection) =>
    let score := calculateContentScore caseTable s
    if score > bestScore then selectBestLoop caseTable rest (score, some s)
    else selectBestLoop caseTable rest (bestScore, bestSelection)

/-- `selectBestContent(selections)`: a selection of at most one node. -/
def selectBestContent (caseTable : Nat → Nat) (selections : List Node) : Option Node :=
  match (selectBestLoop caseTable selections (0, none)).2 with
  | none => selections.head?
  | some s => some s

/-- The selector of line 27. -/
def boilerplate : Selector :=
  [.tag (bytes "script"), .tag (bytes "style"), .tag (bytes "nav"), .tag (bytes "header"),
   .tag (bytes "footer"), .tag (bytes "aside"), .cls (bytes "ad"), .cls (bytes "advertisement"),
   .cls (bytes "sidebar"), .cls (bytes "navigation"), .cls (bytes "menu"), .cls (bytes "social"),
   .cls (bytes "share"), .cls (bytes "comments"), .cls (bytes "comment"), .tag (bytes "iframe"),
   .tag (bytes "embed"), .tag (bytes "object")]

/-- The selector of line 37. -/
def contentMarkers : Selector :=
  [.cls (bytes "content"), .cls (bytes "post"), .cls (bytes "article"), .cls (bytes "entry"),
   .cls (bytes "post-content")]

/-- Lines 27 to 43 of `ExtractMainContent`: the selection `content`, of at most
one node, for a parsed document given by the children of its document node. -/
def ExtractMainContent.content (caseTable : Nat → Nat) (doc : List Node) : Option Node :=
  let doc := RemoveAll boilerplate doc
  let selection := MatchAllList [.tag (bytes "article")] doc
  if selection.length > 0 then selection.head?
  else
    let selection := MatchAllList [.tag (bytes "main")] doc
    if selection.length > 0 then selection.head?
    else
      let selection := MatchAllList contentMarkers doc
      if selection.length > 0 then selectBestContent caseTable selection
      else selectBestContent caseTable (MatchAllList [.tag (bytes "body")] doc)

/-- The tag of an element. -/
def tagOf : Node → Option GoString
  | .elem t _ _ => some t
  | _ => none

/-- The elements of a list of trees, in document order. -/
def elements (doc : List Node) : List Node := MatchAllList [.universal] doc

namespace sample

/-- The element `<div class="main-content">` with a text of 100 letters. -/
def keywordsDiv : Node :=
  .elem (bytes "div") [(bytes "class", bytes "main-content")] [.text (List.replicate 100 120)]

/-- A `div` whose text is 34 times the character U+4E2D, three bytes each. -/
def cjkDiv : Node :=
  .elem (bytes "div") [] [.text (List.replicate 34 [0xE4, 0xB8, 0xAD]).flatten]

/-- The element `<div class="nav">` with a text of 100 letters and no link. -/
def navDiv : Node :=
  .elem (bytes "div") [(bytes "class", bytes "nav")] [.text (List.replicate 100 120)]

/-- A `div` with 200 letters of text, 120 of them inside its one `a` element. -/
def linkDiv : Node :=
  .elem (bytes "div") []
    [.text (List.replicate 80 120),
     .elem (bytes "a") [(bytes "href", bytes "/")] [.text (List.replicate 120 121)]]

/-- A `div` with a text of `n` letters. -/
def textDiv (n : Nat) : Node := .elem (bytes "div") [] [.text (List.replicate n 120)]

/-- A `section` with a text of 150 letters. -/
def textSection : Node := .elem (bytes "section") [] [.text (List.replicate 150 120)]

/-- Three candidates, with scores 0, 150 and 150. -/
def candidates : List Node := [textDiv 5, textSection, textDiv 150]

/-- The `body` of `page`: two `div` elements, 150 letters and 5 letters of text. -/
def pageBody : Node := .elem (bytes "body") [] [textDiv 150, textDiv 5]

/-- A document without `article`, `main` or marked element. -/
def page : List Node := [.other, .elem (bytes "html") [] [.elem (bytes "head") [] [], pageBody]]

end sample

end crawler

namespace crawler

open queue models

/-- What a call `Crawl(ctx, startURL, config)` may return: the error of line 49
with no results when the start URL cannot be normalised, and else (line 292) a
nil error with the `results` of a state in which every worker has returned. -/
def Crawl.Returns (caseTable : Nat → Nat) (cm : CrawlManager) (config : CrawlConfig)
    (startURL : GoString) (results : List PageResult) (err : Option utils.Error) : Prop :=
  match Crawl.start caseTable cm startURL with
  | .error e => results = [] ∧ err = some e
  | .ok s0 =>
    ∃ es s, run caseTable cm config es s0 = some s ∧ s.returned = true
      ∧ results = s.results ∧ err = none

/-- An environment in which every wait ends on the cancelled context and every
collaborator fails. -/
def Oracle.failing : Oracle := { ctxFirst := true, waitErr := true, text := none, links := none }

/-- A bound on the steps a worker takes from a program point to its return, once
the context is cancelled, in the environment `Oracle.failing`. -/
def WorkerPC.stepsLeft : WorkerPC → Nat
  | .done => 0
  | .recv => 1
  | .render _ => 2
  | .extract _ _ => 2
  | .convert _ _ _ => 2
  | .links _ _ => 2
  | .save _ _ _ => 3
  | .delay _ => 3
  | .limiter _ => 4
  | .count _ => 5
  | .linkVisited _ todo _ => 3 * todo.length + 2
  | .linkDepth _ _ todo _ => 3 * todo.length + 4
  | .linkAdd _ _ todo _ => 3 * todo.length + 3

namespace sample

/-- The sample execution, then the context is cancelled and the worker returns. -/
def cancelledEvents : List Event := events ++ [.cancel, .work 0 Oracle.failing]

/-- The state after `cancelledEvents`. -/
def cancelledFinal : State := (run id cm config cancelledEvents start).getD start

/-- An execution in which the rendering of the one page fails, and the context is
then cancelled. -/
def failedEvents : List Event :=
  List.replicate 7 (.dispatch oracle) ++ List.replicate 4 (.work 0 oracle)
    ++ [.work 0 Oracle.failing, .cancel, .work 0 Oracle.failing]

/-- The state after `failedEvents`. -/
def failedFinal : State := (run id cm config failedEvents start).getD start

end sample

end crawler

/-! ## The rate limiter and the links of a page -/

/-! ## `golang.org/x/time/rate` -/

namespace rate

/-- The limit `rate.Inf`, `math.MaxFloat64`. -/
def Inf : Rat := 2 ^ 1024 - 2 ^ 971

/-- The fields of a `rate.Limiter` that `NewLimiter` sets: the refill rate in
tokens per second (a `float64`, modelled by the rational it holds) and the
capacity of the bucket. -/
structure Limiter where
  limit : Rat
  burst : Int
  deriving DecidableEq

/-- `rate.NewLimiter(r, b)`. -/
def NewLimiter (r : Rat) (b : Int) : Limiter := { limit := r, burst := b }

/-- The first test of `(*Limiter).WaitN(ctx, n)`, `n > burst && limit != Inf`:
when it holds, `WaitN` returns the error "exceeds limiter's burst" at once,
whatever the context and the time. -/
def Limiter.exceedsBurst (lim : Limiter) (n : Int) : Bool :=
  decide (n > lim.burst) && decide (lim.limit ≠ Inf)

end rate

namespace crawler

open models

/-- The conversion `int(x)` of a `float64`: the fraction is discarded.  When the
value does not fit the Go specification leaves the result to the
implementation: it is read from `outOfRange`. -/
def intOfFloat64 (outOfRange : Rat → Int) (x : Rat) : Int :=
  if -2 ^ 63 ≤ (if 0 ≤ x then ⌊x⌋ else ⌈x⌉) ∧ (if 0 ≤ x then ⌊x⌋ else ⌈x⌉) < 2 ^ 63 then
    (if 0 ≤ x then ⌊x⌋ else ⌈x⌉)
  else outOfRange x

/-- Lines 52 to 58 of `Crawl`: the value of `cm.rateLimiter`, `none` for `nil`. -/
def Crawl.rateLimiter (outOfRange : Rat → Int) (config : CrawlConfig) : Option rate.Limiter :=
  if config.RateLimit > 0 then
    some (rate.NewLimiter config.RateLimit (intOfFloat64 outOfRange config.RateLimit))
  else none

/-- Lines 51 to 78 of `ExtractLinks`: the link the callback of `Each` accepts for
a resolved href, `none` when it returns before the `seen` test. -/
def acceptedLink (caseTable : Nat → Nat) (baseURL : GoString) (allowedDomains : List GoString)
    (absoluteURL : GoString) : Option GoString :=
  match utils.NormalizeURL caseTable absoluteURL with
  | .error _ => none
  | .ok normalized =>
    if utils.IsValidURL normalized && domainAllowed baseURL normalized allowedDomains then
      some normalized
    else none

/-- The position of the first occurrence of `x` in `l`, the length of `l` when
there is none. -/
def firstIndex (x : GoString) : List GoString → Nat
  | [] => 0
  | y :: ys => if y = x then 0 else firstIndex x ys + 1

/-- The URL `domainURL` of lines 61 to 64 for an entry of `allowedDomains`. -/
def domainURL (domain : GoString) : GoString :=
  if !strings.HasPrefix domain (bytes "http://") && !strings.HasPrefix domain (bytes "https://")
  then bytes "https://" ++ domain else domain

namespace sample

/-- The configuration `config` with one request every two seconds. -/
def halfConfig : CrawlConfig := { config with RateLimit := 1 / 2 }

end sample

end crawler

/-! ## `cleanContent` -/

/-! ## `golang.org/x/net/html`: what `Render` needs of a tree -/

namespace html

/-- The table `voidElements` of `render.go`. -/
def voidElements : List GoString :=
  [bytes "area", bytes "base", bytes "br", bytes "col", bytes "embed", bytes "hr",
   bytes "img", bytes "input", bytes "keygen", bytes "link", bytes "meta", bytes "param",
   bytes "source", bytes "track", bytes "wbr"]

/-- How `render1` ends on a node: with `nil`, with `plaintextAbort` (after a
`plaintext` element, nothing more is written) or with an error (a void element
that has child nodes). -/
inductive RenderStatus where
  | ok
  | plaintextAbort
  | error
  deriving DecidableEq, Repr

mutual
/-- The way `render1(w, n)` ends. -/
def render1Status : Node → RenderStatus
  | .text _ => .ok
  | .other => .ok
  | .elem tag _ cs =>
    if tag ∈ voidElements then (if cs.isEmpty then .ok else .error)
    else
      match render1StatusList cs with
      | .ok => if tag = bytes "plaintext" then .plaintextAbort else .ok
      | r => r
/-- The way the loop over the child nodes ends: at the first child on which
`render1` does not return `nil`. -/
def render1StatusList : List Node → RenderStatus
  | [] => .ok
  | n :: ns =>
    match render1Status n with
    | .ok => render1StatusList ns
    | r => r
end

/-- Whether `Render(w, n)` returns an error; `plaintextAbort` is none. -/
def renderFails (n : Node) : Bool := render1Status n == .error

/-- Whether what `Render` writes for a node is matched by the regular expression
`^\s*$`, the node being rendered without error: an element, a comment and a
doctype are written with a `<`; a text is written escaped, the carriage return as
`&#13;`, so that it is matched when it has only tabs, line feeds, form feeds and
spaces. -/
def renderedBlank : Node → Bool
  | .text data => data.all (fun b => b == 9 || b == 10 || b == 12 || b == 32)
  | _ => false

end html

namespace goquery

open html cascadia

/-- `removeAttr(n, attrName)` on the attribute list: the first attribute with the
key gets the value of the last attribute, and the last attribute is cut off. -/
def removeAttr (attr : List (GoString × GoString)) (attrName : GoString) :
    List (GoString × GoString) :=
  match attr.findIdx? (fun a => a.1 == attrName), attr.getLast? with
  | some i, some last => (attr.set i last).dropLast
  | _, _ => attr

/-- `RemoveAttr(attrName)` on a selection of one node. -/
def RemoveAttr (n : Node) (attrName : GoString) : Node :=
  match n with
  | .elem tag attr cs => .elem tag (removeAttr attr attrName) cs
  | n => n

/-- `Html()` of a selection of one node matches `^\s*$`: the child nodes are
rendered one after the other; an error of `Render` leaves the empty string. -/
def htmlBlank (n : Node) : Bool :=
  if n.children.any renderFails then true else n.children.all renderedBlank

/-- `Html()` of a selection of one node returns an error. -/
def htmlFails (n : Node) : Bool := n.children.any renderFails

mutual
/-- The effect on a node of `s.Find(...).Each(...)` with a callback that removes
the element when `p` holds of it.  The elements found are visited in document
order, an element before the elements below it, so that `p` sees each element as
it was found. -/
def RemoveWhereIn (p : Node → Bool) : Node → Node
  | .elem tag attr cs => .elem tag attr (RemoveWhere p cs)
  | .text data => .text data
  | .other => .other
/-- The effect of that loop on a list of siblings. -/
def RemoveWhere (p : Node → Bool) : List Node → List Node
  | [] => []
  | n :: ns => if p n then RemoveWhere p ns else RemoveWhereIn p n :: RemoveWhere p ns
end

end goquery

namespace crawler

open html cascadia goquery

/-- The callback of lines 139 to 144 removes the element: it is found by
`p, div` and its trimmed text is empty. -/
def emptyBlock (n : Node) : Bool :=
  Selector.Match [.tag (bytes "p"), .tag (bytes "div")] n
    && decide (strings.TrimSpace (Text n) = [])

/-- The callback of lines 147 to 154 removes the element: it is found by `*`,
its trimmed text is empty and its inner HTML has white space only. -/
def blankElement (n : Node) : Bool :=
  Selector.Match [.universal] n && (decide (strings.TrimSpace (Text n) = []) && htmlBlank n)

/-- The callback of lines 157 to 171 on the attributes of an element. -/
def keptAttrs (tag : GoString) (attr : List (GoString × GoString)) : List (GoString × GoString) :=
  if tag = bytes "img" then attr
  else if tag = bytes "a" then attr
  else
    removeAttr (removeAttr (removeAttr (removeAttr attr (bytes "class")) (bytes "id"))
      (bytes "style")) (bytes "onclick")

mutual
/-- The loop of lines 157 to 171 on a node found by `*` and on the elements below
it. -/
def stripAttrs : Node → Node
  | .elem tag attr cs => .elem tag (keptAttrs tag attr) (stripAttrsList cs)
  | .text data => .text data
  | .other => .other
/-- The loop of lines 157 to 171 on a list of siblings. -/
def stripAttrsList : List Node → List Node
  | [] => []
  | n :: ns => stripAttrs n :: stripAttrsList ns
end

/-- `cleanContent(s)` for a selection of one node: the node afterwards.  The
three loops work on the nodes below `s`. -/
def cleanContent (s : Node) : Node :=
  match s with
  | .elem tag attr cs =>
    .elem tag attr (stripAttrsList (RemoveWhere blankElement (RemoveWhere emptyBlock cs)))
  | n => n

/-- `ExtractMainContent(html)` for a parsed document given by the children of its
document node: the child nodes of the cleaned `content`, which `Html()` renders
one after the other into the string returned; `none` when `Html()` returns an
error.  An empty selection `content` gives the empty string. -/
def ExtractMainContent.fragment (caseTable : Nat → Nat) (doc : List Node) : Option (List Node) :=
  match ExtractMainContent.content caseTable doc with
  | none => some []
  | some content =>
    if htmlFails (cleanContent content) then none else some (cleanContent content).children

mutual
/-- The data of the text nodes of a tree, in document order. -/
def textNodes : Node → List GoString
  | .text data => [data]
  | .elem _ _ cs => textNodesList cs
  | .other => []
/-- The data of the text nodes of a list of trees. -/
def textNodesList : List Node → List GoString
  | [] => []
  | n :: ns => textNodes n ++ textNodesList ns
end

/-- A void element has no child nodes: so it is in every tree the parser builds
from elements of HTML. -/
def voidChildless : Node → Bool
  | .elem tag _ cs => !decide (tag ∈ voidElements) || cs.isEmpty
  | _ => true

namespace sample

/-- The children of the `article` element of `testPage`. -/
def testArticle : List Node :=
  [.text (bytes "\n\t\t\t\t\t"),
   .elem (bytes "h1") [] [.text (bytes "Main Title")],
   .text (bytes "\n\t\t\t\t\t"),
   .elem (bytes "p") [] [.text (bytes "This is the main content.")],
   .text (bytes "\n\t\t\t\t\t"),
   .elem (bytes "p") [] [.text (bytes "Another paragraph.")],
   .text (bytes "\n\t\t\t\t")]

/-- The tree the parser builds for the page of `TestExtractor_ExtractMainContent`. -/
def testPage : List Node :=
  [.elem (bytes "html") []
    [.elem (bytes "head") [] [.elem (bytes "title") [] [.text (bytes "Test")]],
     .text (bytes "\n\t\t\t"),
     .elem (bytes "body") []
      [.text (bytes "\n\t\t\t\t"),
       .elem (bytes "nav") [] [.text (bytes "Navigation")],
       .text (bytes "\n\t\t\t\t"),
       .elem (bytes "article") [] testArticle,
       .text (bytes "\n\t\t\t\t"),
       .elem (bytes "aside") [] [.text (bytes "Sidebar")],
       .text (bytes "\n\t\t\t\n\t\t\n\t")]]]

/-- A document with the given `article` as the only child of its `body`. -/
def articlePage (article : List Node) : List Node :=
  [.elem (bytes "html") []
    [.elem (bytes "head") [] [], .elem (bytes "body") [] [.elem (bytes "article") [] article]]]

/-- The element `<a href="/x" onclick="track()" class="btn" id="more">link</a>`. -/
def handlerLink : Node :=
  .elem (bytes "a")
    [(bytes "href", bytes "/x"), (bytes "onclick", bytes "track()"),
     (bytes "class", bytes "btn"), (bytes "id", bytes "more")]
    [.text (bytes "link")]

/-- The element `<p onmouseover="peek()" title="t" class="lead">text</p>`. -/
def handlerParagraph : Node :=
  .elem (bytes "p")
    [(bytes "onmouseover", bytes "peek()"), (bytes "title", bytes "t"),
     (bytes "class", bytes "lead")]
    [.text (bytes "text")]

/-- The page `<article>` with `handlerLink` and `handlerParagraph`. -/
def handlerPage : List Node := articlePage [handlerLink, handlerParagraph]

/-- The element `<img src="a.png" alt="A">`. -/
def picture : Node :=
  .elem (bytes "img") [(bytes "src", bytes "a.png"), (bytes "alt", bytes "A")] []

/-- The page `<article><p>Some text</p><img src="a.png" alt="A"></article>`. -/
def picturePage : List Node :=
  articlePage [.elem (bytes "p") [] [.text (bytes "Some text")], picture]

/-- The page `<article><div class="ads">Buy now</div><a id="sidebar"
href="/s">Side links</a><p>Text</p></article>`. -/
def markedPage : List Node :=
  articlePage
    [.elem (bytes "div") [(bytes "class", bytes "ads")] [.text (bytes "Buy now")],
     .elem (bytes "a") [(bytes "id", bytes "sidebar"), (bytes "href", bytes "/s")]
       [.text (bytes "Side links")],
     .elem (bytes "p") [] [.text (bytes "Text")]]

end sample

end crawler

/-! ## The crawl: invariants of the depth -/

namespace crawler

open queue models

/-- Whether a worker holds a URL it has received and not yet saved (lines 104 to
165). -/
def WorkerPC.holds : WorkerPC → Nat
  | .count _ => 1
  | .limiter _ => 1
  | .delay _ => 1
  | .render _ => 1
  | .extract _ _ => 1
  | .convert _ _ _ => 1
  | .save _ _ _ => 1
  | _ => 0

/-- Whether a worker is inside the link extraction of lines 169 to 182: it has
called `ExtractLinks` and walks through the links. -/
def WorkerPC.inLinks : WorkerPC → Bool
  | .linkVisited _ _ _ => true
  | .linkDepth _ _ _ _ => true
  | .linkAdd _ _ _ _ => true
  | _ => false

/-- Whether the dispatch goroutine holds a URL it has popped and not yet sent. -/
def DispatchPC.holds : DispatchPC → Nat
  | .size _ => 1
  | .isVisited _ => 1
  | .depth _ => 1
  | .mark _ _ => 1
  | .send _ _ => 1
  | _ => 0

/-- The invariant of a crawl with `MaxDepth = 0`, `seed` being the frontier after
the seeding: no worker is inside the link extraction; the seed is in one place
only, the frontier, the dispatch goroutine, the channel, a worker or the results;
and it has been sent at most once. -/
structure SeedInv (seed : List GoString) (s : State) : Prop where
  noLinks : ∀ w ∈ s.workers, w.inLinks = false
  tokens : s.q.urls.length + s.dispatcher.holds + s.urlChan.length
    + (s.workers.map WorkerPC.holds).sum + s.results.length ≤ 1
  sent : s.dispatched.length + s.q.urls.length + s.dispatcher.holds ≤ 1
  pending : ∀ u ∈ s.q.urls, u ∈ seed
  held : ∀ u, s.dispatcher.url? = some u → u ∈ seed
  dispatched : ∀ ud ∈ s.dispatched, ud.url ∈ seed

end crawler

namespace crawler

open queue models

/-- The URL and depth a worker has received and works on. -/
def WorkerPC.ud? : WorkerPC → Option urlDepth
  | .count ud => some ud
  | .limiter ud => some ud
  | .delay ud => some ud
  | .render ud => some ud
  | .extract ud _ => some ud
  | .convert ud _ _ => some ud
  | .save ud _ _ => some ud
  | .links ud _ => some ud
  | .linkVisited ud _ _ => some ud
  | .linkDepth ud _ _ _ => some ud
  | .linkAdd ud _ _ _ => some ud
  | _ => none

/-- Every URL in the channel, in the hands of a worker or in the results has been
sent by the dispatch goroutine, with the depth it has there. -/
structure SentInv (s : State) : Prop where
  urlChan : ∀ ud ∈ s.urlChan, ud ∈ s.dispatched
  workers : ∀ w ∈ s.workers, ∀ ud, w.ud? = some ud → ud ∈ s.dispatched
  results : ∀ r ∈ s.results, (⟨r.URL, r.Depth⟩ : urlDepth) ∈ s.dispatched

namespace sample

/-- The configuration `config` with `MaxDepth = 0`. -/
def seedOnlyConfig : CrawlConfig := { config with MaxDepth := 0 }

/-- The seed is sent and worker 0 handles it: with `MaxDepth = 0` it does not
call `ExtractLinks`. -/
def seedOnlyEvents : List Event :=
  List.replicate 7 (.dispatch oracle) ++ List.replicate 9 (.work 0 oracle)

/-- The state after `seedOnlyEvents`. -/
def seedOnlyFinal : State := (run id cm seedOnlyConfig seedOnlyEvents start).getD start

/-- One worker, depth 2, ten pages. -/
def deepConfig : CrawlConfig :=
  { MaxDepth := 2, MaxPages := 10, AllowedDomains := [], MaxWorkers := 1, Timeout := 30,
    RateLimit := 0, Delay := 0 }

/-- A page with the given resolved hrefs. -/
def pageWith (links : List GoString) : Oracle :=
  { ctxFirst := false, waitErr := false, text := some (bytes "page"), links := some links }

/-- The seed `https://example.com` links to `/a` and `/b`; both are enqueued with
depth 1. -/
def seedEvents : List Event :=
  List.replicate 7 (.dispatch oracle)
    ++ List.replicate 16 (.work 0 (pageWith [bytes "https://example.com/a",
        bytes "https://example.com/b"]))

/-- The state after `seedEvents`: `/b` is pending, with depth 1. -/
def seedDone : State := (run id cm deepConfig seedEvents start).getD start

/-- Then `/a` is sent and handled; it links to `/b`, which is still pending; then
`/b` is sent and handled. -/
def rediscoverEvents : List Event :=
  List.replicate 7 (.dispatch oracle)
    ++ List.replicate 13 (.work 0 (pageWith [bytes "https://example.com/b"]))
    ++ List.replicate 7 (.dispatch oracle)
    ++ List.replicate 9 (.work 0 (pageWith []))

/-- The state after `seedEvents` and `rediscoverEvents`. -/
def rediscovered : State := (run id cm deepConfig rediscoverEvents seedDone).getD start

/-- The start URL `http://example.com`. -/
def plainURL : GoString := bytes "http://example.com"

/-- The state after the set-up of `Crawl` for `plainURL`. -/
def plainStart : State :=
  match Crawl.start id cm plainURL with
  | .ok s => s
  | .error _ => start

/-- The seed has one anchor, which resolves to `http://example.com/a//`; the link
is enqueued, sent and handled. -/
def slashEvents : List Event :=
  List.replicate 7 (.dispatch oracle)
    ++ List.replicate 13 (.work 0 (pageWith [bytes "http://example.com/a//"]))
    ++ List.replicate 7 (.dispatch oracle)
    ++ List.replicate 10 (.work 0 (pageWith []))

/-- The state after `slashEvents`. -/
def slashFinal : State := (run id cm deepConfig slashEvents plainStart).getD start

end sample

end crawler

/-! ## `ExtractText` -/

namespace strings

/-- The loop of `strings.Count(s, substr)` for a separator that is not empty:
`fuel` bounds the number of calls of `Index`. -/
def countLoop (substr : GoString) : Nat → GoString → Nat
  | 0, _ => 0
  | fuel + 1, s =>
    match Index s substr with
    | none => 0
    | some i => countLoop substr fuel (s.drop (i + substr.length)) + 1

/-- `strings.Count(s, substr)`: the number of non-overlapping instances of
`substr`, counted from the left; one more than the number of runes for the empty
`substr`. -/
def Count (s substr : GoString) : Nat :=
  if substr = [] then (utf8.runes s.length s).length + 1
  else countLoop substr (s.length + 1) s

/-- The loop of `strings.Replace` with `n` replacements to go: `rest` is
`s[start:]`, and `first` holds in the first round.  With an empty `old` the
replacement goes in front of the string and after each rune; else `Index` finds
the next instance (it finds one: `n` is at most `Count(s, old)`). -/
def replaceLoop (old new : GoString) : Nat → Bool → GoString → GoString
  | 0, _, rest => rest
  | n + 1, first, rest =>
    let j :=
      if old = [] then (if first then 0 else (utf8.DecodeRune rest).2)
      else (Index rest old).getD 0
    rest.take j ++ new ++ replaceLoop old new n false (rest.drop (j + old.length))

/-- `strings.Replace(s, old, new, n)`. -/
def Replace (s old new : GoString) (n : Int) : GoString :=
  if old = new ∨ n = 0 then s
  else
    let m := Count s old
    if m = 0 then s
    else replaceLoop old new (if n < 0 ∨ (m : Int) < n then m else n.toNat) true s

/-- `strings.ReplaceAll(s, old, new)`. -/
def ReplaceAll (s old new : GoString) : GoString := Replace s old new (-1)

end strings

namespace crawler

open html cascadia goquery

/-- `ExtractText(html)` for a parsed document given by the children of its
document node: the string returned (the error is always nil once the document
is parsed). -/
def ExtractText.text (doc : List Node) : GoString :=
  let doc := RemoveAll [.tag (bytes "script"), .tag (bytes "style")] doc
  let text := TextList (MatchAllList [.tag (bytes "body")] doc)
  let text := strings.TrimSpace text
  strings.ReplaceAll text (bytes "\n\n\n") (bytes "\n\n")

namespace sample

/-- The tree of `<html><head></head><body><h1>Title</h1>` + `gap` +
`<p>Text</p></body></html>`, where `gap` is `n` line feeds. -/
def gapPage (n : Nat) : List Node :=
  [.elem (bytes "html") []
    [.elem (bytes "head") [] [],
     .elem (bytes "body") []
      [.elem (bytes "h1") [] [.text (bytes "Title")],
       .text (List.replicate n 10),
       .elem (bytes "p") [] [.text (bytes "Text")]]]]

end sample

end crawler

/-! ## `internal/crawler/renderer.go` -/

namespace crawler

open float64

/-- What a call of `Render` returned and did: the HTML and the error returned
(`none` is `nil`), how often it invoked `renderPage`, and the delays it slept in
full, oldest first. -/
structure RenderResult where
  html : GoString
  err : Option (RetryError GoError)
  calls : Nat
  sleeps : List Int

/-- The function literal of lines 36 to 42, by what its invocations return.  The
browser is a collaborator: `renderPage k` is what the invocation of
`renderPage(url)` after `k` earlier ones returns, the HTML with a nil error or
the empty string with an error. -/
def Render.fn (caseTable : Nat → Nat) (renderPage : Nat → Except GoError GoString) :
    Nat → Option GoError := fun k =>
  match renderPage k with
  | .ok _ => none
  | .error lastErr => if IsRetryableError caseTable (some lastErr) then some lastErr else none

/-- `(*Renderer).Render(url)`.  The context is `context.Background()`, which is
never done.  After `Retry` the variables `html` and `lastErr` hold what the last
invocation of `renderPage` returned. -/
def Render (caseTable : Nat → Nat) (outOfRange : F64 → Int)
    (renderPage : Nat → Except GoError GoString) : Option RenderResult :=
  match Retry outOfRange (fun _ => false) (Render.fn caseTable renderPage)
      DefaultRetryConfig with
  | none => none
  | some r =>
    match r.err with
    | some err => some { html := [], err := some err, calls := r.calls, sleeps := r.sleeps }
    | none =>
      match (if r.calls = 0 then .ok [] else renderPage (r.calls - 1)) with
      | .error lastErr =>
        some { html := [], err := some (.op lastErr), calls := r.calls, sleeps := r.sleeps }
      | .ok html => some { html := html, err := none, calls := r.calls, sleeps := r.sleeps }

end crawler

/-! ## The polls of the dispatch loop -/

namespace crawler

open queue models

/-- What the dispatch loop sees in one round: `Pop` gave a URL, or `Pop` found
the queue empty and `Size` then gave `size`, equal or not to the size seen
last. -/
inductive Poll where
  | popped (url : GoString)
  | empty (size : Int) (stable : Bool)
  deriving DecidableEq, Repr

/-- The entry the next step of the dispatch goroutine adds to the record of its
polls: one at a successful `Pop` (line 217), one at the `Size` of line 222. -/
def pollOf (s : State) : Option Poll :=
  match s.dispatcher with
  | .pop _ =>
    match s.q.Pop with
    | (_, url, true) => some (.popped url)
    | _ => none
  | .empty _ => some (.empty s.q.Size (decide (s.q.Size = s.lastQueueSize)))
  | _ => none

/-- The record of the polls of the dispatch goroutine along an execution. -/
def pollLog (caseTable : Nat → Nat) (cm : CrawlManager) (config : CrawlConfig) :
    List Event → State → List Poll
  | [], _ => []
  | e :: es, s =>
    match step caseTable cm config e s with
    | none => []
    | some s1 =>
      (match e with
        | .dispatch _ => (pollOf s).toList
        | _ => []) ++ pollLog caseTable cm config es s1

/-- The counters of the dispatch loop and the record of its polls: the two
counters are equal and not negative, the record ends with as many polls that
found the queue empty, with size 0 as before, and line 235 is reached with the
size 0 only. -/
structure PollInv (log : List Poll) (s : State) : Prop where
  equal : s.emptyCount = s.stableCount
  tail : ∃ (k : Nat) (pre : List Poll), (k : Int) = s.emptyCount
    ∧ log = pre ++ List.replicate k (.empty 0 true)
  size : ∀ c qs, s.dispatcher = .visited1 c qs → qs = 0

namespace sample

/-- Ten pages, no links to follow. -/
def idleConfig : CrawlConfig :=
  { MaxDepth := 0, MaxPages := 10, AllowedDomains := [], MaxWorkers := 1, Timeout := 30,
    RateLimit := 0, Delay := 0 }

/-- The seed is sent and handled; then the dispatch goroutine finds the queue
empty fifty times and comes to the test of line 238. -/
def idleEvents : List Event :=
  List.replicate 7 (.dispatch oracle) ++ List.replicate 9 (.work 0 oracle)
    ++ List.replicate 199 (.dispatch oracle)

/-- The state after `idleEvents`. -/
def idle : State := (run id cm idleConfig idleEvents start).getD start

end sample

end crawler

/-! ## `cmd/cli/main.go` -/

namespace strings

/-- `strings.TrimPrefix(s, p)`. -/
def TrimPrefix (s p : GoString) : GoString :=
  if HasPrefix s p then s.drop p.length else s

/-- `strings.Join(elems, sep)`. -/
def Join : List GoString → GoString → GoString
  | [], _ => []
  | [a], _ => a
  | a :: b :: rest, sep => a ++ sep ++ Join (b :: rest) sep

end strings

namespace url

/-- `(*URL).Hostname()`. -/
def URL.Hostname (u : URL) : GoString := (splitHostPort u.Host).1

end url

namespace cli

/-- Lines 69 to 78 of `main`: the field `AllowedDomains` of the configuration for
the URL given on the command line; an error ends the program. -/
def allowedDomains (rawURL : GoString) : Except url.Error (List GoString) :=
  match url.Parse rawURL with
  | .error err => .error err
  | .ok parsedURL => .ok [parsedURL.Host]

/-- The text `fmt.Sprintf` writes for the verb `%03d` and a number that is not
negative: its decimal digits, with zeros in front up to three characters. -/
def sprintf03d (n : Nat) : GoString :=
  let digits := (Nat.toDigits 10 n).map Char.toNat
  List.replicate (3 - digits.length) 48 ++ digits

/-- `sanitizeFilename(urlStr, index)`. -/
def sanitizeFilename (urlStr : GoString) (index : Nat) : GoString :=
  match url.Parse urlStr with
  | .error _ => bytes "page_" ++ sprintf03d (index + 1) ++ bytes ".md"
  | .ok parsed =>
    let host := parsed.Hostname
    let parts : List GoString :=
      if host ≠ [] then [strings.ReplaceAll host (bytes ".") (bytes "_")] else []
    let path := parsed.Path
    let path :=
      if path = [] ∨ path = bytes "/" then bytes "index"
      else
        let path := strings.TrimPrefix path (bytes "/")
        let path := strings.TrimSuffix path (bytes "/")
        let path := strings.ReplaceAll path (bytes "/") (bytes "_")
        strings.ReplaceAll path [92] (bytes "_")
    let path := if path.length > 100 then path.take 100 else path
    let parts := if path ≠ [] then parts ++ [path] else parts
    let filename := strings.Join parts (bytes "_")
    let filename := if filename = [] then bytes "page_" ++ sprintf03d (index + 1) else filename
    let filename := strings.ReplaceAll filename (bytes ":") (bytes "_")
    let filename := strings.ReplaceAll filename (bytes "*") (bytes "_")
    let filename := strings.ReplaceAll filename (bytes "?") (bytes "_")
    let filename := strings.ReplaceAll filename (bytes "<") (bytes "_")
    let filename := strings.ReplaceAll filename (bytes ">") (bytes "_")
    let filename := strings.ReplaceAll filename (bytes "|") (bytes "_")
    let filename := strings.ReplaceAll filename [34] (bytes "_")
    let filename := if filename.length > 200 then filename.take 200 else filename
    filename ++ bytes ".md"

/-- Lines 164 to 166 of `main`: the file names of directory mode, one for each
page of the result list, in order. -/
def fileNames (pages : List models.PageResult) : List GoString :=
  (List.range pages.length).zipWith (fun i page => sanitizeFilename page.URL i) pages

end cli

/-! # Theorems -/

/-! ## Lower-casing -/

namespace strings

theorem lowerByte_cases (x : Nat) : lowerByte x = x ∨ (x < 0x80 ∧ lowerByte x < 0x80) := by
  unfold lowerByte
  split_ifs <;> omega

theorem lowerByte_idem (x : Nat) : lowerByte (lowerByte x) = lowerByte x := by
  unfold lowerByte
  split_ifs <;> omega

theorem isCont_lowerByte (x : Nat) : utf8.isCont (lowerByte x) = utf8.isCont x := by
  rcases lowerByte_cases x with h | ⟨h1, h2⟩
  · rw [h]
  · have a : utf8.isCont (lowerByte x) = false := by simp [utf8.isCont]; omega
    have b : utf8.isCont x = false := by simp [utf8.isCont]; omega
    rw [a, b]

theorem lowerByte_of_isCont {x : Nat} (h : utf8.isCont x = true) : lowerByte x = x := by
  rcases lowerByte_cases x with h1 | ⟨h1, _⟩
  · exact h1
  · simp [utf8.isCont] at h; omega

theorem map_lowerByte_of_all_isCont {l : GoString} (h : l.all utf8.isCont = true) :
    l.map lowerByte = l := by
  induction l with
  | nil => rfl
  | cons a l ih =>
    simp only [List.all_cons, Bool.and_eq_true] at h
    simp [lowerByte_of_isCont h.1, ih h.2]

theorem all_isCont_map_lowerByte (l : GoString) :
    (l.map lowerByte).all utf8.isCont = l.all utf8.isCont := by
  induction l with
  | nil => rfl
  | cons a l ih => simp [isCont_lowerByte, ih]

theorem DecodeRune_map_lowerByte (caseTable : Nat → Nat) (s : GoString) :
    (utf8.DecodeRune (s.map lowerByte)).2 = (utf8.DecodeRune s).2
    ∧ unicodeToLower caseTable (utf8.DecodeRune (s.map lowerByte)).1
        = unicodeToLower caseTable (utf8.DecodeRune s).1 := by
  match s with
  | [] => exact ⟨rfl, rfl⟩
  | a :: rest =>
    rcases lowerByte_cases a with ha | ⟨ha1, ha2⟩
    swap
    · have h1 : a ≤ 0x7F := by omega
      have h2 : lowerByte a ≤ 0x7F := by omega
      simp [utf8.DecodeRune, ha1, ha2, unicodeToLower, h1, h2, lowerByte_idem]
    · simp only [List.map_cons, ha, utf8.DecodeRune]
      by_cases hc : (rest.take ((utf8.firstByte a).1 - 1)).all utf8.isCont = true
      · have e : (rest.map lowerByte).take ((utf8.firstByte a).1 - 1)
            = rest.take ((utf8.firstByte a).1 - 1) := by
          rw [← List.map_take]; exact map_lowerByte_of_all_isCont hc
        rw [e]; exact ⟨rfl, rfl⟩
      · have hc2 : ¬ ((rest.map lowerByte).take ((utf8.firstByte a).1 - 1)).all utf8.isCont = true := by
          rw [← List.map_take, all_isCont_map_lowerByte]; exact hc
        by_cases ha80 : a < 0x80
        · simp [ha80]
        · simp only [ha80, if_false]
          rw [if_neg (fun h => hc2 h.2.2.1), if_neg (fun h => hc h.2.2.1)]
          exact ⟨rfl, rfl⟩

theorem runes_map_lowerByte (caseTable : Nat → Nat) (fuel : Nat) : ∀ s : GoString,
    (utf8.runes fuel (s.map lowerByte)).map (unicodeToLower caseTable)
      = (utf8.runes fuel s).map (unicodeToLower caseTable) := by
  induction fuel with
  | zero => intro s; simp [utf8.runes]
  | succ n ih =>
    intro s
    cases s with
    | nil => simp [utf8.runes]
    | cons a rest =>
      have hd := DecodeRune_map_lowerByte caseTable (a :: rest)
      simp only [List.map_cons] at hd
      simp only [List.map_cons, utf8.runes, hd.1, hd.2, List.cons.injEq, true_and]
      rw [← List.map_drop]
      exact ih _

theorem Map_map_lowerByte (caseTable : Nat → Nat) (s : GoString) :
    Map (unicodeToLower caseTable) (s.map lowerByte) = Map (unicodeToLower caseTable) s := by
  unfold Map
  have h := runes_map_lowerByte caseTable s.length s
  have e : ∀ l : List Nat, l.map (fun r => utf8.EncodeRune (unicodeToLower caseTable r))
      = (l.map (unicodeToLower caseTable)).map utf8.EncodeRune := by
    intro l; simp
  rw [e, e, List.length_map, h]

theorem all_ascii_map_lowerByte (s : GoString) :
    (s.map lowerByte).all (· < 0x80) = s.all (· < 0x80) := by
  induction s with
  | nil => rfl
  | cons a l ih =>
    simp only [List.map_cons, List.all_cons, ih]
    congr 1
    rcases lowerByte_cases a with h | ⟨h1, h2⟩
    · rw [h]
    · simp [h1, h2]

theorem ToLower_map_lowerByte (caseTable : Nat → Nat) (s : GoString) :
    ToLower caseTable (s.map lowerByte) = ToLower caseTable s := by
  unfold ToLower
  rw [all_ascii_map_lowerByte, Map_map_lowerByte]
  split_ifs
  · simp [lowerByte_idem]
  · rfl

theorem SameUpToASCIICase.map_eq {s t : GoString} (h : SameUpToASCIICase s t) :
    s.map lowerByte = t.map lowerByte := by
  induction h with
  | nil => rfl
  | cons hab _ ih => simp [hab, ih]

/-- Hosts that differ only in the case of ASCII letters have the same lower-case form. -/
theorem ToLower_congr (caseTable : Nat → Nat) {s t : GoString} (h : SameUpToASCIICase s t) :
    ToLower caseTable s = ToLower caseTable t := by
  rw [← ToLower_map_lowerByte caseTable s, ← ToLower_map_lowerByte caseTable t, h.map_eq]

theorem TrimSuffix_append_self (p sfx : GoString) : TrimSuffix (p ++ sfx) sfx = p := by
  have h : ∀ a b : GoString, HasPrefix (a ++ b) a = true := by
    intro a
    induction a with
    | nil => intro b; cases b <;> rfl
    | cons x a ih => intro b; simp [HasPrefix, ih]
  unfold TrimSuffix HasSuffix
  rw [List.reverse_append, h]
  simp

theorem TrimSuffix_of_not_HasSuffix {p sfx : GoString} (h : HasSuffix p sfx = false) :
    TrimSuffix p sfx = p := by
  simp [TrimSuffix, h]

end strings

/-! ## `NormalizeURL` and `IsValidURL` -/

namespace utils

theorem bytes_http : bytes "http" = [104, 116, 116, 112] := by decide

theorem bytes_https : bytes "https" = [104, 116, 116, 112, 115] := by decide

theorem bytes_slash : bytes "/" = [47] := by decide

/-- `NormalizeURL` on a URL that parses with scheme `http` or `https`. -/
theorem NormalizeURL_of_parse (caseTable : Nat → Nat) {raw : GoString} {u : url.URL}
    (h : url.Parse raw = .ok u) (hs : u.Scheme = bytes "http" ∨ u.Scheme = bytes "https") :
    NormalizeURL caseTable raw
      = .ok (url.URL.String
          { u with Fragment := [], Scheme := strings.ToLower caseTable u.Scheme,
                   Host := strings.ToLower caseTable u.Host,
                   Path := if u.Path ≠ bytes "/" then strings.TrimSuffix u.Path (bytes "/")
                           else u.Path }) := by
  unfold NormalizeURL
  rw [h]
  rcases hs with hs | hs
  · by_cases hp : u.Path = bytes "/" <;> simp [hs, hp, bytes_http, bytes_https]
  · by_cases hp : u.Path = bytes "/" <;> simp [hs, hp, bytes_http, bytes_https]

/-- C1 (the code at the failing input). Normalising `http://example.com/a//`
gives `http://example.com/a/`, and normalising that gives `http://example.com/a`:
one trailing slash is removed per call, so the first result is not a fixed point. -/
theorem NormalizeURL_not_idempotent :
    (∀ caseTable, NormalizeURL caseTable (bytes "http://example.com/a//")
        = .ok (bytes "http://example.com/a/"))
    ∧ (∀ caseTable, NormalizeURL caseTable (bytes "http://example.com/a/")
        = .ok (bytes "http://example.com/a"))
    ∧ bytes "http://example.com/a/" ≠ bytes "http://example.com/a" :=
  ⟨fun _ => rfl, fun _ => rfl, by decide⟩

/-- C9, amended. Two URLs that parse, with scheme `http` or `https`, and differ
only in the letter case of the host, or only in one trailing slash after a path
that is not empty, does not end in a slash and is written in its default escaping,
or only in the fragment, are both accepted by `NormalizeURL` and get the same
canonical string. -/
theorem NormalizeURL_same_canonical (caseTable : Nat → Nat) (raw1 raw2 : GoString)
    (u1 u2 : url.URL) (h1 : url.Parse raw1 = .ok u1) (h2 : url.Parse raw2 = .ok u2)
    (hs : u1.Scheme = bytes "http" ∨ u1.Scheme = bytes "https")
    (hd : (∃ host, strings.SameUpToASCIICase u1.Host host ∧ u2 = { u1 with Host := host })
        ∨ (u1.Path ≠ [] ∧ strings.HasSuffix u1.Path (bytes "/") = false ∧ u1.RawPath = []
            ∧ u2 = { u1 with Path := u1.Path ++ bytes "/" })
        ∨ (∃ f rf, u2 = { u1 with Fragment := f, RawFragment := rf })) :
    ∃ c, NormalizeURL caseTable raw1 = .ok c ∧ NormalizeURL caseTable raw2 = .ok c := by
  refine ⟨_, NormalizeURL_of_parse caseTable h1 hs, ?_⟩
  rcases hd with ⟨host, hh, rfl⟩ | ⟨hne, hsl, hraw, rfl⟩ | ⟨f, rf, rfl⟩
  · rw [NormalizeURL_of_parse caseTable h2 hs]
    simp only [strings.ToLower_congr caseTable hh]
  · rw [NormalizeURL_of_parse caseTable h2 hs]
    have e1 : u1.Path ≠ bytes "/" := by
      intro h; rw [h] at hsl; revert hsl; decide
    have e2 : u1.Path ++ bytes "/" ≠ bytes "/" := by
      rw [bytes_slash]
      intro h
      cases hp : u1.Path with
      | nil => exact hne hp
      | cons a l => rw [hp] at h; simp at h
    simp only [e1, e2, ne_eq, not_false_eq_true, if_true,
      strings.TrimSuffix_append_self, strings.TrimSuffix_of_not_HasSuffix hsl]
  · rw [NormalizeURL_of_parse caseTable h2 hs]
    simp only [url.URL.String, url.URL.EscapedPath, ne_eq, not_true_eq_false, if_false]

/-- The witness of C9: `https://Example.com/Page#top` and
`https://example.COM/Page#top` differ only in the case of the host. -/
theorem NormalizeURL_same_canonical_witness :
    ∃ c, NormalizeURL id (bytes "https://Example.com/Page#top") = .ok c
      ∧ NormalizeURL id (bytes "https://example.COM/Page#top") = .ok c :=
  NormalizeURL_same_canonical id (bytes "https://Example.com/Page#top")
    (bytes "https://example.COM/Page#top")
    { Scheme := bytes "https", Host := bytes "Example.com", Path := bytes "/Page",
      Fragment := bytes "top" }
    { Scheme := bytes "https", Host := bytes "example.COM", Path := bytes "/Page",
      Fragment := bytes "top" }
    rfl rfl (Or.inr rfl)
    (Or.inl ⟨bytes "example.COM",
      by
        unfold strings.SameUpToASCIICase
        repeat (first | exact List.Forall₂.nil | apply List.Forall₂.cons (by decide)),
      rfl⟩)

/-- C9 fails as stated: `https://example.com` and `https://example.com/` parse to
URLs that differ only in the path, `""` against `"/"`, that is in a trailing slash;
both are accepted and they keep different canonical strings (the root path keeps
its slash). -/
theorem NormalizeURL_root_slash_kept :
    url.Parse (bytes "https://example.com")
      = .ok { Scheme := bytes "https", Host := bytes "example.com" }
    ∧ url.Parse (bytes "https://example.com/")
      = .ok { Scheme := bytes "https", Host := bytes "example.com", Path := bytes "/" }
    ∧ (∀ caseTable, NormalizeURL caseTable (bytes "https://example.com")
        = .ok (bytes "https://example.com"))
    ∧ (∀ caseTable, NormalizeURL caseTable (bytes "https://example.com/")
        = .ok (bytes "https://example.com/"))
    ∧ bytes "https://example.com" ≠ bytes "https://example.com/" :=
  ⟨rfl, rfl, fun _ => rfl, fun _ => rfl, by decide⟩

/-- C10. `NormalizeURL(raw)` returns an error exactly when `IsValidURL(raw)` is
false, and that is exactly when `raw` does not parse, has no scheme, or has a
scheme other than `http` and `https`; `invalid-url`, the empty string and
`ftp://example.com` are rejected by both, `http://example.com` is accepted by both. -/
theorem NormalizeURL_error_iff_not_IsValidURL (caseTable : Nat → Nat) (raw : GoString) :
    ((∃ e, NormalizeURL caseTable raw = .error e) ↔ IsValidURL raw = false)
    ∧ (IsValidURL raw = false ↔
        ((∃ e, url.Parse raw = .error e)
          ∨ ∃ u, url.Parse raw = .ok u
              ∧ (u.Scheme = [] ∨ (u.Scheme ≠ bytes "http" ∧ u.Scheme ≠ bytes "https"))))
    ∧ (∃ e, NormalizeURL caseTable (bytes "invalid-url") = .error e)
    ∧ IsValidURL (bytes "invalid-url") = false
    ∧ (∃ e, NormalizeURL caseTable (bytes "") = .error e)
    ∧ IsValidURL (bytes "") = false
    ∧ (∃ e, NormalizeURL caseTable (bytes "ftp://example.com") = .error e)
    ∧ IsValidURL (bytes "ftp://example.com") = false
    ∧ NormalizeURL caseTable (bytes "http://example.com") = .ok (bytes "http://example.com")
    ∧ IsValidURL (bytes "http://example.com") = true := by
  have e1 : bytes "http" ≠ [] := by decide
  have e2 : bytes "https" ≠ [] := by decide
  have e3 : ([] : GoString) ≠ bytes "http" := by decide
  have e4 : ([] : GoString) ≠ bytes "https" := by decide
  refine ⟨?_, ?_, ⟨_, rfl⟩, by decide, ⟨_, rfl⟩, by decide, ⟨_, rfl⟩, by decide, rfl, by decide⟩
  · unfold NormalizeURL IsValidURL
    cases h : url.Parse raw with
    | error e => simp
    | ok u =>
      by_cases h1 : u.Scheme = []
      · simp [h1, e1, e2, e3, e4]
      · by_cases h2 : u.Scheme = bytes "http"
        · simp [h2, e1]
        · by_cases h3 : u.Scheme = bytes "https"
          · simp [h3, e2]
          · simp [h1, h2, h3]
  · unfold IsValidURL
    cases h : url.Parse raw with
    | error e => simp
    | ok u =>
      by_cases h1 : u.Scheme = []
      · simp [h1, e1, e2, e3, e4]
      · simp [h1]

end utils

/-! ## Re-normalising a canonical form

`Queue.Add`, `Queue.IsVisited` and `Queue.MarkVisited` call `NormalizeURL` on
strings that `NormalizeURL` returned.  `NormalizeURL` is not idempotent, and it
even rejects some of its own results; but from the second call on it is stable:
when it accepts a canonical form, it accepts what it returns for it
(`NormalizeURL_stable`).  The reason is that whatever `String` writes after the
scheme is ASCII text, made by `escape` or checked by `validEncoded`, unless the URL
is opaque; and an ASCII authority or path that was parsed once is parsed again
after it is lower-cased, trimmed and written out. -/

/-! ### Searching for one byte -/

namespace strings

theorem HasPrefix_nil (s : GoString) : HasPrefix s [] = true := by
  cases s <;> rfl

theorem HasPrefix_cons_singleton (a c : Nat) (s : GoString) :
    HasPrefix (a :: s) [c] = (a == c) := by
  simp [HasPrefix, HasPrefix_nil]

theorem HasPrefix_singleton_iff (s : GoString) (c : Nat) :
    HasPrefix s [c] = true ↔ s.head? = some c := by
  cases s with
  | nil => simp [HasPrefix]
  | cons a s => simp [HasPrefix_cons_singleton]

theorem HasPrefix_append_self (a b : GoString) : HasPrefix (a ++ b) a = true := by
  induction a with
  | nil => exact HasPrefix_nil _
  | cons x a ih => simp [HasPrefix, ih]

theorem HasPrefix_iff (s p : GoString) : HasPrefix s p = true ↔ ∃ t, s = p ++ t := by
  induction p generalizing s with
  | nil => simp [HasPrefix_nil]
  | cons b p ih =>
    cases s with
    | nil => simp [HasPrefix]
    | cons a s =>
      simp only [HasPrefix, Bool.and_eq_true, beq_iff_eq, ih, List.cons_append, List.cons.injEq]
      constructor
      · rintro ⟨h, t, rfl⟩; exact ⟨t, h, rfl⟩
      · rintro ⟨t, h, rfl⟩; exact ⟨h, t, rfl⟩

theorem Index_singleton_eq_none {s : GoString} {c : Nat} (h : c ∉ s) : Index s [c] = none := by
  induction s with
  | nil => simp [Index]
  | cons a s ih =>
    simp only [List.mem_cons, not_or] at h
    have : (a == c) = false := by simpa using fun e => h.1 e.symm
    simp [Index, HasPrefix_cons_singleton, this, ih h.2]

theorem Index_singleton_append {a : GoString} {c : Nat} (b : GoString) (h : c ∉ a) :
    Index (a ++ c :: b) [c] = some a.length := by
  induction a with
  | nil => simp [Index, HasPrefix_cons_singleton]
  | cons x a ih =>
    simp only [List.mem_cons, not_or] at h
    have : (x == c) = false := by simpa using fun e => h.1 e.symm
    simp [Index, HasPrefix_cons_singleton, this, ih h.2]

theorem Index_singleton_some {s : GoString} {c i : Nat} (h : Index s [c] = some i) :
    s = s.take i ++ c :: s.drop (i + 1) ∧ c ∉ s.take i := by
  induction s generalizing i with
  | nil => simp [Index] at h
  | cons a s ih =>
    simp only [Index, HasPrefix_cons_singleton] at h
    by_cases hac : a = c
    · subst hac
      simp at h; subst h; simp
    · have : (a == c) = false := by simpa using hac
      simp only [this, Bool.false_eq_true, if_false, Option.map_eq_some'] at h
      obtain ⟨j, hj, rfl⟩ := h
      obtain ⟨h1, h2⟩ := ih hj
      constructor
      · simp only [List.take_succ_cons, List.drop_succ_cons, List.cons_append, List.cons.injEq,
          true_and]
        exact h1
      · simp only [List.take_succ_cons, List.mem_cons, not_or]
        exact ⟨fun e => hac e.symm, h2⟩

theorem Index_singleton_isSome {s : GoString} {c : Nat} (h : c ∈ s) : (Index s [c]).isSome := by
  by_contra hn
  have hnone : Index s [c] = none := by
    cases hI : Index s [c] with
    | none => rfl
    | some j => simp [hI] at hn
  clear hn
  induction s with
  | nil => simp at h
  | cons a s ih =>
    simp only [Index, HasPrefix_cons_singleton] at hnone
    by_cases hac : a = c
    · simp [hac] at hnone
    · have hb : (a == c) = false := by simpa using hac
      simp only [hb, Bool.false_eq_true, if_false, Option.map_eq_none'] at hnone
      rcases List.mem_cons.1 h with h | h
      · exact hac h.symm
      · exact ih h hnone

theorem Contains_singleton (s : GoString) (c : Nat) : Contains s [c] = true ↔ c ∈ s := by
  unfold Contains
  constructor
  · intro h
    by_contra hc
    rw [Index_singleton_eq_none hc] at h
    simp at h
  · exact Index_singleton_isSome

theorem Cut_of_not_mem {s : GoString} {c : Nat} (h : c ∉ s) : Cut s [c] = (s, [], false) := by
  simp [Cut, Index_singleton_eq_none h]

theorem Cut_append {a : GoString} {c : Nat} (b : GoString) (h : c ∉ a) :
    Cut (a ++ c :: b) [c] = (a, b, true) := by
  simp [Cut, Index_singleton_append b h]

theorem Cut_fst_not_mem (s : GoString) (c : Nat) : c ∉ (Cut s [c]).1 := by
  unfold Cut
  cases h : Index s [c] with
  | none =>
    intro hc
    have := Index_singleton_isSome hc
    rw [h] at this; simp at this
  | some i => exact (Index_singleton_some h).2

theorem Cut_fst_sublist (s : GoString) (c : Nat) : ∀ x ∈ (Cut s [c]).1, x ∈ s := by
  unfold Cut
  cases h : Index s [c] with
  | none => intro x hx; exact hx
  | some i => intro x hx; exact List.mem_of_mem_take hx

theorem Cut_snd_sublist (s : GoString) (c : Nat) : ∀ x ∈ (Cut s [c]).2.1, x ∈ s := by
  unfold Cut
  cases h : Index s [c] with
  | none => intro x hx; simp at hx
  | some i => intro x hx; exact List.mem_of_mem_drop hx

/-! ### The last occurrence -/

theorem LastIndex_singleton_eq_none {s : GoString} {c : Nat} (h : c ∉ s) :
    LastIndex s [c] = none := by
  induction s with
  | nil => simp [LastIndex]
  | cons a s ih =>
    simp only [List.mem_cons, not_or] at h
    have : (a == c) = false := by simpa using fun e => h.1 e.symm
    simp [LastIndex, HasPrefix_cons_singleton, this, ih h.2]

theorem LastIndex_singleton_append (a : GoString) {c : Nat} {b : GoString} (h : c ∉ b) :
    LastIndex (a ++ c :: b) [c] = some a.length := by
  induction a with
  | nil => simp [LastIndex, HasPrefix_cons_singleton, LastIndex_singleton_eq_none h]
  | cons x a ih => simp [LastIndex, ih]

theorem LastIndex_singleton_none_not_mem {s : GoString} {c : Nat} (h : LastIndex s [c] = none) :
    c ∉ s := by
  induction s with
  | nil => simp
  | cons a s ih =>
    simp only [LastIndex, HasPrefix_cons_singleton] at h
    cases hl : LastIndex s [c] with
    | some j => simp [hl] at h
    | none =>
      simp only [hl] at h
      by_cases hac : a = c
      · simp [hac] at h
      · simp only [List.mem_cons, not_or]
        exact ⟨fun e => hac e.symm, ih hl⟩

theorem LastIndex_singleton_some {s : GoString} {c i : Nat} (h : LastIndex s [c] = some i) :
    s = s.take i ++ c :: s.drop (i + 1) ∧ c ∉ s.drop (i + 1) := by
  induction s generalizing i with
  | nil => simp [LastIndex] at h
  | cons a s ih =>
    simp only [LastIndex, HasPrefix_cons_singleton] at h
    cases hl : LastIndex s [c] with
    | some j =>
      simp only [hl, Option.some.injEq] at h
      subst h
      obtain ⟨h1, h2⟩ := ih hl
      exact ⟨by simpa using h1, by simpa using h2⟩
    | none =>
      simp only [hl] at h
      by_cases hac : a = c
      · subst hac
        simp at h; subst h
        exact ⟨by simp, by simpa using LastIndex_singleton_none_not_mem hl⟩
      · have : (a == c) = false := by simpa using hac
        simp [this] at h

end strings

namespace url

open Encoding

/-! ### Bytes that are escaped -/

theorem shouldEscape_of_ge {c : Nat} (mode : Encoding) (h : 128 ≤ c) :
    shouldEscape c mode = true := by
  unfold shouldEscape hostSubDelim
  have h1 : ¬ ((97 ≤ c ∧ c ≤ 122) ∨ (65 ≤ c ∧ c ≤ 90) ∨ (48 ≤ c ∧ c ≤ 57)) := by omega
  have h2 : ¬ (c = 45 ∨ c = 95 ∨ c = 46 ∨ c = 126) := by omega
  have h3 : c ∉ [36, 38, 43, 44, 47, 58, 59, 61, 63, 64] := by
    simp only [List.mem_cons, List.mem_singleton, List.not_mem_nil, or_false]; omega
  have h4 : c ∉ [33, 36, 38, 39, 40, 41, 42, 43, 44, 59, 61, 58, 91, 93, 60, 62, 34] := by
    simp only [List.mem_cons, List.mem_singleton, List.not_mem_nil, or_false]; omega
  have h5 : ¬ (c = 33 ∨ c = 40 ∨ c = 41 ∨ c = 42) := by omega
  simp [h1, h2, h3, h4, h5]

theorem lt_of_not_shouldEscape {c : Nat} {mode : Encoding} (h : shouldEscape c mode = false) :
    c < 128 := by
  by_contra hc
  rw [shouldEscape_of_ge mode (by omega)] at h
  exact absurd h (by simp)

/-- What an unescaped byte of a path is. -/
theorem not_shouldEscape_path {c : Nat} (h : shouldEscape c encodePath = false) :
    32 < c ∧ c < 127 ∧ c ≠ 35 ∧ c ≠ 37 ∧ c ≠ 63 ∧ c ≠ 91 ∧ c ≠ 93 := by
  have hc := lt_of_not_shouldEscape h
  revert h
  revert c
  decide

/-- What an unescaped byte of a host is. -/
theorem not_shouldEscape_host {c : Nat} (h : shouldEscape c encodeHost = false) :
    32 < c ∧ c < 127 ∧ c ≠ 35 ∧ c ≠ 37 ∧ c ≠ 63 ∧ c ≠ 47 ∧ c ≠ 64 := by
  have hc := lt_of_not_shouldEscape h
  revert h
  revert c
  decide

/-- What an unescaped byte of a user name or password is. -/
theorem not_shouldEscape_user {c : Nat} (h : shouldEscape c encodeUserPassword = false) :
    32 < c ∧ c < 127 ∧ c ≠ 35 ∧ c ≠ 37 ∧ c ≠ 63 ∧ c ≠ 47 ∧ c ≠ 64 ∧ c ≠ 58 := by
  have hc := lt_of_not_shouldEscape h
  revert h
  revert c
  decide

/-! ### Hex digits -/

theorem upperhex_range (n : Nat) :
    (48 ≤ upperhex n ∧ upperhex n ≤ 57) ∨ (65 ≤ upperhex n ∧ upperhex n ≤ 71) := by
  unfold upperhex
  split_ifs <;> omega

theorem ishex_upperhex {n : Nat} (h : n < 16) : ishex (upperhex n) = true := by
  revert n; decide

theorem unhex_upperhex {n : Nat} (h : n < 16) : unhex (upperhex n) = n := by
  revert n; decide

theorem not_ishex_upperhex {n : Nat} (h : 16 ≤ n) : ishex (upperhex n) = false := by
  have : upperhex n = 71 := by unfold upperhex; split_ifs <;> omega
  rw [this]; decide

/-! ### The shape of `escape` -/

/-- The image of one byte under `escape`. -/
theorem escape_cons (c : Nat) (s : GoString) (mode : Encoding) :
    escape (c :: s) mode
      = (if c = 32 ∧ mode = encodeQueryComponent then [43]
         else if shouldEscape c mode then [37, upperhex (c / 16), upperhex (c % 16)]
         else [c]) ++ escape s mode := by
  simp [escape]

theorem escape_nil (mode : Encoding) : escape [] mode = [] := rfl

theorem escape_append (a b : GoString) (mode : Encoding) :
    escape (a ++ b) mode = escape a mode ++ escape b mode := by
  simp [escape]

theorem escape_cons_of_shouldEscape {c : Nat} (s : GoString) {mode : Encoding}
    (hm : mode ≠ encodeQueryComponent) (h : shouldEscape c mode = true) :
    escape (c :: s) mode = 37 :: upperhex (c / 16) :: upperhex (c % 16) :: escape s mode := by
  simp [escape_cons, hm, h]

theorem escape_cons_of_not_shouldEscape {c : Nat} (s : GoString) {mode : Encoding}
    (h : shouldEscape c mode = false) :
    escape (c :: s) mode = c :: escape s mode := by
  have h32 : c ≠ 32 := by
    intro e; subst e
    have : shouldEscape 32 mode = true := by cases mode <;> decide
    rw [this] at h; exact absurd h (by simp)
  simp [escape_cons, h, h32]

/-- Every byte `escape` writes is a `%`, a hex digit (or `G`), or a byte of the
input that needs no escaping. -/
theorem mem_escape {x : Nat} {s : GoString} {mode : Encoding}
    (hm : mode ≠ encodeQueryComponent) (h : x ∈ escape s mode) :
    x = 37 ∨ (48 ≤ x ∧ x ≤ 57) ∨ (65 ≤ x ∧ x ≤ 71) ∨ (x ∈ s ∧ shouldEscape x mode = false) := by
  induction s with
  | nil => simp [escape_nil] at h
  | cons c s ih =>
    by_cases hc : shouldEscape c mode = true
    · rw [escape_cons_of_shouldEscape s hm hc] at h
      simp only [List.mem_cons] at h
      rcases h with h | h | h | h
      · exact Or.inl h
      · rcases upperhex_range (c / 16) with r | r
        · exact Or.inr (Or.inl (h ▸ r))
        · exact Or.inr (Or.inr (Or.inl (h ▸ r)))
      · rcases upperhex_range (c % 16) with r | r
        · exact Or.inr (Or.inl (h ▸ r))
        · exact Or.inr (Or.inr (Or.inl (h ▸ r)))
      · rcases ih h with r | r | r | ⟨r1, r2⟩
        · exact Or.inl r
        · exact Or.inr (Or.inl r)
        · exact Or.inr (Or.inr (Or.inl r))
        · exact Or.inr (Or.inr (Or.inr ⟨List.mem_cons_of_mem _ r1, r2⟩))
    · have hc2 : shouldEscape c mode = false := by simpa using hc
      rw [escape_cons_of_not_shouldEscape s hc2] at h
      rcases List.mem_cons.1 h with h | h
      · subst h; exact Or.inr (Or.inr (Or.inr ⟨List.mem_cons_self _ _, hc2⟩))
      · rcases ih h with r | r | r | ⟨r1, r2⟩
        · exact Or.inl r
        · exact Or.inr (Or.inl r)
        · exact Or.inr (Or.inr (Or.inl r))
        · exact Or.inr (Or.inr (Or.inr ⟨List.mem_cons_of_mem _ r1, r2⟩))

/-- A byte that `escape` neither writes as a digit nor as `%`, and that is
escaped in the mode, does not occur in the output. -/
theorem not_mem_escape {x : Nat} (s : GoString) {mode : Encoding}
    (hm : mode ≠ encodeQueryComponent) (hx : shouldEscape x mode = true)
    (h37 : x ≠ 37) (hd : ¬ (48 ≤ x ∧ x ≤ 57)) (hl : ¬ (65 ≤ x ∧ x ≤ 71)) :
    x ∉ escape s mode := by
  intro h
  rcases mem_escape hm h with r | r | r | ⟨_, r⟩
  · exact h37 r
  · exact hd r
  · exact hl r
  · rw [hx] at r; exact absurd r (by simp)

/-- A byte that is never escaped in the mode occurs in the output exactly when it
occurs in the input (it is no `%` and no hex digit). -/
theorem mem_escape_iff {x : Nat} (s : GoString) {mode : Encoding}
    (hm : mode ≠ encodeQueryComponent) (hx : shouldEscape x mode = false)
    (hd : ¬ (48 ≤ x ∧ x ≤ 57)) (hl : ¬ (65 ≤ x ∧ x ≤ 71)) :
    x ∈ escape s mode ↔ x ∈ s := by
  constructor
  · intro h
    rcases mem_escape hm h with r | r | r | ⟨r, _⟩
    · subst r
      have : shouldEscape 37 mode = true := by cases mode <;> decide
      rw [this] at hx; exact absurd hx (by simp)
    · exact absurd r hd
    · exact absurd r hl
    · exact r
  · intro h
    induction s with
    | nil => simp at h
    | cons c s ih =>
      rw [escape_cons]
      rcases List.mem_cons.1 h with h | h
      · subst h
        have h32 : x ≠ 32 := by
          intro e; subst e
          have : shouldEscape 32 mode = true := by cases mode <;> decide
          rw [this] at hx; exact absurd hx (by simp)
        simp [hx, h32]
      · exact List.mem_append_right _ (ih h)

theorem escape_ascii (s : GoString) {mode : Encoding} (hm : mode ≠ encodeQueryComponent) :
    ∀ x ∈ escape s mode, x < 128 := by
  intro x h
  rcases mem_escape hm h with r | r | r | ⟨_, r⟩
  · omega
  · omega
  · omega
  · exact lt_of_not_shouldEscape r

theorem escape_path_clean (s : GoString) : Clean (escape s encodePath) := by
  intro x h
  rcases mem_escape (by decide) h with r | r | r | ⟨_, r⟩
  · omega
  · omega
  · omega
  · have := not_shouldEscape_path r; omega

theorem escape_host_clean (s : GoString) : Clean (escape s encodeHost) := by
  intro x h
  rcases mem_escape (by decide) h with r | r | r | ⟨_, r⟩
  · omega
  · omega
  · omega
  · have := not_shouldEscape_host r; omega

theorem escape_user_clean (s : GoString) : Clean (escape s encodeUserPassword) := by
  intro x h
  rcases mem_escape (by decide) h with r | r | r | ⟨_, r⟩
  · omega
  · omega
  · omega
  · have := not_shouldEscape_user r; omega

end url

namespace url

open Encoding

/-! ### The equations of `unescape` -/

theorem unescapeCheck_nil (mode : Encoding) : unescapeCheck mode [] = .ok () := by
  simp [unescapeCheck]

theorem unescapeCheck_percent (mode : Encoding) (a b : Nat) (rest : GoString) :
    unescapeCheck mode (37 :: a :: b :: rest)
      = if !ishex a || !ishex b then .error (.escapeError [37, a, b])
        else if mode = encodeHost ∧ unhex a < 8 ∧ [37, a, b] ≠ [37, 50, 53] then
          .error (.escapeError [37, a, b])
        else if mode = encodeZone ∧ [37, a, b] ≠ [37, 50, 53] ∧ unhex a * 16 + unhex b ≠ 32
            ∧ shouldEscape (unhex a * 16 + unhex b) encodeHost then
          .error (.escapeError [37, a, b])
        else unescapeCheck mode rest := by
  simp [unescapeCheck]

theorem unescapeCheck_other (mode : Encoding) {c : Nat} (rest : GoString) (h : c ≠ 37) :
    unescapeCheck mode (c :: rest)
      = if (mode = encodeHost ∨ mode = encodeZone) ∧ c < 0x80 ∧ shouldEscape c encodeHost then
          .error (.invalidHost [c])
        else unescapeCheck mode rest := by
  conv_lhs => unfold unescapeCheck
  split
  · rename_i heq; simp at heq
  · rename_i heq; simp at heq; exact absurd heq.1 h
  · rename_i heq; simp at heq; exact absurd heq.1 h
  · rename_i heq
    simp only [List.cons.injEq] at heq
    obtain ⟨rfl, rfl⟩ := heq
    rfl

theorem unescapeBuild_nil (mode : Encoding) : unescapeBuild mode [] = [] := by
  simp [unescapeBuild]

theorem unescapeBuild_percent (mode : Encoding) (a b : Nat) (rest : GoString) :
    unescapeBuild mode (37 :: a :: b :: rest)
      = (unhex a * 16 + unhex b) :: unescapeBuild mode rest := by
  simp [unescapeBuild]

theorem unescapeBuild_other (mode : Encoding) {c : Nat} (rest : GoString) (h : c ≠ 37) :
    unescapeBuild mode (c :: rest)
      = (if c = 43 ∧ mode = encodeQueryComponent then 32 else c) :: unescapeBuild mode rest := by
  conv_lhs => unfold unescapeBuild
  split
  · rename_i heq; simp at heq
  · rename_i heq; simp at heq; exact absurd heq.1 h
  · rename_i heq
    simp only [List.cons.injEq] at heq
    obtain ⟨rfl, rfl⟩ := heq
    rfl

theorem unhex_lt (c : Nat) : unhex c < 16 := by
  unfold unhex
  split_ifs <;> omega

/-! ### `unescape` after `escape` -/

theorem shouldEscape_percent (mode : Encoding) : shouldEscape 37 mode = true := by
  cases mode <;> decide

theorem ne_percent_of_not_shouldEscape {c : Nat} {mode : Encoding}
    (h : shouldEscape c mode = false) : c ≠ 37 := by
  intro e; subst e; rw [shouldEscape_percent] at h; exact absurd h (by simp)

theorem redecode_lt (mode : Encoding) (c : Nat) : redecode mode c < 256 := by
  unfold redecode
  split_ifs with h
  · have := unhex_lt (upperhex (c / 16)); have := unhex_lt (upperhex (c % 16)); omega
  · have := lt_of_not_shouldEscape (by simpa using h : shouldEscape c mode = false); omega

theorem redecode_of_lt (mode : Encoding) {c : Nat} (h : c < 256) : redecode mode c = c := by
  unfold redecode
  split_ifs
  · rw [unhex_upperhex (by omega), unhex_upperhex (by omega)]; omega
  · rfl

theorem redecode_path_eq_slash {c : Nat} (h : redecode encodePath c = 47) : c = 47 := by
  unfold redecode at h
  split_ifs at h with hs
  · by_cases hc : c < 256
    · rw [unhex_upperhex (by omega), unhex_upperhex (by omega)] at h
      have : c = 47 := by omega
      subst this; revert hs; decide
    · have h1 : upperhex (c / 16) = 71 := by unfold upperhex; split_ifs <;> omega
      rw [h1] at h
      have h2 := unhex_lt (upperhex (c % 16))
      have h3 : unhex 71 = 0 := by decide
      omega
  · exact h

/-- `unescape` reads the image of `s` under `escape` back byte by byte. -/
theorem unescapeBuild_escape_append (mode mode1 : Encoding) (hm : mode ≠ encodeQueryComponent)
    (hm1 : mode1 ≠ encodeQueryComponent) (s t : GoString) :
    unescapeBuild mode1 (escape s mode ++ t) = s.map (redecode mode) ++ unescapeBuild mode1 t := by
  induction s with
  | nil => simp [escape_nil]
  | cons c s ih =>
    by_cases hc : shouldEscape c mode = true
    · rw [escape_cons_of_shouldEscape s hm hc]
      simp only [List.cons_append, unescapeBuild_percent, ih, List.map_cons, redecode, hc, if_true]
    · have hc2 : shouldEscape c mode = false := by simpa using hc
      rw [escape_cons_of_not_shouldEscape s hc2]
      simp only [List.cons_append, unescapeBuild_other mode1 _ (ne_percent_of_not_shouldEscape hc2),
        ih, List.map_cons, redecode, hc2, hm1, and_false, if_false, Bool.false_eq_true]

theorem unescapeBuild_escape (mode mode1 : Encoding) (hm : mode ≠ encodeQueryComponent)
    (hm1 : mode1 ≠ encodeQueryComponent) (s : GoString) :
    unescapeBuild mode1 (escape s mode) = s.map (redecode mode) := by
  have := unescapeBuild_escape_append mode mode1 hm hm1 s []
  simpa [unescapeBuild_nil] using this

theorem unescapeBuild_escape_of_bytes (mode mode1 : Encoding) (hm : mode ≠ encodeQueryComponent)
    (hm1 : mode1 ≠ encodeQueryComponent) {s : GoString} (hs : IsBytes s) :
    unescapeBuild mode1 (escape s mode) = s := by
  rw [unescapeBuild_escape mode mode1 hm hm1]
  conv_rhs => rw [← List.map_id s]
  apply List.map_congr_left
  intro c hc
  exact redecode_of_lt mode (hs c hc)

/-- In a path, a user name or a password, `unescape` accepts what `escape` wrote
for bytes. -/
theorem unescapeCheck_escape_append {mode : Encoding}
    (hm : mode = encodePath ∨ mode = encodeUserPassword) {s : GoString} (hs : IsBytes s)
    (t : GoString) : unescapeCheck mode (escape s mode ++ t) = unescapeCheck mode t := by
  have hq : mode ≠ encodeQueryComponent := by rcases hm with h | h <;> rw [h] <;> decide
  have hh : mode ≠ encodeHost := by rcases hm with h | h <;> rw [h] <;> decide
  have hz : mode ≠ encodeZone := by rcases hm with h | h <;> rw [h] <;> decide
  induction s with
  | nil => simp [escape_nil]
  | cons c s ih =>
    have hc256 : c < 256 := hs c (List.mem_cons_self _ _)
    have ih1 := ih (fun x hx => hs x (List.mem_cons_of_mem _ hx))
    by_cases hc : shouldEscape c mode = true
    · rw [escape_cons_of_shouldEscape s hq hc]
      simp only [List.cons_append, unescapeCheck_percent, ishex_upperhex (show c / 16 < 16 by omega),
        ishex_upperhex (show c % 16 < 16 by omega), hh, hz, false_and, ih1, if_false,
        Bool.not_true, Bool.or_self, Bool.false_eq_true]
    · have hc2 : shouldEscape c mode = false := by simpa using hc
      rw [escape_cons_of_not_shouldEscape s hc2]
      simp only [List.cons_append, unescapeCheck_other mode _ (ne_percent_of_not_shouldEscape hc2),
        hh, hz, or_self, false_and, ih1, if_false]

theorem unescapeCheck_escape {mode : Encoding}
    (hm : mode = encodePath ∨ mode = encodeUserPassword) {s : GoString} (hs : IsBytes s) :
    unescapeCheck mode (escape s mode) = .ok () := by
  have := unescapeCheck_escape_append hm hs []
  simpa [unescapeCheck_nil] using this

end url

/-! ### Decoding next to an ASCII byte -/

namespace utf8

theorem firstByte_eq (s0 : Nat) :
    (firstByte s0 = (0, 0, 0) ∧ (s0 < 0xC2 ∨ 0xF5 ≤ s0))
    ∨ (firstByte s0 = (2, 0x80, 0xBF) ∧ 0xC2 ≤ s0 ∧ s0 < 0xE0)
    ∨ (firstByte s0 = (3, 0xA0, 0xBF) ∧ s0 = 0xE0)
    ∨ (firstByte s0 = (3, 0x80, 0x9F) ∧ s0 = 0xED)
    ∨ (firstByte s0 = (3, 0x80, 0xBF) ∧ 0xE1 ≤ s0 ∧ s0 < 0xF0)
    ∨ (firstByte s0 = (4, 0x90, 0xBF) ∧ s0 = 0xF0)
    ∨ (firstByte s0 = (4, 0x80, 0xBF) ∧ 0xF1 ≤ s0 ∧ s0 < 0xF4)
    ∨ (firstByte s0 = (4, 0x80, 0x8F) ∧ s0 = 0xF4) := by
  unfold firstByte
  by_cases h1 : s0 < 0xC2
  · rw [if_pos h1]; exact Or.inl ⟨rfl, Or.inl h1⟩
  rw [if_neg h1]
  by_cases h2 : s0 < 0xE0
  · rw [if_pos h2]; exact Or.inr (Or.inl ⟨rfl, by omega, h2⟩)
  rw [if_neg h2]
  by_cases h3 : s0 = 0xE0
  · rw [if_pos h3]; exact Or.inr (Or.inr (Or.inl ⟨rfl, h3⟩))
  rw [if_neg h3]
  by_cases h4 : s0 = 0xED
  · rw [if_pos h4]; exact Or.inr (Or.inr (Or.inr (Or.inl ⟨rfl, h4⟩)))
  rw [if_neg h4]
  by_cases h5 : s0 < 0xF0
  · rw [if_pos h5]; exact Or.inr (Or.inr (Or.inr (Or.inr (Or.inl ⟨rfl, by omega, h5⟩))))
  rw [if_neg h5]
  by_cases h6 : s0 = 0xF0
  · rw [if_pos h6]; exact Or.inr (Or.inr (Or.inr (Or.inr (Or.inr (Or.inl ⟨rfl, h6⟩)))))
  rw [if_neg h6]
  by_cases h7 : s0 < 0xF4
  · rw [if_pos h7]
    exact Or.inr (Or.inr (Or.inr (Or.inr (Or.inr (Or.inr (Or.inl ⟨rfl, by omega, h7⟩))))))
  rw [if_neg h7]
  by_cases h8 : s0 = 0xF4
  · rw [if_pos h8]
    exact Or.inr (Or.inr (Or.inr (Or.inr (Or.inr (Or.inr (Or.inr ⟨rfl, h8⟩))))))
  rw [if_neg h8]
  exact Or.inl ⟨rfl, Or.inr (by omega)⟩

theorem firstByte_two {s0 : Nat} (h : (firstByte s0).1 = 2) : 0xC2 ≤ s0 ∧ s0 < 0xE0 := by
  rcases firstByte_eq s0 with ⟨e, _⟩ | ⟨e, h1⟩ | ⟨e, _⟩ | ⟨e, _⟩ | ⟨e, _⟩ | ⟨e, _⟩ | ⟨e, _⟩ | ⟨e, _⟩ <;>
    rw [e] at h <;> first | exact h1 | exact absurd h (by decide)

theorem firstByte_three {s0 : Nat} (h : (firstByte s0).1 = 3) :
    (s0 = 0xE0 ∧ (firstByte s0).2.1 = 0xA0) ∨ (0xE1 ≤ s0 ∧ s0 < 0xF0) := by
  rcases firstByte_eq s0 with ⟨e, _⟩ | ⟨e, _⟩ | ⟨e, h1⟩ | ⟨e, h1⟩ | ⟨e, h1⟩ | ⟨e, _⟩ | ⟨e, _⟩ | ⟨e, _⟩ <;>
    rw [e] at h ⊢ <;> first
      | exact absurd h (by decide)
      | exact Or.inl ⟨h1, rfl⟩
      | exact Or.inr h1
      | (right; omega)

theorem firstByte_four {s0 : Nat} (h : (firstByte s0).1 = 4) :
    (s0 = 0xF0 ∧ (firstByte s0).2.1 = 0x90) ∨ (0xF1 ≤ s0 ∧ s0 < 0xF5) := by
  rcases firstByte_eq s0 with ⟨e, _⟩ | ⟨e, _⟩ | ⟨e, _⟩ | ⟨e, _⟩ | ⟨e, _⟩ | ⟨e, h1⟩ | ⟨e, h1⟩ | ⟨e, h1⟩ <;>
    rw [e] at h ⊢ <;> first
      | exact absurd h (by decide)
      | exact Or.inl ⟨h1, rfl⟩
      | (right; omega)
theorem firstByte_size_le (s0 : Nat) : (firstByte s0).1 ≤ 4 := by
  rcases firstByte_eq s0 with ⟨e, _⟩ | ⟨e, _⟩ | ⟨e, _⟩ | ⟨e, _⟩ | ⟨e, _⟩ | ⟨e, _⟩ | ⟨e, _⟩ | ⟨e, _⟩ <;>
    rw [e] <;> decide

theorem isCont_iff (c : Nat) : isCont c = true ↔ 0x80 ≤ c ∧ c ≤ 0xBF := by
  simp [isCont]

theorem DecodeRune_ascii {s0 : Nat} (rest : GoString) (h : s0 < 0x80) :
    DecodeRune (s0 :: rest) = (s0, 1) := by
  simp [DecodeRune, h]

theorem DecodeRune_cases (s0 : Nat) (rest : GoString) :
    (s0 < 0x80 ∧ DecodeRune (s0 :: rest) = (s0, 1))
    ∨ (¬ s0 < 0x80 ∧ DecodeRune (s0 :: rest) = (RuneError, 1))
    ∨ (¬ s0 < 0x80 ∧ 2 ≤ (firstByte s0).1
        ∧ (rest.take ((firstByte s0).1 - 1)).length = (firstByte s0).1 - 1
        ∧ (rest.take ((firstByte s0).1 - 1)).all isCont = true
        ∧ (rest.take ((firstByte s0).1 - 1)).head?.all
            (fun s1 => (firstByte s0).2.1 ≤ s1 && s1 ≤ (firstByte s0).2.2) = true
        ∧ DecodeRune (s0 :: rest)
            = ((rest.take ((firstByte s0).1 - 1)).foldl (fun r b => r * 0x40 + b % 0x40)
                (s0 % (if (firstByte s0).1 = 2 then 0x20
                  else if (firstByte s0).1 = 3 then 0x10 else 0x08)), (firstByte s0).1)) := by
  by_cases h1 : s0 < 0x80
  · left; exact ⟨h1, by simp [DecodeRune, h1]⟩
  · right
    by_cases h2 : 2 ≤ (firstByte s0).1
        ∧ (rest.take ((firstByte s0).1 - 1)).length = (firstByte s0).1 - 1
        ∧ (rest.take ((firstByte s0).1 - 1)).all isCont = true
        ∧ (rest.take ((firstByte s0).1 - 1)).head?.all
            (fun s1 => (firstByte s0).2.1 ≤ s1 && s1 ≤ (firstByte s0).2.2) = true
    · right
      refine ⟨h1, h2.1, h2.2.1, h2.2.2.1, h2.2.2.2, ?_⟩
      simp only [DecodeRune, h1, if_false]
      rw [if_pos h2]
    · left
      refine ⟨h1, ?_⟩
      simp only [DecodeRune, h1, if_false]
      rw [if_neg h2]

/-- The width of the first rune is at least 1 and at most the length. -/
theorem DecodeRune_width (s0 : Nat) (rest : GoString) :
    1 ≤ (DecodeRune (s0 :: rest)).2 ∧ (DecodeRune (s0 :: rest)).2 ≤ rest.length + 1 := by
  rcases DecodeRune_cases s0 rest with ⟨_, e⟩ | ⟨_, e⟩ | ⟨_, h2a, h2b, _, _, e⟩
  · rw [e]; simp
  · rw [e]; simp
  · rw [e]
    simp only [List.length_take] at h2b
    simp only
    omega

/-- A byte after the text does not change the first rune when it is an ASCII byte. -/
theorem DecodeRune_append_ascii (s0 : Nat) (rest : GoString) {c : Nat} (t : GoString)
    (hc : c < 0x80) : DecodeRune (s0 :: (rest ++ c :: t)) = DecodeRune (s0 :: rest) := by
  simp only [DecodeRune]
  by_cases h1 : s0 < 0x80
  · simp [h1]
  · simp only [h1, if_false]
    by_cases hlen : (firstByte s0).1 - 1 ≤ rest.length
    · rw [List.take_append_of_le_length hlen]
    · have hlen2 : rest.length < (firstByte s0).1 - 1 := by omega
      have hnc : isCont c = false := by
        cases hh : isCont c
        · rfl
        · rw [isCont_iff] at hh; omega
      rw [if_neg, if_neg]
      · rintro ⟨_, h2, _⟩
        simp only [List.length_take] at h2
        omega
      · rintro ⟨_, _, h3, _⟩
        have hmem : c ∈ (rest ++ c :: t).take ((firstByte s0).1 - 1) := by
          rw [List.take_append_eq_append_take]
          apply List.mem_append_right
          have : (firstByte s0).1 - 1 - rest.length = ((firstByte s0).1 - 1 - rest.length - 1) + 1 := by
            omega
          rw [this, List.take_succ_cons]
          exact List.mem_cons_self _ _
        have := List.all_eq_true.1 h3 c hmem
        rw [hnc] at this; exact absurd this (by simp)

/-- A rune that is not an ASCII byte is above 0x7F. -/
theorem DecodeRune_rune {s0 : Nat} (rest : GoString) (h : ¬ s0 < 0x80) :
    0x7F < (DecodeRune (s0 :: rest)).1 := by
  rcases DecodeRune_cases s0 rest with ⟨h0, _⟩ | ⟨_, e⟩ | ⟨_, h2a, h2b, h2c, h2d, e⟩
  · exact absurd h0 h
  · rw [e]; simp [RuneError]
  · rw [e]
    have hsz := firstByte_size_le s0
    generalize hr : rest.take ((firstByte s0).1 - 1) = tl at h2b h2c h2d
    match tl, h2b, h2c, h2d with
    | [], h2b, _, _ => simp at h2b; omega
    | [s1], h2b, h2c, h2d =>
      simp only [List.length_singleton] at h2b
      have hsz2 : (firstByte s0).1 = 2 := by omega
      simp only [List.foldl_cons, List.foldl_nil, hsz2, if_true]
      have := firstByte_two hsz2
      omega
    | [s1, s2], h2b, h2c, h2d =>
      simp only [List.length_cons, List.length_nil] at h2b
      have hsz2 : (firstByte s0).1 = 3 := by omega
      simp only [List.foldl_cons, List.foldl_nil, hsz2]
      simp only [List.head?_cons, Option.all_some, Bool.and_eq_true, decide_eq_true_eq] at h2d
      have := firstByte_three hsz2
      simp only [List.all_cons, Bool.and_eq_true, isCont_iff] at h2c
      simp only [show (3 : Nat) = 2 ↔ False by decide, if_false, if_true]
      omega
    | [s1, s2, s3], h2b, h2c, h2d =>
      simp only [List.length_cons, List.length_nil] at h2b
      have hsz2 : (firstByte s0).1 = 4 := by omega
      simp only [List.foldl_cons, List.foldl_nil, hsz2]
      simp only [List.head?_cons, Option.all_some, Bool.and_eq_true, decide_eq_true_eq] at h2d
      have := firstByte_four hsz2
      simp only [List.all_cons, Bool.and_eq_true, isCont_iff] at h2c
      simp only [show (4 : Nat) = 2 ↔ False by decide, show (4 : Nat) = 3 ↔ False by decide,
        if_false]
      omega
    | _ :: _ :: _ :: _ :: _, h2b, _, _ =>
      simp only [List.length_cons] at h2b; omega

/-- The encoding of a rune above 0x7F has only bytes from 0x80 to 0xFF. -/
theorem EncodeRune_bytes {r : Nat} (h : 0x7F < r) : ∀ c ∈ EncodeRune r, 0x80 ≤ c ∧ c < 256 := by
  unfold EncodeRune
  split_ifs with h1 h2 h3 h4
  · omega
  · intro c hc; simp at hc; omega
  · intro c hc; simp at hc; omega
  · intro c hc; simp at hc; omega
  · intro c hc; simp at hc
    push_neg at h3
    omega

theorem EncodeRune_ascii {r : Nat} (h : r < 0x80) : EncodeRune r = [r] := by
  simp [EncodeRune, h]

/-- More fuel than bytes changes nothing. -/
theorem runes_fuel : ∀ (n : Nat) (s : GoString) (fuel : Nat), s.length ≤ n → s.length ≤ fuel →
    runes fuel s = runes s.length s := by
  intro n
  induction n with
  | zero =>
    intro s fuel h _
    have : s = [] := List.length_eq_zero.1 (by omega)
    subst this
    cases fuel <;> rfl
  | succ n ih =>
    intro s fuel h hf
    cases s with
    | nil => cases fuel <;> rfl
    | cons s0 rest =>
      cases fuel with
      | zero => simp at hf
      | succ fuel =>
        simp only [List.length_cons] at h hf ⊢
        simp only [runes]
        have hl : (rest.drop ((DecodeRune (s0 :: rest)).2 - 1)).length ≤ rest.length := by
          simp
        rw [ih _ fuel (by omega) (by omega), ih _ rest.length (by omega) (by omega)]

theorem runes_cons (s0 : Nat) (rest : GoString) :
    runes (s0 :: rest).length (s0 :: rest)
      = (DecodeRune (s0 :: rest)).1
          :: runes (rest.drop ((DecodeRune (s0 :: rest)).2 - 1)).length
              (rest.drop ((DecodeRune (s0 :: rest)).2 - 1)) := by
  simp only [List.length_cons, runes]
  rw [runes_fuel rest.length _ rest.length (by simp) (by simp)]

theorem runes_cons_ascii {s0 : Nat} (rest : GoString) (h : s0 < 0x80) :
    runes (s0 :: rest).length (s0 :: rest) = s0 :: runes rest.length rest := by
  rw [runes_cons, DecodeRune_ascii rest h]
  simp

/-- The runes of a text before an ASCII byte do not depend on what follows. -/
theorem runes_append_ascii : ∀ (n : Nat) (x : GoString) {c : Nat} (t : GoString), x.length ≤ n →
    c < 0x80 →
    runes (x ++ c :: t).length (x ++ c :: t) = runes x.length x ++ c :: runes t.length t := by
  intro n
  induction n with
  | zero =>
    intro x c t h hc
    have : x = [] := List.length_eq_zero.1 (by omega)
    subst this
    simp only [List.nil_append, List.length_nil]
    rw [runes_cons_ascii t hc]
    cases t <;> rfl
  | succ n ih =>
    intro x c t h hc
    cases x with
    | nil =>
      simp only [List.nil_append, List.length_nil]
      rw [runes_cons_ascii t hc]
      cases t <;> rfl
    | cons s0 rest =>
      simp only [List.cons_append]
      rw [runes_cons, runes_cons, DecodeRune_append_ascii s0 rest t hc]
      have hw := DecodeRune_width s0 rest
      rw [List.drop_append_of_le_length (by omega)]
      simp only [List.cons_append, List.cons.injEq, true_and]
      simp only [List.length_cons] at h
      exact ih _ t (by simp; omega) hc

end utf8

namespace strings

theorem Map_eq (f : Nat → Nat) (s : GoString) :
    Map f s = ((utf8.runes s.length s).map (fun r => utf8.EncodeRune (f r))).flatten := rfl

theorem Map_nil (f : Nat → Nat) : Map f [] = [] := rfl

/-- `Map` works on the texts before and after an ASCII byte separately. -/
theorem Map_append_ascii (f : Nat → Nat) (x : GoString) {c : Nat} (t : GoString) (hc : c < 0x80) :
    Map f (x ++ c :: t) = Map f x ++ utf8.EncodeRune (f c) ++ Map f t := by
  simp only [Map_eq, utf8.runes_append_ascii x.length x t le_rfl hc, List.map_append,
    List.map_cons, List.flatten_append, List.flatten_cons, List.append_assoc]

theorem Map_cons_ascii (f : Nat → Nat) {c : Nat} (t : GoString) (hc : c < 0x80) :
    Map f (c :: t) = utf8.EncodeRune (f c) ++ Map f t := by
  have := Map_append_ascii f [] t hc
  simpa [Map_nil] using this

theorem lowerByte_lt {c : Nat} (h : c < 0x80) : lowerByte c < 0x80 := by
  unfold lowerByte; split_ifs <;> omega

theorem unicodeToLower_ascii (caseTable : Nat → Nat) {c : Nat} (h : c < 0x80) :
    unicodeToLower caseTable c = lowerByte c := by
  simp [unicodeToLower, show c ≤ 0x7F by omega]

theorem ToLowerMap_append_ascii (caseTable : Nat → Nat) (x : GoString) {c : Nat} (t : GoString)
    (hc : c < 0x80) :
    Map (unicodeToLower caseTable) (x ++ c :: t)
      = Map (unicodeToLower caseTable) x ++ lowerByte c :: Map (unicodeToLower caseTable) t := by
  rw [Map_append_ascii _ x t hc, unicodeToLower_ascii caseTable hc,
    utf8.EncodeRune_ascii (lowerByte_lt hc)]
  simp

theorem ToLowerMap_cons_ascii (caseTable : Nat → Nat) {c : Nat} (t : GoString) (hc : c < 0x80) :
    Map (unicodeToLower caseTable) (c :: t)
      = lowerByte c :: Map (unicodeToLower caseTable) t := by
  have := ToLowerMap_append_ascii caseTable [] t hc
  simpa [Map_nil] using this

/-- On an all-ASCII text `Map(unicode.ToLower, s)` is the byte-wise lower-casing. -/
theorem ToLowerMap_of_ascii (caseTable : Nat → Nat) : ∀ s : GoString, (∀ c ∈ s, c < 0x80) →
    Map (unicodeToLower caseTable) s = s.map lowerByte := by
  intro s
  induction s with
  | nil => intro _; rfl
  | cons a s ih =>
    intro h
    rw [ToLowerMap_cons_ascii caseTable s (h a (List.mem_cons_self _ _)),
      ih (fun c hc => h c (List.mem_cons_of_mem _ hc))]
    rfl

/-- `ToLower` is `Map(unicode.ToLower, s)` on every text. -/
theorem ToLower_eq_Map (caseTable : Nat → Nat) (s : GoString) :
    ToLower caseTable s = Map (unicodeToLower caseTable) s := by
  unfold ToLower
  split_ifs with h
  · rw [ToLowerMap_of_ascii caseTable s]
    intro c hc
    have := List.all_eq_true.1 h c hc
    simpa using this
  · rfl

/-- Every byte of a lower-cased text is a byte from 0x80 to 0xFF, an ASCII
lower-case letter, or the lower-case form of an ASCII byte of the text. -/
theorem mem_ToLowerMap {caseTable : Nat → Nat} (hT : CaseTableOK caseTable) :
    ∀ (n : Nat) (s : GoString), s.length ≤ n → ∀ y ∈ Map (unicodeToLower caseTable) s,
      (0x80 ≤ y ∧ y < 256) ∨ (97 ≤ y ∧ y ≤ 122) ∨ ∃ c ∈ s, c < 0x80 ∧ y = lowerByte c := by
  intro n
  induction n with
  | zero =>
    intro s h y hy
    have : s = [] := List.length_eq_zero.1 (by omega)
    subst this
    simp [Map_nil] at hy
  | succ n ih =>
    intro s h y hy
    cases s with
    | nil => simp [Map_nil] at hy
    | cons s0 rest =>
      simp only [List.length_cons] at h
      by_cases h0 : s0 < 0x80
      · rw [ToLowerMap_cons_ascii caseTable rest h0] at hy
        rcases List.mem_cons.1 hy with hy | hy
        · exact Or.inr (Or.inr ⟨s0, List.mem_cons_self _ _, h0, hy⟩)
        · rcases ih rest (by omega) y hy with h1 | h1 | ⟨c, hc, hc1, hc2⟩
          · exact Or.inl h1
          · exact Or.inr (Or.inl h1)
          · exact Or.inr (Or.inr ⟨c, List.mem_cons_of_mem _ hc, hc1, hc2⟩)
      · rw [Map_eq, utf8.runes_cons] at hy
        simp only [List.map_cons, List.flatten_cons, List.mem_append] at hy
        rcases hy with hy | hy
        · have hr := utf8.DecodeRune_rune rest h0
          have e : unicodeToLower caseTable (utf8.DecodeRune (s0 :: rest)).1
              = caseTable (utf8.DecodeRune (s0 :: rest)).1 := by
            simp [unicodeToLower]; omega
          rw [e] at hy
          rcases hT _ hr with h1 | h1
          · exact Or.inl (utf8.EncodeRune_bytes h1 y hy)
          · rw [utf8.EncodeRune_ascii (by omega)] at hy
            simp only [List.mem_singleton] at hy
            subst hy
            exact Or.inr (Or.inl h1)
        · rw [← Map_eq] at hy
          have hw := utf8.DecodeRune_width s0 rest
          rcases ih _ (by simp; omega) y hy with h1 | h1 | ⟨c, hc, hc1, hc2⟩
          · exact Or.inl h1
          · exact Or.inr (Or.inl h1)
          · exact Or.inr (Or.inr ⟨c, List.mem_cons_of_mem _ (List.mem_of_mem_drop hc), hc1, hc2⟩)

end strings

namespace url

open Encoding

/-! ### Reading escapes chunk by chunk -/

/-- Induction along the chunks `unescape` reads: an escape `%ab`, a cut-off
escape, or one other byte. -/
theorem chunk_induction {P : GoString → Prop} (hnil : P [])
    (hpct : ∀ a b rest, P rest → P (37 :: a :: b :: rest))
    (hpct1 : ∀ a, P [37, a]) (hpct0 : P [37])
    (hother : ∀ c rest, c ≠ 37 → P rest → P (c :: rest)) : ∀ s, P s := by
  suffices h : ∀ (n : Nat) (s : GoString), s.length ≤ n → P s from fun s => h s.length s le_rfl
  intro n
  induction n with
  | zero =>
    intro s hs
    have : s = [] := List.length_eq_zero.1 (by omega)
    subst this; exact hnil
  | succ n ih =>
    intro s hs
    match s, hs with
    | [], _ => exact hnil
    | [c], _ =>
      by_cases hc : c = 37
      · subst hc; exact hpct0
      · exact hother c [] hc hnil
    | [c, a], hs =>
      by_cases hc : c = 37
      · subst hc; exact hpct1 a
      · exact hother c [a] hc (ih [a] (by simp at hs ⊢; omega))
    | c :: a :: b :: rest, hs =>
      by_cases hc : c = 37
      · subst hc
        exact hpct a b rest (ih rest (by simp at hs ⊢; omega))
      · exact hother c (a :: b :: rest) hc (ih (a :: b :: rest) (by simp at hs ⊢; omega))

theorem unescapeCheck_percent0 (mode : Encoding) : unescapeCheck mode [37] ≠ .ok () := by
  simp [unescapeCheck]

theorem unescapeCheck_percent1 (mode : Encoding) (a : Nat) :
    unescapeCheck mode [37, a] ≠ .ok () := by
  simp [unescapeCheck]

theorem unescapeCheck_percent_ok {mode : Encoding} {a b : Nat} {rest : GoString}
    (h : unescapeCheck mode (37 :: a :: b :: rest) = .ok ()) :
    ishex a = true ∧ ishex b = true
    ∧ ¬ (mode = encodeHost ∧ unhex a < 8 ∧ [37, a, b] ≠ [37, 50, 53])
    ∧ ¬ (mode = encodeZone ∧ [37, a, b] ≠ [37, 50, 53] ∧ unhex a * 16 + unhex b ≠ 32
          ∧ shouldEscape (unhex a * 16 + unhex b) encodeHost = true)
    ∧ unescapeCheck mode rest = .ok () := by
  rw [unescapeCheck_percent] at h
  split_ifs at h with h1 h2 h3
  refine ⟨?_, ?_, h2, h3, h⟩
  · cases ha : ishex a
    · simp [ha] at h1
    · rfl
  · cases hb : ishex b
    · simp [hb] at h1
    · rfl

theorem unescapeCheck_other_ok {mode : Encoding} {c : Nat} {rest : GoString} (hc : c ≠ 37)
    (h : unescapeCheck mode (c :: rest) = .ok ()) :
    ¬ ((mode = encodeHost ∨ mode = encodeZone) ∧ c < 0x80 ∧ shouldEscape c encodeHost = true)
    ∧ unescapeCheck mode rest = .ok () := by
  rw [unescapeCheck_other mode rest hc] at h
  split_ifs at h with h1
  exact ⟨h1, h⟩

/-- A byte that is neither `%` nor a hex digit ends the escapes before it: the
texts before and from it are read separately. -/
theorem unescape_append_sep (mode : Encoding) {c : Nat} (t : GoString)
    (hx : ishex c = false) : ∀ s : GoString, unescapeCheck mode (s ++ c :: t) = .ok () →
      unescapeCheck mode s = .ok () ∧ unescapeCheck mode (c :: t) = .ok ()
      ∧ unescapeBuild mode (s ++ c :: t) = unescapeBuild mode s ++ unescapeBuild mode (c :: t) := by
  apply chunk_induction
  · intro h
    exact ⟨unescapeCheck_nil mode, h, by simp [unescapeBuild_nil]⟩
  · intro a b rest ih h
    simp only [List.cons_append] at h ⊢
    obtain ⟨h1, h2, h3, h4, h5⟩ := unescapeCheck_percent_ok h
    obtain ⟨i1, i2, i3⟩ := ih h5
    refine ⟨?_, i2, ?_⟩
    · rw [unescapeCheck_percent]
      simp only [h1, h2, Bool.not_true, Bool.or_self, Bool.false_eq_true, if_false]
      rw [if_neg h3, if_neg h4]; exact i1
    · rw [unescapeBuild_percent, unescapeBuild_percent, i3]; rfl
  · intro a h
    simp only [List.cons_append, List.nil_append] at h
    obtain ⟨_, h2, _⟩ := unescapeCheck_percent_ok h
    rw [hx] at h2; exact absurd h2 (by simp)
  · intro h
    simp only [List.cons_append, List.nil_append] at h
    cases t with
    | nil => exact absurd h (unescapeCheck_percent1 mode c)
    | cons b t =>
      obtain ⟨h1, _⟩ := unescapeCheck_percent_ok h
      rw [hx] at h1; exact absurd h1 (by simp)
  · intro x rest hx37 ih h
    simp only [List.cons_append] at h ⊢
    obtain ⟨h1, h2⟩ := unescapeCheck_other_ok hx37 h
    obtain ⟨i1, i2, i3⟩ := ih h2
    refine ⟨?_, i2, ?_⟩
    · rw [unescapeCheck_other mode rest hx37, if_neg h1]; exact i1
    · rw [unescapeBuild_other mode _ hx37, unescapeBuild_other mode _ hx37, i3]; rfl

/-- A text without `%` is read as it stands. -/
theorem unescapeBuild_of_no_percent {mode : Encoding} (hm : mode ≠ encodeQueryComponent) :
    ∀ s : GoString, 37 ∉ s → unescapeBuild mode s = s := by
  intro s
  induction s with
  | nil => intro _; exact unescapeBuild_nil mode
  | cons c s ih =>
    intro h
    simp only [List.mem_cons, not_or] at h
    rw [unescapeBuild_other mode s (Ne.symm h.1), ih h.2]
    simp [hm]

/-- The first byte of a decoded text that starts with a byte other than `%`. -/
theorem unescapeBuild_cons {mode : Encoding} (hm : mode ≠ encodeQueryComponent) {c : Nat}
    (s : GoString) (hc : c ≠ 37) : unescapeBuild mode (c :: s) = c :: unescapeBuild mode s := by
  rw [unescapeBuild_other mode s hc]
  simp [hm]

/-! ### What a host and a zone decode to -/

/-- A byte a decoded host may hold so that it is accepted again once escaped and read. -/
theorem mem_unescapeBuild_host : ∀ s : GoString, unescapeCheck encodeHost s = .ok () →
    (∀ c ∈ s, c < 128) → ∀ y ∈ unescapeBuild encodeHost s,
      (128 ≤ y ∧ y < 256) ∨ (y = 37 ∧ strings.Index s [37, 50, 53] ≠ none)
      ∨ (shouldEscape y encodeHost = false ∧ y ∈ s) := by
  apply chunk_induction
  · intro _ _ y hy; simp [unescapeBuild_nil] at hy
  · intro a b rest ih h hA y hy
    obtain ⟨h1, h2, h3, _, h5⟩ := unescapeCheck_percent_ok h
    rw [unescapeBuild_percent] at hy
    have hidx : [37, a, b] ≠ [37, 50, 53] →
        strings.Index (37 :: a :: b :: rest) [37, 50, 53]
          = (strings.Index (a :: b :: rest) [37, 50, 53]).map (· + 1) := by
      intro hne
      conv_lhs => unfold strings.Index
      rw [if_neg]
      simp only [strings.HasPrefix, strings.HasPrefix_nil, Bool.and_true, beq_self_eq_true,
        Bool.true_and, Bool.and_eq_true, beq_iff_eq, not_and]
      intro ha hb; apply hne; rw [ha, hb]
    rcases List.mem_cons.1 hy with hy | hy
    · by_cases h25 : [37, a, b] = [37, 50, 53]
      · right; left
        simp only [List.cons.injEq, and_true, true_and] at h25
        obtain ⟨ha, hb⟩ := h25
        subst ha hb
        refine ⟨by rw [hy]; decide, ?_⟩
        simp [strings.Index, strings.HasPrefix]
      · left
        have h8 : ¬ unhex a < 8 := fun hlt => h3 ⟨rfl, hlt, h25⟩
        have := unhex_lt a; have := unhex_lt b
        omega
    · rcases ih h5 (fun c hc => hA c (by simp [hc])) y hy with r | ⟨r1, r2⟩ | ⟨r1, r2⟩
      · exact Or.inl r
      · right; left
        refine ⟨r1, ?_⟩
        by_cases h25 : [37, a, b] = [37, 50, 53]
        · simp only [List.cons.injEq, and_true, true_and] at h25
          obtain ⟨ha, hb⟩ := h25
          subst ha hb
          simp [strings.Index, strings.HasPrefix]
        · rw [hidx h25]
          have ha37 : a ≠ 37 := by
            intro e; subst e; exact absurd h1 (by decide)
          have hb37 : b ≠ 37 := by
            intro e; subst e; exact absurd h2 (by decide)
          have e1 : strings.Index (a :: b :: rest) [37, 50, 53]
              = (strings.Index (b :: rest) [37, 50, 53]).map (· + 1) := by
            conv_lhs => unfold strings.Index
            rw [if_neg]
            simp [strings.HasPrefix, ha37]
          have e2 : strings.Index (b :: rest) [37, 50, 53]
              = (strings.Index rest [37, 50, 53]).map (· + 1) := by
            conv_lhs => unfold strings.Index
            rw [if_neg]
            simp [strings.HasPrefix, hb37]
          rw [e1, e2]
          cases hI : strings.Index rest [37, 50, 53] with
          | none => exact absurd hI r2
          | some i => simp
      · exact Or.inr (Or.inr ⟨r1, by simp [r2]⟩)
  · intro a h; exact absurd h (unescapeCheck_percent1 _ a)
  · intro h; exact absurd h (unescapeCheck_percent0 _)
  · intro c rest hc ih h hA y hy
    obtain ⟨h1, h2⟩ := unescapeCheck_other_ok hc h
    rw [unescapeBuild_cons (by decide) rest hc] at hy
    have hc128 : c < 128 := hA c (List.mem_cons_self _ _)
    rcases List.mem_cons.1 hy with hy | hy
    · right; right
      subst hy
      refine ⟨?_, List.mem_cons_self _ _⟩
      cases hs : shouldEscape y encodeHost
      · rfl
      · exact absurd ⟨Or.inl rfl, hc128, hs⟩ h1
    · rcases ih h2 (fun c hc => hA c (by simp [hc])) y hy with r | ⟨r1, r2⟩ | ⟨r1, r2⟩
      · exact Or.inl r
      · right; left
        refine ⟨r1, ?_⟩
        have e1 : strings.Index (c :: rest) [37, 50, 53]
            = (strings.Index rest [37, 50, 53]).map (· + 1) := by
          conv_lhs => unfold strings.Index
          rw [if_neg]
          simp [strings.HasPrefix, hc]
        rw [e1]
        cases hI : strings.Index rest [37, 50, 53] with
        | none => exact absurd hI r2
        | some i => simp
      · exact Or.inr (Or.inr ⟨r1, by simp [r2]⟩)

/-- A byte a decoded zone holds. -/
theorem mem_unescapeBuild_zone : ∀ s : GoString, unescapeCheck encodeZone s = .ok () →
    (∀ c ∈ s, c < 128) → ∀ y ∈ unescapeBuild encodeZone s,
      y = 37 ∨ y = 32 ∨ shouldEscape y encodeHost = false := by
  apply chunk_induction
  · intro _ _ y hy; simp [unescapeBuild_nil] at hy
  · intro a b rest ih h hA y hy
    obtain ⟨h1, h2, _, h4, h5⟩ := unescapeCheck_percent_ok h
    rw [unescapeBuild_percent] at hy
    rcases List.mem_cons.1 hy with hy | hy
    · by_cases h25 : [37, a, b] = [37, 50, 53]
      · simp only [List.cons.injEq, and_true, true_and] at h25
        obtain ⟨ha, hb⟩ := h25
        subst ha hb
        left; rw [hy]; decide
      · by_cases h32 : unhex a * 16 + unhex b = 32
        · right; left; rw [hy]; exact h32
        · right; right
          cases hs : shouldEscape y encodeHost
          · rfl
          · rw [hy] at hs
            exact absurd ⟨rfl, h25, h32, hs⟩ h4
    · exact ih h5 (fun c hc => hA c (by simp [hc])) y hy
  · intro a h; exact absurd h (unescapeCheck_percent1 _ a)
  · intro h; exact absurd h (unescapeCheck_percent0 _)
  · intro c rest hc ih h hA y hy
    obtain ⟨h1, h2⟩ := unescapeCheck_other_ok hc h
    rw [unescapeBuild_cons (by decide) rest hc] at hy
    have hc128 : c < 128 := hA c (List.mem_cons_self _ _)
    rcases List.mem_cons.1 hy with hy | hy
    · right; right
      subst hy
      cases hs : shouldEscape y encodeHost
      · rfl
      · exact absurd ⟨Or.inr rfl, hc128, hs⟩ h1
    · exact ih h2 (fun c hc => hA c (by simp [hc])) y hy

/-! ### Reading back an escaped host -/

/-- The host check accepts what `escape` writes for a byte from 0x80 to 0xFF, a
`%`, or a byte a host holds unescaped. -/
theorem unescapeCheck_host_escape_append {s : GoString}
    (hs : ∀ y ∈ s, (128 ≤ y ∧ y < 256) ∨ y = 37 ∨ shouldEscape y encodeHost = false)
    (t : GoString) :
    unescapeCheck encodeHost (escape s encodeHost ++ t) = unescapeCheck encodeHost t := by
  induction s with
  | nil => simp [escape_nil]
  | cons c s ih =>
    have ih1 := ih (fun x hx => hs x (List.mem_cons_of_mem _ hx))
    rcases hs c (List.mem_cons_self _ _) with ⟨h1, h2⟩ | h1 | h1
    · rw [escape_cons_of_shouldEscape s (by decide) (shouldEscape_of_ge _ h1)]
      simp only [List.cons_append, unescapeCheck_percent,
        ishex_upperhex (show c / 16 < 16 by omega), ishex_upperhex (show c % 16 < 16 by omega),
        Bool.not_true, Bool.or_self, Bool.false_eq_true, if_false]
      rw [if_neg, if_neg, ih1]
      · rintro ⟨h, _⟩; exact absurd h (by decide)
      · rintro ⟨_, h, _⟩
        rw [unhex_upperhex (show c / 16 < 16 by omega)] at h
        omega
    · subst h1
      rw [escape_cons_of_shouldEscape s (by decide) (by decide)]
      have e1 : upperhex (37 / 16) = 50 := by decide
      have e2 : upperhex (37 % 16) = 53 := by decide
      rw [e1, e2]
      simp only [List.cons_append, unescapeCheck_percent]
      rw [if_neg (by decide), if_neg (by simp), if_neg (by simp), ih1]
    · rw [escape_cons_of_not_shouldEscape s h1]
      simp only [List.cons_append]
      rw [unescapeCheck_other _ _ (ne_percent_of_not_shouldEscape h1), if_neg, ih1]
      rintro ⟨_, _, h⟩
      rw [h1] at h; exact absurd h (by simp)

theorem unescapeCheck_host_escape {s : GoString}
    (hs : ∀ y ∈ s, (128 ≤ y ∧ y < 256) ∨ y = 37 ∨ shouldEscape y encodeHost = false) :
    unescapeCheck encodeHost (escape s encodeHost) = .ok () := by
  have := unescapeCheck_host_escape_append hs []
  simpa [unescapeCheck_nil] using this

/-- The zone check accepts what `escape` writes for a `%`, a space, or a byte a
host holds unescaped. -/
theorem unescapeCheck_zone_escape_append {s : GoString}
    (hs : ∀ y ∈ s, y = 37 ∨ y = 32 ∨ shouldEscape y encodeHost = false) (t : GoString) :
    unescapeCheck encodeZone (escape s encodeHost ++ t) = unescapeCheck encodeZone t := by
  induction s with
  | nil => simp [escape_nil]
  | cons c s ih =>
    have ih1 := ih (fun x hx => hs x (List.mem_cons_of_mem _ hx))
    rcases hs c (List.mem_cons_self _ _) with h1 | h1 | h1
    · subst h1
      rw [escape_cons_of_shouldEscape s (by decide) (by decide)]
      have e1 : upperhex (37 / 16) = 50 := by decide
      have e2 : upperhex (37 % 16) = 53 := by decide
      rw [e1, e2]
      simp only [List.cons_append, unescapeCheck_percent]
      rw [if_neg (by decide), if_neg (by simp), if_neg (by simp), ih1]
    · subst h1
      rw [escape_cons_of_shouldEscape s (by decide) (by decide)]
      have e1 : upperhex (32 / 16) = 50 := by decide
      have e2 : upperhex (32 % 16) = 48 := by decide
      rw [e1, e2]
      simp only [List.cons_append, unescapeCheck_percent]
      rw [if_neg (by decide), if_neg (by simp), if_neg, ih1]
      rintro ⟨_, _, h, _⟩
      exact h (by decide)
    · rw [escape_cons_of_not_shouldEscape s h1]
      simp only [List.cons_append]
      rw [unescapeCheck_other _ _ (ne_percent_of_not_shouldEscape h1), if_neg, ih1]
      rintro ⟨_, _, h⟩
      rw [h1] at h; exact absurd h (by simp)

/-! ### Where an escaped host has `%25` -/

theorem Index_cons_of_not_HasPrefix {c : Nat} {s p : GoString}
    (h : strings.HasPrefix (c :: s) p = false) :
    strings.Index (c :: s) p = (strings.Index s p).map (· + 1) := by
  conv_lhs => unfold strings.Index
  rw [if_neg]
  rw [h]; simp

theorem Index_cons_of_ne {c x : Nat} (s p : GoString) (h : c ≠ x) :
    strings.Index (c :: s) (x :: p) = (strings.Index s (x :: p)).map (· + 1) := by
  apply Index_cons_of_not_HasPrefix
  simp [strings.HasPrefix, h]

theorem upperhex_ne_percent (n : Nat) : upperhex n ≠ 37 := by
  rcases upperhex_range n with h | h <;> omega

/-- The text `escape` writes for a host without `%` has no `%25`: the first one of
what follows is the first one. -/
theorem Index_escape_append {s : GoString} (hs : 37 ∉ s) (t : GoString) :
    strings.Index (escape s encodeHost ++ t) [37, 50, 53]
      = (strings.Index t [37, 50, 53]).map (· + (escape s encodeHost).length) := by
  induction s with
  | nil => simp [escape_nil]
  | cons c s ih =>
    simp only [List.mem_cons, not_or] at hs
    have ih1 := ih hs.2
    by_cases hc : shouldEscape c encodeHost = true
    · rw [escape_cons_of_shouldEscape s (by decide) hc]
      simp only [List.cons_append, List.length_cons]
      have hne : strings.HasPrefix
          (37 :: upperhex (c / 16) :: upperhex (c % 16) :: (escape s encodeHost ++ t))
          [37, 50, 53] = false := by
        simp only [strings.HasPrefix, strings.HasPrefix_nil, Bool.and_true, beq_self_eq_true,
          Bool.true_and, Bool.and_eq_false_imp, beq_iff_eq]
        intro h1
        by_contra h2
        simp only [beq_eq_false_iff_ne, ne_eq, not_not] at h2
        -- the byte is 0x25
        by_cases hc256 : c < 256
        · have a1 := unhex_upperhex (show c / 16 < 16 by omega)
          have a2 := unhex_upperhex (show c % 16 < 16 by omega)
          rw [h1] at a1; rw [h2] at a2
          have b1 : unhex 50 = 2 := by decide
          have b2 : unhex 53 = 5 := by decide
          omega
        · have : upperhex (c / 16) = 71 := by unfold upperhex; split_ifs <;> omega
          omega
      rw [Index_cons_of_not_HasPrefix hne, Index_cons_of_ne _ _ (upperhex_ne_percent _),
        Index_cons_of_ne _ _ (upperhex_ne_percent _), ih1]
      cases strings.Index t [37, 50, 53] <;> simp
      omega
    · have hc2 : shouldEscape c encodeHost = false := by simpa using hc
      rw [escape_cons_of_not_shouldEscape s hc2]
      simp only [List.cons_append, List.length_cons]
      rw [Index_cons_of_ne _ _ (ne_percent_of_not_shouldEscape hc2), ih1]
      cases strings.Index t [37, 50, 53] <;> simp
      omega

/-- The part before the first occurrence holds no occurrence. -/
theorem Index_take_eq_none {p : GoString} (hp : p ≠ []) : ∀ (s : GoString) {i : Nat},
    strings.Index s p = some i → strings.Index (s.take i) p = none ∧ s = s.take i ++ p ++ s.drop (i + p.length) := by
  intro s
  induction s with
  | nil =>
    intro i h
    simp only [strings.Index] at h
    cases p with
    | nil => exact absurd rfl hp
    | cons b p => simp at h
  | cons a s ih =>
    intro i h
    unfold strings.Index at h
    split_ifs at h with hpre
    · simp only [Option.some.injEq] at h
      subst h
      obtain ⟨t, ht⟩ := (strings.HasPrefix_iff _ _).1 hpre
      refine ⟨?_, ?_⟩
      · simp only [List.take_zero, strings.Index]
        cases p with
        | nil => exact absurd rfl hp
        | cons b p => simp
      · rw [ht]; simp
    · cases hI : strings.Index s p with
      | none => rw [hI] at h; simp at h
      | some j =>
        rw [hI] at h
        simp only [Option.map_some', Option.some.injEq] at h
        subst h
        obtain ⟨i1, i2⟩ := ih hI
        refine ⟨?_, ?_⟩
        · simp only [List.take_succ_cons]
          have hpre2 : strings.HasPrefix (a :: s.take j) p = false := by
            cases hh : strings.HasPrefix (a :: s.take j) p
            · rfl
            · exfalso
              obtain ⟨t, ht⟩ := (strings.HasPrefix_iff _ _).1 hh
              apply hpre
              rw [strings.HasPrefix_iff]
              refine ⟨t ++ s.drop j, ?_⟩
              rw [← List.append_assoc, ← ht]
              simp
          rw [Index_cons_of_not_HasPrefix hpre2, i1]; rfl
        · simp only [List.take_succ_cons, List.cons_append, List.cons.injEq, true_and]
          have : j + 1 + p.length = (j + p.length) + 1 := by omega
          rw [this, List.drop_succ_cons]
          exact i2

end url

namespace url

open Encoding

/-! ### `parseHost`, case by case -/

theorem unescape_eq_ok {s H : GoString} {mode : Encoding} :
    unescape s mode = .ok H ↔ unescapeCheck mode s = .ok () ∧ H = unescapeBuild mode s := by
  unfold unescape
  cases h : unescapeCheck mode s with
  | error e => simp
  | ok u =>
    cases u
    simp only [Except.ok.injEq, true_and]
    exact eq_comm

theorem unescape_of_check {s : GoString} {mode : Encoding} (h : unescapeCheck mode s = .ok ()) :
    unescape s mode = .ok (unescapeBuild mode s) :=
  unescape_eq_ok.2 ⟨h, rfl⟩

theorem parseHost_plain {h : GoString} (hb : strings.HasPrefix h [91] = false)
    (hl : strings.LastIndex h [58] = none) : parseHost h = unescape h encodeHost := by
  unfold parseHost
  simp only [hb, hl, Bool.false_eq_true, if_false]

theorem parseHost_port {h : GoString} {i : Nat} (hb : strings.HasPrefix h [91] = false)
    (hl : strings.LastIndex h [58] = some i) :
    parseHost h = if !validOptionalPort (h.drop i) then .error (.invalidPort (h.drop i))
      else unescape h encodeHost := by
  unfold parseHost
  simp only [hb, hl, Bool.false_eq_true, if_false]

theorem parseHost_bracket_none {h : GoString} (hb : strings.HasPrefix h [91] = true)
    (hl : strings.LastIndex h [93] = none) : parseHost h = .error .missingBracket := by
  unfold parseHost
  simp only [hb, hl, if_true]

theorem parseHost_bracket_plain {h : GoString} {i : Nat}
    (hb : strings.HasPrefix h [91] = true) (hl : strings.LastIndex h [93] = some i)
    (hp : validOptionalPort (h.drop (i + 1)) = true)
    (hz : strings.Index (h.take i) [37, 50, 53] = none) :
    parseHost h = unescape h encodeHost := by
  unfold parseHost
  simp only [hb, hl, hp, hz, if_true, Bool.not_true, Bool.false_eq_true, if_false]

theorem parseHost_bracket_zone {h : GoString} {i z : Nat}
    (hb : strings.HasPrefix h [91] = true) (hl : strings.LastIndex h [93] = some i)
    (hp : validOptionalPort (h.drop (i + 1)) = true)
    (hz : strings.Index (h.take i) [37, 50, 53] = some z) :
    parseHost h
      = (match unescape (h.take z) encodeHost, unescape ((h.take i).drop z) encodeZone,
            unescape (h.drop i) encodeHost with
         | .ok host1, .ok host2, .ok host3 => .ok (host1 ++ host2 ++ host3)
         | .error e, _, _ => .error e
         | .ok _, .error e, _ => .error e
         | .ok _, .ok _, .error e => .error e) := by
  unfold parseHost
  simp only [hb, hl, hp, hz, if_true, Bool.not_true, Bool.false_eq_true, if_false]
  cases unescape (h.take z) encodeHost with
  | error e => rfl
  | ok h1 =>
    cases unescape ((h.take i).drop z) encodeZone with
    | error e => rfl
    | ok h2 =>
      cases unescape (h.drop i) encodeHost with
      | error e => rfl
      | ok h3 => rfl

theorem parseHost_bracket_port {h : GoString} {i : Nat}
    (hb : strings.HasPrefix h [91] = true) (hl : strings.LastIndex h [93] = some i)
    (hp : validOptionalPort (h.drop (i + 1)) = false) :
    parseHost h = .error (.invalidPort (h.drop (i + 1))) := by
  unfold parseHost
  simp only [hb, hl, hp, if_true, Bool.not_false]

/-! ### Bytes a host holds as they stand -/

theorem port_mem : ∀ {p : GoString}, validOptionalPort p = true →
    ∀ c ∈ p, c = 58 ∨ c = 93 ∨ (48 ≤ c ∧ c ≤ 57) := by
  intro p hp c hc
  cases p with
  | nil => simp at hc
  | cons a rest =>
    simp only [validOptionalPort, Bool.and_eq_true, beq_iff_eq, List.all_eq_true,
      decide_eq_true_eq] at hp
    rcases List.mem_cons.1 hc with h | h
    · left; rw [h]; exact hp.1
    · right; right; exact hp.2 c h

theorem port_not_bracket {p : GoString} (hp : validOptionalPort p = true) : 93 ∉ p := by
  cases p with
  | nil => simp
  | cons a rest =>
    simp only [validOptionalPort, Bool.and_eq_true, beq_iff_eq, List.all_eq_true,
      decide_eq_true_eq] at hp
    intro hc
    rcases List.mem_cons.1 hc with h | h
    · omega
    · have := hp.2 93 h; omega

theorem plain_byte {c : Nat} (h : c = 58 ∨ c = 93 ∨ (48 ≤ c ∧ c ≤ 57)) :
    shouldEscape c encodeHost = false ∧ strings.lowerByte c = c ∧ c < 128 ∧ c ≠ 37 := by
  have hc : c < 128 := by omega
  revert h
  revert c
  decide

theorem plain_escape : ∀ {s : GoString}, (∀ c ∈ s, c = 58 ∨ c = 93 ∨ (48 ≤ c ∧ c ≤ 57)) →
    escape s encodeHost = s := by
  intro s
  induction s with
  | nil => intro _; rfl
  | cons a s ih =>
    intro h
    rw [escape_cons_of_not_shouldEscape s (plain_byte (h a (List.mem_cons_self _ _))).1,
      ih (fun c hc => h c (List.mem_cons_of_mem _ hc))]

theorem plain_lower : ∀ {s : GoString}, (∀ c ∈ s, c = 58 ∨ c = 93 ∨ (48 ≤ c ∧ c ≤ 57)) →
    s.map strings.lowerByte = s := by
  intro s
  induction s with
  | nil => intro _; rfl
  | cons a s ih =>
    intro h
    rw [List.map_cons, (plain_byte (h a (List.mem_cons_self _ _))).2.1,
      ih (fun c hc => h c (List.mem_cons_of_mem _ hc))]

theorem plain_check : ∀ {s : GoString}, (∀ c ∈ s, c = 58 ∨ c = 93 ∨ (48 ≤ c ∧ c ≤ 57)) →
    unescapeCheck encodeHost s = .ok () := by
  intro s
  induction s with
  | nil => intro _; exact unescapeCheck_nil _
  | cons a s ih =>
    intro h
    have ha := plain_byte (h a (List.mem_cons_self _ _))
    rw [unescapeCheck_other _ _ ha.2.2.2, if_neg, ih (fun c hc => h c (List.mem_cons_of_mem _ hc))]
    rintro ⟨_, _, h3⟩
    rw [ha.1] at h3; exact absurd h3 (by simp)

theorem plain_no_percent {s : GoString} (h : ∀ c ∈ s, c = 58 ∨ c = 93 ∨ (48 ≤ c ∧ c ≤ 57)) :
    37 ∉ s := by
  intro hc
  have := h 37 hc
  omega

theorem plain_cons {p : GoString} (hp : validOptionalPort p = true) :
    ∀ c ∈ 93 :: p, c = 58 ∨ c = 93 ∨ (48 ≤ c ∧ c ≤ 57) := by
  intro c hc
  rcases List.mem_cons.1 hc with h | h
  · right; left; exact h
  · exact port_mem hp c h

/-! ### Lower-casing a decoded host -/

theorem shouldEscape_letter {c : Nat} (mode : Encoding) (h : 97 ≤ c ∧ c ≤ 122) :
    shouldEscape c mode = false := by
  unfold shouldEscape
  rw [if_pos (Or.inl h)]

theorem shouldEscape_lowerByte {c : Nat} {mode : Encoding} (h : shouldEscape c mode = false) :
    shouldEscape (strings.lowerByte c) mode = false := by
  unfold strings.lowerByte
  split_ifs with h1
  · exact shouldEscape_letter mode (by omega)
  · exact h

theorem lowerByte_eq_of_not_letter {c x : Nat} (hx : ¬ (97 ≤ x ∧ x ≤ 122))
    (h : strings.lowerByte c = x) : c = x := by
  unfold strings.lowerByte at h
  split_ifs at h <;> omega

/-- The lower-case form of a decoded host: its bytes are again bytes an escaped
host is accepted with, and an ASCII byte other than a lower-case letter is in it
only when it is in the host. -/
theorem mem_lower_host {caseTable : Nat → Nat} (hT : strings.CaseTableOK caseTable)
    {X : GoString}
    (hX : ∀ y ∈ X, (128 ≤ y ∧ y < 256) ∨ y = 37 ∨ shouldEscape y encodeHost = false) :
    ∀ y ∈ strings.Map (strings.unicodeToLower caseTable) X,
      ((128 ≤ y ∧ y < 256) ∨ y = 37 ∨ shouldEscape y encodeHost = false)
      ∧ (y < 128 → ¬ (97 ≤ y ∧ y ≤ 122) → y ∈ X) := by
  intro y hy
  rcases strings.mem_ToLowerMap hT X.length X le_rfl y hy with h | h | ⟨c, hc, hc1, hc2⟩
  · exact ⟨Or.inl h, fun h1 => by omega⟩
  · exact ⟨Or.inr (Or.inr (shouldEscape_letter _ h)), fun _ h2 => absurd h h2⟩
  · constructor
    · rcases hX c hc with h | h | h
      · omega
      · subst h
        right; left; rw [hc2]; decide
      · right; right; rw [hc2]; exact shouldEscape_lowerByte h
    · intro _ h2
      have := lowerByte_eq_of_not_letter h2 hc2.symm
      rw [← this]; exact hc

theorem zone_lower {Z : GoString}
    (hZ : ∀ y ∈ Z, y = 37 ∨ y = 32 ∨ shouldEscape y encodeHost = false) :
    ∀ y ∈ Z.map strings.lowerByte, y = 37 ∨ y = 32 ∨ shouldEscape y encodeHost = false := by
  intro y hy
  obtain ⟨c, hc, rfl⟩ := List.mem_map.1 hy
  rcases hZ c hc with h | h | h
  · subst h; left; decide
  · subst h; right; left; decide
  · right; right; exact shouldEscape_lowerByte h

theorem zone_ascii {Z : GoString}
    (hZ : ∀ y ∈ Z, y = 37 ∨ y = 32 ∨ shouldEscape y encodeHost = false) : ∀ y ∈ Z, y < 128 := by
  intro y hy
  rcases hZ y hy with h | h | h
  · omega
  · omega
  · exact lt_of_not_shouldEscape h

/-! ### The first byte -/

theorem escape_head {s : GoString} {mode : Encoding} {x : Nat} (hx : x ≠ 37) (hq : x ≠ 43)
    (h : (escape s mode).head? = some x) : s.head? = some x := by
  cases s with
  | nil => simp [escape_nil] at h
  | cons c s =>
    rw [escape_cons] at h
    split_ifs at h with h1 h2
    · simp at h; omega
    · simp at h; omega
    · simpa using h

theorem EncodeRune_ne_nil (r : Nat) : utf8.EncodeRune r ≠ [] := by
  unfold utf8.EncodeRune
  split_ifs <;> simp

theorem lower_head {caseTable : Nat → Nat} (hT : strings.CaseTableOK caseTable) {X : GoString}
    {x : Nat} (hx : x < 128) (hl : ¬ (97 ≤ x ∧ x ≤ 122))
    (h : (strings.Map (strings.unicodeToLower caseTable) X).head? = some x) :
    X.head? = some x := by
  cases X with
  | nil => simp [strings.Map_nil] at h
  | cons c rest =>
    by_cases hc : c < 128
    · rw [strings.ToLowerMap_cons_ascii caseTable rest hc] at h
      simp only [List.head?_cons, Option.some.injEq] at h ⊢
      exact lowerByte_eq_of_not_letter hl h
    · exfalso
      rw [strings.Map_eq, utf8.runes_cons] at h
      simp only [List.map_cons, List.flatten_cons] at h
      have hr := utf8.DecodeRune_rune rest hc
      have e : strings.unicodeToLower caseTable (utf8.DecodeRune (c :: rest)).1
          = caseTable (utf8.DecodeRune (c :: rest)).1 := by
        simp [strings.unicodeToLower]; omega
      rw [e] at h
      have hne := EncodeRune_ne_nil (caseTable (utf8.DecodeRune (c :: rest)).1)
      have hmem : x ∈ utf8.EncodeRune (caseTable (utf8.DecodeRune (c :: rest)).1) := by
        cases hE : utf8.EncodeRune (caseTable (utf8.DecodeRune (c :: rest)).1) with
        | nil => exact absurd hE hne
        | cons a as =>
          rw [hE] at h
          simp only [List.cons_append, List.head?_cons, Option.some.injEq] at h
          rw [h]; exact List.mem_cons_self _ _
      rcases hT _ hr with h1 | h1
      · have := utf8.EncodeRune_bytes h1 x hmem; omega
      · rw [utf8.EncodeRune_ascii (by omega)] at hmem
        simp only [List.mem_singleton] at hmem
        omega

theorem unescapeBuild_host_head {s : GoString} (hc : unescapeCheck encodeHost s = .ok ())
    (h : (unescapeBuild encodeHost s).head? = some 91) : s.head? = some 91 := by
  match s, hc, h with
  | [], _, h => simp [unescapeBuild_nil] at h
  | [c], hc, h =>
    by_cases h37 : c = 37
    · subst h37; exact absurd hc (unescapeCheck_percent0 _)
    · rw [unescapeBuild_cons (by decide) _ h37] at h; simpa using h
  | [c, a], hc, h =>
    by_cases h37 : c = 37
    · subst h37; exact absurd hc (unescapeCheck_percent1 _ a)
    · rw [unescapeBuild_cons (by decide) _ h37] at h; simpa using h
  | c :: a :: b :: rest, hc, h =>
    by_cases h37 : c = 37
    · subst h37
      exfalso
      obtain ⟨_, _, h3, _⟩ := unescapeCheck_percent_ok hc
      rw [unescapeBuild_percent] at h
      simp only [List.head?_cons, Option.some.injEq] at h
      by_cases h25 : [37, a, b] = [37, 50, 53]
      · simp only [List.cons.injEq, and_true, true_and] at h25
        obtain ⟨ha, hb⟩ := h25
        subst ha hb
        revert h; decide
      · have h8 : ¬ unhex a < 8 := fun hlt => h3 ⟨rfl, hlt, h25⟩
        have := unhex_lt b
        omega
    · rw [unescapeBuild_cons (by decide) _ h37] at h; simpa using h

end url

namespace url

open Encoding

/-! ### A parsed host, lower-cased and escaped, is a host -/

theorem split_at {h : GoString} {i c : Nat} (e : h = h.take i ++ c :: h.drop (i + 1)) :
    h.drop i = c :: h.drop (i + 1) ∧ (h.take i).length = i := by
  constructor
  · have := List.take_append_drop i h
    have e2 : h.take i ++ h.drop i = h.take i ++ c :: h.drop (i + 1) := by
      rw [this]; exact e
    exact List.append_cancel_left e2
  · have hl := congrArg List.length e
    simp only [List.length_append, List.length_cons, List.length_take, List.length_drop] at hl ⊢
    omega

theorem host_good {s : GoString} (hc : unescapeCheck encodeHost s = .ok ())
    (hA : ∀ c ∈ s, c < 128) :
    ∀ y ∈ unescapeBuild encodeHost s,
      (128 ≤ y ∧ y < 256) ∨ y = 37 ∨ shouldEscape y encodeHost = false := by
  intro y hy
  rcases mem_unescapeBuild_host s hc hA y hy with h | ⟨h, _⟩ | ⟨h, _⟩
  · exact Or.inl h
  · exact Or.inr (Or.inl h)
  · exact Or.inr (Or.inr h)

theorem host_no_percent {s : GoString} (hc : unescapeCheck encodeHost s = .ok ())
    (hA : ∀ c ∈ s, c < 128) (hz : strings.Index s [37, 50, 53] = none) :
    37 ∉ unescapeBuild encodeHost s := by
  intro hy
  rcases mem_unescapeBuild_host s hc hA 37 hy with h | ⟨_, h⟩ | ⟨h, _⟩
  · omega
  · exact h hz
  · exact absurd h (by decide)

theorem host_mem_plain {s : GoString} (hc : unescapeCheck encodeHost s = .ok ())
    (hA : ∀ c ∈ s, c < 128) {x : Nat} (hx : x < 128) (hx37 : x ≠ 37)
    (h : x ∈ unescapeBuild encodeHost s) : x ∈ s := by
  rcases mem_unescapeBuild_host s hc hA x h with h | ⟨h, _⟩ | ⟨_, h⟩
  · omega
  · exact absurd h hx37
  · exact h

/-- The text written for the lower-case form of a decoded host starts with `[`
only when the host text did. -/
theorem escape_lower_head {caseTable : Nat → Nat} (hT : strings.CaseTableOK caseTable)
    {s : GoString} (hc : unescapeCheck encodeHost s = .ok ())
    (hb : strings.HasPrefix s [91] = false) :
    strings.HasPrefix
      (escape (strings.Map (strings.unicodeToLower caseTable) (unescapeBuild encodeHost s))
        encodeHost) [91] = false := by
  cases hh : strings.HasPrefix
      (escape (strings.Map (strings.unicodeToLower caseTable) (unescapeBuild encodeHost s))
        encodeHost) [91]
  · rfl
  · exfalso
    rw [strings.HasPrefix_singleton_iff] at hh
    have h1 := escape_head (by decide) (by decide) hh
    have h2 := lower_head hT (by decide) (by decide) h1
    have h3 := unescapeBuild_host_head hc h2
    rw [← strings.HasPrefix_singleton_iff, hb] at h3
    exact absurd h3 (by simp)

theorem parseHost_escape_lower_plain {caseTable : Nat → Nat}
    (hT : strings.CaseTableOK caseTable) {h H : GoString} (hA : ∀ c ∈ h, c < 128)
    (hb : strings.HasPrefix h [91] = false) (hp : parseHost h = .ok H) :
    ∃ H2, parseHost (escape (strings.Map (strings.unicodeToLower caseTable) H) encodeHost)
      = .ok H2 := by
  cases hl : strings.LastIndex h [58] with
  | none =>
    rw [parseHost_plain hb hl, unescape_eq_ok] at hp
    obtain ⟨hc, rfl⟩ := hp
    have hgood := mem_lower_host hT (host_good hc hA)
    have hb2 := escape_lower_head hT hc hb
    have h58 : 58 ∉ escape (strings.Map (strings.unicodeToLower caseTable)
        (unescapeBuild encodeHost h)) encodeHost := by
      rw [mem_escape_iff _ (by decide) (by decide) (by decide) (by decide)]
      intro hm
      have := (hgood 58 hm).2 (by decide) (by decide)
      have := host_mem_plain hc hA (by decide) (by decide) this
      exact strings.LastIndex_singleton_none_not_mem hl this
    rw [parseHost_plain hb2 (strings.LastIndex_singleton_eq_none h58)]
    exact ⟨_, unescape_of_check (unescapeCheck_host_escape (fun y hy => (hgood y hy).1))⟩
  | some i =>
    rw [parseHost_port hb hl] at hp
    split_ifs at hp with hport
    have hport2 : validOptionalPort (h.drop i) = true := by simpa using hport
    rw [unescape_eq_ok] at hp
    obtain ⟨hc, rfl⟩ := hp
    obtain ⟨hdec, h58⟩ := strings.LastIndex_singleton_some hl
    obtain ⟨hdrop, _⟩ := split_at hdec
    rw [hdrop] at hport2
    have hplain : ∀ c ∈ 58 :: h.drop (i + 1), c = 58 ∨ c = 93 ∨ (48 ≤ c ∧ c ≤ 57) :=
      port_mem hport2
    have hgood := mem_lower_host hT (host_good hc hA)
    have hb2 := escape_lower_head hT hc hb
    -- the host is the decoded text before the port, and the port
    rw [hdec] at hc
    obtain ⟨hc1, hc2, hbuild⟩ := unescape_append_sep encodeHost (h.drop (i + 1))
      (by decide) (h.take i) hc
    have e1 : unescapeBuild encodeHost h
        = unescapeBuild encodeHost (h.take i) ++ 58 :: h.drop (i + 1) := by
      conv_lhs => rw [hdec]
      rw [hbuild, unescapeBuild_of_no_percent (by decide) _ (plain_no_percent hplain)]
    have e2 : strings.Map (strings.unicodeToLower caseTable) (unescapeBuild encodeHost h)
        = strings.Map (strings.unicodeToLower caseTable) (unescapeBuild encodeHost (h.take i))
          ++ 58 :: h.drop (i + 1) := by
      rw [e1, strings.ToLowerMap_append_ascii caseTable _ _ (by decide),
        strings.ToLowerMap_of_ascii caseTable _
          (fun c hc => (plain_byte (hplain c (List.mem_cons_of_mem _ hc))).2.2.1),
        plain_lower (fun c hc => hplain c (List.mem_cons_of_mem _ hc))]
      rfl
    have e3 : escape (strings.Map (strings.unicodeToLower caseTable)
          (unescapeBuild encodeHost h)) encodeHost
        = escape (strings.Map (strings.unicodeToLower caseTable)
            (unescapeBuild encodeHost (h.take i))) encodeHost ++ 58 :: h.drop (i + 1) := by
      rw [e2, escape_append, plain_escape hplain]
    have hl2 := strings.LastIndex_singleton_append
      (escape (strings.Map (strings.unicodeToLower caseTable)
        (unescapeBuild encodeHost (h.take i))) encodeHost) h58
    rw [← e3] at hl2
    rw [parseHost_port hb2 hl2]
    have e4 : (escape (strings.Map (strings.unicodeToLower caseTable)
          (unescapeBuild encodeHost h)) encodeHost).drop
          (escape (strings.Map (strings.unicodeToLower caseTable)
            (unescapeBuild encodeHost (h.take i))) encodeHost).length
        = 58 :: h.drop (i + 1) := by
      conv_lhs => rw [e3]
      exact List.drop_left _ _
    rw [e4, hport2]
    simp only [Bool.not_true, Bool.false_eq_true, if_false]
    have hcw : unescapeCheck encodeHost (h.take i ++ 58 :: h.drop (i + 1)) = .ok () := hc
    rw [← hdec] at hcw
    exact ⟨_, unescape_of_check (unescapeCheck_host_escape
      (fun y hy => (mem_lower_host hT (host_good hcw hA) y hy).1))⟩

end url

namespace url

open Encoding

theorem head_of_append_cons {T P h : GoString} {c x : Nat} (e : h = T ++ c :: P)
    (hh : h.head? = some x) (hx : x ≠ c) : T.head? = some x := by
  cases T with
  | nil =>
    rw [e] at hh
    simp only [List.nil_append, List.head?_cons, Option.some.injEq] at hh
    exact absurd hh.symm hx
  | cons a T =>
    rw [e] at hh
    simpa using hh

theorem escape_lower_bracket (caseTable : Nat → Nat) {T : GoString}
    (hT : T.head? = some 91) (rest : GoString) :
    strings.HasPrefix
      (escape (strings.Map (strings.unicodeToLower caseTable) (unescapeBuild encodeHost T))
        encodeHost ++ rest) [91] = true := by
  cases T with
  | nil => simp at hT
  | cons a T =>
    simp only [List.head?_cons, Option.some.injEq] at hT
    subst hT
    rw [unescapeBuild_cons (by decide) _ (by decide),
      strings.ToLowerMap_cons_ascii caseTable _ (by decide),
      escape_cons_of_not_shouldEscape _ (by decide)]
    simp [strings.HasPrefix, strings.lowerByte]

theorem parseHost_escape_lower_bracket {caseTable : Nat → Nat}
    (hT : strings.CaseTableOK caseTable) {h H : GoString} (hA : ∀ c ∈ h, c < 128)
    (hb : strings.HasPrefix h [91] = true) (hp : parseHost h = .ok H) :
    ∃ H2, parseHost (escape (strings.Map (strings.unicodeToLower caseTable) H) encodeHost)
      = .ok H2 := by
  cases hl : strings.LastIndex h [93] with
  | none => rw [parseHost_bracket_none hb hl] at hp; exact absurd hp (by simp)
  | some i =>
    cases hport : validOptionalPort (h.drop (i + 1)) with
    | false => rw [parseHost_bracket_port hb hl hport] at hp; exact absurd hp (by simp)
    | true =>
      obtain ⟨hdec, h93⟩ := strings.LastIndex_singleton_some hl
      obtain ⟨hdrop, hlen⟩ := split_at hdec
      have hplain : ∀ c ∈ 93 :: h.drop (i + 1), c = 58 ∨ c = 93 ∨ (48 ≤ c ∧ c ≤ 57) :=
        plain_cons hport
      have hhead : (h.take i).head? = some 91 :=
        head_of_append_cons hdec ((strings.HasPrefix_singleton_iff _ _).1 hb) (by decide)
      have hAT : ∀ c ∈ h.take i, c < 128 := fun c hc => hA c (List.mem_of_mem_take hc)
      cases hz : strings.Index (h.take i) [37, 50, 53] with
      | none =>
        rw [parseHost_bracket_plain hb hl hport hz, unescape_eq_ok] at hp
        obtain ⟨hc, rfl⟩ := hp
        have hcw := hc
        rw [hdec] at hc
        obtain ⟨hc1, hc2, hbuild⟩ := unescape_append_sep encodeHost (h.drop (i + 1))
          (by decide) (h.take i) hc
        have e1 : unescapeBuild encodeHost h
            = unescapeBuild encodeHost (h.take i) ++ 93 :: h.drop (i + 1) := by
          conv_lhs => rw [hdec]
          rw [hbuild, unescapeBuild_of_no_percent (by decide) _ (plain_no_percent hplain)]
        have e2 : strings.Map (strings.unicodeToLower caseTable) (unescapeBuild encodeHost h)
            = strings.Map (strings.unicodeToLower caseTable) (unescapeBuild encodeHost (h.take i))
              ++ 93 :: h.drop (i + 1) := by
          rw [e1, strings.ToLowerMap_append_ascii caseTable _ _ (by decide),
            strings.ToLowerMap_of_ascii caseTable _
              (fun c hc => (plain_byte (hplain c (List.mem_cons_of_mem _ hc))).2.2.1),
            plain_lower (fun c hc => hplain c (List.mem_cons_of_mem _ hc))]
          rfl
        have e3 : escape (strings.Map (strings.unicodeToLower caseTable)
              (unescapeBuild encodeHost h)) encodeHost
            = escape (strings.Map (strings.unicodeToLower caseTable)
                (unescapeBuild encodeHost (h.take i))) encodeHost ++ 93 :: h.drop (i + 1) := by
          rw [e2, escape_append, plain_escape hplain]
        have hb2 := escape_lower_bracket caseTable hhead (93 :: h.drop (i + 1))
        have hl2 := strings.LastIndex_singleton_append
          (escape (strings.Map (strings.unicodeToLower caseTable)
            (unescapeBuild encodeHost (h.take i))) encodeHost) h93
        have h37 : 37 ∉ strings.Map (strings.unicodeToLower caseTable)
            (unescapeBuild encodeHost (h.take i)) := by
          intro hm
          have := (mem_lower_host hT (host_good hc1 hAT) 37 hm).2 (by decide) (by decide)
          exact host_no_percent hc1 hAT hz this
        have hz2 := Index_escape_append h37 []
        simp only [List.append_nil, strings.Index, List.isEmpty_cons, Bool.false_eq_true,
          if_false, Option.map_none'] at hz2
        rw [← e3] at hb2 hl2
        have e4 : (escape (strings.Map (strings.unicodeToLower caseTable)
              (unescapeBuild encodeHost h)) encodeHost).drop
              ((escape (strings.Map (strings.unicodeToLower caseTable)
                (unescapeBuild encodeHost (h.take i))) encodeHost).length + 1)
            = h.drop (i + 1) := by
          conv_lhs => rw [e3]
          rw [← List.drop_drop, List.drop_left]
          rfl
        have e5 : (escape (strings.Map (strings.unicodeToLower caseTable)
              (unescapeBuild encodeHost h)) encodeHost).take
              (escape (strings.Map (strings.unicodeToLower caseTable)
                (unescapeBuild encodeHost (h.take i))) encodeHost).length
            = escape (strings.Map (strings.unicodeToLower caseTable)
                (unescapeBuild encodeHost (h.take i))) encodeHost := by
          conv_lhs => rw [e3]
          exact List.take_left _ _
        rw [parseHost_bracket_plain hb2 hl2 (by rw [e4]; exact hport) (by rw [e5]; exact hz2)]
        exact ⟨_, unescape_of_check (unescapeCheck_host_escape
          (fun y hy => (mem_lower_host hT (host_good hcw hA) y hy).1))⟩
      | some z =>
        rw [parseHost_bracket_zone hb hl hport hz] at hp
        obtain ⟨hzn, hzdec⟩ := Index_take_eq_none (by simp) (h.take i) hz
        -- the three parts of the host text
        have hzlen : z + 3 ≤ (h.take i).length := by
          have := congrArg List.length hzdec
          simp only [List.length_append, List.length_take, List.length_cons, List.length_nil,
            List.length_drop] at this ⊢
          omega
        have hzi : z ≤ i := by rw [hlen] at hzlen; omega
        have etake : (h.take i).take z = h.take z := by
          rw [List.take_take, min_eq_left hzi]
        rw [etake] at hzn hzdec
        have hzdrop : (h.take i).drop z = 37 :: 50 :: 53 :: (h.take i).drop (z + 3) := by
          have := List.take_append_drop z (h.take i)
          rw [etake] at this
          have e2 : h.take z ++ (h.take i).drop z
              = h.take z ++ (37 :: 50 :: 53 :: (h.take i).drop (z + 3)) := by
            rw [this]
            conv_lhs => rw [hzdec]
            simp
          exact List.append_cancel_left e2
        have hhead1 : (h.take z).head? = some 91 := by
          have e : h.take i = h.take z ++ 37 :: (50 :: 53 :: (h.take i).drop (z + 3)) := by
            conv_lhs => rw [hzdec]
            simp
          exact head_of_append_cons e hhead (by decide)
        have hA1 : ∀ c ∈ h.take z, c < 128 := fun c hc => hA c (List.mem_of_mem_take hc)
        have hAz : ∀ c ∈ (h.take i).drop z, c < 128 :=
          fun c hc => hAT c (List.mem_of_mem_drop hc)
        cases hu1 : unescape (h.take z) encodeHost with
        | error e => rw [hu1] at hp; simp at hp
        | ok host1 =>
          cases hu2 : unescape ((h.take i).drop z) encodeZone with
          | error e => rw [hu1, hu2] at hp; simp at hp
          | ok host2 =>
            cases hu3 : unescape (h.drop i) encodeHost with
            | error e => rw [hu1, hu2, hu3] at hp; simp at hp
            | ok host3 =>
              rw [hu1, hu2, hu3] at hp
              simp only [Except.ok.injEq] at hp
              subst hp
              rw [unescape_eq_ok] at hu1 hu2 hu3
              obtain ⟨hc1, rfl⟩ := hu1
              obtain ⟨hc2, rfl⟩ := hu2
              obtain ⟨hc3, rfl⟩ := hu3
              have hzone := mem_unescapeBuild_zone _ hc2 hAz
              have e0 : unescapeBuild encodeZone ((h.take i).drop z)
                  = 37 :: unescapeBuild encodeZone ((h.take i).drop (z + 3)) := by
                rw [hzdrop, unescapeBuild_percent]
                rfl
              rw [e0] at hzone
              have hzasc := zone_ascii hzone
              have hzlow := zone_lower hzone
              have e1 : unescapeBuild encodeHost (h.drop i) = 93 :: h.drop (i + 1) := by
                rw [hdrop, unescapeBuild_of_no_percent (by decide) _ (plain_no_percent hplain)]
              have hasc2 : ∀ c ∈ unescapeBuild encodeZone ((h.take i).drop (z + 3))
                  ++ 93 :: h.drop (i + 1), c < 128 := by
                intro c hc
                rcases List.mem_append.1 hc with hc | hc
                · exact hzasc c (List.mem_cons_of_mem _ hc)
                · exact (plain_byte (hplain c hc)).2.2.1
              have e2 : strings.Map (strings.unicodeToLower caseTable)
                    (unescapeBuild encodeHost (h.take z)
                      ++ unescapeBuild encodeZone ((h.take i).drop z)
                      ++ unescapeBuild encodeHost (h.drop i))
                  = strings.Map (strings.unicodeToLower caseTable)
                      (unescapeBuild encodeHost (h.take z))
                    ++ ((37 :: unescapeBuild encodeZone ((h.take i).drop (z + 3))).map
                          strings.lowerByte
                        ++ 93 :: h.drop (i + 1)) := by
                rw [e0, e1, List.append_assoc, List.cons_append,
                  strings.ToLowerMap_append_ascii caseTable _ _ (by decide),
                  strings.ToLowerMap_of_ascii caseTable _ hasc2, List.map_append,
                  plain_lower hplain]
                rfl
              have e3 : escape (strings.Map (strings.unicodeToLower caseTable)
                    (unescapeBuild encodeHost (h.take z)
                      ++ unescapeBuild encodeZone ((h.take i).drop z)
                      ++ unescapeBuild encodeHost (h.drop i))) encodeHost
                  = (escape (strings.Map (strings.unicodeToLower caseTable)
                        (unescapeBuild encodeHost (h.take z))) encodeHost
                      ++ escape ((37 :: unescapeBuild encodeZone ((h.take i).drop (z + 3))).map
                          strings.lowerByte) encodeHost)
                    ++ 93 :: h.drop (i + 1) := by
                rw [e2, escape_append, escape_append, plain_escape hplain, List.append_assoc]
              generalize hY : escape (strings.Map (strings.unicodeToLower caseTable)
                (unescapeBuild encodeHost (h.take z))) encodeHost = tY at e3
              generalize hZ : escape ((37 :: unescapeBuild encodeZone
                ((h.take i).drop (z + 3))).map strings.lowerByte) encodeHost = tZ at e3
              rw [e3]
              have hb2 : strings.HasPrefix ((tY ++ tZ) ++ 93 :: h.drop (i + 1)) [91] = true := by
                rw [List.append_assoc, ← hY]
                exact escape_lower_bracket caseTable hhead1 _
              have hl2 := strings.LastIndex_singleton_append (tY ++ tZ) h93
              have h37 : 37 ∉ strings.Map (strings.unicodeToLower caseTable)
                  (unescapeBuild encodeHost (h.take z)) := by
                intro hm
                have := (mem_lower_host hT (host_good hc1 hA1) 37 hm).2 (by decide) (by decide)
                exact host_no_percent hc1 hA1 hzn this
              have hZ0 : tZ = 37 :: 50 :: 53 :: escape
                  ((unescapeBuild encodeZone ((h.take i).drop (z + 3))).map strings.lowerByte)
                  encodeHost := by
                rw [← hZ, List.map_cons, escape_cons_of_shouldEscape _ (by decide) (by decide)]
                rfl
              have hz2 : strings.Index (((tY ++ tZ) ++ 93 :: h.drop (i + 1)).take (tY ++ tZ).length)
                  [37, 50, 53] = some tY.length := by
                rw [List.take_left, ← hY, Index_escape_append h37 tZ, hZ0]
                simp [strings.Index, strings.HasPrefix]
              have e4 : ((tY ++ tZ) ++ 93 :: h.drop (i + 1)).drop ((tY ++ tZ).length + 1)
                  = h.drop (i + 1) := by
                rw [← List.drop_drop, List.drop_left]
                rfl
              rw [parseHost_bracket_zone hb2 hl2 (by rw [e4]; exact hport) hz2]
              have t1 : ((tY ++ tZ) ++ 93 :: h.drop (i + 1)).take tY.length = tY := by
                rw [List.append_assoc, List.take_left]
              have t2 : (((tY ++ tZ) ++ 93 :: h.drop (i + 1)).take (tY ++ tZ).length).drop tY.length
                  = tZ := by
                rw [List.take_left, List.drop_left]
              have t3 : ((tY ++ tZ) ++ 93 :: h.drop (i + 1)).drop (tY ++ tZ).length
                  = 93 :: h.drop (i + 1) := List.drop_left _ _
              have c1 : unescapeCheck encodeHost tY = .ok () := by
                rw [← hY]
                exact unescapeCheck_host_escape
                  (fun y hy => (mem_lower_host hT (host_good hc1 hA1) y hy).1)
              have c2 : unescapeCheck encodeZone tZ = .ok () := by
                rw [← hZ]
                have := unescapeCheck_zone_escape_append hzlow []
                simpa [unescapeCheck_nil] using this
              have c3 : unescapeCheck encodeHost (93 :: h.drop (i + 1)) = .ok () :=
                plain_check hplain
              rw [t1, t2, t3, unescape_of_check c1, unescape_of_check c2, unescape_of_check c3]
              exact ⟨_, rfl⟩

/-- A host that `parseHost` accepted in an ASCII text is accepted again once it
is lower-cased and escaped. -/
theorem parseHost_escape_ToLower {caseTable : Nat → Nat} (hT : strings.CaseTableOK caseTable)
    {h H : GoString} (hA : ∀ c ∈ h, c < 128) (hp : parseHost h = .ok H) :
    ∃ H2, parseHost (escape (strings.ToLower caseTable H) encodeHost) = .ok H2 := by
  rw [strings.ToLower_eq_Map]
  cases hb : strings.HasPrefix h [91] with
  | false => exact parseHost_escape_lower_plain hT hA hb hp
  | true => exact parseHost_escape_lower_bracket hT hA hb hp

end url

namespace url

open Encoding

/-! ### The user part -/

theorem unescapeBuild_bytes {mode : Encoding} : ∀ s : GoString, (∀ c ∈ s, c < 256) →
    IsBytes (unescapeBuild mode s) := by
  apply chunk_induction
  · intro _ y hy; simp [unescapeBuild_nil] at hy
  · intro a b rest ih h y hy
    rw [unescapeBuild_percent] at hy
    rcases List.mem_cons.1 hy with hy | hy
    · have := unhex_lt a; have := unhex_lt b; omega
    · exact ih (fun c hc => h c (by simp [hc])) y hy
  · intro a h y hy
    have e : unescapeBuild mode [37, a] = [37, (if a = 43 ∧ mode = encodeQueryComponent then 32 else a)] := by
      simp [unescapeBuild]
    rw [e] at hy
    have ha := h a (by simp)
    rcases List.mem_cons.1 hy with hy | hy
    · omega
    · simp only [List.mem_singleton] at hy
      split_ifs at hy <;> omega
  · intro h y hy
    have e : unescapeBuild mode [37] = [37] := by simp [unescapeBuild]
    rw [e] at hy
    simp only [List.mem_singleton] at hy
    omega
  · intro c rest hc ih h y hy
    rw [unescapeBuild_other mode rest hc] at hy
    rcases List.mem_cons.1 hy with hy | hy
    · have := h c (List.mem_cons_self _ _)
      split_ifs at hy <;> omega
    · exact ih (fun c hc => h c (by simp [hc])) y hy

theorem isBytes_of_ascii {s : GoString} (h : ∀ c ∈ s, c < 128) : ∀ c ∈ s, c < 256 :=
  fun c hc => by have := h c hc; omega

theorem validUserinfo_byte {x : Nat} (h : x < 128)
    (hr : x = 37 ∨ (48 ≤ x ∧ x ≤ 57) ∨ (65 ≤ x ∧ x ≤ 71)
      ∨ shouldEscape x encodeUserPassword = false) :
    ((65 ≤ x && x ≤ 90) || (97 ≤ x && x ≤ 122) || (48 ≤ x && x ≤ 57)
      || decide (x ∈ [45, 46, 95, 58, 126, 33, 36, 38, 39, 40, 41, 42, 43, 44, 59, 61, 37, 64]))
      = true := by
  revert hr
  revert x
  decide

theorem validUserinfo_escape (s : GoString) :
    validUserinfo (escape s encodeUserPassword) = true := by
  unfold validUserinfo
  rw [List.all_eq_true]
  intro x hx
  have h128 := escape_ascii s (by decide : encodeUserPassword ≠ encodeQueryComponent) x hx
  rcases mem_escape (by decide) hx with r | r | r | ⟨_, r⟩
  · exact validUserinfo_byte h128 (Or.inl r)
  · exact validUserinfo_byte h128 (Or.inr (Or.inl r))
  · exact validUserinfo_byte h128 (Or.inr (Or.inr (Or.inl r)))
  · exact validUserinfo_byte h128 (Or.inr (Or.inr (Or.inr r)))

theorem validUserinfo_append (a b : GoString) :
    validUserinfo (a ++ b) = (validUserinfo a && validUserinfo b) := by
  simp [validUserinfo, List.all_append]

theorem colon_not_mem_escape_user (s : GoString) : 58 ∉ escape s encodeUserPassword :=
  not_mem_escape s (by decide) (by decide) (by decide) (by decide) (by decide)

theorem at_not_mem_escape_user (s : GoString) : 64 ∉ escape s encodeUserPassword :=
  not_mem_escape s (by decide) (by decide) (by decide) (by decide) (by decide)

theorem slash_not_mem_escape_user (s : GoString) : 47 ∉ escape s encodeUserPassword :=
  not_mem_escape s (by decide) (by decide) (by decide) (by decide) (by decide)

theorem at_not_mem_escape_host (s : GoString) : 64 ∉ escape s encodeHost :=
  not_mem_escape s (by decide) (by decide) (by decide) (by decide) (by decide)

theorem slash_not_mem_escape_host (s : GoString) : 47 ∉ escape s encodeHost :=
  not_mem_escape s (by decide) (by decide) (by decide) (by decide) (by decide)

/-- What `parseUserinfo` returns holds bytes only, when the text is made of bytes. -/
theorem parseUserinfo_bytes {t : GoString} {ui : Userinfo} (hA : ∀ c ∈ t, c < 256)
    (h : parseUserinfo t = .ok ui) : IsBytes ui.username ∧ IsBytes ui.password := by
  unfold parseUserinfo at h
  split_ifs at h with h1 h2
  · cases hu : unescape t encodeUserPassword with
    | error e => rw [hu] at h; simp at h
    | ok u =>
      rw [hu] at h
      simp only [Except.ok.injEq] at h
      subst h
      rw [unescape_eq_ok] at hu
      refine ⟨?_, fun c hc => by simp at hc⟩
      rw [hu.2]; exact unescapeBuild_bytes t hA
  · simp only at h
    cases hu : unescape (strings.Cut t [58]).1 encodeUserPassword with
    | error e => rw [hu] at h; simp at h
    | ok u =>
      cases hp : unescape (strings.Cut t [58]).2.1 encodeUserPassword with
      | error e => rw [hu, hp] at h; simp at h
      | ok p =>
        rw [hu, hp] at h
        simp only [Except.ok.injEq] at h
        subst h
        rw [unescape_eq_ok] at hu hp
        constructor
        · show IsBytes u
          rw [hu.2]
          exact unescapeBuild_bytes _ (fun c hc => hA c (strings.Cut_fst_sublist t 58 c hc))
        · show IsBytes p
          rw [hp.2]
          exact unescapeBuild_bytes _ (fun c hc => hA c (strings.Cut_snd_sublist t 58 c hc))

/-- The text `String` writes for a user is accepted by `parseUserinfo`. -/
theorem parseUserinfo_String {ui : Userinfo} (hu : IsBytes ui.username)
    (hp : IsBytes ui.password) : ∃ r, parseUserinfo ui.String = .ok r := by
  unfold Userinfo.String
  have cu := unescapeCheck_escape (Or.inr rfl) hu
  have cp := unescapeCheck_escape (Or.inr rfl) hp
  by_cases hs : ui.passwordSet = true
  · simp only [hs, if_true, List.singleton_append]
    have hcut := strings.Cut_append (escape ui.password encodeUserPassword)
      (colon_not_mem_escape_user ui.username)
    have hcont : strings.Contains
        (escape ui.username encodeUserPassword ++ 58 :: escape ui.password encodeUserPassword)
        [58] = true := by
      rw [strings.Contains_singleton]; simp
    have hv : validUserinfo
        (escape ui.username encodeUserPassword ++ 58 :: escape ui.password encodeUserPassword)
        = true := by
      have e : escape ui.username encodeUserPassword ++ 58 :: escape ui.password encodeUserPassword
          = escape ui.username encodeUserPassword ++ ([58] ++ escape ui.password encodeUserPassword) := by
        simp
      rw [e, validUserinfo_append, validUserinfo_append, validUserinfo_escape,
        validUserinfo_escape]
      decide
    unfold parseUserinfo
    simp only [hv, hcont, Bool.not_true, Bool.false_eq_true, if_false,
      hcut, unescape_of_check cu, unescape_of_check cp]
    exact ⟨_, rfl⟩
  · simp only [hs, if_false, List.append_nil, Bool.false_eq_true]
    have hcont : strings.Contains (escape ui.username encodeUserPassword) [58] = false := by
      cases hh : strings.Contains (escape ui.username encodeUserPassword) [58]
      · rfl
      · rw [strings.Contains_singleton] at hh
        exact absurd hh (colon_not_mem_escape_user _)
    unfold parseUserinfo
    simp only [validUserinfo_escape, hcont, Bool.not_true, Bool.false_eq_true, if_false,
      Bool.not_false, if_true, unescape_of_check cu]
    exact ⟨_, rfl⟩

theorem Userinfo_String_no_at (ui : Userinfo) : 64 ∉ ui.String := by
  unfold Userinfo.String
  intro h
  rcases List.mem_append.1 h with h | h
  · exact at_not_mem_escape_user _ h
  · split_ifs at h
    · rcases List.mem_append.1 h with h | h
      · simp at h
      · exact at_not_mem_escape_user _ h
    · simp at h

theorem Userinfo_String_no_slash (ui : Userinfo) : 47 ∉ ui.String := by
  unfold Userinfo.String
  intro h
  rcases List.mem_append.1 h with h | h
  · exact slash_not_mem_escape_user _ h
  · split_ifs at h
    · rcases List.mem_append.1 h with h | h
      · simp at h
      · exact slash_not_mem_escape_user _ h
    · simp at h

theorem Userinfo_String_clean (ui : Userinfo) :
    ∀ c ∈ ui.String, c < 128 ∧ 32 ≤ c ∧ c ≠ 127 ∧ c ≠ 35 ∧ c ≠ 63 := by
  unfold Userinfo.String
  intro c h
  have key : ∀ s : GoString, ∀ x ∈ escape s encodeUserPassword,
      x < 128 ∧ 32 ≤ x ∧ x ≠ 127 ∧ x ≠ 35 ∧ x ≠ 63 := by
    intro s x hx
    have h1 := escape_ascii s (by decide : encodeUserPassword ≠ encodeQueryComponent) x hx
    have h2 := escape_user_clean s x hx
    exact ⟨h1, h2⟩
  rcases List.mem_append.1 h with h | h
  · exact key _ c h
  · split_ifs at h
    · rcases List.mem_append.1 h with h | h
      · simp only [List.mem_singleton] at h; omega
      · exact key _ c h
    · simp at h

/-! ### The authority -/

theorem parseAuthority_none {a : GoString} (h : strings.LastIndex a [64] = none) :
    parseAuthority a = (match parseHost a with
      | .error e => .error e
      | .ok host => .ok (none, host)) := by
  unfold parseAuthority
  rw [h]

theorem parseAuthority_some {a : GoString} {i : Nat} (h : strings.LastIndex a [64] = some i) :
    parseAuthority a = (match parseHost (a.drop (i + 1)) with
      | .error e => .error e
      | .ok host =>
        match parseUserinfo (a.take i) with
        | .error e => .error e
        | .ok user => .ok (some user, host)) := by
  unfold parseAuthority
  rw [h]

/-- The user and the host of an authority in an ASCII text: the host was accepted
by `parseHost` in an ASCII text, and the user holds bytes. -/
theorem parseAuthority_ok {a : GoString} {user : Option Userinfo} {host : GoString}
    (hA : ∀ c ∈ a, c < 128) (h : parseAuthority a = .ok (user, host)) :
    (∃ t, (∀ c ∈ t, c < 128) ∧ parseHost t = .ok host)
    ∧ (∀ ui, user = some ui → IsBytes ui.username ∧ IsBytes ui.password) := by
  cases hl : strings.LastIndex a [64] with
  | none =>
    rw [parseAuthority_none hl] at h
    cases hh : parseHost a with
    | error e => rw [hh] at h; simp at h
    | ok H =>
      rw [hh] at h
      simp only [Except.ok.injEq, Prod.mk.injEq] at h
      obtain ⟨h1, h2⟩ := h
      subst h1 h2
      exact ⟨⟨a, hA, hh⟩, fun ui hui => by simp at hui⟩
  | some i =>
    rw [parseAuthority_some hl] at h
    cases hh : parseHost (a.drop (i + 1)) with
    | error e => rw [hh] at h; simp at h
    | ok H =>
      cases hu : parseUserinfo (a.take i) with
      | error e => rw [hh, hu] at h; simp at h
      | ok u =>
        rw [hh, hu] at h
        simp only [Except.ok.injEq, Prod.mk.injEq] at h
        obtain ⟨h1, h2⟩ := h
        subst h1 h2
        refine ⟨⟨a.drop (i + 1), fun c hc => hA c (List.mem_of_mem_drop hc), hh⟩, ?_⟩
        intro ui hui
        simp only [Option.some.injEq] at hui
        subst hui
        exact parseUserinfo_bytes
          (fun c hc => by have := hA c (List.mem_of_mem_take hc); omega) hu

/-- The authority `String` writes for a parsed user and the lower-case form of a
parsed host is accepted by `parseAuthority`. -/
theorem parseAuthority_authorityText {caseTable : Nat → Nat}
    (hT : strings.CaseTableOK caseTable) {t host : GoString} (user : Option Userinfo)
    (hA : ∀ c ∈ t, c < 128) (hh : parseHost t = .ok host)
    (hu : ∀ ui, user = some ui → IsBytes ui.username ∧ IsBytes ui.password) :
    ∃ r, parseAuthority
      (userText user ++ escape (strings.ToLower caseTable host) encodeHost) = .ok r := by
  obtain ⟨H2, hH2⟩ := parseHost_escape_ToLower hT hA hh
  cases user with
  | none =>
    simp only [userText, List.nil_append]
    rw [parseAuthority_none (strings.LastIndex_singleton_eq_none (at_not_mem_escape_host _)), hH2]
    exact ⟨_, rfl⟩
  | some ui =>
    obtain ⟨hb1, hb2⟩ := hu ui rfl
    obtain ⟨r, hr⟩ := parseUserinfo_String hb1 hb2
    simp only [userText]
    have e : ui.String ++ [64] ++ escape (strings.ToLower caseTable host) encodeHost
        = ui.String ++ 64 :: escape (strings.ToLower caseTable host) encodeHost := by simp
    rw [e, parseAuthority_some
      (strings.LastIndex_singleton_append ui.String (at_not_mem_escape_host _))]
    have e1 : (ui.String ++ 64 :: escape (strings.ToLower caseTable host) encodeHost).drop
        (ui.String.length + 1) = escape (strings.ToLower caseTable host) encodeHost := by
      rw [← List.drop_drop, List.drop_left]; rfl
    rw [e1, List.take_left, hH2, hr]
    exact ⟨_, rfl⟩

end url

namespace url

open Encoding

/-! ### Paths -/

theorem setPath_eq_ok {u w : URL} {p : GoString} :
    u.setPath p = .ok w ↔ unescapeCheck encodePath p = .ok ()
      ∧ w = { u with Path := unescapeBuild encodePath p,
                     RawPath := if p = escape (unescapeBuild encodePath p) encodePath then []
                                else p } := by
  unfold URL.setPath
  cases h : unescape p encodePath with
  | error e =>
    have : unescapeCheck encodePath p ≠ .ok () := by
      intro hc
      rw [unescape_of_check hc] at h
      exact absurd h (by simp)
    simp [this]
  | ok path =>
    rw [unescape_eq_ok] at h
    obtain ⟨h1, h2⟩ := h
    subst h2
    simp only [Except.ok.injEq, h1, true_and]
    exact eq_comm

theorem setPath_of_check (u : URL) {p : GoString} (h : unescapeCheck encodePath p = .ok ()) :
    ∃ w, u.setPath p = .ok w :=
  ⟨_, setPath_eq_ok.2 ⟨h, rfl⟩⟩

theorem rawHintValid_iff {raw dec : GoString} {mode : Encoding} :
    rawHintValid raw dec mode = true ↔ raw ≠ [] ∧ validEncoded raw mode = true
      ∧ unescapeCheck mode raw = .ok () ∧ unescapeBuild mode raw = dec := by
  unfold rawHintValid
  cases h : unescape raw mode with
  | error e =>
    have : unescapeCheck mode raw ≠ .ok () := by
      intro hc
      rw [unescape_of_check hc] at h
      exact absurd h (by simp)
    simp [this]
  | ok p =>
    rw [unescape_eq_ok] at h
    obtain ⟨h1, h2⟩ := h
    subst h2
    simp [h1, and_assoc]

theorem EscapedPath_cases (u : URL) :
    (rawHintValid u.RawPath u.Path encodePath = true ∧ u.EscapedPath = u.RawPath)
    ∨ (rawHintValid u.RawPath u.Path encodePath = false ∧ u.Path = [42] ∧ u.EscapedPath = [42])
    ∨ (rawHintValid u.RawPath u.Path encodePath = false ∧ u.Path ≠ [42]
        ∧ u.EscapedPath = escape u.Path encodePath) := by
  unfold URL.EscapedPath
  cases h : rawHintValid u.RawPath u.Path encodePath
  · by_cases h2 : u.Path = [42]
    · right; left; simp [h2]
    · right; right; simp [h2]
  · left; simp

theorem validEncoded_byte {c : Nat} (h128 : c < 128)
    (h : (decide (c ∈ [33, 36, 38, 39, 40, 41, 42, 43, 44, 59, 61, 58, 64, 91, 93, 37])
      || !shouldEscape c encodePath) = true) :
    32 ≤ c ∧ c ≠ 127 ∧ c ≠ 35 ∧ c ≠ 63 := by
  revert h
  revert c
  decide

theorem validEncoded_mem {t : GoString} (h : validEncoded t encodePath = true) :
    ∀ c ∈ t, c < 128 ∧ 32 ≤ c ∧ c ≠ 127 ∧ c ≠ 35 ∧ c ≠ 63 := by
  intro c hc
  unfold validEncoded at h
  rw [List.all_eq_true] at h
  have h1 := h c hc
  have h128 : c < 128 := by
    simp only [Bool.or_eq_true, decide_eq_true_eq, Bool.not_eq_true'] at h1
    rcases h1 with h1 | h1
    · simp only [List.mem_cons, List.mem_singleton, List.not_mem_nil, or_false] at h1
      omega
    · exact lt_of_not_shouldEscape h1
  exact ⟨h128, validEncoded_byte h128 h1⟩

/-- The escaped path is ASCII text without control bytes, `#` and `?`. -/
theorem EscapedPath_clean (u : URL) :
    ∀ c ∈ u.EscapedPath, c < 128 ∧ 32 ≤ c ∧ c ≠ 127 ∧ c ≠ 35 ∧ c ≠ 63 := by
  rcases EscapedPath_cases u with ⟨h, e⟩ | ⟨_, _, e⟩ | ⟨_, _, e⟩
  · rw [e]
    exact validEncoded_mem (rawHintValid_iff.1 h).2.1
  · rw [e]; intro c hc; simp only [List.mem_singleton] at hc; omega
  · rw [e]
    intro c hc
    exact ⟨escape_ascii _ (by decide) c hc, escape_path_clean _ c hc⟩

/-- The escaped path of a path made of bytes is accepted by `setPath`. -/
theorem EscapedPath_check {u : URL} (hb : IsBytes u.Path) :
    unescapeCheck encodePath u.EscapedPath = .ok () := by
  rcases EscapedPath_cases u with ⟨h, e⟩ | ⟨_, _, e⟩ | ⟨_, _, e⟩
  · rw [e]; exact (rawHintValid_iff.1 h).2.2.1
  · rw [e]; simp [unescapeCheck]
  · rw [e]; exact unescapeCheck_escape (Or.inl rfl) hb

theorem escape_head_slash {s : GoString} (h : s.head? = some 47) :
    (escape s encodePath).head? = some 47 := by
  cases s with
  | nil => simp at h
  | cons c s =>
    simp only [List.head?_cons, Option.some.injEq] at h
    subst h
    rw [escape_cons_of_not_shouldEscape _ (by decide)]
    rfl

/-- The escaped path is empty or starts with a slash when the path and the raw
path are. -/
theorem EscapedPath_head {u : URL} (hp : u.Path = [] ∨ u.Path.head? = some 47)
    (hr : u.RawPath = [] ∨ u.RawPath.head? = some 47) :
    u.EscapedPath = [] ∨ u.EscapedPath.head? = some 47 := by
  rcases EscapedPath_cases u with ⟨_, e⟩ | ⟨_, h, _⟩ | ⟨_, _, e⟩
  · rw [e]; exact hr
  · rw [h] at hp; simp at hp
  · rw [e]
    rcases hp with hp | hp
    · left; rw [hp]; rfl
    · right; exact escape_head_slash hp

end url

namespace utils

theorem trimPath_eq_take (p : GoString) : ∃ k, trimPath p = p.take k ∧ (p ≠ [] → 1 ≤ k) := by
  unfold trimPath strings.TrimSuffix
  split_ifs with h1 h2
  · refine ⟨p.length - (bytes "/").length, rfl, ?_⟩
    intro hne
    rw [bytes_slash] at h1 h2 ⊢
    simp only [List.length_singleton]
    match p, h1, hne with
    | [a], h1, _ =>
      exfalso
      simp only [strings.HasSuffix, List.reverse_singleton, strings.HasPrefix_cons_singleton,
        beq_iff_eq] at h2
      exact h1 (by rw [h2])
    | a :: b :: rest, _, _ => simp
  · exact ⟨p.length, by simp, fun hne => by
      cases p with
      | nil => exact absurd rfl hne
      | cons a p => simp⟩
  · exact ⟨p.length, by simp, fun hne => by
      cases p with
      | nil => exact absurd rfl hne
      | cons a p => simp⟩

theorem trimPath_nil : trimPath [] = [] := by
  obtain ⟨k, hk, _⟩ := trimPath_eq_take []
  rw [hk]; simp

theorem trimPath_mem {p : GoString} : ∀ c ∈ trimPath p, c ∈ p := by
  obtain ⟨k, hk, _⟩ := trimPath_eq_take p
  rw [hk]
  intro c hc
  exact List.mem_of_mem_take hc

theorem trimPath_head {p : GoString} {x : Nat} (h : p.head? = some x) :
    (trimPath p).head? = some x := by
  obtain ⟨k, hk, hk1⟩ := trimPath_eq_take p
  rw [hk]
  cases p with
  | nil => simp at h
  | cons a p =>
    have := hk1 (by simp)
    obtain ⟨j, rfl⟩ : ∃ j, k = j + 1 := ⟨k - 1, by omega⟩
    simpa using h

theorem trimPath_head_or {p : GoString} (h : p = [] ∨ p.head? = some 47) :
    trimPath p = [] ∨ (trimPath p).head? = some 47 := by
  rcases h with h | h
  · left; rw [h]; exact trimPath_nil
  · right; exact trimPath_head h

/-- The second byte of the trimmed path is the second byte of the path. -/
theorem trimPath_second {p : GoString} {a b : Nat} {rest : GoString}
    (h : trimPath p = a :: b :: rest) : ∃ rest2, p = a :: b :: rest2 := by
  obtain ⟨k, hk, _⟩ := trimPath_eq_take p
  rw [hk] at h
  have := List.take_append_drop k p
  rw [h] at this
  exact ⟨rest ++ p.drop k, this.symm⟩

end utils

namespace url

open Encoding

/-! ### `parseRest`, case by case -/

theorem HasPrefix_two_of_one {s : GoString} (h : strings.HasPrefix s [47] = false) :
    strings.HasPrefix s [47, 47] = false := by
  cases s with
  | nil => rfl
  | cons a s =>
    simp only [strings.HasPrefix_cons_singleton] at h
    simp [strings.HasPrefix, h]

theorem parseRest_rootless {u : URL} {rest : GoString} (hs : u.Scheme ≠ [])
    (h : strings.HasPrefix rest [47] = false) :
    parseRest u rest = .ok { u with Opaque := rest } := by
  unfold parseRest
  simp [h, hs]

theorem parseRest_omit {u : URL} {rest : GoString} (hs : u.Scheme ≠ [])
    (h1 : strings.HasPrefix rest [47] = true) (h2 : strings.HasPrefix rest [47, 47] = false) :
    parseRest u rest = URL.setPath { u with OmitHost := true } rest := by
  unfold parseRest
  simp [h1, h2, hs]

/-- The authority and the path of a text after `//`. -/
theorem split_authority (after : GoString) :
    ∃ auth rest2, after = auth ++ rest2 ∧ 47 ∉ auth ∧ (rest2 = [] ∨ rest2.head? = some 47)
      ∧ (match strings.Index after [47] with
         | some i => after.take i
         | none => after) = auth
      ∧ (match strings.Index after [47] with
         | some i => after.drop i
         | none => []) = rest2 := by
  cases h : strings.Index after [47] with
  | none =>
    refine ⟨after, [], by simp, ?_, Or.inl rfl, rfl, rfl⟩
    intro hm
    have := strings.Index_singleton_isSome hm
    rw [h] at this
    exact absurd this (by simp)
  | some i =>
    obtain ⟨h1, h2⟩ := strings.Index_singleton_some h
    obtain ⟨h3, _⟩ := split_at h1
    refine ⟨after.take i, after.drop i, (List.take_append_drop i after).symm, h2, Or.inr ?_,
      rfl, rfl⟩
    rw [h3]; rfl

theorem Index_slash_append {auth rest2 : GoString} (h1 : 47 ∉ auth)
    (h2 : rest2 = [] ∨ rest2.head? = some 47) :
    (match strings.Index (auth ++ rest2) [47] with
     | some i => (auth ++ rest2).take i
     | none => auth ++ rest2) = auth
    ∧ (match strings.Index (auth ++ rest2) [47] with
       | some i => (auth ++ rest2).drop i
       | none => []) = rest2 := by
  rcases h2 with h2 | h2
  · subst h2
    simp only [List.append_nil]
    rw [strings.Index_singleton_eq_none h1]
    exact ⟨rfl, rfl⟩
  · cases rest2 with
    | nil => simp at h2
    | cons a r =>
      simp only [List.head?_cons, Option.some.injEq] at h2
      subst h2
      rw [strings.Index_singleton_append r h1]
      simp

theorem parseRest_authority {u : URL} {rest : GoString} (hs : u.Scheme ≠ [])
    (h : strings.HasPrefix rest [47, 47] = true) :
    parseRest u rest
      = (match parseAuthority
            (match strings.Index (rest.drop 2) [47] with
             | some i => (rest.drop 2).take i
             | none => rest.drop 2) with
         | .error e => .error e
         | .ok (user, host) =>
           URL.setPath { u with User := user, Host := host }
            (match strings.Index (rest.drop 2) [47] with
             | some i => (rest.drop 2).drop i
             | none => [])) := by
  have h1 : strings.HasPrefix rest [47] = true := by
    cases hh : strings.HasPrefix rest [47]
    · rw [HasPrefix_two_of_one hh] at h; exact absurd h (by simp)
    · rfl
  unfold parseRest
  simp only [h1, h, hs, Bool.not_true, Bool.false_eq_true, false_and, if_false, ne_eq,
    not_false_eq_true, true_or, and_self, if_true]

/-- A text that starts with `//`: its authority has no slash, and what follows is
empty or starts with a slash. -/
theorem parseRest_authority_inv {u w : URL} {rest : GoString} (hs : u.Scheme ≠ [])
    (h : strings.HasPrefix rest [47, 47] = true) (hp : parseRest u rest = .ok w) :
    ∃ auth rest2 user host, rest = 47 :: 47 :: (auth ++ rest2) ∧ 47 ∉ auth
      ∧ (rest2 = [] ∨ rest2.head? = some 47)
      ∧ parseAuthority auth = .ok (user, host)
      ∧ URL.setPath { u with User := user, Host := host } rest2 = .ok w := by
  rw [parseRest_authority hs h] at hp
  obtain ⟨t, ht⟩ := (strings.HasPrefix_iff _ _).1 h
  obtain ⟨auth, rest2, e1, e2, e3, e4, e5⟩ := split_authority (rest.drop 2)
  rw [e4, e5] at hp
  have ed : rest.drop 2 = t := by rw [ht]; rfl
  cases hpa : parseAuthority auth with
  | error e => rw [hpa] at hp; simp at hp
  | ok r =>
    obtain ⟨user, host⟩ := r
    rw [hpa] at hp
    refine ⟨auth, rest2, user, host, ?_, e2, e3, hpa, hp⟩
    rw [ht, ← ed, e1]; rfl

theorem parseRest_authority_ok {u : URL} {auth rest2 : GoString} {user : Option Userinfo}
    {host : GoString} (hs : u.Scheme ≠ []) (h1 : 47 ∉ auth)
    (h2 : rest2 = [] ∨ rest2.head? = some 47) (hpa : parseAuthority auth = .ok (user, host)) :
    parseRest u (47 :: 47 :: (auth ++ rest2))
      = URL.setPath { u with User := user, Host := host } rest2 := by
  rw [parseRest_authority hs (by simp [strings.HasPrefix])]
  have : (47 :: 47 :: (auth ++ rest2)).drop 2 = auth ++ rest2 := rfl
  rw [this, (Index_slash_append h1 h2).1, (Index_slash_append h1 h2).2, hpa]

/-- What `parseRest` returns for a URL with a scheme. -/
theorem parseRest_cases {u w : URL} {rest : GoString} (hs : u.Scheme ≠ [])
    (hp : parseRest u rest = .ok w) :
    (strings.HasPrefix rest [47] = false ∧ w = { u with Opaque := rest })
    ∨ (strings.HasPrefix rest [47, 47] = true
        ∧ ∃ auth rest2 user host, rest = 47 :: 47 :: (auth ++ rest2) ∧ 47 ∉ auth
          ∧ (rest2 = [] ∨ rest2.head? = some 47)
          ∧ parseAuthority auth = .ok (user, host)
          ∧ URL.setPath { u with User := user, Host := host } rest2 = .ok w)
    ∨ (strings.HasPrefix rest [47] = true ∧ strings.HasPrefix rest [47, 47] = false
        ∧ URL.setPath { u with OmitHost := true } rest = .ok w) := by
  cases h1 : strings.HasPrefix rest [47] with
  | false =>
    left
    rw [parseRest_rootless hs h1] at hp
    simp only [Except.ok.injEq] at hp
    exact ⟨rfl, hp.symm⟩
  | true =>
    right
    cases h2 : strings.HasPrefix rest [47, 47] with
    | true => left; exact ⟨rfl, parseRest_authority_inv hs h2 hp⟩
    | false =>
      right
      rw [parseRest_omit hs h1 h2] at hp
      exact ⟨rfl, rfl, hp⟩

end url

namespace url

open Encoding utils

/-! ### What `NormalizeURL` writes between scheme and query -/

theorem ToLower_nil (caseTable : Nat → Nat) : strings.ToLower caseTable [] = [] := rfl

theorem unescapeBuild_ne_nil {mode : Encoding} {s : GoString} (h : s ≠ []) :
    unescapeBuild mode s ≠ [] := by
  match s, h with
  | [c], _ =>
    by_cases hc : c = 37
    · subst hc; simp [unescapeBuild]
    · rw [unescapeBuild_other mode _ hc]; simp
  | [c, a], _ =>
    by_cases hc : c = 37
    · subst hc; simp [unescapeBuild]
    · rw [unescapeBuild_other mode _ hc]; simp
  | c :: a :: b :: rest, _ =>
    by_cases hc : c = 37
    · subst hc; rw [unescapeBuild_percent]; simp
    · rw [unescapeBuild_other mode _ hc]; simp

theorem EscapedPath_of_path_nil {u : URL} (h : u.Path = []) : u.EscapedPath = [] := by
  rcases EscapedPath_cases u with ⟨hv, _⟩ | ⟨_, h2, _⟩ | ⟨_, _, e⟩
  · obtain ⟨h1, _, _, h4⟩ := rawHintValid_iff.1 hv
    rw [h] at h4
    exact absurd h4 (unescapeBuild_ne_nil h1)
  · rw [h] at h2; simp at h2
  · rw [e, h]; rfl

theorem authorityText_eq (u : URL) :
    u.authorityText = userText u.User ++ escape u.Host encodeHost := by
  unfold URL.authorityText
  by_cases h : u.Host = []
  · simp [h, escape_nil]
  · simp [h]

theorem userText_no_slash (user : Option Userinfo) : 47 ∉ userText user := by
  cases user with
  | none => simp [userText]
  | some ui =>
    intro h
    rcases List.mem_append.1 h with h | h
    · exact Userinfo_String_no_slash ui h
    · simp at h

theorem userText_clean (user : Option Userinfo) :
    ∀ c ∈ userText user, c < 128 ∧ 32 ≤ c ∧ c ≠ 127 ∧ c ≠ 35 ∧ c ≠ 63 := by
  cases user with
  | none => simp [userText]
  | some ui =>
    intro c h
    rcases List.mem_append.1 h with h | h
    · exact Userinfo_String_clean ui c h
    · simp only [List.mem_singleton] at h; omega

theorem authorityText_no_slash (u : URL) : 47 ∉ u.authorityText := by
  rw [authorityText_eq]
  intro h
  rcases List.mem_append.1 h with h | h
  · exact userText_no_slash _ h
  · exact slash_not_mem_escape_host _ h

theorem authorityText_clean (u : URL) :
    ∀ c ∈ u.authorityText, c < 128 ∧ 32 ≤ c ∧ c ≠ 127 ∧ c ≠ 35 ∧ c ≠ 63 := by
  rw [authorityText_eq]
  intro c h
  rcases List.mem_append.1 h with h | h
  · exact userText_clean _ c h
  · exact ⟨escape_ascii _ (by decide) c h, escape_host_clean _ c h⟩

theorem bodyText_rootless (caseTable : Nat → Nat) (sch q : GoString) (fq : Bool)
    (rest : GoString) :
    (canonical caseTable
      { Scheme := sch, ForceQuery := fq, RawQuery := q, Opaque := rest }).bodyText = rest := by
  unfold URL.bodyText
  by_cases h : rest = []
  · subst h
    have e : (canonical caseTable
        { Scheme := sch, ForceQuery := fq, RawQuery := q, Opaque := [] }).EscapedPath = [] :=
      EscapedPath_of_path_nil trimPath_nil
    rw [e]
    simp [canonical, ToLower_nil, trimPath_nil, URL.authorityText, userText]
  · simp [canonical, h]

theorem bodyText_omit {v : URL} (h1 : v.Opaque = []) (h2 : v.OmitHost = true) (h3 : v.Host = [])
    (h4 : v.User = none) : v.bodyText = v.EscapedPath := by
  unfold URL.bodyText
  simp [h1, h2, h3, h4]

theorem bodyText_authority {v : URL} (h1 : v.Opaque = []) (h2 : v.OmitHost = false)
    (h3 : v.EscapedPath = [] ∨ v.EscapedPath.head? = some 47) :
    v.bodyText
      = (if v.Host ≠ [] ∨ v.Path ≠ [] ∨ v.User ≠ none then [47, 47] else [])
        ++ v.authorityText ++ v.EscapedPath := by
  unfold URL.bodyText
  have hs : (if v.EscapedPath ≠ [] ∧ v.EscapedPath.head? ≠ some 47 ∧ v.Host ≠ [] then [47]
      else ([] : GoString)) = [] := by
    rw [if_neg]
    rintro ⟨a, b, _⟩
    rcases h3 with h3 | h3
    · exact a h3
    · exact b h3
  rw [hs]
  simp [h1, h2]

theorem authorityText_of_empty {v : URL} (h1 : v.Host = []) (h2 : v.User = none) :
    v.authorityText = [] := by
  rw [authorityText_eq, h1, h2]; rfl

/-- The path `setPath` stores for a text that is empty or starts with a slash. -/
theorem setPath_head {u w : URL} {p : GoString} (hw : u.setPath p = .ok w)
    (hp : p = [] ∨ p.head? = some 47) :
    (w.Path = [] ∨ w.Path.head? = some 47) ∧ (w.RawPath = [] ∨ w.RawPath.head? = some 47) := by
  obtain ⟨_, rfl⟩ := setPath_eq_ok.1 hw
  constructor
  · show unescapeBuild encodePath p = [] ∨ (unescapeBuild encodePath p).head? = some 47
    rcases hp with hp | hp
    · left; rw [hp]; exact unescapeBuild_nil _
    · right
      cases p with
      | nil => simp at hp
      | cons c p =>
        simp only [List.head?_cons, Option.some.injEq] at hp
        subst hp
        rw [unescapeBuild_cons (by decide) _ (by decide)]
        rfl
  · show (if p = escape (unescapeBuild encodePath p) encodePath then [] else p) = []
      ∨ (if p = escape (unescapeBuild encodePath p) encodePath then [] else p).head? = some 47
    split_ifs
    · left; rfl
    · exact hp

theorem canonical_EscapedPath_head (caseTable : Nat → Nat) {w : URL}
    (h1 : w.Path = [] ∨ w.Path.head? = some 47)
    (h2 : w.RawPath = [] ∨ w.RawPath.head? = some 47) :
    (canonical caseTable w).EscapedPath = []
      ∨ (canonical caseTable w).EscapedPath.head? = some 47 :=
  EscapedPath_head (trimPath_head_or h1) h2

/-- The trimmed path of a text that starts with a slash is not `*`. -/
theorem trimPath_ne_star {p : GoString} (h : p.head? = some 47) : trimPath p ≠ [42] := by
  intro e
  have := trimPath_head h
  rw [e] at this
  simp at this

theorem unescapeBuild_head_slash {s : GoString} (h : strings.HasPrefix s [47] = true) :
    (unescapeBuild encodePath s).head? = some 47 := by
  rw [strings.HasPrefix_singleton_iff] at h
  cases s with
  | nil => simp at h
  | cons c s =>
    simp only [List.head?_cons, Option.some.injEq] at h
    subst h
    rw [unescapeBuild_cons (by decide) _ (by decide)]
    rfl

/-- What `NormalizeURL` writes between scheme and query is a good body: ASCII when
it starts with a slash, and a path it leaves alone when it starts with one slash. -/
theorem bodyText_good (caseTable : Nat → Nat) {sch q : GoString} {fq : Bool} {rest : GoString}
    {w : URL} (hs : sch ≠ [])
    (hp : parseRest { Scheme := sch, ForceQuery := fq, RawQuery := q } rest = .ok w) :
    GoodBody (canonical caseTable w).bodyText
    ∧ (Clean rest → Clean (canonical caseTable w).bodyText) := by
  rcases parseRest_cases hs hp with ⟨h1, rfl⟩ | ⟨h1, auth, rest2, user, host, _, _, h3, _, hw⟩
    | ⟨h1, h2, hw⟩
  · have e := bodyText_rootless caseTable sch q fq rest
    constructor
    · intro hb
      rw [e, h1] at hb
      exact absurd hb (by simp)
    · intro hc
      rw [e]; exact hc
  · obtain ⟨hh1, hh2⟩ := setPath_head hw h3
    obtain ⟨_, hweq⟩ := setPath_eq_ok.1 hw
    have hO : (canonical caseTable w).Opaque = [] := by rw [hweq]; rfl
    have hOm : (canonical caseTable w).OmitHost = false := by rw [hweq]; rfl
    have e := bodyText_authority hO hOm (canonical_EscapedPath_head caseTable hh1 hh2)
    have hclean : ∀ c ∈ (canonical caseTable w).bodyText,
        c < 128 ∧ 32 ≤ c ∧ c ≠ 127 ∧ c ≠ 35 ∧ c ≠ 63 := by
      rw [e]
      intro c hc
      rcases List.mem_append.1 hc with hc | hc
      · rcases List.mem_append.1 hc with hc | hc
        · split_ifs at hc
          · simp only [List.mem_cons, List.mem_singleton, List.not_mem_nil, or_false,
              or_self] at hc
            omega
          · simp at hc
        · exact authorityText_clean _ c hc
      · exact EscapedPath_clean _ c hc
    constructor
    · intro hb
      refine ⟨fun c hc => (hclean c hc).1, ?_⟩
      intro hb2
      exfalso
      rw [e] at hb hb2
      by_cases hc : (canonical caseTable w).Host ≠ [] ∨ (canonical caseTable w).Path ≠ []
          ∨ (canonical caseTable w).User ≠ none
      · rw [if_pos hc] at hb2
        simp [strings.HasPrefix] at hb2
      · rw [if_neg hc] at hb
        push_neg at hc
        rw [authorityText_of_empty hc.1 hc.2.2, EscapedPath_of_path_nil hc.2.1] at hb
        simp [strings.HasPrefix] at hb
    · intro _ c hc
      exact (hclean c hc).2
  · obtain ⟨hck, hweq⟩ := setPath_eq_ok.1 hw
    have e : (canonical caseTable w).bodyText = (canonical caseTable w).EscapedPath := by
      apply bodyText_omit
      · rw [hweq]; rfl
      · rw [hweq]; rfl
      · rw [hweq]; exact ToLower_nil caseTable
      · rw [hweq]; rfl
    have hP : (canonical caseTable w).Path = trimPath (unescapeBuild encodePath rest) := by
      rw [hweq]; rfl
    have hR : (canonical caseTable w).RawPath
        = if rest = escape (unescapeBuild encodePath rest) encodePath then [] else rest := by
      rw [hweq]; rfl
    constructor
    · intro _
      refine ⟨fun c hc => by rw [e] at hc; exact (EscapedPath_clean _ c hc).1, ?_⟩
      intro _
      rw [e]
      rcases EscapedPath_cases (canonical caseTable w) with ⟨hv, e2⟩ | ⟨_, h42, _⟩ | ⟨_, _, e2⟩
      · right
        obtain ⟨v1, v2, v3, v4⟩ := rawHintValid_iff.1 hv
        rw [hR] at v1 v2 v4
        rw [e2, hR]
        split_ifs at v1 v2 v4 ⊢ with hif
        · exact absurd rfl v1
        · rw [hP] at v4
          refine ⟨v1, v2, ?_⟩
          rw [← v4]
      · rw [hP] at h42
        exact absurd h42 (trimPath_ne_star (unescapeBuild_head_slash h1))
      · left
        exact ⟨_, e2⟩
    · intro _ c hc
      rw [e] at hc
      exact (EscapedPath_clean _ c hc).2

end url

namespace url

open Encoding utils

/-! ### Parsing what `NormalizeURL` wrote -/

theorem escape_prefix_slashes {s : GoString}
    (h : strings.HasPrefix (escape s encodePath) [47, 47] = true) : ∃ r, s = 47 :: 47 :: r := by
  cases s with
  | nil => simp [escape_nil, strings.HasPrefix] at h
  | cons a s =>
    by_cases ha : shouldEscape a encodePath = true
    · rw [escape_cons_of_shouldEscape s (by decide) ha] at h
      simp [strings.HasPrefix] at h
    · have ha2 : shouldEscape a encodePath = false := by simpa using ha
      rw [escape_cons_of_not_shouldEscape s ha2] at h
      simp only [strings.HasPrefix, Bool.and_eq_true, beq_iff_eq] at h
      obtain ⟨h1, h2⟩ := h
      subst h1
      have h3 : strings.HasPrefix (escape s encodePath) [47] = true := h2
      rw [strings.HasPrefix_singleton_iff] at h3
      have h4 := escape_head (by decide) (by decide) h3
      cases s with
      | nil => simp at h4
      | cons b s =>
        simp only [List.head?_cons, Option.some.injEq] at h4
        subst h4
        exact ⟨s, rfl⟩

/-- A path that `escape` wrote and that starts with one slash only is written
again with one slash only. -/
theorem escape_trimPath_no_slashes {y : GoString}
    (h : strings.HasPrefix (escape y encodePath) [47, 47] = false) :
    strings.HasPrefix
      (escape (trimPath (unescapeBuild encodePath (escape y encodePath))) encodePath)
      [47, 47] = false := by
  cases hh : strings.HasPrefix
      (escape (trimPath (unescapeBuild encodePath (escape y encodePath))) encodePath) [47, 47]
  · rfl
  · exfalso
    obtain ⟨r, hr⟩ := escape_prefix_slashes hh
    obtain ⟨r2, hr2⟩ := trimPath_second hr
    rw [unescapeBuild_escape _ _ (by decide) (by decide)] at hr2
    match y, hr2 with
    | [], hr2 => simp at hr2
    | [a], hr2 => simp at hr2
    | a :: b :: y2, hr2 =>
      simp only [List.map_cons, List.cons.injEq] at hr2
      obtain ⟨ha, hb, _⟩ := hr2
      have ha2 := redecode_path_eq_slash ha
      have hb2 := redecode_path_eq_slash hb
      subst ha2 hb2
      rw [escape_cons_of_not_shouldEscape _ (by decide),
        escape_cons_of_not_shouldEscape _ (by decide)] at h
      simp [strings.HasPrefix] at h

/-- The second step: what `NormalizeURL` writes for a URL parsed from a good body
is parsed again. -/
theorem parseRest_bodyText {caseTable : Nat → Nat} (hT : strings.CaseTableOK caseTable)
    {sch q : GoString} {fq : Bool} {rest : GoString} {w : URL} (hs : sch ≠ [])
    (hg : GoodBody rest)
    (hp : parseRest { Scheme := sch, ForceQuery := fq, RawQuery := q } rest = .ok w)
    (u1 : URL) (h1 : u1.Scheme ≠ []) :
    ∃ w2, parseRest u1 (canonical caseTable w).bodyText = .ok w2 := by
  rcases parseRest_cases hs hp with ⟨hpre, rfl⟩
    | ⟨hpre2, auth, rest2, user, host, hdec, hno, h3, hpa, hw⟩ | ⟨hpre1, hpre2, hw⟩
  · rw [bodyText_rootless caseTable sch q fq rest, parseRest_rootless h1 hpre]
    exact ⟨_, rfl⟩
  · have hpre1 : strings.HasPrefix rest [47] = true := by
      rw [hdec]; simp [strings.HasPrefix]
    obtain ⟨hasc, _⟩ := hg hpre1
    have authA : ∀ c ∈ auth, c < 128 := fun c hc => hasc c (by rw [hdec]; simp [hc])
    have rest2A : ∀ c ∈ rest2, c < 256 := fun c hc => by
      have := hasc c (by rw [hdec]; simp [hc])
      omega
    obtain ⟨⟨t, htA, hth⟩, hui⟩ := parseAuthority_ok authA hpa
    obtain ⟨hh1, hh2⟩ := setPath_head hw h3
    obtain ⟨hck, hweq⟩ := setPath_eq_ok.1 hw
    have hO : (canonical caseTable w).Opaque = [] := by rw [hweq]; rfl
    have hOm : (canonical caseTable w).OmitHost = false := by rw [hweq]; rfl
    have hU : (canonical caseTable w).User = user := by rw [hweq]; rfl
    have hH : (canonical caseTable w).Host = strings.ToLower caseTable host := by rw [hweq]; rfl
    have hP : (canonical caseTable w).Path = trimPath (unescapeBuild encodePath rest2) := by
      rw [hweq]; rfl
    have hEP := canonical_EscapedPath_head caseTable hh1 hh2
    have e := bodyText_authority hO hOm hEP
    by_cases hc : (canonical caseTable w).Host ≠ [] ∨ (canonical caseTable w).Path ≠ []
        ∨ (canonical caseTable w).User ≠ none
    · rw [if_pos hc] at e
      have e2 : (canonical caseTable w).bodyText
          = 47 :: 47 :: ((canonical caseTable w).authorityText
              ++ (canonical caseTable w).EscapedPath) := by
        rw [e]; simp
      obtain ⟨⟨user2, host2⟩, hr⟩ := parseAuthority_authorityText hT user htA hth hui
      have hr2 : parseAuthority (canonical caseTable w).authorityText = .ok (user2, host2) := by
        rw [authorityText_eq, hU, hH]; exact hr
      rw [e2, parseRest_authority_ok h1 (authorityText_no_slash _) hEP hr2]
      apply setPath_of_check
      apply EscapedPath_check
      intro c hc
      rw [hP] at hc
      exact unescapeBuild_bytes rest2 rest2A c (trimPath_mem c hc)
    · rw [if_neg hc] at e
      push_neg at hc
      rw [authorityText_of_empty hc.1 hc.2.2, EscapedPath_of_path_nil hc.2.1] at e
      rw [e, parseRest_rootless h1 (by simp [strings.HasPrefix])]
      exact ⟨_, rfl⟩
  · obtain ⟨hasc, hpo⟩ := hg hpre1
    have hPO := hpo hpre2
    obtain ⟨hck, hweq⟩ := setPath_eq_ok.1 hw
    have e : (canonical caseTable w).bodyText = (canonical caseTable w).EscapedPath := by
      apply bodyText_omit
      · rw [hweq]; rfl
      · rw [hweq]; rfl
      · rw [hweq]; exact ToLower_nil caseTable
      · rw [hweq]; rfl
    have hP : (canonical caseTable w).Path = trimPath (unescapeBuild encodePath rest) := by
      rw [hweq]; rfl
    have hR : (canonical caseTable w).RawPath
        = if rest = escape (unescapeBuild encodePath rest) encodePath then [] else rest := by
      rw [hweq]; rfl
    have hrest : ∃ w2, parseRest u1 rest = .ok w2 := by
      rw [parseRest_omit h1 hpre1 hpre2]
      exact setPath_of_check _ hck
    have hbytes : IsBytes (trimPath (unescapeBuild encodePath rest)) := by
      intro c hc
      exact unescapeBuild_bytes rest (fun x hx => by have := hasc x hx; omega) c
        (trimPath_mem c hc)
    rw [e]
    rcases EscapedPath_cases (canonical caseTable w) with ⟨hv, e2⟩ | ⟨_, h42, _⟩ | ⟨hv, _, e2⟩
    · obtain ⟨v1, _⟩ := rawHintValid_iff.1 hv
      rw [e2]
      rw [hR] at v1 ⊢
      split_ifs at v1 ⊢ with hif
      · exact absurd rfl v1
      · exact hrest
    · rw [hP] at h42
      exact absurd h42 (trimPath_ne_star (unescapeBuild_head_slash hpre1))
    · rw [e2, hP]
      rcases hPO with ⟨y, hy⟩ | ⟨n1, n2, n3⟩
      · have hb1 : strings.HasPrefix
            (escape (trimPath (unescapeBuild encodePath rest)) encodePath) [47] = true := by
          rw [strings.HasPrefix_singleton_iff]
          exact escape_head_slash (trimPath_head (unescapeBuild_head_slash hpre1))
        have hb2 : strings.HasPrefix
            (escape (trimPath (unescapeBuild encodePath rest)) encodePath) [47, 47] = false := by
          rw [hy] at hpre2 ⊢
          exact escape_trimPath_no_slashes hpre2
        rw [parseRest_omit h1 hb1 hb2]
        exact setPath_of_check _ (unescapeCheck_escape (Or.inl rfl) hbytes)
      · rw [n3]
        by_cases hif : rest = escape (unescapeBuild encodePath rest) encodePath
        · rw [← hif]; exact hrest
        · exfalso
          have : rawHintValid (canonical caseTable w).RawPath (canonical caseTable w).Path
              encodePath = true := by
            rw [hR, if_neg hif, hP, n3]
            exact rawHintValid_iff.2 ⟨n1, n2, hck, rfl⟩
          rw [this] at hv
          exact absurd hv (by simp)

end url

namespace url

open Encoding utils

/-! ### From `Parse` to `parseRest` and back -/

theorem String_eq {v : URL} (hF : v.Fragment = []) (hS : v.Scheme ≠ []) :
    v.String = v.Scheme ++ [58] ++ v.bodyText ++ v.queryText := by
  unfold URL.String URL.bodyText URL.queryText
  simp only [hF, hS, ne_eq, not_false_eq_true, if_true, not_true_eq_false, if_false,
    List.append_nil, true_or]
  by_cases hO : v.Opaque = []
  · cases hU : v.User <;> simp [hO, URL.authorityText, userText, hU]
  · simp [hO]

theorem parseRest_fields {u w : URL} {rest : GoString} (h : parseRest u rest = .ok w) :
    w.Scheme = u.Scheme ∧ w.RawQuery = u.RawQuery ∧ w.ForceQuery = u.ForceQuery := by
  unfold parseRest at h
  split_ifs at h
  · simp only [Except.ok.injEq] at h
    subst h; exact ⟨rfl, rfl, rfl⟩
  · simp only at h
    split at h
    · simp at h
    · obtain ⟨_, rfl⟩ := setPath_eq_ok.1 h
      exact ⟨rfl, rfl, rfl⟩
  · obtain ⟨_, rfl⟩ := setPath_eq_ok.1 h
    exact ⟨rfl, rfl, rfl⟩
  · obtain ⟨_, rfl⟩ := setPath_eq_ok.1 h
    exact ⟨rfl, rfl, rfl⟩

theorem getSchemeLoop_sub (raw : GoString) : ∀ (rest : GoString) (i0 : Bool) (acc s0 r0 : GoString),
    (∀ c ∈ rest, c ∈ raw) → getSchemeLoop raw i0 acc rest = .ok (s0, r0) → ∀ c ∈ r0, c ∈ raw := by
  intro rest
  induction rest with
  | nil =>
    intro i0 acc s0 r0 _ h
    simp only [getSchemeLoop, Except.ok.injEq, Prod.mk.injEq] at h
    rw [← h.2]; exact fun c hc => hc
  | cons x rest ih =>
    intro i0 acc s0 r0 hsub h
    have hsub2 : ∀ c ∈ rest, c ∈ raw := fun c hc => hsub c (List.mem_cons_of_mem _ hc)
    unfold getSchemeLoop at h
    split_ifs at h
    · exact ih _ _ _ _ hsub2 h
    · simp only [Except.ok.injEq, Prod.mk.injEq] at h
      rw [← h.2]; exact fun c hc => hc
    · exact ih _ _ _ _ hsub2 h
    · simp only [Except.ok.injEq, Prod.mk.injEq] at h
      rw [← h.2]; exact hsub2
    · simp only [Except.ok.injEq, Prod.mk.injEq] at h
      rw [← h.2]; exact fun c hc => hc

theorem getScheme_sub {raw s0 r0 : GoString} (h : getScheme raw = .ok (s0, r0)) :
    ∀ c ∈ r0, c ∈ raw :=
  getSchemeLoop_sub raw raw true [] s0 r0 (fun _ hc => hc) h

theorem HasSuffix_singleton {s : GoString} {c : Nat} (h : strings.HasSuffix s [c] = true) :
    ∃ t, s = t ++ [c] := by
  unfold strings.HasSuffix at h
  simp only [List.reverse_singleton] at h
  obtain ⟨t, ht⟩ := (strings.HasPrefix_iff _ _).1 h
  refine ⟨t.reverse, ?_⟩
  have := congrArg List.reverse ht
  simpa using this

/-- The text before the query has no `?`, and both are parts of the text. -/
theorem query_split_sub (rest0 : GoString) :
    (∀ c ∈ (if (strings.HasSuffix rest0 [63] && strings.CountByte rest0 63 == 1) = true
        then rest0.take (rest0.length - 1) else (strings.Cut rest0 [63]).1),
      c ∈ rest0 ∧ c ≠ 63)
    ∧ (∀ c ∈ (if (strings.HasSuffix rest0 [63] && strings.CountByte rest0 63 == 1) = true
        then [] else (strings.Cut rest0 [63]).2.1), c ∈ rest0) := by
  split_ifs with hF
  · simp only [Bool.and_eq_true, beq_iff_eq] at hF
    obtain ⟨t, ht⟩ := HasSuffix_singleton hF.1
    refine ⟨?_, fun c hc => by simp at hc⟩
    intro c hc
    have e : rest0.take (rest0.length - 1) = t := by
      rw [ht]; simp
    rw [e] at hc
    refine ⟨by rw [ht]; simp [hc], ?_⟩
    intro h63
    subst h63
    have hcount := hF.2
    rw [ht] at hcount
    simp only [strings.CountByte, List.count_append, List.count_singleton_self] at hcount
    have : 0 < t.count 63 := List.count_pos_iff.2 hc
    omega
  · refine ⟨fun c hc => ⟨strings.Cut_fst_sublist _ _ c hc, ?_⟩,
      fun c hc => strings.Cut_snd_sublist _ _ c hc⟩
    intro h63
    subst h63
    exact strings.Cut_fst_not_mem _ _ hc

/-- A URL that `Parse` returns with a scheme: `parseRest` made it from a text
without control bytes, `#` and `?`, and a query without control bytes and `#`; the
fragment apart. -/
theorem Parse_inv {a : GoString} {w : URL} (hp : Parse a = .ok w) (hs : w.Scheme ≠ []) :
    ∃ (fq : Bool) (q body : GoString) (w0 : URL), CleanQ q ∧ Clean body
      ∧ parseRest { Scheme := w.Scheme, ForceQuery := fq, RawQuery := q } body = .ok w0
      ∧ (w = w0 ∨ ∃ f rf, w = { w0 with Fragment := f, RawFragment := rf }) := by
  unfold Parse at hp
  simp only at hp
  cases hpar : parse (strings.Cut a [35]).1 with
  | error e => rw [hpar] at hp; simp at hp
  | ok w0 =>
    rw [hpar] at hp
    simp only at hp
    have hw : w = w0 ∨ ∃ f rf, w = { w0 with Fragment := f, RawFragment := rf } := by
      split_ifs at hp
      · simp only [Except.ok.injEq] at hp
        exact Or.inl hp.symm
      · right
        unfold URL.setFragment at hp
        split at hp
        · simp at hp
        · simp only [Except.ok.injEq] at hp
          exact ⟨_, _, hp.symm⟩
    have hsch : w.Scheme = w0.Scheme := by
      rcases hw with rfl | ⟨f, rf, rfl⟩ <;> rfl
    have h35 := strings.Cut_fst_not_mem a 35
    generalize (strings.Cut a [35]).1 = a1 at hpar h35
    unfold parse at hpar
    split_ifs at hpar with hctl h42
    · simp only [Except.ok.injEq] at hpar
      rw [← hpar] at hsch
      exact absurd hsch hs
    · cases hgs : getScheme a1 with
      | error e => rw [hgs] at hpar; simp at hpar
      | ok r =>
        obtain ⟨scheme0, rest0⟩ := r
        rw [hgs] at hpar
        simp only at hpar
        have hf := (parseRest_fields hpar).1
        simp only at hf
        rw [← hf, ← hsch] at hpar
        have hsub := getScheme_sub hgs
        have hq := query_split_sub rest0
        have hbyte : ∀ c ∈ a1, 32 ≤ c ∧ c ≠ 127 := by
          intro c hc
          simp only [stringContainsCTLByte, Bool.not_eq_true, List.any_eq_false, Bool.or_eq_true,
            decide_eq_true_eq, beq_iff_eq, not_or, not_lt] at hctl
          exact hctl c hc
        refine ⟨_, _, _, w0, ?_, ?_, hpar, hw⟩
        · intro c hc
          have h1 := hsub c (hq.2 c hc)
          refine ⟨(hbyte c h1).1, (hbyte c h1).2, ?_⟩
          intro e; subst e; exact h35 h1
        · intro c hc
          have h0 := hq.1 c hc
          have h1 := hsub c h0.1
          refine ⟨(hbyte c h1).1, (hbyte c h1).2, ?_, h0.2⟩
          intro e; subst e; exact h35 h1

end url

namespace url

open Encoding utils

theorem getScheme_http (t : GoString) :
    getScheme (bytes "http" ++ [58] ++ t) = .ok (bytes "http", t) := by
  rw [bytes_http]
  simp [getScheme, getSchemeLoop]

theorem getScheme_https (t : GoString) :
    getScheme (bytes "https" ++ [58] ++ t) = .ok (bytes "https", t) := by
  rw [bytes_https]
  simp [getScheme, getSchemeLoop]

theorem scheme_facts {sch : GoString} (hs : sch = bytes "http" ∨ sch = bytes "https") :
    sch ≠ [] ∧ sch.map strings.lowerByte = sch ∧ (∀ c ∈ sch, 32 ≤ c ∧ c ≠ 127 ∧ c ≠ 35)
    ∧ (∀ caseTable, strings.ToLower caseTable sch = sch)
    ∧ (∀ t, getScheme (sch ++ [58] ++ t) = .ok (sch, t))
    ∧ (∀ t, sch ++ [58] ++ t ≠ [42]) := by
  rcases hs with rfl | rfl
  · refine ⟨by decide, by decide, by decide, fun _ => rfl, getScheme_http, ?_⟩
    intro t; rw [bytes_http]; simp
  · refine ⟨by decide, by decide, by decide, fun _ => rfl, getScheme_https, ?_⟩
    intro t; rw [bytes_https]; simp

/-- The text before the query and the query, read back from what `String` wrote. -/
theorem query_split {body q qt : GoString} (h63 : 63 ∉ body)
    (hqt : (qt = [] ∧ q = []) ∨ qt = 63 :: q) :
    (if (strings.HasSuffix (body ++ qt) [63] && strings.CountByte (body ++ qt) 63 == 1) = true
      then (body ++ qt).take ((body ++ qt).length - 1)
      else (strings.Cut (body ++ qt) [63]).1) = body
    ∧ (if (strings.HasSuffix (body ++ qt) [63] && strings.CountByte (body ++ qt) 63 == 1) = true
        then [] else (strings.Cut (body ++ qt) [63]).2.1) = q := by
  have hc0 : body.count 63 = 0 := List.count_eq_zero.2 h63
  rcases hqt with ⟨rfl, rfl⟩ | rfl
  · have hF : (strings.HasSuffix (body ++ []) [63] && strings.CountByte (body ++ []) 63 == 1)
        = false := by
      simp [strings.CountByte, hc0]
    rw [hF]
    simp [strings.Cut_of_not_mem h63]
  · by_cases hq : q = []
    · subst hq
      have hF : (strings.HasSuffix (body ++ [63]) [63]
          && strings.CountByte (body ++ [63]) 63 == 1) = true := by
        simp [strings.CountByte, hc0, strings.HasSuffix, strings.HasPrefix]
      rw [hF]
      simp
    · have hF : (strings.HasSuffix (body ++ 63 :: q) [63]
          && strings.CountByte (body ++ 63 :: q) 63 == 1) = false := by
        cases hh : (strings.HasSuffix (body ++ 63 :: q) [63]
          && strings.CountByte (body ++ 63 :: q) 63 == 1)
        · rfl
        · exfalso
          simp only [Bool.and_eq_true, beq_iff_eq] at hh
          obtain ⟨t, ht⟩ := HasSuffix_singleton hh.1
          have hcount := hh.2
          simp only [strings.CountByte, List.count_append, List.count_cons_self, hc0] at hcount
          have hq0 : q.count 63 = 0 := by omega
          have hqn : 63 ∉ q := List.count_eq_zero.1 hq0
          rcases List.eq_nil_or_concat q with hq1 | ⟨q1, x, hq1⟩
          · exact hq hq1
          · subst hq1
            have e : (body ++ 63 :: q1) ++ [x] = t ++ [63] := by
              rw [← ht]; simp
            have hx := congrArg List.getLast? e
            simp only [List.getLast?_append, List.getLast?_singleton, Option.or_some,
              Option.some.injEq] at hx
            apply hqn
            simp [hx]
      rw [hF]
      simp [strings.Cut_append q h63]

/-- Parsing what `String` wrote for a URL with scheme `http` or `https` and no
fragment. -/
theorem Parse_text {sch body q qt : GoString} (hs : sch = bytes "http" ∨ sch = bytes "https")
    (hB : Clean body) (hQ : CleanQ q) (hqt : (qt = [] ∧ q = []) ∨ qt = 63 :: q) :
    ∃ fq, Parse (sch ++ [58] ++ body ++ qt)
      = parseRest { Scheme := sch, ForceQuery := fq, RawQuery := q } body := by
  obtain ⟨_, hlow, hsC, _, hgs, hne⟩ := scheme_facts hs
  have hall : ∀ c ∈ sch ++ [58] ++ body ++ qt, 32 ≤ c ∧ c ≠ 127 ∧ c ≠ 35 := by
    intro c hc
    simp only [List.mem_append, List.mem_singleton] at hc
    rcases hc with ((hc | hc) | hc) | hc
    · exact hsC c hc
    · subst hc; decide
    · exact ⟨(hB c hc).1, (hB c hc).2.1, (hB c hc).2.2.1⟩
    · rcases hqt with ⟨rfl, _⟩ | rfl
      · simp at hc
      · rcases List.mem_cons.1 hc with hc | hc
        · subst hc; decide
        · exact hQ c hc
  have h35 : 35 ∉ sch ++ [58] ++ body ++ qt := fun h => (hall 35 h).2.2 rfl
  have hctl : stringContainsCTLByte (sch ++ [58] ++ body ++ qt) = false := by
    unfold stringContainsCTLByte
    rw [List.any_eq_false]
    intro c hc
    have := hall c hc
    simp only [Bool.or_eq_true, decide_eq_true_eq, beq_iff_eq, not_or, not_lt]
    exact ⟨this.1, this.2.1⟩
  have h63 : 63 ∉ body := fun h => (hB 63 h).2.2.2 rfl
  have hq := query_split h63 hqt
  have e1 : sch ++ [58] ++ body ++ qt = sch ++ [58] ++ (body ++ qt) := by simp
  refine ⟨strings.HasSuffix (body ++ qt) [63] && strings.CountByte (body ++ qt) 63 == 1, ?_⟩
  unfold Parse
  rw [strings.Cut_of_not_mem h35]
  simp only
  have hparse : parse (sch ++ [58] ++ body ++ qt)
      = parseRest { Scheme := sch,
                    ForceQuery := strings.HasSuffix (body ++ qt) [63]
                      && strings.CountByte (body ++ qt) 63 == 1,
                    RawQuery := q } body := by
    unfold parse
    rw [if_neg (by rw [hctl]; simp), if_neg (by rw [e1]; exact hne _), e1, hgs]
    simp only [hlow]
    rw [hq.1, hq.2]
  rw [hparse]
  cases parseRest { Scheme := sch,
                    ForceQuery := strings.HasSuffix (body ++ qt) [63]
                      && strings.CountByte (body ++ qt) 63 == 1,
                    RawQuery := q } body <;> simp

end url

namespace utils

open url

theorem NormalizeURL_inv {caseTable : Nat → Nat} {a l : GoString}
    (h : NormalizeURL caseTable a = .ok l) :
    ∃ w, Parse a = .ok w ∧ (w.Scheme = bytes "http" ∨ w.Scheme = bytes "https")
      ∧ l = (canonical caseTable w).String := by
  cases hp : Parse a with
  | error e => simp [NormalizeURL, hp] at h
  | ok w =>
    by_cases hs : w.Scheme = bytes "http" ∨ w.Scheme = bytes "https"
    · rw [NormalizeURL_of_parse caseTable hp hs] at h
      simp only [Except.ok.injEq] at h
      exact ⟨w, rfl, hs, h.symm⟩
    · exfalso
      push_neg at hs
      unfold NormalizeURL at h
      rw [hp] at h
      simp only at h
      split_ifs at h

/-- What `NormalizeURL` writes for a parsed URL `w` that `parseRest` made as `w0`,
the fragment apart. -/
theorem canonical_String (caseTable : Nat → Nat) {w w0 : URL}
    (hs : w.Scheme = bytes "http" ∨ w.Scheme = bytes "https")
    (hw : w = w0 ∨ ∃ f rf, w = { w0 with Fragment := f, RawFragment := rf }) :
    (canonical caseTable w).String
      = w.Scheme ++ [58] ++ (canonical caseTable w0).bodyText
        ++ (if w0.ForceQuery ∨ w0.RawQuery ≠ [] then 63 :: w0.RawQuery else []) := by
  obtain ⟨hne, _, _, hlow, _, _⟩ := scheme_facts hs
  have hS : (canonical caseTable w).Scheme = w.Scheme := hlow caseTable
  rw [String_eq rfl (by rw [hS]; exact hne), hS]
  rcases hw with rfl | ⟨f, rf, rfl⟩
  · rfl
  · rfl

/-- Re-normalising is stable from the second step on: when `NormalizeURL` accepts
a canonical form `l`, it accepts what it returns for `l`. -/
theorem NormalizeURL_stable {caseTable : Nat → Nat} (hT : strings.CaseTableOK caseTable)
    {l u : GoString} (hl : IsCanonical caseTable l) (hu : NormalizeURL caseTable l = .ok u) :
    Normalizes caseTable u := by
  obtain ⟨a, ha⟩ := hl
  obtain ⟨wa, hpa, hsa, rfl⟩ := NormalizeURL_inv ha
  obtain ⟨hne, _, _, _, _, _⟩ := scheme_facts hsa
  obtain ⟨fq, q, body, w0, hQ, hB, hp0, hw⟩ := Parse_inv hpa hne
  obtain ⟨hg, hc⟩ := bodyText_good caseTable hne hp0
  have hf0 := parseRest_fields hp0
  simp only at hf0
  rw [canonical_String caseTable hsa hw, hf0.2.1] at hu
  obtain ⟨wl, hpl, hsl, rfl⟩ := NormalizeURL_inv hu
  have hqt : ((if w0.ForceQuery ∨ q ≠ [] then 63 :: q else []) = [] ∧ q = [])
      ∨ (if w0.ForceQuery ∨ q ≠ [] then 63 :: q else []) = 63 :: q := by
    by_cases hc1 : w0.ForceQuery ∨ q ≠ []
    · right; rw [if_pos hc1]
    · left
      rw [if_neg hc1]
      push_neg at hc1
      exact ⟨rfl, hc1.2⟩
  obtain ⟨fq2, hP2⟩ := Parse_text hsa (hc hB) hQ hqt
  rw [hP2] at hpl
  have hfl := parseRest_fields hpl
  simp only at hfl
  obtain ⟨_, hcl⟩ := bodyText_good caseTable hne hpl
  rw [canonical_String caseTable hsl (Or.inl rfl), hfl.2.1, hfl.1]
  have hqt2 : ((if wl.ForceQuery ∨ q ≠ [] then 63 :: q else []) = [] ∧ q = [])
      ∨ (if wl.ForceQuery ∨ q ≠ [] then 63 :: q else []) = 63 :: q := by
    by_cases hc1 : wl.ForceQuery ∨ q ≠ []
    · right; rw [if_pos hc1]
    · left
      rw [if_neg hc1]
      push_neg at hc1
      exact ⟨rfl, hc1.2⟩
  obtain ⟨fq3, hP3⟩ := Parse_text hsa (hcl (hc hB)) hQ hqt2
  obtain ⟨w2, hw2⟩ := parseRest_bodyText hT hne hg hpl
    { Scheme := wa.Scheme, ForceQuery := fq3, RawQuery := q } hne
  rw [hw2] at hP3
  have hf2 := parseRest_fields hw2
  simp only at hf2
  exact ⟨_, NormalizeURL_of_parse caseTable hP3 (by rw [hf2.1]; exact hsa)⟩

end utils

/-! ## Go maps -/

namespace GoMap

variable {K V : Type} [DecidableEq K]

theorem get_set_self (m : GoMap K V) (k : K) (v zero : V) : (m.set k v).get k zero = v := by
  simp [get, set, List.lookup]

theorem get_set_of_ne (m : GoMap K V) {k k1 : K} (v zero : V) (h : k1 ≠ k) :
    (m.set k v).get k1 zero = m.get k1 zero := by
  have hb : (k1 == k) = false := by simpa using h
  have key : ∀ l : List (K × V),
      List.lookup k1 (l.filter (fun p => decide (p.1 ≠ k))) = List.lookup k1 l := by
    intro l
    induction l with
    | nil => rfl
    | cons p l ih =>
      obtain ⟨a, b⟩ := p
      by_cases hak : a = k
      · subst hak
        simpa [List.filter, List.lookup, hb] using ih
      · by_cases h1 : k1 = a
        · subst h1; simp [List.filter, List.lookup, hak]
        · have : (k1 == a) = false := by simpa using h1
          simpa [List.filter, List.lookup, hak, this] using ih
  simp only [get, set, List.lookup, hb]
  rw [key]

theorem set_set_self (m : GoMap K V) (k : K) (v : V) : (m.set k v).set k v = m.set k v := by
  simp [set, List.filter_filter]

theorem len_set_le (m : GoMap K V) (k : K) (v : V) : (m.set k v).len ≤ m.len + 1 := by
  simp only [len, set, List.length_cons, add_le_add_iff_right]
  exact List.length_filter_le _ _

end GoMap

/-! ## The frontier queue -/

namespace queue

open utils

variable (caseTable : Nat → Nat)

theorem any_eq_iff_mem (l : List GoString) (c : GoString) :
    l.any (fun u => u == c) = true ↔ c ∈ l := by
  simp [List.any_eq_true]

theorem Add_of_error (q : Queue) {u : GoString} {e : utils.Error}
    (h : NormalizeURL caseTable u = .error e) : q.Add caseTable u = (q, false) := by
  simp [Queue.Add, h]

theorem Add_of_known (q : Queue) {u c : GoString} (h : NormalizeURL caseTable u = .ok c)
    (hk : q.visited.get c false = true ∨ c ∈ q.urls) : q.Add caseTable u = (q, false) := by
  unfold Queue.Add
  simp only [h]
  rcases hk with hv | hp
  · simp [hv]
  · have := (any_eq_iff_mem q.urls c).2 hp
    simp [this]

theorem Add_of_fresh (q : Queue) {u c : GoString} (h : NormalizeURL caseTable u = .ok c)
    (hv : q.visited.get c false = false) (hp : c ∉ q.urls) :
    q.Add caseTable u
      = ({ q with urls := q.urls ++ [c], normalized := q.normalized.set u c }, true) := by
  unfold Queue.Add
  have : q.urls.any (fun u => u == c) = false := by
    rw [Bool.eq_false_iff]; intro hc; exact hp ((any_eq_iff_mem q.urls c).1 hc)
  simp [h, hv, this]

/-- C6. `Add(u)` returns false and changes neither the pending sequence nor the
visited set when `NormalizeURL(u)` fails or the canonical form of `u` is visited or
pending; otherwise it returns true, appends the canonical form at the tail of the
pending sequence and leaves the visited set unchanged. -/
theorem Queue_Add_spec (q : Queue) (u : GoString) :
    (∀ e, NormalizeURL caseTable u = .error e → q.Add caseTable u = (q, false))
    ∧ (∀ c, NormalizeURL caseTable u = .ok c →
        (q.visited.get c false = true ∨ c ∈ q.urls) → q.Add caseTable u = (q, false))
    ∧ (∀ c, NormalizeURL caseTable u = .ok c →
        ¬ (q.visited.get c false = true ∨ c ∈ q.urls) →
        (q.Add caseTable u).2 = true
        ∧ (q.Add caseTable u).1.urls = q.urls ++ [c]
        ∧ (q.Add caseTable u).1.visited = q.visited) := by
  refine ⟨fun e h => Add_of_error caseTable q h, fun c h hk => Add_of_known caseTable q h hk, ?_⟩
  intro c h hk
  have hv : q.visited.get c false = false := by
    cases hb : q.visited.get c false with
    | false => rfl
    | true => exact absurd (Or.inl hb) hk
  have hp : c ∉ q.urls := fun hc => hk (Or.inr hc)
  rw [Add_of_fresh caseTable q h hv hp]
  exact ⟨rfl, rfl, rfl⟩

theorem Add_cases (q : Queue) (u : GoString) :
    q.Add caseTable u = (q, false)
    ∨ ∃ c, NormalizeURL caseTable u = .ok c ∧ q.visited.get c false = false ∧ c ∉ q.urls
        ∧ q.Add caseTable u
          = ({ q with urls := q.urls ++ [c], normalized := q.normalized.set u c }, true) := by
  cases h : NormalizeURL caseTable u with
  | error e => exact Or.inl (Add_of_error caseTable q h)
  | ok c =>
    by_cases hk : q.visited.get c false = true ∨ c ∈ q.urls
    · exact Or.inl (Add_of_known caseTable q h hk)
    · have hv : q.visited.get c false = false := by
        cases hb : q.visited.get c false with
        | false => rfl
        | true => exact absurd (Or.inl hb) hk
      have hp : c ∉ q.urls := fun hc => hk (Or.inr hc)
      exact Or.inr ⟨c, rfl, hv, hp, Add_of_fresh caseTable q h hv hp⟩

theorem MarkVisited_urls (q : Queue) (u : GoString) : (q.MarkVisited caseTable u).urls = q.urls := by
  unfold Queue.MarkVisited
  cases NormalizeURL caseTable u <;> rfl

theorem fifo_from (ops : List Op) : ∀ q : Queue,
    poppedURLs (q.trace caseTable ops) ++ (q.run caseTable ops).urls
      = q.urls ++ enqueuedURLs caseTable ops (q.trace caseTable ops) := by
  induction ops with
  | nil => intro q; simp [Queue.trace, Queue.run, poppedURLs, enqueuedURLs]
  | cons op ops ih =>
    intro q
    cases op with
    | add u =>
      rcases Add_cases caseTable q u with h | ⟨c, hn, _, _, h⟩
      · simp [Queue.trace, Queue.run, Queue.call, h, poppedURLs, enqueuedURLs, ih]
      · simp [Queue.trace, Queue.run, Queue.call, h, poppedURLs, enqueuedURLs, ih, hn]
    | pop =>
      cases hq : q.urls with
      | nil =>
        have hp : q.Pop = (q, [], false) := by simp [Queue.Pop, hq]
        simp [Queue.trace, Queue.run, Queue.call, hp, poppedURLs, enqueuedURLs, ih, hq]
      | cons a t =>
        have hp : q.Pop = ({ q with urls := t }, a, true) := by simp [Queue.Pop, hq]
        simp [Queue.trace, Queue.run, Queue.call, hp, poppedURLs, enqueuedURLs, ih]
    | markVisited u =>
      simp [Queue.trace, Queue.run, Queue.call, poppedURLs, enqueuedURLs, ih,
        MarkVisited_urls]

/-- C7. `Pop` returns `ok = false` exactly when the pending sequence is empty, and
then changes nothing; otherwise it removes and returns the head and leaves the
visited set unchanged.  Over any run from a new queue the URLs popped so far,
followed by those still pending, are the canonical forms whose `Add` returned
true, in the order of those `Add` calls (FIFO). -/
theorem Queue_Pop_fifo (q : Queue) (ops : List Op) :
    (q.Pop.2.2 = false ↔ q.urls = [])
    ∧ (q.urls = [] → q.Pop = (q, [], false))
    ∧ (∀ a t, q.urls = a :: t → q.Pop = ({ q with urls := t }, a, true))
    ∧ poppedURLs (NewQueue.trace caseTable ops) ++ (NewQueue.run caseTable ops).urls
        = enqueuedURLs caseTable ops (NewQueue.trace caseTable ops) := by
  refine ⟨?_, ?_, ?_, ?_⟩
  · cases hq : q.urls <;> simp [Queue.Pop, hq]
  · intro hq; simp [Queue.Pop, hq]
  · intro a t hq; simp [Queue.Pop, hq]
  · simpa [NewQueue] using fifo_from caseTable ops NewQueue

theorem MarkVisited_of_ok (q : Queue) {u c : GoString} (h : NormalizeURL caseTable u = .ok c) :
    q.MarkVisited caseTable u = { q with visited := q.visited.set c true } := by
  simp [Queue.MarkVisited, h]

theorem IsVisited_of_ok (q : Queue) {u c : GoString} (h : NormalizeURL caseTable u = .ok c) :
    q.IsVisited caseTable u = q.visited.get c false := by
  simp [Queue.IsVisited, h]

/-- C8. For a URL `u` that normalises to `c`: marking `u` visited twice gives the
same queue as marking it once, the visited count grows by at most one, the pending
sequence is untouched; afterwards `IsVisited(u)` is true and `Add(v)` returns false
and changes nothing for every `v` with canonical form `c`. -/
theorem Queue_MarkVisited_idempotent (q : Queue) (u c : GoString)
    (h : NormalizeURL caseTable u = .ok c) :
    (q.MarkVisited caseTable u).MarkVisited caseTable u = q.MarkVisited caseTable u
    ∧ (q.MarkVisited caseTable u).VisitedCount ≤ q.VisitedCount + 1
    ∧ (q.MarkVisited caseTable u).urls = q.urls
    ∧ (q.MarkVisited caseTable u).IsVisited caseTable u = true
    ∧ ∀ v, NormalizeURL caseTable v = .ok c →
        (q.MarkVisited caseTable u).Add caseTable v = (q.MarkVisited caseTable u, false) := by
  have hv : (q.MarkVisited caseTable u).visited.get c false = true := by
    rw [MarkVisited_of_ok caseTable q h]; exact GoMap.get_set_self _ _ _ _
  refine ⟨?_, ?_, MarkVisited_urls caseTable q u, ?_, ?_⟩
  · rw [MarkVisited_of_ok caseTable q h, MarkVisited_of_ok caseTable _ h]
    simp [GoMap.set_set_self]
  · rw [MarkVisited_of_ok caseTable q h]
    simp only [Queue.VisitedCount]
    exact_mod_cast GoMap.len_set_le q.visited c true
  · rw [IsVisited_of_ok caseTable _ h]; exact hv
  · intro v hvn
    exact Add_of_known caseTable _ hvn (Or.inl hv)

/-- The witness of C8: `https://example.com/page2`, on a new queue. -/
theorem Queue_MarkVisited_idempotent_witness :
    NormalizeURL id (bytes "https://example.com/page2") = .ok (bytes "https://example.com/page2")
    ∧ (NewQueue.MarkVisited id (bytes "https://example.com/page2")).IsVisited id
        (bytes "https://example.com/page2") = true :=
  ⟨rfl, (Queue_MarkVisited_idempotent id NewQueue (bytes "https://example.com/page2")
    (bytes "https://example.com/page2") rfl).2.2.2.1⟩

theorem Known_call {c : GoString} {q : Queue} (op : Op) (hk : Known c q)
    (hp : (q.call caseTable op).2 ≠ .popped c true) : Known c (q.call caseTable op).1 := by
  cases op with
  | add w =>
    rcases Add_cases caseTable q w with h | ⟨c1, _, _, _, h⟩
    · simpa [Queue.call, h] using hk
    · rcases hk with hk | hk
      · exact Or.inl (by simpa [Queue.call, h] using hk)
      · exact Or.inr (by simp [Queue.call, h, hk])
  | pop =>
    cases hq : q.urls with
    | nil =>
      have hpop : q.Pop = (q, [], false) := by simp [Queue.Pop, hq]
      simpa [Queue.call, hpop] using hk
    | cons a t =>
      have hpop : q.Pop = ({ q with urls := t }, a, true) := by simp [Queue.Pop, hq]
      have hne : a ≠ c := by
        intro hac; apply hp; simp [Queue.call, hpop, hac]
      rcases hk with hk | hk
      · exact Or.inl (by simpa [Queue.call, hpop] using hk)
      · refine Or.inr ?_
        rw [hq] at hk
        rcases List.mem_cons.1 hk with h1 | h1
        · exact absurd h1.symm hne
        · simpa [Queue.call, hpop] using h1
  | markVisited w =>
    rcases hk with hk | hk
    · refine Or.inl ?_
      cases hw : NormalizeURL caseTable w with
      | error e => simpa [Queue.call, Queue.MarkVisited, hw] using hk
      | ok c1 =>
        by_cases hc : c = c1
        · subst hc
          simp [Queue.call, Queue.MarkVisited, hw, GoMap.get_set_self]
        · simp only [Queue.call, Queue.MarkVisited, hw]
          rw [GoMap.get_set_of_ne _ _ _ hc]; exact hk
    · exact Or.inr (by simpa [Queue.call, MarkVisited_urls] using hk)

theorem Known_run {c : GoString} (ops : List Op) : ∀ q : Queue, Known c q →
    Ret.popped c true ∉ q.trace caseTable ops → Known c (q.run caseTable ops) := by
  induction ops with
  | nil => intro q hk _; simpa [Queue.run] using hk
  | cons op ops ih =>
    intro q hk hp
    simp only [Queue.trace, List.mem_cons, not_or] at hp
    exact ih _ (Known_call caseTable op hk (fun h => hp.1 h.symm)) hp.2

/-- C2, amended. From a new queue and over any sequence of `Add`, `Pop` and
`MarkVisited` calls: once an `Add` has returned true for a URL of canonical form
`c`, every later `Add` of a URL of canonical form `c` returns false and changes
nothing, as long as no `Pop` in between has returned `c`. -/
theorem Queue_Add_true_once_until_popped (before between : List Op) (u v c : GoString)
    (hu : NormalizeURL caseTable u = .ok c) (hv : NormalizeURL caseTable v = .ok c)
    (hadd : ((NewQueue.run caseTable before).Add caseTable u).2 = true)
    (hpop : Ret.popped c true ∉
      ((NewQueue.run caseTable before).Add caseTable u).1.trace caseTable between) :
    ((((NewQueue.run caseTable before).Add caseTable u).1.run caseTable between).Add caseTable v).2
      = false := by
  have hk : Known c ((NewQueue.run caseTable before).Add caseTable u).1 := by
    rcases Add_cases caseTable (NewQueue.run caseTable before) u with h | ⟨c1, hn, _, _, h⟩
    · rw [h] at hadd; exact absurd hadd (by simp)
    · have : c1 = c := by rw [hu] at hn; cases hn; rfl
      subst this
      exact Or.inr (by simp [h])
  rw [Add_of_known caseTable _ hv (Known_run caseTable between _ hk hpop)]

/-- The witness of C2: after `page0`, `page1/` is added; `page0` is popped and
marked; a later `Add` of `Example.com/page1#top` returns false. -/
theorem Queue_Add_true_once_until_popped_witness :
    NormalizeURL id (bytes "https://example.com/page1/") = .ok (bytes "https://example.com/page1")
    ∧ NormalizeURL id (bytes "https://Example.com/page1#top")
        = .ok (bytes "https://example.com/page1")
    ∧ ((NewQueue.run id [.add (bytes "https://example.com/page0")]).Add id
        (bytes "https://example.com/page1/")).2 = true
    ∧ ((((NewQueue.run id [.add (bytes "https://example.com/page0")]).Add id
        (bytes "https://example.com/page1/")).1.run id
          [.pop, .markVisited (bytes "https://example.com/page0")]).Add id
            (bytes "https://Example.com/page1#top")).2 = false :=
  ⟨rfl, rfl, rfl,
   Queue_Add_true_once_until_popped id [.add (bytes "https://example.com/page0")]
    [.pop, .markVisited (bytes "https://example.com/page0")]
    (bytes "https://example.com/page1/") (bytes "https://Example.com/page1#top")
    (bytes "https://example.com/page1") rfl rfl rfl (by decide)⟩

/-- C2 fails as stated: `Add`, `Pop`, `Add` of one URL returns true twice. -/
theorem Queue_Add_true_twice :
    (∀ caseTable, NewQueue.trace caseTable
        [.add (bytes "https://example.com/page1"), .pop, .add (bytes "https://example.com/page1")]
      = [.added true, .popped (bytes "https://example.com/page1") true, .added true])
    ∧ (∀ caseTable, NormalizeURL caseTable (bytes "https://example.com/page1")
        = .ok (bytes "https://example.com/page1")) :=
  ⟨fun _ => rfl, fun _ => rfl⟩

end queue


/-! ## The crawl: bounded result list -/

namespace crawler

open queue models utils

variable (caseTable : Nat → Nat)

theorem dispatchStep_results {cm : CrawlManager} {config : CrawlConfig} {o : Oracle}
    {s s1 : State} (h : dispatchStep caseTable cm config o s = some s1) :
    s1.results = s.results := by
  unfold dispatchStep at h
  split at h
  all_goals (try split at h)
  all_goals (try dsimp only at h)
  all_goals (try split_ifs at h)
  all_goals (try simp only [Option.some.injEq, reduceCtorEq] at h)
  all_goals (try subst h)
  all_goals (simp [State.dispatchReturn])

theorem workerStep_results {config : CrawlConfig} {o : Oracle} {i : Nat}
    {s s1 : State} (h : workerStep caseTable config o i s = some s1) :
    s1.results = s.results
    ∨ ∃ r, s1.results = s.results ++ [r] ∧ (s.results.length : Int) < config.MaxPages := by
  unfold workerStep at h
  split at h
  all_goals (try split at h)
  all_goals (try dsimp only at h)
  all_goals (try split_ifs at h)
  all_goals (try split at h)
  all_goals (try simp only [Option.some.injEq, reduceCtorEq] at h)
  all_goals (try subst h)
  all_goals (first
    | (left; simp [State.goto]; done)
    | (right; exact ⟨_, rfl, by assumption⟩))

theorem step_results {cm : CrawlManager} {config : CrawlConfig} {e : Event}
    {s s1 : State} (h : step caseTable cm config e s = some s1) :
    s1.results = s.results
    ∨ ∃ r, s1.results = s.results ++ [r] ∧ (s.results.length : Int) < config.MaxPages := by
  cases e with
  | cancel => simp only [step, Option.some.injEq] at h; subst h; exact Or.inl rfl
  | dispatch o => exact Or.inl (dispatchStep_results caseTable h)
  | work i o => exact workerStep_results caseTable h

theorem run_results_le {cm : CrawlManager} {config : CrawlConfig} (es : List Event) :
    ∀ {s s1 : State}, run caseTable cm config es s = some s1 →
      (s.results.length : Int) ≤ config.MaxPages → (s1.results.length : Int) ≤ config.MaxPages := by
  induction es with
  | nil => intro s s1 h hs; simp only [run, Option.some.injEq] at h; subst h; exact hs
  | cons e es ih =>
    intro s s1 h hs
    simp only [run] at h
    cases he : step caseTable cm config e s with
    | none => simp [he] at h
    | some s2 =>
      rw [he] at h
      refine ih h ?_
      rcases step_results caseTable he with h2 | ⟨r, h2, hlt⟩
      · rw [h2]; exact hs
      · rw [h2]; simp only [List.length_append, List.length_singleton, Nat.cast_add, Nat.cast_one]
        omega

theorem start_results {cm : CrawlManager} {startURL : GoString} {s0 : State}
    (h : Crawl.start caseTable cm startURL = .ok s0) : s0.results = [] := by
  unfold Crawl.start at h
  split at h
  · simp at h
  · simp only [Except.ok.injEq] at h; subst h; rfl

/-- C4. With `MaxPages >= 1`, whatever the number of workers and the interleaving
of their steps, the result list never holds more than `MaxPages` entries, and once
it holds `MaxPages` no step changes it any more: a worker that reaches its
critical section later drops its page. -/
theorem Crawl_results_bounded (cm : CrawlManager) (config : CrawlConfig) (startURL : GoString)
    (s : State) (hmax : 1 ≤ config.MaxPages)
    (hs : Reachable caseTable cm config startURL s) :
    (s.results.length : Int) ≤ config.MaxPages
    ∧ ∀ e s1, step caseTable cm config e s = some s1 →
        (s.results.length : Int) = config.MaxPages → s1.results = s.results := by
  obtain ⟨s0, es, h0, hrun⟩ := hs
  constructor
  · refine run_results_le caseTable es hrun ?_
    rw [start_results caseTable h0]; simp only [List.length_nil, Nat.cast_zero]; omega
  · intro e s1 he hfull
    rcases step_results caseTable he with h2 | ⟨r, _, hlt⟩
    · exact h2
    · omega

/-! ## The crawl: bounded depth -/

theorem GoMap_get_mem_or_zero {K V : Type} [DecidableEq K] (m : GoMap K V) (k : K) (zero : V) :
    m.get k zero = zero ∨ (k, m.get k zero) ∈ m := by
  unfold GoMap.get
  cases h : List.lookup k m with
  | none => exact Or.inl rfl
  | some v =>
    right
    simp only [Option.getD_some]
    induction m with
    | nil => simp [List.lookup] at h
    | cons p m ih =>
      obtain ⟨a, b⟩ := p
      by_cases hk : k = a
      · subst hk; simp [List.lookup] at h; simp [h]
      · have : (k == a) = false := by simpa using hk
        simp only [List.lookup, this] at h
        exact List.mem_cons_of_mem _ (ih h)

theorem GoMap_mem_set {K V : Type} [DecidableEq K] (m : GoMap K V) (k : K) (v : V)
    (p : K × V) (h : p ∈ m.set k v) : p = (k, v) ∨ p ∈ m := by
  simp only [GoMap.set, List.mem_cons, List.mem_filter] at h
  rcases h with h | h
  · exact Or.inl h
  · exact Or.inr h.1

theorem goto_workers {P : WorkerPC → Prop} {s : State} (i : Nat) {pc : WorkerPC}
    (hw : ∀ w ∈ s.workers, P w) (hpc : P pc) : ∀ w ∈ (s.goto i pc).workers, P w := by
  intro w hmem
  simp only [State.goto] at hmem
  rcases List.mem_or_eq_of_mem_set hmem with h | h
  · exact hw w h
  · rw [h]; exact hpc

theorem workerStep_depthInv {config : CrawlConfig} {o : Oracle} {i : Nat}
    {s s1 : State} (h : workerStep caseTable config o i s = some s1)
    (inv : DepthInv config.MaxDepth s) : DepthInv config.MaxDepth s1 := by
  obtain ⟨hr, hm, hc, hd, hp, hw⟩ := inv
  cases hpc : s.workers[i]? with
  | none => simp [workerStep, hpc] at h
  | some pc =>
    have hok := hw pc (List.getElem?_mem hpc)
    cases pc <;> simp only [workerStep, hpc] at h <;> (repeat' split at h) <;>
      (try simp only [Option.some.injEq, reduceCtorEq] at h) <;> (try subst h)
    all_goals (refine ⟨?_, ?_, ?_, ?_, ?_, goto_workers i hw ?_⟩)
    all_goals (try simp only [State.goto])
    all_goals first
      | assumption
      | trivial
      | exact hok
      | exact ⟨hok.1, by assumption⟩
      | (intro x hx; apply hc; simp [*])
      | (apply hc; simp [*])
      | (intro r hx
         rcases List.mem_append.1 hx with hx | hx
         · exact hr r hx
         · simp only [List.mem_singleton] at hx; subst hx; exact hok)
      | (intro p hx
         rcases GoMap_mem_set _ _ _ _ hx with hx | hx
         · subst hx; exact ⟨by have := hok.1; omega, by have := hok.2; omega⟩
         · exact hm p hx)

theorem dispatchStep_depthInv {cm : CrawlManager} {config : CrawlConfig} {o : Oracle}
    {s s1 : State} (h : dispatchStep caseTable cm config o s = some s1)
    (hD : 0 ≤ config.MaxDepth) (inv : DepthInv config.MaxDepth s) :
    DepthInv config.MaxDepth s1 := by
  obtain ⟨hr, hm, hc, hd, hp, hw⟩ := inv
  cases hpc : s.dispatcher <;> rw [hpc] at hp <;> simp only [dispatchStep, hpc] at h <;>
    (repeat' split at h) <;>
    (try simp only [Option.some.injEq, reduceCtorEq] at h) <;> (try subst h)
  all_goals (refine ⟨?_, ?_, ?_, ?_, ?_, ?_⟩)
  all_goals (try simp only [State.dispatchReturn])
  all_goals first
    | assumption
    | trivial
    | exact hp
    | (rcases GoMap_get_mem_or_zero s.depthMap _ 0 with h0 | h0
       · show depthOK _ _
         rw [h0]; exact ⟨le_refl _, hD⟩
       · exact hm _ h0)
    | (intro x hx
       rcases List.mem_append.1 hx with hx | hx
       · first | exact hc x hx | exact hd x hx
       · simp only [List.mem_singleton] at hx; subst hx; exact hp)

theorem step_depthInv {cm : CrawlManager} {config : CrawlConfig} {e : Event}
    {s s1 : State} (h : step caseTable cm config e s = some s1)
    (hD : 0 ≤ config.MaxDepth) (inv : DepthInv config.MaxDepth s) :
    DepthInv config.MaxDepth s1 := by
  cases e with
  | cancel =>
    simp only [step, Option.some.injEq] at h; subst h
    exact ⟨inv.results, inv.depthMap, inv.urlChan, inv.dispatched, inv.dispatcher, inv.workers⟩
  | dispatch o => exact dispatchStep_depthInv caseTable h hD inv
  | work i o => exact workerStep_depthInv caseTable h inv

theorem run_depthInv {cm : CrawlManager} {config : CrawlConfig} (hD : 0 ≤ config.MaxDepth)
    (es : List Event) : ∀ {s s1 : State}, run caseTable cm config es s = some s1 →
      DepthInv config.MaxDepth s → DepthInv config.MaxDepth s1 := by
  induction es with
  | nil => intro s s1 h inv; simp only [run, Option.some.injEq] at h; subst h; exact inv
  | cons e es ih =>
    intro s s1 h inv
    simp only [run] at h
    cases he : step caseTable cm config e s with
    | none => simp [he] at h
    | some s2 => rw [he] at h; exact ih h (step_depthInv caseTable he hD inv)

theorem start_depthInv {cm : CrawlManager} {startURL : GoString} {s0 : State} (maxDepth : Int)
    (hD : 0 ≤ maxDepth) (h : Crawl.start caseTable cm startURL = .ok s0) :
    DepthInv maxDepth s0 := by
  unfold Crawl.start at h
  split at h
  · simp at h
  · simp only [Except.ok.injEq] at h; subst h
    refine ⟨by simp, ?_, by simp, by simp, trivial, ?_⟩
    · intro p hp
      simp only [GoMap.set, List.filter_nil, List.mem_singleton] at hp
      subst hp; exact ⟨le_refl _, hD⟩
    · intro w hw
      rw [List.eq_of_mem_replicate hw]; trivial

/-- C5. With `MaxDepth >= 0`, every `PageResult` in the result list (in every
state of every execution, so also in the list `Crawl` returns) has a depth between
0 and `MaxDepth`, and so has every URL sent to a worker. -/
theorem Crawl_depth_bounded (cm : CrawlManager) (config : CrawlConfig) (startURL : GoString)
    (s : State) (hD : 0 ≤ config.MaxDepth)
    (hs : Reachable caseTable cm config startURL s) :
    (∀ r ∈ s.results, 0 ≤ r.Depth ∧ r.Depth ≤ config.MaxDepth)
    ∧ (∀ ud ∈ s.dispatched, 0 ≤ ud.depth ∧ ud.depth ≤ config.MaxDepth) := by
  obtain ⟨s0, es, h0, hrun⟩ := hs
  have inv := run_depthInv caseTable hD es hrun (start_depthInv caseTable _ hD h0)
  exact ⟨inv.results, inv.dispatched⟩

/-! ## The crawl: exactly-once dispatch -/

theorem extractLink_canonical (baseURL : GoString) (allowedDomains : List GoString)
    (acc : List GoString × GoMap GoString Bool) (a : GoString)
    (h : ∀ l ∈ acc.1, IsCanonical caseTable l) :
    ∀ l ∈ (extractLink caseTable baseURL allowedDomains acc a).1, IsCanonical caseTable l := by
  unfold extractLink
  split
  · exact h
  · rename_i normalized hn
    split_ifs
    · exact h
    · exact h
    · intro l hl
      rcases List.mem_append.1 hl with hl | hl
      · exact h l hl
      · simp only [List.mem_singleton] at hl; subst hl; exact ⟨a, hn⟩
    · exact h

theorem ExtractLinks_canonical (baseURL : GoString) (resolved allowedDomains : List GoString) :
    ∀ l ∈ ExtractLinks caseTable baseURL resolved allowedDomains, IsCanonical caseTable l := by
  unfold ExtractLinks
  have key : ∀ (rs : List GoString) (acc : List GoString × GoMap GoString Bool),
      (∀ l ∈ acc.1, IsCanonical caseTable l) →
      ∀ l ∈ (rs.foldl (extractLink caseTable baseURL allowedDomains) acc).1,
        IsCanonical caseTable l := by
    intro rs
    induction rs with
    | nil => intro acc h; exact h
    | cons a rs ih =>
      intro acc h
      exact ih _ (extractLink_canonical caseTable baseURL allowedDomains acc a h)
  exact key resolved ([], []) (by simp)

theorem Add_visited (q : Queue) (u : GoString) : (q.Add caseTable u).1.visited = q.visited := by
  rcases Add_cases caseTable q u with h | ⟨c, _, _, _, h⟩ <;> rw [h]

theorem IsVisited_congr {q1 q2 : Queue} (h : q1.visited = q2.visited) (u : GoString) :
    q1.IsVisited caseTable u = q2.IsVisited caseTable u := by
  unfold Queue.IsVisited; rw [h]

theorem IsVisited_MarkVisited_self {q : Queue} {u : GoString} (h : Normalizes caseTable u) :
    (q.MarkVisited caseTable u).IsVisited caseTable u = true := by
  obtain ⟨c, hc⟩ := h
  rw [IsVisited_of_ok caseTable _ hc, MarkVisited_of_ok caseTable q hc]
  exact GoMap.get_set_self _ _ _ _

theorem IsVisited_MarkVisited_mono {q : Queue} (v : GoString) {u : GoString}
    (h : q.IsVisited caseTable u = true) :
    (q.MarkVisited caseTable v).IsVisited caseTable u = true := by
  cases hv : NormalizeURL caseTable v with
  | error e => simpa [Queue.MarkVisited, hv] using h
  | ok cv =>
    cases hu : NormalizeURL caseTable u with
    | error e => simp [Queue.IsVisited, hu] at h
    | ok cu =>
      rw [IsVisited_of_ok caseTable _ hu] at h ⊢
      rw [MarkVisited_of_ok caseTable q hv]
      by_cases hc : cu = cv
      · subst hc; exact GoMap.get_set_self _ _ _ _
      · show GoMap.get (GoMap.set q.visited cv true) cu false = true
        rw [GoMap.get_set_of_ne _ _ _ hc]; exact h

theorem Fresh_of_not_visited {q : Queue} {dispatched : List urlDepth} {url : GoString}
    (hs : ∀ ud ∈ dispatched, Normalizes caseTable ud.url ∧ q.IsVisited caseTable ud.url = true)
    (hv : q.IsVisited caseTable url = false) : Fresh caseTable dispatched url := by
  intro c hc ud hud heq
  have h1 := (hs ud hud).2
  rw [IsVisited_of_ok caseTable _ heq] at h1
  rw [IsVisited_of_ok caseTable _ hc] at hv
  rw [h1] at hv; exact absurd hv (by simp)

theorem visitOK_congr {q1 q2 : Queue} (h : q1.visited = q2.visited) (dispatched : List urlDepth)
    (pc : DispatchPC) (hv : pc.visitOK caseTable q1 dispatched) :
    pc.visitOK caseTable q2 dispatched := by
  cases pc <;> simp only [DispatchPC.visitOK] at hv ⊢ <;>
    first
      | trivial
      | (rw [← IsVisited_congr caseTable h]; exact hv)

theorem sent_congr {q1 q2 : Queue} (h : q1.visited = q2.visited) {dispatched : List urlDepth}
    (hs : ∀ ud ∈ dispatched, Normalizes caseTable ud.url ∧ q1.IsVisited caseTable ud.url = true) :
    ∀ ud ∈ dispatched, Normalizes caseTable ud.url ∧ q2.IsVisited caseTable ud.url = true := by
  intro ud hud
  rw [← IsVisited_congr caseTable h]; exact hs ud hud

theorem Pop_true {q q1 : Queue} {url : GoString} (h : q.Pop = (q1, url, true)) :
    q.urls = url :: q1.urls ∧ q1.visited = q.visited := by
  unfold Queue.Pop at h
  split at h
  · simp at h
  · rename_i a rest hq
    simp only [Prod.mk.injEq, and_true] at h
    obtain ⟨h1, h2⟩ := h
    subst h1 h2
    exact ⟨hq, rfl⟩

theorem dispatchStep_dispatchInv {cm : CrawlManager} {config : CrawlConfig} {o : Oracle}
    {s s1 : State} (h : dispatchStep caseTable cm config o s = some s1)
    (inv : DispatchInv caseTable s) : DispatchInv caseTable s1 := by
  obtain ⟨hp, hh, hs, hv, hd, hw⟩ := inv
  cases hpc : s.dispatcher <;> rw [hpc] at hh hv <;> simp only [dispatchStep, hpc] at h
  case top =>
    split_ifs at h <;> simp only [Option.some.injEq] at h <;> subst h <;>
      exact ⟨hp, by simp [State.dispatchReturn, DispatchPC.url?], hs, trivial, hd, hw⟩
  case pop cc =>
    split at h
    · simp only [Option.some.injEq] at h; subst h
      exact ⟨hp, by simp [DispatchPC.url?], hs, trivial, hd, hw⟩
    · rename_i q1 url hpop
      simp only [Option.some.injEq] at h; subst h
      obtain ⟨hu, hvis⟩ := Pop_true hpop
      refine ⟨?_, ?_, sent_congr caseTable hvis.symm hs, trivial, hd, hw⟩
      · intro u hmem; exact hp u (by rw [hu]; exact List.mem_cons_of_mem _ hmem)
      · intro u hmem
        simp only [DispatchPC.url?, Option.some.injEq] at hmem; subst hmem
        exact hp _ (by rw [hu]; exact List.mem_cons_self _ _)
  case empty cc =>
    split_ifs at h <;> simp only [Option.some.injEq] at h <;> subst h <;>
      exact ⟨hp, by simp [DispatchPC.url?], hs, trivial, hd, hw⟩
  case visited1 cc cqs =>
    split_ifs at h <;> simp only [Option.some.injEq] at h <;> subst h <;>
      exact ⟨hp, by simp [State.dispatchReturn, DispatchPC.url?], hs, trivial, hd, hw⟩
  case visited2 cc cqs =>
    split_ifs at h <;> simp only [Option.some.injEq] at h <;> subst h <;>
      exact ⟨hp, by simp [DispatchPC.url?], hs, trivial, hd, hw⟩
  case size url =>
    simp only [Option.some.injEq] at h; subst h
    exact ⟨hp, hh, hs, trivial, hd, hw⟩
  case isVisited url =>
    split_ifs at h with hvis <;> simp only [Option.some.injEq] at h <;> subst h
    · exact ⟨hp, by simp [DispatchPC.url?], hs, trivial, hd, hw⟩
    · exact ⟨hp, hh, hs, by simpa [DispatchPC.visitOK] using hvis, hd, hw⟩
  case depth url =>
    simp only [Option.some.injEq] at h; subst h
    exact ⟨hp, hh, hs, hv, hd, hw⟩
  case mark url d =>
    simp only [Option.some.injEq] at h; subst h
    have hn : Normalizes caseTable url := hh url rfl
    refine ⟨?_, hh, ?_, ⟨IsVisited_MarkVisited_self caseTable hn,
      Fresh_of_not_visited caseTable hs hv⟩, hd, hw⟩
    · intro u hmem; exact hp u (by simpa [MarkVisited_urls] using hmem)
    · intro ud hud
      exact ⟨(hs ud hud).1, IsVisited_MarkVisited_mono caseTable url (hs ud hud).2⟩
  case send url d =>
    split_ifs at h <;> simp only [Option.some.injEq, reduceCtorEq] at h <;> subst h
    · exact ⟨hp, by simp [State.dispatchReturn, DispatchPC.url?], hs, trivial, hd, hw⟩
    · have hn : Normalizes caseTable url := hh url rfl
      refine ⟨hp, by simp [DispatchPC.url?], ?_, trivial, ?_, hw⟩
      · intro ud hud
        rcases List.mem_append.1 hud with hud | hud
        · exact hs ud hud
        · simp only [List.mem_singleton] at hud; subst hud; exact ⟨hn, hv.1⟩
      · refine List.pairwise_append.2 ⟨hd, List.pairwise_singleton _ _, ?_⟩
        intro a ha b hb
        simp only [List.mem_singleton] at hb; subst hb
        obtain ⟨c, hc⟩ := hn
        intro heq
        exact hv.2 c hc a ha (by rw [heq]; exact hc)
  case done => simp at h

theorem Add_pending (hT : strings.CaseTableOK caseTable) (q : Queue) {l : GoString} (hl : IsCanonical caseTable l)
    (hq : ∀ u ∈ q.urls, Normalizes caseTable u) :
    ∀ u ∈ (q.Add caseTable l).1.urls, Normalizes caseTable u := by
  rcases Add_cases caseTable q l with h | ⟨c, hn, _, _, h⟩
  · rw [h]; exact hq
  · rw [h]
    intro u hu
    rcases List.mem_append.1 hu with hu | hu
    · exact hq u hu
    · simp only [List.mem_singleton] at hu; subst hu
      exact NormalizeURL_stable hT hl hn

theorem workerStep_dispatchInv (hT : strings.CaseTableOK caseTable) {config : CrawlConfig} {o : Oracle} {i : Nat}
    {s s1 : State} (h : workerStep caseTable config o i s = some s1)
    (inv : DispatchInv caseTable s) : DispatchInv caseTable s1 := by
  obtain ⟨hp, hh, hs, hv, hd, hw⟩ := inv
  cases hpc : s.workers[i]? with
  | none => simp [workerStep, hpc] at h
  | some pc =>
    have hok := hw pc (List.getElem?_mem hpc)
    cases pc <;> simp only [workerStep, hpc] at h <;> (repeat' split at h) <;>
      (try simp only [Option.some.injEq, reduceCtorEq] at h) <;> (try subst h)
    all_goals (refine ⟨?_, ?_, ?_, ?_, ?_, goto_workers i hw ?_⟩)
    all_goals (try simp only [State.goto])
    all_goals first
      | assumption
      | trivial
      | exact hok
      | exact hok.2
      | exact ExtractLinks_canonical caseTable _ _ _
      | exact Add_pending caseTable hT _ hok.1 hp
      | exact sent_congr caseTable (Add_visited caseTable _ _).symm hs
      | exact visitOK_congr caseTable (Add_visited caseTable _ _).symm _ _ hv
      | exact ⟨hok _ (List.mem_cons_self _ _), fun l hl => hok l (List.mem_cons_of_mem _ hl)⟩
      | exact fun l hl => hok l (List.mem_cons_of_mem _ hl)

theorem step_dispatchInv (hT : strings.CaseTableOK caseTable) {cm : CrawlManager} {config : CrawlConfig} {e : Event}
    {s s1 : State} (h : step caseTable cm config e s = some s1)
    (inv : DispatchInv caseTable s) : DispatchInv caseTable s1 := by
  cases e with
  | cancel =>
    simp only [step, Option.some.injEq] at h; subst h
    exact ⟨inv.pending, inv.held, inv.sent, inv.visit, inv.distinct, inv.workers⟩
  | dispatch o => exact dispatchStep_dispatchInv caseTable h inv
  | work i o => exact workerStep_dispatchInv caseTable hT h inv

theorem run_dispatchInv (hT : strings.CaseTableOK caseTable) {cm : CrawlManager} {config : CrawlConfig}
    (es : List Event) : ∀ {s s1 : State}, run caseTable cm config es s = some s1 →
      DispatchInv caseTable s → DispatchInv caseTable s1 := by
  induction es with
  | nil => intro s s1 h inv; simp only [run, Option.some.injEq] at h; subst h; exact inv
  | cons e es ih =>
    intro s s1 h inv
    simp only [run] at h
    cases he : step caseTable cm config e s with
    | none => simp [he] at h
    | some s2 => rw [he] at h; exact ih h (step_dispatchInv caseTable hT he inv)

theorem start_dispatchInv (hT : strings.CaseTableOK caseTable) {cm : CrawlManager} {startURL : GoString} {s0 : State}
    (h : Crawl.start caseTable cm startURL = .ok s0) : DispatchInv caseTable s0 := by
  unfold Crawl.start at h
  split at h
  · simp at h
  · rename_i n hn
    simp only [Except.ok.injEq] at h; subst h
    refine ⟨?_, by simp [DispatchPC.url?], by simp, trivial, List.Pairwise.nil, ?_⟩
    · exact Add_pending caseTable hT NewQueue ⟨startURL, hn⟩ (by simp [NewQueue])
    · intro w hw
      rw [List.eq_of_mem_replicate hw]; trivial

theorem CaseTableOK_id : strings.CaseTableOK id := fun _ h => Or.inl h

/-- C3. In every state of every execution of `Crawl`, whatever the interleaving
of the worker steps (with their `Add` calls) and the steps of the dispatch loop:
no URL has been sent to the worker channel twice, no two URLs sent have the same
canonical form, every URL sent had been marked visited when it was sent (and is
accepted by `NormalizeURL`), and the dispatch loop goes on with a popped URL past
the test of line 265 only while it is not visited, and sends it only once it is
marked.  `CaseTableOK` is what is used of the Unicode case tables. -/
theorem Crawl_dispatch_once (cm : CrawlManager) (config : CrawlConfig) (startURL : GoString)
    (s : State) (hT : strings.CaseTableOK caseTable)
    (hs : Reachable caseTable cm config startURL s) :
    (s.dispatched.map (fun ud => ud.url)).Nodup
    ∧ s.dispatched.Pairwise (fun a b =>
        utils.NormalizeURL caseTable a.url ≠ utils.NormalizeURL caseTable b.url)
    ∧ (∀ ud ∈ s.dispatched,
        utils.Normalizes caseTable ud.url ∧ s.q.IsVisited caseTable ud.url = true)
    ∧ s.dispatcher.visitOK caseTable s.q s.dispatched := by
  obtain ⟨s0, es, h0, hrun⟩ := hs
  have inv := run_dispatchInv caseTable hT es hrun (start_dispatchInv caseTable hT h0)
  refine ⟨?_, inv.distinct, inv.sent, inv.visit⟩
  unfold List.Nodup
  rw [List.pairwise_map]
  exact inv.distinct.imp (fun hne heq => hne (by rw [heq]))

/-- The witness of C3: the sample execution, in which the seed is sent once. -/
theorem Crawl_dispatch_once_witness :
    strings.CaseTableOK id
    ∧ Reachable id sample.cm sample.config sample.startURL sample.final
    ∧ sample.final.dispatched.length = 1
    ∧ (sample.final.dispatched.map (fun ud => ud.url)).Nodup :=
  ⟨CaseTableOK_id, ⟨sample.start, sample.events, rfl, rfl⟩, rfl,
   (Crawl_dispatch_once id sample.cm sample.config sample.startURL sample.final CaseTableOK_id
      ⟨sample.start, sample.events, rfl, rfl⟩).1⟩

/-- The witness of C4: the sample execution, where the one allowed page is saved. -/
theorem Crawl_results_bounded_witness :
    (1 : Int) ≤ sample.config.MaxPages
    ∧ Reachable id sample.cm sample.config sample.startURL sample.final
    ∧ (sample.final.results.length : Int) ≤ sample.config.MaxPages :=
  ⟨by decide, ⟨sample.start, sample.events, rfl, rfl⟩,
   (Crawl_results_bounded id sample.cm sample.config sample.startURL sample.final (by decide)
      ⟨sample.start, sample.events, rfl, rfl⟩).1⟩

/-- The witness of C5: the sample execution, whose one result has depth 0. -/
theorem Crawl_depth_bounded_witness :
    (0 : Int) ≤ sample.config.MaxDepth
    ∧ Reachable id sample.cm sample.config sample.startURL sample.final
    ∧ ∀ r ∈ sample.final.results, 0 ≤ r.Depth ∧ r.Depth ≤ sample.config.MaxDepth :=
  ⟨by decide, ⟨sample.start, sample.events, rfl, rfl⟩,
   (Crawl_depth_bounded id sample.cm sample.config sample.startURL sample.final (by decide)
      ⟨sample.start, sample.events, rfl, rfl⟩).1⟩

end crawler

/-! ## `NormalizeURL`, field by field -/

namespace url

open Encoding

/-! ### What `parseHost` returns -/

/-- Apart from the `+` of a query component, the modes decode alike. -/
theorem unescapeBuild_mode {m1 m2 : Encoding} (h1 : m1 ≠ encodeQueryComponent)
    (h2 : m2 ≠ encodeQueryComponent) : ∀ s : GoString, unescapeBuild m1 s = unescapeBuild m2 s := by
  apply chunk_induction
  · rw [unescapeBuild_nil, unescapeBuild_nil]
  · intro a b rest ih
    rw [unescapeBuild_percent, unescapeBuild_percent, ih]
  · intro a
    simp [unescapeBuild, h1, h2]
  · simp [unescapeBuild, h1, h2]
  · intro c rest hc ih
    rw [unescapeBuild_cons h1 rest hc, unescapeBuild_cons h2 rest hc, ih]

/-- After a text with whole escapes only, decoding starts afresh. -/
theorem unescapeBuild_append_of_check {m m1 : Encoding} (t : GoString) : ∀ s : GoString,
    unescapeCheck m s = .ok () →
    unescapeBuild m1 (s ++ t) = unescapeBuild m1 s ++ unescapeBuild m1 t := by
  apply chunk_induction
  · intro _; simp [unescapeBuild_nil]
  · intro a b rest ih h
    obtain ⟨_, _, _, _, h5⟩ := unescapeCheck_percent_ok h
    simp only [List.cons_append]
    rw [unescapeBuild_percent, unescapeBuild_percent, ih h5]; rfl
  · intro a h; exact absurd h (unescapeCheck_percent1 _ a)
  · intro h; exact absurd h (unescapeCheck_percent0 _)
  · intro c rest hc ih h
    obtain ⟨_, h2⟩ := unescapeCheck_other_ok hc h
    simp only [List.cons_append]
    rw [unescapeBuild_other m1 _ hc, unescapeBuild_other m1 _ hc, ih h2]; rfl

/-- A host `parseHost` accepts is read as `unescape` reads it. -/
theorem parseHost_value {t H : GoString} (h : parseHost t = .ok H) :
    H = unescapeBuild encodeHost t := by
  unfold parseHost at h
  simp only at h
  split_ifs at h with hb
  · split at h
    · simp at h
    · rename_i i hl
      split_ifs at h with hp
      split at h
      · rename_i z hz
        cases h1 : unescape (t.take z) encodeHost with
        | error e => rw [h1] at h; simp at h
        | ok host1 =>
          cases h2 : unescape ((t.take i).drop z) encodeZone with
          | error e => rw [h1, h2] at h; simp at h
          | ok host2 =>
            cases h3 : unescape (t.drop i) encodeHost with
            | error e => rw [h1, h2, h3] at h; simp at h
            | ok host3 =>
              rw [h1, h2, h3] at h
              simp only [Except.ok.injEq] at h
              rw [unescape_eq_ok] at h1 h2 h3
              obtain ⟨hzi, hdec⟩ := Index_take_eq_none (by simp) (t.take i) hz
              have hzle : z ≤ i := by
                have h25 : (t.take i).length = z + 3
                    + ((t.take i).drop (z + [37, 50, 53].length)).length := by
                  conv_lhs => rw [hdec]
                  simp only [List.length_append, List.length_take, List.length_cons,
                    List.length_nil, List.length_drop]
                  have : z ≤ (t.take i).length := by
                    by_contra hlt
                    push_neg at hlt
                    have e0 : (List.take i t).take z = List.take i t :=
                      List.take_of_length_le (le_of_lt hlt)
                    rw [e0] at hdec
                    have := congrArg List.length hdec
                    simp at this
                  simp only [List.length_take] at this
                  omega
                have := List.length_take_le i t
                omega
              have et : t = t.take z ++ ((t.take i).drop z ++ t.drop i) := by
                have e1 : t.take z = (t.take i).take z := by
                  rw [List.take_take, min_eq_left hzle]
                rw [e1, ← List.append_assoc, List.take_append_drop, List.take_append_drop]
              rw [← h, h1.2, h2.2, h3.2]
              conv_rhs => rw [et]
              rw [unescapeBuild_append_of_check _ _ h1.1, unescapeBuild_append_of_check _ _ h2.1,
                @unescapeBuild_mode encodeZone encodeHost (by decide) (by decide)
                  ((t.take i).drop z)]
              simp
      · exact ((unescape_eq_ok).1 h).2
  · split at h
    · split_ifs at h
      exact ((unescape_eq_ok).1 h).2
    · exact ((unescape_eq_ok).1 h).2

/-- The lower-case form of a text of bytes is a text of bytes. -/
theorem ToLower_bytes {caseTable : Nat → Nat} (hT : strings.CaseTableOK caseTable)
    (s : GoString) : IsBytes (strings.ToLower caseTable s) := by
  intro y hy
  rw [strings.ToLower_eq_Map] at hy
  rcases strings.mem_ToLowerMap hT s.length s le_rfl y hy with h | h | ⟨c, _, hc, rfl⟩
  · exact h.2
  · omega
  · have := strings.lowerByte_lt hc
    omega

/-- The host `String` writes for the lower-case form of a parsed host is read
back as that lower-case form. -/
theorem parseHost_escape_ToLower_value {caseTable : Nat → Nat}
    (hT : strings.CaseTableOK caseTable) {h H : GoString} (hA : ∀ c ∈ h, c < 128)
    (hp : parseHost h = .ok H) :
    parseHost (escape (strings.ToLower caseTable H) encodeHost)
      = .ok (strings.ToLower caseTable H) := by
  obtain ⟨H2, hH2⟩ := parseHost_escape_ToLower hT hA hp
  rw [hH2, parseHost_value hH2,
    unescapeBuild_escape_of_bytes encodeHost encodeHost (by decide) (by decide)
      (ToLower_bytes hT H)]

/-! ### What `parseUserinfo` returns -/

/-- A user without a password has an empty password. -/
theorem parseUserinfo_password {t : GoString} {ui : Userinfo} (h : parseUserinfo t = .ok ui) :
    ui.passwordSet = false → ui.password = [] := by
  unfold parseUserinfo at h
  split_ifs at h with h1 h2
  · cases hu : unescape t encodeUserPassword with
    | error e => rw [hu] at h; simp at h
    | ok u =>
      rw [hu] at h
      simp only [Except.ok.injEq] at h
      subst h
      intro _; rfl
  · simp only at h
    cases hu : unescape (strings.Cut t [58]).1 encodeUserPassword with
    | error e => rw [hu] at h; simp at h
    | ok u =>
      cases hp : unescape (strings.Cut t [58]).2.1 encodeUserPassword with
      | error e => rw [hu, hp] at h; simp at h
      | ok p =>
        rw [hu, hp] at h
        simp only [Except.ok.injEq] at h
        subst h
        intro hf
        exact absurd hf (by simp)

/-- The text `String` writes for a user is read back as that user. -/
theorem parseUserinfo_String_value {ui : Userinfo} (hu : IsBytes ui.username)
    (hp : IsBytes ui.password) (hs : ui.passwordSet = false → ui.password = []) :
    parseUserinfo ui.String = .ok ui := by
  unfold Userinfo.String
  have cu := unescapeCheck_escape (Or.inr rfl) hu
  have cp := unescapeCheck_escape (Or.inr rfl) hp
  have vu := unescapeBuild_escape_of_bytes encodeUserPassword encodeUserPassword (by decide)
    (by decide) hu
  have vp := unescapeBuild_escape_of_bytes encodeUserPassword encodeUserPassword (by decide)
    (by decide) hp
  by_cases hset : ui.passwordSet = true
  · simp only [hset, if_true, List.singleton_append]
    have hcut := strings.Cut_append (escape ui.password encodeUserPassword)
      (colon_not_mem_escape_user ui.username)
    have hcont : strings.Contains
        (escape ui.username encodeUserPassword ++ 58 :: escape ui.password encodeUserPassword)
        [58] = true := by
      rw [strings.Contains_singleton]; simp
    have hv : validUserinfo
        (escape ui.username encodeUserPassword ++ 58 :: escape ui.password encodeUserPassword)
        = true := by
      have e : escape ui.username encodeUserPassword ++ 58 :: escape ui.password encodeUserPassword
          = escape ui.username encodeUserPassword
            ++ ([58] ++ escape ui.password encodeUserPassword) := by
        simp
      rw [e, validUserinfo_append, validUserinfo_append, validUserinfo_escape,
        validUserinfo_escape]
      decide
    unfold parseUserinfo
    simp only [hv, hcont, Bool.not_true, Bool.false_eq_true, if_false,
      hcut, unescape_of_check cu, unescape_of_check cp, vu, vp]
    cases ui with
    | mk username password passwordSet =>
      simp only at hset
      rw [hset]
  · simp only [hset, if_false, List.append_nil, Bool.false_eq_true]
    have hcont : strings.Contains (escape ui.username encodeUserPassword) [58] = false := by
      cases hh : strings.Contains (escape ui.username encodeUserPassword) [58]
      · rfl
      · rw [strings.Contains_singleton] at hh
        exact absurd hh (colon_not_mem_escape_user _)
    unfold parseUserinfo
    simp only [validUserinfo_escape, hcont, Bool.not_true, Bool.false_eq_true, if_false,
      Bool.not_false, if_true, unescape_of_check cu, vu]
    have hf : ui.passwordSet = false := by
      cases h : ui.passwordSet
      · rfl
      · exact absurd h hset
    cases ui with
    | mk username password passwordSet =>
      simp only at hf hs
      rw [hf, hs hf]

/-! ### What `parseAuthority` returns -/

/-- A parsed user holds bytes, and a password only if one is set. -/
theorem parseAuthority_user {a : GoString} {user : Option Userinfo} {host : GoString}
    (hA : ∀ c ∈ a, c < 128) (h : parseAuthority a = .ok (user, host)) :
    ∀ ui, user = some ui →
      IsBytes ui.username ∧ IsBytes ui.password ∧ (ui.passwordSet = false → ui.password = []) := by
  intro ui hui
  have hb := (parseAuthority_ok hA h).2 ui hui
  refine ⟨hb.1, hb.2, ?_⟩
  unfold parseAuthority at h
  split at h
  · cases hh : parseHost a with
    | error e => rw [hh] at h; simp at h
    | ok host1 =>
      rw [hh] at h
      simp only [Except.ok.injEq, Prod.mk.injEq] at h
      rw [← h.1] at hui
      exact absurd hui (by simp)
  · rename_i i hi
    cases hh : parseHost (a.drop (i + 1)) with
    | error e => rw [hh] at h; simp at h
    | ok host1 =>
      cases hu : parseUserinfo (a.take i) with
      | error e => rw [hh, hu] at h; simp at h
      | ok u1 =>
        rw [hh, hu] at h
        simp only [Except.ok.injEq, Prod.mk.injEq] at h
        rw [← h.1, Option.some.injEq] at hui
        rw [← hui]
        exact parseUserinfo_password hu

/-- The authority `String` writes for a parsed user and the lower-case form of a
parsed host is read back as that user and that lower-case form. -/
theorem parseAuthority_authorityText_value {caseTable : Nat → Nat}
    (hT : strings.CaseTableOK caseTable) {t host : GoString} (user : Option Userinfo)
    (hA : ∀ c ∈ t, c < 128) (hh : parseHost t = .ok host)
    (hu : ∀ ui, user = some ui →
      IsBytes ui.username ∧ IsBytes ui.password ∧ (ui.passwordSet = false → ui.password = [])) :
    parseAuthority (userText user ++ escape (strings.ToLower caseTable host) encodeHost)
      = .ok (user, strings.ToLower caseTable host) := by
  have hH2 := parseHost_escape_ToLower_value hT hA hh
  cases user with
  | none =>
    simp only [userText, List.nil_append]
    rw [parseAuthority_none (strings.LastIndex_singleton_eq_none (at_not_mem_escape_host _)), hH2]
  | some ui =>
    obtain ⟨hb1, hb2, hb3⟩ := hu ui rfl
    have hr := parseUserinfo_String_value hb1 hb2 hb3
    simp only [userText]
    have e : ui.String ++ [64] ++ escape (strings.ToLower caseTable host) encodeHost
        = ui.String ++ 64 :: escape (strings.ToLower caseTable host) encodeHost := by simp
    rw [e, parseAuthority_some
      (strings.LastIndex_singleton_append ui.String (at_not_mem_escape_host _))]
    have e1 : (ui.String ++ 64 :: escape (strings.ToLower caseTable host) encodeHost).drop
        (ui.String.length + 1) = escape (strings.ToLower caseTable host) encodeHost := by
      rw [← List.drop_drop, List.drop_left]; rfl
    rw [e1, List.take_left, hH2, hr]

/-! ### What `setPath` reads back -/

/-- The path `String` writes is read back as the path. -/
theorem unescapeBuild_EscapedPath {u : URL} (hb : IsBytes u.Path) :
    unescapeBuild encodePath u.EscapedPath = u.Path := by
  rcases EscapedPath_cases u with ⟨hv, e⟩ | ⟨_, h42, e⟩ | ⟨_, _, e⟩
  · rw [e]
    exact (rawHintValid_iff.1 hv).2.2.2
  · rw [e, h42]
    rfl
  · rw [e]
    exact unescapeBuild_escape_of_bytes encodePath encodePath (by decide) (by decide) hb

/-! ### The port of a lower-cased host -/

theorem digits_ToLower (caseTable : Nat → Nat) {t : GoString}
    (h : t.all (fun b => 48 ≤ b && b ≤ 57) = true) :
    strings.Map (strings.unicodeToLower caseTable) t = t := by
  have hd : ∀ c ∈ t, 48 ≤ c ∧ c ≤ 57 := by
    intro c hc
    have := List.all_eq_true.1 h c hc
    simpa using this
  rw [strings.ToLowerMap_of_ascii caseTable t (fun c hc => by have := hd c hc; omega)]
  conv_rhs => rw [← List.map_id t]
  apply List.map_congr_left
  intro c hc
  have := hd c hc
  unfold strings.lowerByte
  rw [if_neg (by omega)]; rfl

theorem digits_of_ToLower {caseTable : Nat → Nat} (hT : strings.CaseTableOK caseTable) :
    ∀ t : GoString,
      (strings.Map (strings.unicodeToLower caseTable) t).all (fun b => 48 ≤ b && b ≤ 57) = true →
      t.all (fun b => 48 ≤ b && b ≤ 57) = true := by
  intro t
  induction t with
  | nil => intro _; rfl
  | cons s0 rest ih =>
    intro h
    by_cases h0 : s0 < 0x80
    · rw [strings.ToLowerMap_cons_ascii caseTable rest h0] at h
      simp only [List.all_cons, Bool.and_eq_true, decide_eq_true_eq] at h ⊢
      refine ⟨?_, ih h.2⟩
      have := h.1
      unfold strings.lowerByte at this
      split_ifs at this <;> omega
    · exfalso
      rw [strings.Map_eq, utf8.runes_cons, List.map_cons, List.flatten_cons] at h
      have hr := utf8.DecodeRune_rune rest h0
      have hl : strings.unicodeToLower caseTable (utf8.DecodeRune (s0 :: rest)).1
          = caseTable (utf8.DecodeRune (s0 :: rest)).1 := by
        unfold strings.unicodeToLower
        rw [if_neg (by omega)]
      rw [hl] at h
      obtain ⟨x, xs, hx⟩ : ∃ x xs, utf8.EncodeRune (caseTable (utf8.DecodeRune (s0 :: rest)).1)
          = x :: xs := by
        cases he : utf8.EncodeRune (caseTable (utf8.DecodeRune (s0 :: rest)).1) with
        | nil => exact absurd he (EncodeRune_ne_nil _)
        | cons x xs => exact ⟨x, xs, rfl⟩
      rw [hx] at h
      simp only [List.cons_append, List.all_cons, Bool.and_eq_true, decide_eq_true_eq] at h
      rcases hT _ hr with hh | hh
      · have := utf8.EncodeRune_bytes hh x (by rw [hx]; exact List.mem_cons_self _ _)
        omega
      · rw [utf8.EncodeRune_ascii (by omega)] at hx
        simp only [List.cons.injEq] at hx
        omega

theorem colon_mem_ToLower {caseTable : Nat → Nat} (hT : strings.CaseTableOK caseTable)
    {s : GoString} (h : 58 ∈ strings.Map (strings.unicodeToLower caseTable) s) : 58 ∈ s := by
  rcases strings.mem_ToLowerMap hT s.length s le_rfl 58 h with h | h | ⟨c, hc, _, he⟩
  · omega
  · omega
  · have := lowerByte_eq_of_not_letter (by omega) he.symm
    rw [← this]; exact hc

/-- Lower-casing a host leaves its port as it is. -/
theorem splitHostPort_ToLower {caseTable : Nat → Nat} (hT : strings.CaseTableOK caseTable)
    (H : GoString) :
    (splitHostPort (strings.ToLower caseTable H)).2 = (splitHostPort H).2 := by
  rw [strings.ToLower_eq_Map]
  unfold splitHostPort
  simp only
  cases hl : strings.LastIndex H [58] with
  | none =>
    have hn := strings.LastIndex_singleton_none_not_mem hl
    rw [strings.LastIndex_singleton_eq_none (fun h => hn (colon_mem_ToLower hT h))]
  | some i =>
    obtain ⟨hdec, hno⟩ := strings.LastIndex_singleton_some hl
    have hlen : (H.take i).length = i := (split_at hdec).2
    have hdrop : H.drop i = 58 :: H.drop (i + 1) := (split_at hdec).1
    have hM : strings.Map (strings.unicodeToLower caseTable) H
        = strings.Map (strings.unicodeToLower caseTable) (H.take i)
          ++ 58 :: strings.Map (strings.unicodeToLower caseTable) (H.drop (i + 1)) := by
      conv_lhs => rw [hdec]
      rw [strings.ToLowerMap_append_ascii caseTable _ _ (by decide)]
      rfl
    have hno2 : 58 ∉ strings.Map (strings.unicodeToLower caseTable) (H.drop (i + 1)) :=
      fun h => hno (colon_mem_ToLower hT h)
    rw [hM, strings.LastIndex_singleton_append _ hno2]
    simp only
    have e1 : (strings.Map (strings.unicodeToLower caseTable) (H.take i)
          ++ 58 :: strings.Map (strings.unicodeToLower caseTable) (H.drop (i + 1))).drop
            (strings.Map (strings.unicodeToLower caseTable) (H.take i)).length
        = 58 :: strings.Map (strings.unicodeToLower caseTable) (H.drop (i + 1)) :=
      List.drop_left _ _
    have e2 : (strings.Map (strings.unicodeToLower caseTable) (H.take i)
          ++ 58 :: strings.Map (strings.unicodeToLower caseTable) (H.drop (i + 1))).drop
            ((strings.Map (strings.unicodeToLower caseTable) (H.take i)).length + 1)
        = strings.Map (strings.unicodeToLower caseTable) (H.drop (i + 1)) := by
      rw [← List.drop_drop, List.drop_left]; rfl
    rw [e1, e2, hdrop]
    simp only [validOptionalPort, beq_self_eq_true, Bool.true_and]
    by_cases hd : (H.drop (i + 1)).all (fun b => 48 ≤ b && b ≤ 57) = true
    · rw [digits_ToLower caseTable hd, if_pos hd, if_pos hd]
    · rw [if_neg hd, if_neg (fun h => hd (digits_of_ToLower hT _ h))]

/-! ### Reading back what `NormalizeURL` wrote, field by field -/

/-- The text that `NormalizeURL` writes between scheme and query for a parsed URL
that is not of the form `scheme:/path` is read back as the user, the lower-case
form of the host and the trimmed path of that URL. -/
theorem parseRest_bodyText_value {caseTable : Nat → Nat} (hT : strings.CaseTableOK caseTable)
    {sch q : GoString} {fq : Bool} {rest : GoString} {w : URL} (hs : sch ≠ [])
    (hA : ∀ c ∈ rest, c < 128)
    (hp : parseRest { Scheme := sch, ForceQuery := fq, RawQuery := q } rest = .ok w)
    (ho : w.OmitHost = false) (sch1 q1 : GoString) (fq1 : Bool) (h1 : sch1 ≠ []) :
    ∃ w2, parseRest { Scheme := sch1, ForceQuery := fq1, RawQuery := q1 }
        (utils.canonical caseTable w).bodyText = .ok w2
      ∧ w2.Scheme = sch1 ∧ w2.RawQuery = q1 ∧ w2.Fragment = []
      ∧ w2.User = w.User ∧ w2.Host = strings.ToLower caseTable w.Host
      ∧ w2.Path = utils.trimPath w.Path := by
  rcases parseRest_cases hs hp with ⟨hpre, rfl⟩
    | ⟨hpre2, auth, rest2, user, host, hdec, hno, h3, hpa, hw⟩ | ⟨hpre1, hpre2, hw⟩
  · rw [bodyText_rootless caseTable sch q fq rest, parseRest_rootless h1 hpre]
    exact ⟨_, rfl, rfl, rfl, rfl, rfl, (ToLower_nil caseTable).symm, utils.trimPath_nil.symm⟩
  · have authA : ∀ c ∈ auth, c < 128 := fun c hc => hA c (by rw [hdec]; simp [hc])
    have rest2A : ∀ c ∈ rest2, c < 256 := fun c hc => by
      have := hA c (by rw [hdec]; simp [hc])
      omega
    obtain ⟨⟨t, htA, hth⟩, -⟩ := parseAuthority_ok authA hpa
    have hui := parseAuthority_user authA hpa
    obtain ⟨hh1, hh2⟩ := setPath_head hw h3
    obtain ⟨hck, hweq⟩ := setPath_eq_ok.1 hw
    have hO : (utils.canonical caseTable w).Opaque = [] := by rw [hweq]; rfl
    have hOm : (utils.canonical caseTable w).OmitHost = false := by rw [hweq]; rfl
    have hU : (utils.canonical caseTable w).User = user := by rw [hweq]; rfl
    have hH : (utils.canonical caseTable w).Host = strings.ToLower caseTable host := by
      rw [hweq]; rfl
    have hP : (utils.canonical caseTable w).Path
        = utils.trimPath (unescapeBuild encodePath rest2) := by
      rw [hweq]; rfl
    have hwU : w.User = user := by rw [hweq]
    have hwH : w.Host = host := by rw [hweq]
    have hwP : w.Path = unescapeBuild encodePath rest2 := by rw [hweq]
    have hEP := canonical_EscapedPath_head caseTable hh1 hh2
    have e := bodyText_authority hO hOm hEP
    have hbytes : IsBytes (utils.canonical caseTable w).Path := by
      intro c hc
      rw [hP] at hc
      exact unescapeBuild_bytes rest2 rest2A c (utils.trimPath_mem c hc)
    by_cases hc : (utils.canonical caseTable w).Host ≠ [] ∨ (utils.canonical caseTable w).Path ≠ []
        ∨ (utils.canonical caseTable w).User ≠ none
    · rw [if_pos hc] at e
      have e2 : (utils.canonical caseTable w).bodyText
          = 47 :: 47 :: ((utils.canonical caseTable w).authorityText
              ++ (utils.canonical caseTable w).EscapedPath) := by
        rw [e]; simp
      have hr := parseAuthority_authorityText_value hT user htA hth hui
      have hr2 : parseAuthority (utils.canonical caseTable w).authorityText
          = .ok (user, strings.ToLower caseTable host) := by
        rw [authorityText_eq, hU, hH]; exact hr
      rw [e2, parseRest_authority_ok (by exact h1) (authorityText_no_slash _) hEP hr2]
      obtain ⟨w2, hw2⟩ := setPath_of_check
        { ({ Scheme := sch1, ForceQuery := fq1, RawQuery := q1 } : URL) with
          User := user, Host := strings.ToLower caseTable host }
        (EscapedPath_check hbytes)
      refine ⟨w2, hw2, ?_⟩
      obtain ⟨-, hw2eq⟩ := setPath_eq_ok.1 hw2
      rw [hw2eq, hwU, hwH, hwP]
      refine ⟨rfl, rfl, rfl, rfl, rfl, ?_⟩
      show unescapeBuild encodePath (utils.canonical caseTable w).EscapedPath = _
      rw [unescapeBuild_EscapedPath hbytes, hP]
    · rw [if_neg hc] at e
      push_neg at hc
      rw [authorityText_of_empty hc.1 hc.2.2, EscapedPath_of_path_nil hc.2.1] at e
      rw [e, parseRest_rootless h1 (by simp [strings.HasPrefix])]
      refine ⟨_, rfl, rfl, rfl, rfl, ?_, ?_, ?_⟩
      · show none = w.User
        rw [hwU, ← hU, hc.2.2]
      · show [] = strings.ToLower caseTable w.Host
        rw [hwH, ← hH, hc.1]
      · show [] = utils.trimPath w.Path
        rw [hwP, ← hP, hc.2.1]
  · exfalso
    obtain ⟨-, hweq⟩ := setPath_eq_ok.1 hw
    rw [hweq] at ho
    exact absurd ho (by simp)

/-- The text `parseRest` reads is part of the URL. -/
theorem Parse_inv_sub {a : GoString} {w : URL} (hp : Parse a = .ok w) (hs : w.Scheme ≠ []) :
    ∃ (fq : Bool) (q body : GoString) (w0 : URL), CleanQ q ∧ Clean body
      ∧ (∀ c ∈ body, c ∈ a)
      ∧ parseRest { Scheme := w.Scheme, ForceQuery := fq, RawQuery := q } body = .ok w0
      ∧ (w = w0 ∨ ∃ f rf, w = { w0 with Fragment := f, RawFragment := rf }) := by
  unfold Parse at hp
  simp only at hp
  cases hpar : parse (strings.Cut a [35]).1 with
  | error e => rw [hpar] at hp; simp at hp
  | ok w0 =>
    rw [hpar] at hp
    simp only at hp
    have hw : w = w0 ∨ ∃ f rf, w = { w0 with Fragment := f, RawFragment := rf } := by
      split_ifs at hp
      · simp only [Except.ok.injEq] at hp
        exact Or.inl hp.symm
      · right
        unfold URL.setFragment at hp
        split at hp
        · simp at hp
        · simp only [Except.ok.injEq] at hp
          exact ⟨_, _, hp.symm⟩
    have hsch : w.Scheme = w0.Scheme := by
      rcases hw with rfl | ⟨f, rf, rfl⟩ <;> rfl
    have h35 := strings.Cut_fst_not_mem a 35
    have hcut := strings.Cut_fst_sublist a 35
    generalize (strings.Cut a [35]).1 = a1 at hpar h35 hcut
    unfold parse at hpar
    split_ifs at hpar with hctl h42
    · simp only [Except.ok.injEq] at hpar
      rw [← hpar] at hsch
      exact absurd hsch hs
    · cases hgs : getScheme a1 with
      | error e => rw [hgs] at hpar; simp at hpar
      | ok r =>
        obtain ⟨scheme0, rest0⟩ := r
        rw [hgs] at hpar
        simp only at hpar
        have hf := (parseRest_fields hpar).1
        simp only at hf
        rw [← hf, ← hsch] at hpar
        have hsub := getScheme_sub hgs
        have hq := query_split_sub rest0
        have hbyte : ∀ c ∈ a1, 32 ≤ c ∧ c ≠ 127 := by
          intro c hc
          simp only [stringContainsCTLByte, Bool.not_eq_true, List.any_eq_false, Bool.or_eq_true,
            decide_eq_true_eq, beq_iff_eq, not_or, not_lt] at hctl
          exact hctl c hc
        refine ⟨_, _, _, w0, ?_, ?_, ?_, hpar, hw⟩
        · intro c hc
          have h1 := hsub c (hq.2 c hc)
          refine ⟨(hbyte c h1).1, (hbyte c h1).2, ?_⟩
          intro e; subst e; exact h35 h1
        · intro c hc
          have h0 := hq.1 c hc
          have h1 := hsub c h0.1
          refine ⟨(hbyte c h1).1, (hbyte c h1).2, ?_, h0.2⟩
          intro e; subst e; exact h35 h1
        · intro c hc
          exact hcut c (hsub c (hq.1 c hc).1)

end url

namespace utils

open url

/-- What `NormalizeURL` returns for an ASCII URL that is not of the form
`scheme:/path` parses, with the fields of the URL: the scheme, the user, the query
and the port as they were, the host in lower case, the path without its one
trailing slash, and no fragment. -/
theorem NormalizeURL_reparse {caseTable : Nat → Nat} (hT : strings.CaseTableOK caseTable)
    {raw c : GoString} {u : URL} (hA : ∀ b ∈ raw, b < 128) (hp : Parse raw = .ok u)
    (hn : NormalizeURL caseTable raw = .ok c) (ho : u.OmitHost = false) :
    ∃ w, Parse c = .ok w ∧ w.Scheme = u.Scheme ∧ w.User = u.User ∧ w.Port = u.Port
      ∧ w.RawQuery = u.RawQuery ∧ w.Host = strings.ToLower caseTable u.Host
      ∧ w.Fragment = [] ∧ w.Path = trimPath u.Path := by
  obtain ⟨wa, hpa, hsa, rfl⟩ := NormalizeURL_inv hn
  rw [hp, Except.ok.injEq] at hpa
  subst hpa
  obtain ⟨hne, _, _, _, _, _⟩ := scheme_facts hsa
  obtain ⟨fq, q, body, w0, hQ, hB, hsub, hp0, hw⟩ := Parse_inv_sub hp hne
  obtain ⟨-, hc⟩ := bodyText_good caseTable hne hp0
  have hf0 := parseRest_fields hp0
  simp only at hf0
  have hqt : ((if w0.ForceQuery ∨ q ≠ [] then 63 :: q else []) = [] ∧ q = [])
      ∨ (if w0.ForceQuery ∨ q ≠ [] then 63 :: q else []) = 63 :: q := by
    by_cases hc1 : w0.ForceQuery ∨ q ≠ []
    · right; rw [if_pos hc1]
    · left
      rw [if_neg hc1]
      push_neg at hc1
      exact ⟨rfl, hc1.2⟩
  obtain ⟨fq2, hP2⟩ := Parse_text hsa (hc hB) hQ hqt
  have ho0 : w0.OmitHost = false := by
    rcases hw with rfl | ⟨f, rf, rfl⟩
    · exact ho
    · exact ho
  obtain ⟨w2, hw2, e1, e2, e3, e4, e5, e6⟩ := parseRest_bodyText_value hT hne
    (fun b hb => hA b (hsub b hb)) hp0 ho0 u.Scheme q fq2 hne
  have hU : u.User = w0.User := by
    rcases hw with rfl | ⟨f, rf, rfl⟩ <;> rfl
  have hH : u.Host = w0.Host := by
    rcases hw with rfl | ⟨f, rf, rfl⟩ <;> rfl
  have hPa : u.Path = w0.Path := by
    rcases hw with rfl | ⟨f, rf, rfl⟩ <;> rfl
  have hQu : u.RawQuery = w0.RawQuery := by
    rcases hw with rfl | ⟨f, rf, rfl⟩ <;> rfl
  refine ⟨w2, ?_, e1, ?_, ?_, ?_, ?_, e3, ?_⟩
  · rw [canonical_String caseTable hsa hw, hf0.2.1, hP2, hw2]
  · rw [e4, hU]
  · unfold URL.Port
    rw [e5, ← hH, splitHostPort_ToLower hT]
  · rw [e2, hQu, hf0.2.1]
  · rw [e5, hH]
  · rw [e6, hPa]

end utils

namespace utils

open url

/-- C11 (amended). For every ASCII URL that `NormalizeURL` accepts and that is not
of the form `scheme:/path` (a path with no authority before it), the result
parses again, with the same scheme, user info, port and query as the URL, with
the host in lower case, with no fragment, and with the path as it was (letter
case kept) but for one trailing slash removed unless the path is exactly `/`;
`NormalizeURL("https://Example.com/Page/")` is `https://example.com/Page` and
`NormalizeURL("https://example.com/page#fragment")` is
`https://example.com/page`. -/
theorem NormalizeURL_components (caseTable : Nat → Nat) (raw c : GoString) (u : URL)
    (hT : strings.CaseTableOK caseTable) (hA : ∀ b ∈ raw, b < 128) (hp : Parse raw = .ok u)
    (hn : NormalizeURL caseTable raw = .ok c) (ho : u.OmitHost = false) :
    (∃ w, Parse c = .ok w ∧ w.Scheme = u.Scheme ∧ w.User = u.User ∧ w.Port = u.Port
      ∧ w.RawQuery = u.RawQuery ∧ w.Host = strings.ToLower caseTable u.Host
      ∧ w.Fragment = []
      ∧ w.Path = if u.Path ≠ bytes "/" then strings.TrimSuffix u.Path (bytes "/") else u.Path)
    ∧ NormalizeURL caseTable (bytes "https://Example.com/Page/")
        = .ok (bytes "https://example.com/Page")
    ∧ NormalizeURL caseTable (bytes "https://example.com/page#fragment")
        = .ok (bytes "https://example.com/page") :=
  ⟨NormalizeURL_reparse hT hA hp hn ho, rfl, rfl⟩

/-- The first example of C11, field by field. -/
theorem NormalizeURL_components_witness :
    strings.CaseTableOK id
    ∧ (∀ b ∈ bytes "https://User@Example.com:8080/Page/?Q=1#Frag", b < 128)
    ∧ Parse (bytes "https://User@Example.com:8080/Page/?Q=1#Frag")
        = .ok { Scheme := bytes "https", Host := bytes "Example.com:8080",
                User := some { username := bytes "User", password := [], passwordSet := false },
                Path := bytes "/Page/", RawQuery := bytes "Q=1", Fragment := bytes "Frag" }
    ∧ NormalizeURL id (bytes "https://User@Example.com:8080/Page/?Q=1#Frag")
        = .ok (bytes "https://User@example.com:8080/Page?Q=1")
    ∧ ∃ w, Parse (bytes "https://User@example.com:8080/Page?Q=1") = .ok w
        ∧ w.Scheme = bytes "https"
        ∧ w.User = some { username := bytes "User", password := [], passwordSet := false }
        ∧ w.Port = bytes "8080" ∧ w.RawQuery = bytes "Q=1"
        ∧ w.Host = bytes "example.com:8080" ∧ w.Fragment = [] ∧ w.Path = bytes "/Page" :=
  ⟨fun r hr => Or.inl hr, by decide, rfl, rfl,
    (NormalizeURL_components id (bytes "https://User@Example.com:8080/Page/?Q=1#Frag")
      (bytes "https://User@example.com:8080/Page?Q=1")
      { Scheme := bytes "https", Host := bytes "Example.com:8080",
        User := some { username := bytes "User", password := [], passwordSet := false },
        Path := bytes "/Page/", RawQuery := bytes "Q=1", Fragment := bytes "Frag" }
      (fun r hr => Or.inl hr) (by decide) rfl rfl rfl).1⟩

/-- C11 as stated fails: `NormalizeURL` accepts `http:/%2Fx/`, a URL with no host
and the path `//x/`, and returns `http://x`, a URL with the host `x` and no
path. -/
theorem NormalizeURL_path_becomes_host :
    (∀ caseTable, NormalizeURL caseTable (bytes "http:/%2Fx/") = .ok (bytes "http://x"))
    ∧ Parse (bytes "http:/%2Fx/")
        = .ok { Scheme := bytes "http", Path := bytes "//x/", RawPath := bytes "/%2Fx/",
                OmitHost := true }
    ∧ Parse (bytes "http://x") = .ok { Scheme := bytes "http", Host := bytes "x" } :=
  ⟨fun _ => rfl, rfl, rfl⟩

end utils

/-! ## `Retry` and its delays -/

/-! ## `float64` -/

namespace float64

theorem log2Loop_le : ∀ (fuel n k : Nat), n < 2 ^ (k + 1) → log2Loop fuel n ≤ k := by
  intro fuel
  induction fuel with
  | zero => intro n k _; simp [log2Loop]
  | succ f ih =>
    intro n k h
    unfold log2Loop
    split_ifs with h2
    · omega
    · cases k with
      | zero => simp at h; omega
      | succ k =>
        have : n / 2 < 2 ^ (k + 1) := by
          rw [Nat.div_lt_iff_lt_mul (by decide)]
          rw [pow_succ] at h; exact h
        have := ih (n / 2) k this
        omega

theorem log2_le {n k : Nat} (h : n < 2 ^ (k + 1)) : log2 n ≤ k := log2Loop_le n n k h

/-- An integer below `2^53` in absolute value is a `float64`. -/
theorem round_exact {m : Int} (h : m.natAbs < 2 ^ 53) : round m 0 = .finite m 0 := by
  unfold round
  by_cases h0 : m = 0
  · rw [if_pos h0, h0]
  · rw [if_neg h0]
    have := log2_le (k := 52) h
    simp only [add_zero]
    rw [if_pos]
    omega

theorem ofInt_exact {m : Int} (h : m.natAbs < 2 ^ 53) : ofInt m = .finite m 0 := round_exact h

theorem truncate_zero (m : Int) : truncate m 0 = m := by
  simp [truncate]

/-- The product of two integers, computed in `float64`, is exact as long as the
factors and the product are below `2^53` in absolute value. -/
theorem toInt64_mul_ofInt (outOfRange : F64 → Int) {d k : Int} (hd : d.natAbs < 2 ^ 53)
    (hk : k.natAbs < 2 ^ 53) (hp : (d * k).natAbs < 2 ^ 53) :
    toInt64 outOfRange (mul (ofInt d) (ofInt k)) = d * k := by
  rw [ofInt_exact hd, ofInt_exact hk]
  simp only [mul, add_zero]
  rw [round_exact hp]
  simp only [toInt64, truncate_zero]
  rw [if_pos]
  constructor <;> omega

end float64

namespace crawler

open float64

/-! ## `Retry` -/

theorem retryLoop_success {E : Type} (outOfRange : F64 → Int) (ctx : Nat → Bool)
    (fn : Nat → Option E) (config : RetryConfig) (hctx : ∀ k, ctx k = false) :
    ∀ (k fuel : Nat) (attempt delay : Int) (lastErr : Option E) (calls : Nat) (sleeps : List Int)
      (selects : Nat), (∀ j < k, fn (calls + j) ≠ none) → fn (calls + k) = none →
      attempt + k ≤ config.MaxRetries → k < fuel →
      retryLoop outOfRange ctx fn config fuel attempt delay lastErr calls sleeps selects
        = some { err := none, calls := calls + k + 1,
                 sleeps := sleeps ++ List.iterate (nextDelay outOfRange config) delay k } := by
  intro k
  induction k with
  | zero =>
    intro fuel attempt delay lastErr calls sleeps selects _ h0 ha hf
    obtain ⟨f, rfl⟩ : ∃ f, fuel = f + 1 := ⟨fuel - 1, by omega⟩
    simp only [Nat.add_zero] at h0
    unfold retryLoop
    rw [if_pos (by simpa using ha)]
    simp [hctx, h0, List.iterate]
  | succ k ih =>
    intro fuel attempt delay lastErr calls sleeps selects hj h0 ha hf
    obtain ⟨f, rfl⟩ : ∃ f, fuel = f + 1 := ⟨fuel - 1, by omega⟩
    obtain ⟨e, he⟩ : ∃ e, fn calls = some e := by
      have := hj 0 (by omega)
      simp only [Nat.add_zero] at this
      exact Option.ne_none_iff_exists'.1 this
    unfold retryLoop
    rw [if_pos (by push_cast at ha; omega)]
    simp only [hctx, he, Bool.false_eq_true, if_false]
    rw [if_neg (by push_cast at ha; omega)]
    rw [ih f (attempt + 1) _ (some e) (calls + 1) _ _ ?_ ?_ ?_ (by omega)]
    · simp [List.iterate, Nat.add_assoc, Nat.add_comm 1 k]
    · intro j hjk
      have := hj (j + 1) (by omega)
      rwa [show calls + 1 + j = calls + (j + 1) by omega]
    · rwa [show calls + 1 + k = calls + (k + 1) by omega]
    · push_cast at ha; omega

theorem retryLoop_failure {E : Type} (outOfRange : F64 → Int) (ctx : Nat → Bool)
    (fn : Nat → Option E) (config : RetryConfig) (hctx : ∀ k, ctx k = false) :
    ∀ (k fuel : Nat) (attempt delay : Int) (lastErr : Option E) (calls : Nat) (sleeps : List Int)
      (selects : Nat) (e : E), (∀ j < k, fn (calls + j) ≠ none) → fn (calls + k) = some e →
      attempt + k = config.MaxRetries → k < fuel →
      retryLoop outOfRange ctx fn config fuel attempt delay lastErr calls sleeps selects
        = some { err := some (.op e), calls := calls + k + 1,
                 sleeps := sleeps ++ List.iterate (nextDelay outOfRange config) delay k } := by
  intro k
  induction k with
  | zero =>
    intro fuel attempt delay lastErr calls sleeps selects e _ h0 ha hf
    obtain ⟨f, rfl⟩ : ∃ f, fuel = f + 1 := ⟨fuel - 1, by omega⟩
    simp only [Nat.add_zero] at h0
    unfold retryLoop
    rw [if_pos (by push_cast at ha; omega)]
    simp only [hctx, h0, Bool.false_eq_true, if_false]
    rw [if_pos (by push_cast at ha; omega)]
    simp [List.iterate]
  | succ k ih =>
    intro fuel attempt delay lastErr calls sleeps selects e hj h0 ha hf
    obtain ⟨f, rfl⟩ : ∃ f, fuel = f + 1 := ⟨fuel - 1, by omega⟩
    obtain ⟨e1, he⟩ : ∃ e, fn calls = some e := by
      have := hj 0 (by omega)
      simp only [Nat.add_zero] at this
      exact Option.ne_none_iff_exists'.1 this
    unfold retryLoop
    rw [if_pos (by push_cast at ha; omega)]
    simp only [hctx, he, Bool.false_eq_true, if_false]
    rw [if_neg (by push_cast at ha; omega)]
    rw [ih f (attempt + 1) _ (some e1) (calls + 1) _ _ e ?_ ?_ ?_ (by omega)]
    · simp [List.iterate, Nat.add_assoc, Nat.add_comm 1 k]
    · intro j hjk
      have := hj (j + 1) (by omega)
      rwa [show calls + 1 + j = calls + (j + 1) by omega]
    · rwa [show calls + 1 + k = calls + (k + 1) by omega]
    · push_cast at ha; omega

/-- `Retry` when the operation first succeeds on invocation `k + 1`, within the
attempts allowed. -/
theorem Retry_success {E : Type} (outOfRange : F64 → Int) (ctx : Nat → Bool)
    (fn : Nat → Option E) (config : RetryConfig) (hctx : ∀ k, ctx k = false) {k : Nat}
    (hk : (k : Int) ≤ config.MaxRetries) (hj : ∀ j < k, fn j ≠ none) (h0 : fn k = none) :
    Retry outOfRange ctx fn config
      = some { err := none, calls := k + 1,
               sleeps := List.iterate (nextDelay outOfRange config) config.InitialDelay k } := by
  unfold Retry
  rw [retryLoop_success outOfRange ctx fn config hctx k _ 0 _ none 0 [] 0
    (by simpa using hj) (by simpa using h0) (by simpa using hk) (by omega)]
  simp

/-- `Retry` when the operation fails on each of the attempts allowed. -/
theorem Retry_failure {E : Type} (outOfRange : F64 → Int) (ctx : Nat → Bool)
    (fn : Nat → Option E) (config : RetryConfig) (hctx : ∀ k, ctx k = false)
    (hM : 0 ≤ config.MaxRetries) (hj : ∀ j : Nat, (j : Int) ≤ config.MaxRetries → fn j ≠ none) :
    ∃ e, fn config.MaxRetries.toNat = some e ∧
    Retry outOfRange ctx fn config
      = some { err := some (.op e), calls := config.MaxRetries.toNat + 1,
               sleeps := List.iterate (nextDelay outOfRange config) config.InitialDelay
                 config.MaxRetries.toNat } := by
  obtain ⟨e, he⟩ : ∃ e, fn config.MaxRetries.toNat = some e :=
    Option.ne_none_iff_exists'.1 (hj _ (by omega))
  refine ⟨e, he, ?_⟩
  unfold Retry
  rw [retryLoop_failure outOfRange ctx fn config hctx config.MaxRetries.toNat _ 0 _ none 0 [] 0 e
    ?_ (by simpa using he) (by omega) (by omega)]
  · simp
  · intro j hjk
    simpa using hj j (by omega)

/-- With no cancellation and `MaxRetries >= 0`, `Retry` returns, after at most
`MaxRetries + 1` invocations, having slept the iterated delays. -/
theorem Retry_returns {E : Type} (outOfRange : F64 → Int) (ctx : Nat → Bool)
    (fn : Nat → Option E) (config : RetryConfig) (hctx : ∀ k, ctx k = false)
    (hM : 0 ≤ config.MaxRetries) :
    ∃ r, Retry outOfRange ctx fn config = some r ∧ 1 ≤ r.calls ∧
      (r.calls : Int) ≤ config.MaxRetries + 1 ∧
      r.sleeps = List.iterate (nextDelay outOfRange config) config.InitialDelay (r.calls - 1) := by
  by_cases h : ∃ k : Nat, (k : Int) ≤ config.MaxRetries ∧ fn k = none
  · classical
    have hk := Nat.find_spec h
    have hmin := fun j (hj : j < Nat.find h) => Nat.find_min h hj
    refine ⟨_, Retry_success outOfRange ctx fn config hctx hk.1 ?_ hk.2, ?_, ?_, ?_⟩
    · intro j hj h0
      exact hmin j hj ⟨by omega, h0⟩
    · simp
    · push_cast; omega
    · simp
  · have hj : ∀ j : Nat, (j : Int) ≤ config.MaxRetries → fn j ≠ none :=
      fun j hj h0 => h ⟨j, hj, h0⟩
    obtain ⟨e, -, he⟩ := Retry_failure outOfRange ctx fn config hctx hM hj
    refine ⟨_, he, ?_, ?_, ?_⟩
    · simp
    · push_cast; omega
    · simp

/-- For an integer multiplier the next delay is the product, capped, as long as
the numbers are below `2^53` in absolute value. -/
theorem nextDelay_exact (outOfRange : F64 → Int) (config : RetryConfig) {d k : Int}
    (hm : config.BackoffMultiplier = ofInt k) (hd : d.natAbs < 2 ^ 53)
    (hk : k.natAbs < 2 ^ 53) (hp : (d * k).natAbs < 2 ^ 53) :
    nextDelay outOfRange config d = min (d * k) config.MaxDelay := by
  unfold nextDelay
  rw [hm, toInt64_mul_ofInt outOfRange hd hk hp]
  simp only [gt_iff_lt]
  split_ifs with h
  · rw [min_eq_right (le_of_lt h)]
  · rw [min_eq_left (not_lt.1 h)]

end crawler

/-! ## Texts up to letter case -/

namespace strings

/-- `Contains` finds exactly the contiguous sublists. -/
theorem Contains_iff_run (p : GoString) : ∀ s : GoString, Contains s p = true ↔ p <:+: s := by
  intro s
  unfold Contains
  induction s with
  | nil =>
    unfold Index
    cases p with
    | nil => simp
    | cons c p => simp
  | cons a s ih =>
    unfold Index
    rw [List.infix_cons_iff]
    by_cases h : HasPrefix (a :: s) p = true
    · rw [if_pos h]
      simp only [Option.isSome_some, true_iff]
      left
      obtain ⟨t, ht⟩ := (HasPrefix_iff _ _).1 h
      exact ⟨t, ht.symm⟩
    · rw [if_neg h]
      rw [show (Option.map (fun x => x + 1) (Index s p)).isSome = (Index s p).isSome by
        cases Index s p <;> rfl, ih]
      constructor
      · exact Or.inr
      · rintro (⟨t, ht⟩ | h2)
        · exact absurd ((HasPrefix_iff _ _).2 ⟨t, ht.symm⟩) h
        · exact h2

/-- A text of ASCII bytes without capital letters is its own lower-case form. -/
theorem ToLower_of_lower (caseTable : Nat → Nat) {p : GoString}
    (h : ∀ c ∈ p, c < 0x80 ∧ ¬(65 ≤ c ∧ c ≤ 90)) : ToLower caseTable p = p := by
  unfold ToLower
  rw [if_pos]
  · conv_rhs => rw [← List.map_id p]
    apply List.map_congr_left
    intro c hc
    unfold lowerByte
    rw [if_neg (h c hc).2]; rfl
  · rw [List.all_eq_true]
    intro c hc
    simpa using (h c hc).1

end strings

namespace utf8

theorem flatten_EncodeRune_ascii : ∀ p : List Nat, (∀ c ∈ p, c < 0x80) →
    (p.map EncodeRune).flatten = p := by
  intro p
  induction p with
  | nil => intro _; rfl
  | cons c p ih =>
    intro h
    rw [List.map_cons, List.flatten_cons, ih (fun x hx => h x (List.mem_cons_of_mem _ hx)),
      EncodeRune_ascii (h c (List.mem_cons_self _ _))]
    rfl

/-- The rune whose encoding starts with an ASCII byte is that byte. -/
theorem EncodeRune_head_ascii {r c : Nat} {t : GoString} (hc : c < 0x80)
    (h : EncodeRune r = c :: t) : r = c ∧ t = [] := by
  by_cases hr : r < 0x80
  · rw [EncodeRune_ascii hr] at h
    simpa using h
  · have := EncodeRune_bytes (r := r) (by omega) c (by rw [h]; exact List.mem_cons_self _ _)
    omega

/-- An ASCII text at the start of the encoding of some runes is the start of the
runes. -/
theorem prefix_of_prefix_flatten : ∀ (p rs : List Nat), (∀ c ∈ p, c < 0x80) →
    p <+: (rs.map EncodeRune).flatten → p <+: rs := by
  intro p
  induction p with
  | nil => intro rs _ _; exact List.nil_prefix
  | cons c p ih =>
    intro rs hp h
    cases rs with
    | nil =>
      simp at h
    | cons r rs =>
      rw [List.map_cons, List.flatten_cons] at h
      obtain ⟨x, t, hx⟩ : ∃ x t, EncodeRune r = x :: t := by
        cases he : EncodeRune r with
        | nil => exact absurd he (url.EncodeRune_ne_nil r)
        | cons x t => exact ⟨x, t, rfl⟩
      rw [hx, List.cons_append] at h
      obtain ⟨rfl, h2⟩ := List.cons_prefix_cons.1 h
      obtain ⟨rfl, rfl⟩ := EncodeRune_head_ascii (hp _ (List.mem_cons_self _ _)) hx
      rw [List.nil_append] at h2
      exact List.cons_prefix_cons.2
        ⟨rfl, ih rs (fun x hx => hp x (List.mem_cons_of_mem _ hx)) h2⟩

theorem infix_of_high_append {p : List Nat} {c : Nat} (hc : c < 0x80) (f : List Nat) :
    ∀ x : List Nat, (∀ b ∈ x, 0x80 ≤ b) → (c :: p) <:+: x ++ f → (c :: p) <:+: f := by
  intro x
  induction x with
  | nil => intro _ h; simpa using h
  | cons b x ih =>
    intro hx h
    rw [List.cons_append, List.infix_cons_iff] at h
    rcases h with h | h
    · obtain ⟨rfl, -⟩ := List.cons_prefix_cons.1 h
      have := hx c (List.mem_cons_self _ _)
      omega
    · exact ih (fun b hb => hx b (List.mem_cons_of_mem _ hb)) h

/-- An ASCII text inside the encoding of some runes is a run of the runes. -/
theorem infix_of_infix_flatten (p : List Nat) (hp : ∀ c ∈ p, c < 0x80) : ∀ rs : List Nat,
    p <:+: (rs.map EncodeRune).flatten → p <:+: rs := by
  intro rs
  induction rs with
  | nil =>
    intro h
    simpa using h
  | cons r rs ih =>
    intro h
    cases p with
    | nil => exact List.nil_infix
    | cons c p =>
      rw [List.infix_cons_iff]
      by_cases hr : r < 0x80
      · rw [List.map_cons, List.flatten_cons, EncodeRune_ascii hr, List.singleton_append,
          List.infix_cons_iff] at h
        rcases h with h | h
        · left
          apply prefix_of_prefix_flatten _ _ hp
          rw [List.map_cons, List.flatten_cons, EncodeRune_ascii hr]
          exact h
        · exact Or.inr (ih h)
      · right
        apply ih
        rw [List.map_cons, List.flatten_cons] at h
        exact infix_of_high_append (hp c (List.mem_cons_self _ _)) _ _
          (fun b hb => (EncodeRune_bytes (r := r) (by omega) b hb).1) h

theorem flatten_run_of_run {p rs : List Nat} (hp : ∀ c ∈ p, c < 0x80) (h : p <:+: rs) :
    p <:+: (rs.map EncodeRune).flatten := by
  obtain ⟨a, b, rfl⟩ := h
  rw [List.map_append, List.map_append, List.flatten_append, List.flatten_append,
    flatten_EncodeRune_ascii p hp]
  exact ⟨_, _, rfl⟩

/-- The runes of an ASCII text are its bytes. -/
theorem runes_ascii : ∀ (p : GoString), (∀ c ∈ p, c < 0x80) → runes p.length p = p := by
  intro p
  induction p with
  | nil => intro _; rfl
  | cons c p ih =>
    intro h
    rw [runes_cons_ascii p (h c (List.mem_cons_self _ _)),
      ih (fun x hx => h x (List.mem_cons_of_mem _ hx))]

end utf8

namespace crawler

/-! ## `IsRetryableError` -/

theorem errorsIsAny_eq (target : Sentinel) : ∀ us : List GoError,
    errorsIsAny target us = us.any (errorsIs target) := by
  intro us
  induction us with
  | nil => simp [errorsIsAny]
  | cons u us ih => simp [errorsIsAny, ih]

theorem errorsIs_eq (target : Sentinel) (err : GoError) :
    errorsIs target err = (err.isSentinel target || err.unwrap.any (errorsIs target)) := by
  cases err with
  | mk msg d c us =>
    rw [errorsIs, errorsIsAny_eq]
    rfl

theorem errorsIs_of_wraps (target : Sentinel) {err e : GoError} (h : err.Wraps e)
    (he : e.isSentinel target = true) : errorsIs target err = true := by
  induction h with
  | self err => rw [errorsIs_eq, he]; rfl
  | step hu _ ih =>
    rw [errorsIs_eq, Bool.or_eq_true]
    right
    rw [List.any_eq_true]
    exact ⟨_, hu, ih he⟩

mutual
theorem wraps_of_errorsIs (target : Sentinel) : ∀ err : GoError, errorsIs target err = true →
    ∃ e, err.Wraps e ∧ e.isSentinel target = true
  | .mk msg d c us, h => by
    rw [errorsIs, Bool.or_eq_true] at h
    rcases h with h | h
    · exact ⟨_, .self _, h⟩
    · obtain ⟨u, hu, e, hw, he⟩ := wraps_of_errorsIsAny target us h
      exact ⟨e, .step hu hw, he⟩
theorem wraps_of_errorsIsAny (target : Sentinel) : ∀ us : List GoError,
    errorsIsAny target us = true → ∃ u ∈ us, ∃ e, u.Wraps e ∧ e.isSentinel target = true
  | [], h => by simp [errorsIsAny] at h
  | u :: us, h => by
    rw [errorsIsAny, Bool.or_eq_true] at h
    rcases h with h | h
    · exact ⟨u, List.mem_cons_self _ _, wraps_of_errorsIs target u h⟩
    · obtain ⟨v, hv, hh⟩ := wraps_of_errorsIsAny target us h
      exact ⟨v, List.mem_cons_of_mem _ hv, hh⟩
end

/-- `errors.Is` finds the sentinel exactly when the error is it or wraps it. -/
theorem errorsIs_iff (target : Sentinel) (err : GoError) :
    errorsIs target err = true ↔ ∃ e, err.Wraps e ∧ e.isSentinel target = true :=
  ⟨wraps_of_errorsIs target err, fun ⟨_, hw, he⟩ => errorsIs_of_wraps target hw he⟩

/-- `contains` of a lower-case ASCII pattern: the pattern occurs in the text up to
letter case. -/
theorem contains_iff (caseTable : Nat → Nat) (s : GoString) {p : GoString}
    (hp : ∀ c ∈ p, c < 0x80 ∧ ¬(65 ≤ c ∧ c ≤ 90)) :
    contains caseTable s p = true ↔ ContainsFold caseTable s p := by
  have hp1 : ∀ c ∈ p, c < 0x80 := fun c hc => (hp c hc).1
  have hmap : p.map (strings.unicodeToLower caseTable) = p := by
    conv_rhs => rw [← List.map_id p]
    apply List.map_congr_left
    intro c hc
    rw [strings.unicodeToLower_ascii caseTable (hp1 c hc)]
    unfold strings.lowerByte
    rw [if_neg (hp c hc).2]; rfl
  unfold contains ContainsFold
  simp only
  rw [strings.ToLower_of_lower caseTable hp, strings.Contains_iff_run, strings.ToLower_eq_Map,
    strings.Map, utf8.runes_ascii p hp1, hmap,
    show (fun r => utf8.EncodeRune (strings.unicodeToLower caseTable r))
      = utf8.EncodeRune ∘ strings.unicodeToLower caseTable from rfl, ← List.map_map]
  constructor
  · intro h
    obtain ⟨a, b, hab⟩ := utf8.infix_of_infix_flatten p hp1 _ h
    obtain ⟨l1, b1, h1, h2, rfl⟩ := List.map_eq_append_iff.1 hab.symm
    obtain ⟨a1, t, rfl, rfl, h3⟩ := List.map_eq_append_iff.1 h2
    exact ⟨a1, t, b1, h1, h3⟩
  · rintro ⟨a, t, b, h1, h2⟩
    apply utf8.flatten_run_of_run hp1
    rw [h1, List.map_append, List.map_append, h2]
    exact ⟨_, _, rfl⟩

end crawler

namespace crawler

open float64

theorem retryablePatterns_lower : ∀ p ∈ retryablePatterns, ∀ c ∈ p,
    c < 0x80 ∧ ¬(65 ≤ c ∧ c ≤ 90) := by
  decide

theorem DefaultRetryConfig_multiplier : DefaultRetryConfig.BackoffMultiplier = ofInt 2 :=
  (ofInt_exact (by decide)).symm

/-- C13. With `MaxRetries >= 0` and a context that is never done: if the operation
first returns nil on its `k`-th invocation, `k <= MaxRetries + 1`, `Retry`
returns nil after exactly `k` invocations; if each of the first `MaxRetries + 1`
invocations returns an error, `Retry` returns the error of invocation
`MaxRetries + 1` after exactly `MaxRetries + 1` invocations. -/
theorem Retry_invocations {E : Type} (outOfRange : F64 → Int) (ctx : Nat → Bool)
    (fn : Nat → Option E) (config : RetryConfig) (hM : 0 ≤ config.MaxRetries)
    (hctx : ∀ k, ctx k = false) :
    (∀ k : Nat, 1 ≤ k → (k : Int) ≤ config.MaxRetries + 1 → (∀ j < k - 1, fn j ≠ none) →
        fn (k - 1) = none →
        ∃ sleeps, Retry outOfRange ctx fn config
          = some { err := none, calls := k, sleeps := sleeps })
    ∧ ((∀ j : Nat, (j : Int) ≤ config.MaxRetries → fn j ≠ none) →
        ∃ e sleeps, fn config.MaxRetries.toNat = some e ∧
          Retry outOfRange ctx fn config
            = some { err := some (.op e), calls := config.MaxRetries.toNat + 1,
                     sleeps := sleeps }) := by
  constructor
  · intro k hk1 hk hj h0
    obtain ⟨k, rfl⟩ : ∃ i, k = i + 1 := ⟨k - 1, by omega⟩
    exact ⟨_, Retry_success outOfRange ctx fn config hctx (by push_cast at hk; omega) hj h0⟩
  · intro hj
    obtain ⟨e, he, hr⟩ := Retry_failure outOfRange ctx fn config hctx hM hj
    exact ⟨e, _, he, hr⟩

/-- The example of C13: an operation that fails twice with "connection timeout"
and then succeeds, run with `MaxRetries = 3`, is invoked exactly 3 times. -/
theorem Retry_invocations_witness :
    0 ≤ DefaultRetryConfig.MaxRetries ∧ DefaultRetryConfig.MaxRetries = 3 ∧
    (∀ k : Nat, (fun _ => false) k = false) ∧
    ∃ sleeps, Retry (fun _ => 0) (fun _ => false)
        (fun k => if k < 2 then some (GoError.mk (bytes "connection timeout") false false [])
                  else none)
        DefaultRetryConfig
      = some { err := none, calls := 3, sleeps := sleeps } :=
  ⟨by decide, rfl, fun _ => rfl,
    (Retry_invocations (fun _ => 0) (fun _ => false)
      (fun k => if k < 2 then some (GoError.mk (bytes "connection timeout") false false [])
                else none)
      DefaultRetryConfig (by decide) (fun _ => rfl)).1 3 (by decide) (by decide)
      (by intro j hj; simp at hj; simp [hj]) (by simp)⟩

/-- C14 (amended). With `MaxRetries >= 0` and a context that is never done,
`Retry` returns after at most `MaxRetries + 1` invocations, and the sleeps it
performed, one before each retry and none after the last invocation, are `d_1`,
`d_2`, ... with `d_1 = InitialDelay` and
`d_(j+1) = min(time.Duration(float64(d_j) * BackoffMultiplier), MaxDelay)`, the
product taken in `float64` and its fraction discarded.  For an integer multiplier
this is `min(d_j * BackoffMultiplier, MaxDelay)` as long as the delay, the
multiplier and the product are below `2^53` in absolute value.  Under the default
policy an always-failing operation is invoked 4 times, with sleeps of exactly 1s,
2s and 4s. -/
theorem Retry_backoff {E : Type} (outOfRange : F64 → Int) (ctx : Nat → Bool)
    (fn : Nat → Option E) (config : RetryConfig) (hM : 0 ≤ config.MaxRetries)
    (hctx : ∀ k, ctx k = false) :
    (∃ r, Retry outOfRange ctx fn config = some r ∧ 1 ≤ r.calls ∧
        (r.calls : Int) ≤ config.MaxRetries + 1 ∧ r.sleeps.length = r.calls - 1 ∧
        r.sleeps
          = List.iterate (fun d => min (toInt64 outOfRange
                (mul (ofInt d) config.BackoffMultiplier)) config.MaxDelay)
              config.InitialDelay (r.calls - 1))
    ∧ (∀ d k : Int, config.BackoffMultiplier = ofInt k → d.natAbs < 2 ^ 53 →
        k.natAbs < 2 ^ 53 → (d * k).natAbs < 2 ^ 53 →
        min (toInt64 outOfRange (mul (ofInt d) config.BackoffMultiplier)) config.MaxDelay
          = min (d * k) config.MaxDelay)
    ∧ (∀ e : E, Retry outOfRange ctx (fun _ => some e) DefaultRetryConfig
        = some { err := some (.op e), calls := 4,
                 sleeps := [1000000000, 2000000000, 4000000000] }) := by
  have hnext : nextDelay outOfRange config = fun d => min (toInt64 outOfRange
      (mul (ofInt d) config.BackoffMultiplier)) config.MaxDelay := by
    funext d
    unfold nextDelay
    simp only [gt_iff_lt]
    split_ifs with h
    · rw [min_eq_right (le_of_lt h)]
    · rw [min_eq_left (not_lt.1 h)]
  refine ⟨?_, ?_, ?_⟩
  · obtain ⟨r, hr, h1, h2, h3⟩ := Retry_returns outOfRange ctx fn config hctx hM
    refine ⟨r, hr, h1, h2, ?_, ?_⟩
    · rw [h3, List.length_iterate]
    · rw [h3, hnext]
  · intro d k hm hd hk hp
    have := nextDelay_exact outOfRange config hm hd hk hp
    rw [hnext] at this
    exact this
  · intro e
    obtain ⟨e1, he1, hr⟩ := Retry_failure outOfRange ctx (fun _ => some e) DefaultRetryConfig
      hctx (by decide) (fun _ _ => by simp)
    rw [hr]
    have h3 : DefaultRetryConfig.MaxRetries.toNat = 3 := by decide
    have hd : ∀ d : Int, d.natAbs < 2 ^ 52 → nextDelay outOfRange DefaultRetryConfig d
        = min (d * 2) DefaultRetryConfig.MaxDelay := fun d hd =>
      nextDelay_exact outOfRange DefaultRetryConfig DefaultRetryConfig_multiplier (by omega)
        (by decide) (by omega)
    simp only [Option.some.injEq] at he1
    rw [h3, ← he1]
    simp only [List.iterate]
    rw [hd _ (by decide), hd _ (by decide)]
    rfl

/-- The default policy with an always-failing operation: 4 invocations and sleeps
of 1s, 2s and 4s, each the capped double of the one before. -/
theorem Retry_backoff_witness :
    0 ≤ DefaultRetryConfig.MaxRetries ∧ (∀ k : Nat, (fun _ => false) k = false) ∧
    Retry (fun _ => 0) (fun _ => false) (fun _ => some ()) DefaultRetryConfig
      = some { err := some (.op ()), calls := 4,
               sleeps := [1000000000, 2000000000, 4000000000] } :=
  ⟨by decide, fun _ => rfl,
    (Retry_backoff (fun _ => 0) (fun _ => false) (fun _ => some ()) DefaultRetryConfig
      (by decide) (fun _ => rfl)).2.2 ()⟩

/-- C14 as stated fails: with an initial delay of 3ns and a multiplier of 1.5 the
second sleep is 4ns, not `min(3 * 1.5, 10) = 4.5` ns. -/
theorem Retry_backoff_truncates :
    Retry (fun _ => 0) (fun _ => false) (fun _ => some ())
        { MaxRetries := 3, InitialDelay := 3, MaxDelay := 10, BackoffMultiplier := .finite 3 (-1) }
      = some { err := some (.op ()), calls := 4, sleeps := [3, 4, 6] }
    ∧ ((4 : Int) : Rat) ≠ min ((3 : Int) * (3 / 2 : Rat)) ((10 : Int) : Rat) := by
  constructor
  · decide
  · norm_num

/-- C15. `IsRetryableError(nil)` is false, and `IsRetryableError(err)` is true
exactly when `err` is not nil and either is, or wraps at some depth,
`context.DeadlineExceeded` or `context.Canceled`, or has a message in which one of
the five patterns occurs up to letter case. -/
theorem IsRetryableError_iff (caseTable : Nat → Nat) (err : Option GoError) :
    IsRetryableError caseTable none = false ∧
    (IsRetryableError caseTable err = true ↔
      ∃ e0, err = some e0 ∧
        ((∃ e, e0.Wraps e ∧ (e.isDeadlineExceeded = true ∨ e.isCanceled = true)) ∨
          ∃ p ∈ [bytes "timeout", bytes "connection", bytes "network", bytes "temporary",
                  bytes "temporarily unavailable"], ContainsFold caseTable e0.Error p)) := by
  refine ⟨rfl, ?_⟩
  cases err with
  | none => simp [IsRetryableError]
  | some e0 =>
    simp only [IsRetryableError, Option.some.injEq, exists_eq_left']
    have hw : (errorsIs .DeadlineExceeded e0 || errorsIs .Canceled e0) = true ↔
        ∃ e, e0.Wraps e ∧ (e.isDeadlineExceeded = true ∨ e.isCanceled = true) := by
      rw [Bool.or_eq_true, errorsIs_iff, errorsIs_iff]
      constructor
      · rintro (⟨e, hw, he⟩ | ⟨e, hw, he⟩)
        · exact ⟨e, hw, Or.inl he⟩
        · exact ⟨e, hw, Or.inr he⟩
      · rintro ⟨e, hw, he | he⟩
        · exact Or.inl ⟨e, hw, he⟩
        · exact Or.inr ⟨e, hw, he⟩
    have hp : retryablePatterns.any (fun pattern => contains caseTable e0.Error pattern) = true ↔
        ∃ p ∈ retryablePatterns, ContainsFold caseTable e0.Error p := by
      rw [List.any_eq_true]
      constructor
      · rintro ⟨p, hp, h⟩
        exact ⟨p, hp, (contains_iff caseTable _ (retryablePatterns_lower p hp)).1 h⟩
      · rintro ⟨p, hp, h⟩
        exact ⟨p, hp, (contains_iff caseTable _ (retryablePatterns_lower p hp)).2 h⟩
    rw [← hw, ← show retryablePatterns = [bytes "timeout", bytes "connection", bytes "network",
      bytes "temporary", bytes "temporarily unavailable"] from rfl, ← hp]
    split_ifs with h
    · simp [h]
    · simp [h]

end crawler

/-! ## The extractor -/

namespace utf8

/-- A text has at most as many runes as bytes. -/
theorem runes_length_le : ∀ (fuel : Nat) (s : GoString), (runes fuel s).length ≤ s.length := by
  intro fuel
  induction fuel with
  | zero => intro s; simp [runes]
  | succ f ih =>
    intro s
    cases s with
    | nil => simp [runes]
    | cons s0 rest =>
      simp only [runes, List.length_cons]
      have := ih (rest.drop ((DecodeRune (s0 :: rest)).2 - 1))
      have h2 := List.length_drop ((DecodeRune (s0 :: rest)).2 - 1) rest
      omega

end utf8

namespace cascadia

open html

theorem Match_universal_elem (t : GoString) (a : List (GoString × GoString)) (cs : List Node) :
    Selector.Match [.universal] (.elem t a cs) = true := by
  simp [Selector.Match, Simple.Match]

mutual
theorem MatchAll_eq_filter (sel : Selector) : ∀ n : Node,
    MatchAll sel n = (MatchAll [.universal] n).filter (Selector.Match sel)
  | .elem t a cs => by
    rw [MatchAll, MatchAll, Match_universal_elem, if_pos rfl, List.filter_append,
      ← MatchAllList_eq_filter sel cs]
    by_cases h : Selector.Match sel (.elem t a cs) = true
    · rw [if_pos h]; simp [List.filter, h]
    · rw [if_neg h]; simp [List.filter, h]
  | .text _ => by simp [MatchAll]
  | .other => by simp [MatchAll]
/-- `MatchAll` keeps, of the elements in document order, those that match. -/
theorem MatchAllList_eq_filter (sel : Selector) : ∀ ns : List Node,
    MatchAllList sel ns = (MatchAllList [.universal] ns).filter (Selector.Match sel)
  | [] => by simp [MatchAllList]
  | n :: ns => by
    rw [MatchAllList, MatchAllList, List.filter_append, ← MatchAll_eq_filter sel n,
      ← MatchAllList_eq_filter sel ns]
end

/-- Every node `MatchAll` lists is an element. -/
theorem Match_tag_iff (t : GoString) (n : Node) :
    Selector.Match [.tag t] n = true ↔ ∃ a cs, n = .elem t a cs := by
  cases n with
  | text d => simp [Selector.Match, Simple.Match]
  | other => simp [Selector.Match, Simple.Match]
  | elem t1 a cs =>
    simp only [Selector.Match, List.any_cons, List.any_nil, Bool.or_false, Simple.Match,
      beq_iff_eq, Node.elem.injEq]
    constructor
    · rintro rfl; exact ⟨a, cs, rfl, rfl, rfl⟩
    · rintro ⟨_, _, h, _, _⟩; exact h

end cascadia

namespace crawler

open html cascadia goquery

/-! ## `calculateContentScore` -/

theorem foldl_bonus (c : GoString → Bool) (b : Rat) : ∀ (ks : List GoString) (x : Rat),
    ks.foldl (fun score keyword => if c keyword then score + b else score) x
      = x + b * ((ks.filter c).length : Rat) := by
  intro ks
  induction ks with
  | nil => intro x; simp
  | cons k ks ih =>
    intro x
    rw [List.foldl_cons, ih]
    by_cases h : c k = true
    · rw [if_pos h, List.filter_cons_of_pos h, List.length_cons]
      push_cast; ring
    · rw [if_neg h, List.filter_cons_of_neg h]

theorem foldl_penalty (c : GoString → Bool) (b : Rat) : ∀ (ks : List GoString) (x : Rat),
    ks.foldl (fun score keyword => if c keyword then score - b else score) x
      = x - b * ((ks.filter c).length : Rat) := by
  intro ks
  induction ks with
  | nil => intro x; simp
  | cons k ks ih =>
    intro x
    rw [List.foldl_cons, ih]
    by_cases h : c k = true
    · rw [if_pos h, List.filter_cons_of_pos h, List.length_cons]
      push_cast; ring
    · rw [if_neg h, List.filter_cons_of_neg h]

theorem calculateContentScore_of_short (caseTable : Nat → Nat) {s : Node}
    (h : textLength s < 100) : calculateContentScore caseTable s = 0 := by
  unfold calculateContentScore
  rw [if_pos h]

theorem calculateContentScore_of_dense (caseTable : Nat → Nat) {s : Node}
    (h : 1 / 2 < linkDensity s) : calculateContentScore caseTable s = 0 := by
  unfold calculateContentScore
  split_ifs with h1 h2
  · rfl
  · rfl
  · exfalso
    apply h2
    norm_num
    exact h

/-- The score of a candidate that passes the two tests. -/
theorem calculateContentScore_of_good (caseTable : Nat → Nat) {s : Node}
    (h1 : 100 ≤ textLength s) (h2 : linkDensity s ≤ 1 / 2) :
    calculateContentScore caseTable s
      = (textLength s : Rat) + 10 * ((Find s [.tag (bytes "p")]).length : Rat)
        + 5 * ((Find s [.tag (bytes "ul"), .tag (bytes "ol")]).length : Rat)
        + 2 * ((Find s [.tag (bytes "img")]).length : Rat)
        + 50 * ((contentKeywords.filter (keywordHit caseTable s)).length : Rat)
        - 100 * ((negativeKeywords.filter (keywordHit caseTable s)).length : Rat) := by
  unfold calculateContentScore
  rw [if_neg (by omega), if_neg (by norm_num; exact h2)]
  simp only
  rw [foldl_penalty, foldl_bonus]
  ring

/-- A candidate that passes the two tests and has no negative keyword scores at
least 100. -/
theorem calculateContentScore_pos (caseTable : Nat → Nat) {s : Node}
    (h1 : 100 ≤ textLength s) (h2 : linkDensity s ≤ 1 / 2)
    (h3 : ∀ k ∈ negativeKeywords, keywordHit caseTable s k = false) :
    100 ≤ calculateContentScore caseTable s := by
  rw [calculateContentScore_of_good caseTable h1 h2]
  have hn : negativeKeywords.filter (keywordHit caseTable s) = [] := by
    rw [List.filter_eq_nil_iff]
    intro k hk
    rw [h3 k hk]; simp
  rw [hn]
  have : (100 : Rat) ≤ (textLength s : Rat) := by exact_mod_cast h1
  have e1 : (0 : Rat) ≤ ((Find s [.tag (bytes "p")]).length : Rat) := Nat.cast_nonneg _
  have e2 : (0 : Rat) ≤ ((Find s [.tag (bytes "ul"), .tag (bytes "ol")]).length : Rat) :=
    Nat.cast_nonneg _
  have e3 : (0 : Rat) ≤ ((Find s [.tag (bytes "img")]).length : Rat) := Nat.cast_nonneg _
  have e4 : (0 : Rat) ≤ ((contentKeywords.filter (keywordHit caseTable s)).length : Rat) :=
    Nat.cast_nonneg _
  simp only [List.length_nil, Nat.cast_zero, mul_zero, sub_zero]
  linarith

theorem keywords_lower : ∀ p ∈ contentKeywords ++ negativeKeywords, ∀ c ∈ p,
    c < 0x80 ∧ ¬(65 ≤ c ∧ c ≤ 90) := by
  decide

/-- The test of lines 120 and 128 finds the keyword in the class or the id up to
letter case. -/
theorem keywordHit_iff (caseTable : Nat → Nat) (s : Node) {k : GoString}
    (hk : k ∈ contentKeywords ++ negativeKeywords) :
    keywordHit caseTable s k = true ↔
      ContainsFold caseTable (AttrOr s (bytes "class") []) k
        ∨ ContainsFold caseTable (AttrOr s (bytes "id") []) k := by
  have hl := keywords_lower k hk
  have h : ∀ t, strings.Contains (strings.ToLower caseTable t) k = contains caseTable t k := by
    intro t
    unfold contains
    simp only
    rw [strings.ToLower_of_lower caseTable hl]
  unfold keywordHit
  simp only [Bool.or_eq_true]
  rw [h, h, contains_iff caseTable _ hl, contains_iff caseTable _ hl]

/-! ## `selectBestContent` -/

/-- The loop of `selectBestContent` keeps its state if no candidate beats it, and
else ends on the first candidate with the highest score. -/
theorem selectBestLoop_spec (caseTable : Nat → Nat) : ∀ (l : List Node) (b : Rat) (o : Option Node),
    ((∀ s ∈ l, calculateContentScore caseTable s ≤ b) → selectBestLoop caseTable l (b, o) = (b, o))
    ∧ ((∃ s ∈ l, b < calculateContentScore caseTable s) →
        ∃ i, ∃ h : i < l.length,
          selectBestLoop caseTable l (b, o)
            = (calculateContentScore caseTable (l.get ⟨i, h⟩), some (l.get ⟨i, h⟩))
          ∧ b < calculateContentScore caseTable (l.get ⟨i, h⟩)
          ∧ (∀ s ∈ l, calculateContentScore caseTable s
              ≤ calculateContentScore caseTable (l.get ⟨i, h⟩))
          ∧ (∀ j, ∀ hj : j < l.length, j < i →
              calculateContentScore caseTable (l.get ⟨j, hj⟩)
                < calculateContentScore caseTable (l.get ⟨i, h⟩))) := by
  intro l
  induction l with
  | nil =>
    intro b o
    exact ⟨fun _ => rfl, fun ⟨s, hs, _⟩ => absurd hs (List.not_mem_nil _)⟩
  | cons s rest ih =>
    intro b o
    by_cases hs : b < calculateContentScore caseTable s
    · have hstep : selectBestLoop caseTable (s :: rest) (b, o)
          = selectBestLoop caseTable rest (calculateContentScore caseTable s, some s) := by
        simp only [selectBestLoop]
        rw [if_pos hs]
      constructor
      · intro h
        exact absurd (h s (List.mem_cons_self _ _)) (not_le.2 hs)
      · intro _
        obtain ⟨ih1, ih2⟩ := ih (calculateContentScore caseTable s) (some s)
        by_cases hr : ∀ t ∈ rest, calculateContentScore caseTable t
            ≤ calculateContentScore caseTable s
        · refine ⟨0, Nat.succ_pos _, ?_, hs, ?_, ?_⟩
          · rw [hstep, ih1 hr]; rfl
          · intro t ht
            rcases List.mem_cons.1 ht with rfl | ht
            · exact le_refl _
            · exact hr t ht
          · intro j _ hj
            exact absurd hj (Nat.not_lt_zero _)
        · push_neg at hr
          obtain ⟨t, ht, hlt⟩ := hr
          obtain ⟨i, hi, e1, e2, e3, e4⟩ := ih2 ⟨t, ht, hlt⟩
          refine ⟨i + 1, Nat.succ_lt_succ hi, ?_, ?_, ?_, ?_⟩
          · rw [hstep, e1]; rfl
          · exact lt_trans hs e2
          · intro u hu
            rcases List.mem_cons.1 hu with rfl | hu
            · exact le_of_lt e2
            · exact e3 u hu
          · intro j hj hji
            cases j with
            | zero => exact e2
            | succ j => exact e4 j (Nat.lt_of_succ_lt_succ hj) (Nat.lt_of_succ_lt_succ hji)
    · have hstep : selectBestLoop caseTable (s :: rest) (b, o)
          = selectBestLoop caseTable rest (b, o) := by
        simp only [selectBestLoop]
        rw [if_neg hs]
      obtain ⟨ih1, ih2⟩ := ih b o
      constructor
      · intro h
        rw [hstep]
        exact ih1 (fun t ht => h t (List.mem_cons_of_mem _ ht))
      · rintro ⟨t, ht, hlt⟩
        rcases List.mem_cons.1 ht with rfl | ht
        · exact absurd hlt hs
        · obtain ⟨i, hi, e1, e2, e3, e4⟩ := ih2 ⟨t, ht, hlt⟩
          refine ⟨i + 1, Nat.succ_lt_succ hi, ?_, e2, ?_, ?_⟩
          · rw [hstep, e1]; rfl
          · intro u hu
            rcases List.mem_cons.1 hu with rfl | hu
            · exact le_trans (not_lt.1 hs) (le_of_lt e2)
            · exact e3 u hu
          · intro j hj hji
            cases j with
            | zero => exact lt_of_le_of_lt (not_lt.1 hs) e2
            | succ j => exact e4 j (Nat.lt_of_succ_lt_succ hj) (Nat.lt_of_succ_lt_succ hji)

/-- Of one candidate, `selectBestContent` returns that candidate. -/
theorem selectBestContent_singleton (caseTable : Nat → Nat) (s : Node) :
    selectBestContent caseTable [s] = some s := by
  unfold selectBestContent
  simp only [selectBestLoop]
  split_ifs <;> rfl

end crawler

namespace crawler

open html cascadia goquery

/-! ## The sample candidates -/

set_option maxRecDepth 100000

theorem textLength_textDiv_150 : textLength (sample.textDiv 150) = 150 := by decide

theorem linkDensity_of_no_link {s : Node} (h : (strings.TrimSpace (linkText s)).length = 0) :
    linkDensity s = 0 := by
  unfold linkDensity
  rw [h]; simp

theorem score_keywordsDiv : calculateContentScore id sample.keywordsDiv = 200 := by
  rw [calculateContentScore_of_good id (by decide)
    (by rw [linkDensity_of_no_link (by decide)]; norm_num)]
  rw [show textLength sample.keywordsDiv = 100 by decide,
    show (Find sample.keywordsDiv [.tag (bytes "p")]).length = 0 by decide,
    show (Find sample.keywordsDiv [.tag (bytes "ul"), .tag (bytes "ol")]).length = 0 by decide,
    show (Find sample.keywordsDiv [.tag (bytes "img")]).length = 0 by decide,
    show (contentKeywords.filter (keywordHit id sample.keywordsDiv)).length = 2 by decide,
    show (negativeKeywords.filter (keywordHit id sample.keywordsDiv)).length = 0 by decide]
  norm_num

theorem score_cjkDiv : calculateContentScore id sample.cjkDiv = 102 := by
  rw [calculateContentScore_of_good id (by decide)
    (by rw [linkDensity_of_no_link (by decide)]; norm_num)]
  rw [show textLength sample.cjkDiv = 102 by decide,
    show (Find sample.cjkDiv [.tag (bytes "p")]).length = 0 by decide,
    show (Find sample.cjkDiv [.tag (bytes "ul"), .tag (bytes "ol")]).length = 0 by decide,
    show (Find sample.cjkDiv [.tag (bytes "img")]).length = 0 by decide,
    show (contentKeywords.filter (keywordHit id sample.cjkDiv)).length = 0 by decide,
    show (negativeKeywords.filter (keywordHit id sample.cjkDiv)).length = 0 by decide]
  norm_num

theorem score_navDiv : calculateContentScore id sample.navDiv = 0 := by
  rw [calculateContentScore_of_good id (by decide)
    (by rw [linkDensity_of_no_link (by decide)]; norm_num)]
  rw [show textLength sample.navDiv = 100 by decide,
    show (Find sample.navDiv [.tag (bytes "p")]).length = 0 by decide,
    show (Find sample.navDiv [.tag (bytes "ul"), .tag (bytes "ol")]).length = 0 by decide,
    show (Find sample.navDiv [.tag (bytes "img")]).length = 0 by decide,
    show (contentKeywords.filter (keywordHit id sample.navDiv)).length = 0 by decide,
    show (negativeKeywords.filter (keywordHit id sample.navDiv)).length = 1 by decide]
  norm_num

theorem linkDensity_linkDiv : linkDensity sample.linkDiv = 3 / 5 := by
  unfold linkDensity
  rw [show (strings.TrimSpace (linkText sample.linkDiv)).length = 120 by decide,
    show textLength sample.linkDiv = 200 by decide]
  norm_num

theorem score_candidates_0 : calculateContentScore id (sample.textDiv 5) = 0 :=
  calculateContentScore_of_short id (by decide)

theorem score_candidates_1 :
    calculateContentScore id sample.textSection
      = 150 := by
  rw [calculateContentScore_of_good id (by decide)
    (by rw [linkDensity_of_no_link (by decide)]; norm_num)]
  rw [show textLength sample.textSection = 150
      by decide,
    show (Find sample.textSection
      [.tag (bytes "p")]).length = 0 by decide,
    show (Find sample.textSection
      [.tag (bytes "ul"), .tag (bytes "ol")]).length = 0 by decide,
    show (Find sample.textSection
      [.tag (bytes "img")]).length = 0 by decide,
    show (contentKeywords.filter (keywordHit id
      sample.textSection)).length = 0 by decide,
    show (negativeKeywords.filter (keywordHit id
      sample.textSection)).length = 0 by decide]
  norm_num

theorem score_candidates_2 : calculateContentScore id (sample.textDiv 150) = 150 := by
  rw [calculateContentScore_of_good id (by decide)
    (by rw [linkDensity_of_no_link (by decide)]; norm_num)]
  rw [show textLength (sample.textDiv 150) = 150 by decide,
    show (Find (sample.textDiv 150) [.tag (bytes "p")]).length = 0 by decide,
    show (Find (sample.textDiv 150) [.tag (bytes "ul"), .tag (bytes "ol")]).length = 0 by decide,
    show (Find (sample.textDiv 150) [.tag (bytes "img")]).length = 0 by decide,
    show (contentKeywords.filter (keywordHit id (sample.textDiv 150))).length = 0 by decide,
    show (negativeKeywords.filter (keywordHit id (sample.textDiv 150))).length = 0 by decide]
  norm_num

theorem selectBestContent_candidates :
    selectBestContent id sample.candidates
      = some sample.textSection := by
  unfold selectBestContent sample.candidates
  simp only [selectBestLoop, score_candidates_0, score_candidates_1, score_candidates_2]
  norm_num

theorem mainContent_page : ExtractMainContent.content id sample.page = some sample.pageBody := by
  unfold ExtractMainContent.content
  simp only
  rw [show MatchAllList [.tag (bytes "article")] (RemoveAll boilerplate sample.page) = [] from rfl,
    show MatchAllList [.tag (bytes "main")] (RemoveAll boilerplate sample.page) = [] from rfl,
    show MatchAllList contentMarkers (RemoveAll boilerplate sample.page) = [] from rfl,
    show MatchAllList [.tag (bytes "body")] (RemoveAll boilerplate sample.page)
      = [sample.pageBody] from rfl]
  simp only [List.length_nil, gt_iff_lt, lt_self_iff_false, if_false]
  exact selectBestContent_singleton id _

/-! ## The claims on the extractor -/

/-- C16 (amended). For every candidate whose trimmed text has at least 100 bytes and
whose link density is at most 0.5, `calculateContentScore` returns text length
+ 10 * (number of `p` below it) + 5 * (number of `ul` and `ol` below it)
+ 2 * (number of `img` below it), plus 50 for each of the keywords content,
article, post, entry, main, body that its class or id has up to letter case, minus
100 for each of the keywords ad, advertisement, sidebar, nav, menu, footer,
header that its class or id has up to letter case. -/
theorem calculateContentScore_formula (caseTable : Nat → Nat) (s : Node)
    (h1 : 100 ≤ textLength s) (h2 : linkDensity s ≤ 1 / 2) :
    calculateContentScore caseTable s
      = (textLength s : Rat) + 10 * ((Find s [.tag (bytes "p")]).length : Rat)
        + 5 * ((Find s [.tag (bytes "ul"), .tag (bytes "ol")]).length : Rat)
        + 2 * ((Find s [.tag (bytes "img")]).length : Rat)
        + 50 * ((contentKeywords.filter (keywordHit caseTable s)).length : Rat)
        - 100 * ((negativeKeywords.filter (keywordHit caseTable s)).length : Rat)
    ∧ ∀ k ∈ contentKeywords ++ negativeKeywords,
        (keywordHit caseTable s k = true ↔
          ContainsFold caseTable (AttrOr s (bytes "class") []) k
            ∨ ContainsFold caseTable (AttrOr s (bytes "id") []) k) :=
  ⟨calculateContentScore_of_good caseTable h1 h2, fun _ hk => keywordHit_iff caseTable s hk⟩

/-- The formula of C16 on `<div class="main-content">` with 100 letters of text. -/
theorem calculateContentScore_formula_witness :
    100 ≤ textLength sample.keywordsDiv ∧ linkDensity sample.keywordsDiv ≤ 1 / 2 ∧
    calculateContentScore id sample.keywordsDiv
      = (textLength sample.keywordsDiv : Rat)
        + 10 * ((Find sample.keywordsDiv [.tag (bytes "p")]).length : Rat)
        + 5 * ((Find sample.keywordsDiv [.tag (bytes "ul"), .tag (bytes "ol")]).length : Rat)
        + 2 * ((Find sample.keywordsDiv [.tag (bytes "img")]).length : Rat)
        + 50 * ((contentKeywords.filter (keywordHit id sample.keywordsDiv)).length : Rat)
        - 100 * ((negativeKeywords.filter (keywordHit id sample.keywordsDiv)).length : Rat) :=
  ⟨by decide, by rw [linkDensity_of_no_link (by decide)]; norm_num,
    (calculateContentScore_formula id sample.keywordsDiv (by decide)
      (by rw [linkDensity_of_no_link (by decide)]; norm_num)).1⟩

/-- C16 as stated fails: `<div class="main-content">` with 100 letters of text, no
link, paragraph, list or image has the keywords main and content, and scores
200, not 100 + 50. -/
theorem calculateContentScore_counts_each_keyword :
    calculateContentScore id sample.keywordsDiv = 200
    ∧ textLength sample.keywordsDiv = 100
    ∧ linkDensity sample.keywordsDiv = 0
    ∧ Find sample.keywordsDiv [.tag (bytes "p")] = []
    ∧ Find sample.keywordsDiv [.tag (bytes "ul"), .tag (bytes "ol")] = []
    ∧ Find sample.keywordsDiv [.tag (bytes "img")] = []
    ∧ (∀ k ∈ negativeKeywords, keywordHit id sample.keywordsDiv k = false)
    ∧ (200 : Rat) ≠ 100 + 10 * 0 + 5 * 0 + 2 * 0 + 50 :=
  ⟨score_keywordsDiv, by decide, linkDensity_of_no_link (by decide), rfl, rfl, rfl, by decide,
    by norm_num⟩

/-- C17 (amended). The length that `calculateContentScore` tests is the number of
bytes of the trimmed text: a candidate with fewer than 100 bytes scores 0, a
candidate scores above 0 only with at least 100 bytes, and a text has at most as
many characters as bytes. -/
theorem calculateContentScore_short (caseTable : Nat → Nat) (s : Node) :
    (textLength s < 100 → calculateContentScore caseTable s = 0)
    ∧ (0 < calculateContentScore caseTable s → 100 ≤ textLength s)
    ∧ (utf8.runes (textLength s) (strings.TrimSpace (Text s))).length ≤ textLength s := by
  refine ⟨calculateContentScore_of_short caseTable, ?_, utf8.runes_length_le _ _⟩
  intro h
  by_contra hlt
  rw [calculateContentScore_of_short caseTable (by omega)] at h
  exact lt_irrefl _ h

/-- C17 as stated fails: a text of 34 characters of three bytes each scores 102. -/
theorem calculateContentScore_counts_bytes :
    (utf8.runes (textLength sample.cjkDiv) (strings.TrimSpace (Text sample.cjkDiv))).length = 34
    ∧ textLength sample.cjkDiv = 102
    ∧ calculateContentScore id sample.cjkDiv = 102 :=
  ⟨by decide, by decide, score_cjkDiv⟩

/-- C18 (amended). For every candidate with at least 100 bytes of trimmed text: if
its link density, the length of the trimmed concatenation of the texts of the
`a` elements below it, each followed by a space, divided by the text length, is
above 0.5, `calculateContentScore` returns 0; and if its class and id have none
of the negative keywords, it returns 0 exactly when the link density is above
0.5. -/
theorem calculateContentScore_link_density (caseTable : Nat → Nat) (s : Node)
    (h : 100 ≤ textLength s) :
    linkDensity s
        = (((strings.TrimSpace (((Find s [.tag (bytes "a")]).map
            (fun a => Text a ++ bytes " ")).flatten)).length : Nat) : Rat) / (textLength s : Rat)
    ∧ (1 / 2 < linkDensity s → calculateContentScore caseTable s = 0)
    ∧ ((∀ k ∈ negativeKeywords, keywordHit caseTable s k = false) →
        (calculateContentScore caseTable s = 0 ↔ 1 / 2 < linkDensity s)) := by
  refine ⟨?_, calculateContentScore_of_dense caseTable, ?_⟩
  · unfold linkDensity linkText
    have : ∀ (l : List Node) (x : GoString),
        l.foldl (fun linkText a => linkText ++ (Text a ++ bytes " ")) x
          = x ++ (l.map (fun a => Text a ++ bytes " ")).flatten := by
      intro l
      induction l with
      | nil => intro x; simp
      | cons a l ih => intro x; rw [List.foldl_cons, ih]; simp
    rw [this]; rfl
  · intro hn
    constructor
    · intro h0
      by_contra hd
      have := calculateContentScore_pos caseTable h (not_lt.1 hd) hn
      rw [h0] at this
      norm_num at this
    · exact calculateContentScore_of_dense caseTable

/-- The example of C18: 200 letters of text, 120 of them in a link. -/
theorem calculateContentScore_link_density_witness :
    100 ≤ textLength sample.linkDiv ∧ textLength sample.linkDiv = 200
    ∧ linkDensity sample.linkDiv = 3 / 5
    ∧ calculateContentScore id sample.linkDiv = 0 :=
  ⟨by decide, by decide, linkDensity_linkDiv,
    (calculateContentScore_link_density id sample.linkDiv (by decide)).2.1
      (by rw [linkDensity_linkDiv]; norm_num)⟩

/-- C18 as stated fails: `<div class="nav">` with 100 letters of text and no link
scores 0 with a link density of 0. -/
theorem calculateContentScore_zero_without_links :
    textLength sample.navDiv = 100
    ∧ Find sample.navDiv [.tag (bytes "a")] = []
    ∧ linkDensity sample.navDiv = 0
    ∧ calculateContentScore id sample.navDiv = 0 :=
  ⟨by decide, rfl, linkDensity_of_no_link (by decide), score_navDiv⟩

/-- C19. For a non-empty list of candidates: if some candidate scores above 0,
`selectBestContent` returns the candidate at the first position whose score is
the maximum; if none does, it returns the first candidate. -/
theorem selectBestContent_first_best (caseTable : Nat → Nat) (selections : List Node)
    (hne : selections ≠ []) :
    ((∃ s ∈ selections, 0 < calculateContentScore caseTable s) →
      ∃ i, ∃ h : i < selections.length,
        selectBestContent caseTable selections = some (selections.get ⟨i, h⟩)
        ∧ 0 < calculateContentScore caseTable (selections.get ⟨i, h⟩)
        ∧ (∀ s ∈ selections, calculateContentScore caseTable s
            ≤ calculateContentScore caseTable (selections.get ⟨i, h⟩))
        ∧ (∀ j, ∀ hj : j < selections.length, j < i →
            calculateContentScore caseTable (selections.get ⟨j, hj⟩)
              < calculateContentScore caseTable (selections.get ⟨i, h⟩)))
    ∧ ((∀ s ∈ selections, calculateContentScore caseTable s ≤ 0) →
        selectBestContent caseTable selections = some (selections.head hne)) := by
  obtain ⟨h1, h2⟩ := selectBestLoop_spec caseTable selections 0 none
  constructor
  · intro hpos
    obtain ⟨i, hi, e1, e2, e3, e4⟩ := h2 hpos
    refine ⟨i, hi, ?_, e2, e3, e4⟩
    unfold selectBestContent
    rw [e1]
  · intro hle
    unfold selectBestContent
    rw [h1 hle]
    cases selections with
    | nil => exact absurd rfl hne
    | cons s rest => rfl

/-- Of three candidates with scores 0, 150 and 150, the second is returned. -/
theorem selectBestContent_first_best_witness :
    sample.candidates ≠ []
    ∧ (sample.candidates.map (calculateContentScore id)) = [0, 150, 150]
    ∧ selectBestContent id sample.candidates = sample.candidates.get? 1
    ∧ ∃ i, ∃ h : i < sample.candidates.length,
        selectBestContent id sample.candidates = some (sample.candidates.get ⟨i, h⟩)
        ∧ 0 < calculateContentScore id (sample.candidates.get ⟨i, h⟩)
        ∧ (∀ s ∈ sample.candidates, calculateContentScore id s
            ≤ calculateContentScore id (sample.candidates.get ⟨i, h⟩))
        ∧ (∀ j, ∀ hj : j < sample.candidates.length, j < i →
            calculateContentScore id (sample.candidates.get ⟨j, hj⟩)
              < calculateContentScore id (sample.candidates.get ⟨i, h⟩)) :=
  ⟨by simp [sample.candidates],
    by simp only [sample.candidates, List.map, score_candidates_0, score_candidates_1,
      score_candidates_2],
    selectBestContent_candidates,
    (selectBestContent_first_best id sample.candidates (by simp [sample.candidates])).1
      ⟨sample.textSection, by simp [sample.candidates],
        by rw [score_candidates_1]; norm_num⟩⟩

/-- C20 (amended). With `E` the elements of the document, in document order, that
are left after the boilerplate is removed, the content is: the first `article`
element if there is one; else the first `main` element; else what
`selectBestContent` returns of the elements with a class content, post, article,
entry or post-content; and when none of these exists, what `selectBestContent`
returns of the `body` elements, which for a document with one `body` is the
`body` element itself. -/
theorem mainContent_priority (caseTable : Nat → Nat) (doc : List Node) :
    ((∃ n ∈ elements (RemoveAll boilerplate doc), tagOf n = some (bytes "article")) →
      ExtractMainContent.content caseTable doc
        = (elements (RemoveAll boilerplate doc)).find?
            (fun n => Selector.Match [.tag (bytes "article")] n))
    ∧ ((∀ n ∈ elements (RemoveAll boilerplate doc), tagOf n ≠ some (bytes "article")) →
       (∃ n ∈ elements (RemoveAll boilerplate doc), tagOf n = some (bytes "main")) →
      ExtractMainContent.content caseTable doc
        = (elements (RemoveAll boilerplate doc)).find?
            (fun n => Selector.Match [.tag (bytes "main")] n))
    ∧ ((∀ n ∈ elements (RemoveAll boilerplate doc),
          tagOf n ≠ some (bytes "article") ∧ tagOf n ≠ some (bytes "main")) →
       (∃ n ∈ elements (RemoveAll boilerplate doc), Selector.Match contentMarkers n = true) →
      ExtractMainContent.content caseTable doc
        = selectBestContent caseTable
            ((elements (RemoveAll boilerplate doc)).filter (Selector.Match contentMarkers)))
    ∧ ((∀ n ∈ elements (RemoveAll boilerplate doc),
          tagOf n ≠ some (bytes "article") ∧ tagOf n ≠ some (bytes "main")
            ∧ Selector.Match contentMarkers n = false) →
      ExtractMainContent.content caseTable doc
        = selectBestContent caseTable
            ((elements (RemoveAll boilerplate doc)).filter
              (Selector.Match [.tag (bytes "body")]))
      ∧ ∀ b, (elements (RemoveAll boilerplate doc)).filter
              (Selector.Match [.tag (bytes "body")]) = [b] →
          ExtractMainContent.content caseTable doc = some b) := by
  have htag : ∀ (t : GoString) (n : Node), Selector.Match [.tag t] n = true ↔ tagOf n = some t := by
    intro t n
    rw [Match_tag_iff]
    cases n with
    | text d => simp [tagOf]
    | other => simp [tagOf]
    | elem t1 a cs =>
      simp only [Node.elem.injEq, tagOf, Option.some.injEq]
      constructor
      · rintro ⟨_, _, h, _, _⟩; exact h
      · rintro rfl; exact ⟨a, cs, rfl, rfl, rfl⟩
  have hpos : ∀ (sel : Selector), (∃ n ∈ elements (RemoveAll boilerplate doc),
      Selector.Match sel n = true) →
      (MatchAllList sel (RemoveAll boilerplate doc)).length > 0 := by
    rintro sel ⟨n, hn, hm⟩
    rw [MatchAllList_eq_filter]
    exact List.length_pos_of_mem (List.mem_filter.2 ⟨hn, hm⟩)
  have hzero : ∀ (sel : Selector), (∀ n ∈ elements (RemoveAll boilerplate doc),
      Selector.Match sel n = false) →
      MatchAllList sel (RemoveAll boilerplate doc) = [] := by
    intro sel h
    rw [MatchAllList_eq_filter, List.filter_eq_nil_iff]
    intro n hn
    rw [h n hn]; simp
  have hhead : ∀ (sel : Selector), (MatchAllList sel (RemoveAll boilerplate doc)).head?
      = (elements (RemoveAll boilerplate doc)).find? (fun n => Selector.Match sel n) := by
    intro sel
    rw [MatchAllList_eq_filter]
    unfold elements
    induction MatchAllList [.universal] (RemoveAll boilerplate doc) with
    | nil => rfl
    | cons a l ih =>
      by_cases ha : Selector.Match sel a = true
      · rw [List.filter_cons_of_pos ha, List.find?_cons_of_pos _ ha]; rfl
      · rw [List.filter_cons_of_neg ha, List.find?_cons_of_neg _ ha]; exact ih
  have hnot : ∀ (t : GoString) (n : Node), tagOf n ≠ some t → Selector.Match [.tag t] n = false := by
    intro t n h
    cases hm : Selector.Match [.tag t] n with
    | false => rfl
    | true => exact absurd ((htag t n).1 hm) h
  refine ⟨?_, ?_, ?_, ?_⟩
  · rintro ⟨n, hn, ht⟩
    unfold ExtractMainContent.content
    simp only
    rw [if_pos (hpos _ ⟨n, hn, (htag _ _).2 ht⟩), hhead]
  · rintro h1 ⟨n, hn, ht⟩
    unfold ExtractMainContent.content
    simp only
    rw [hzero _ (fun n hn => hnot _ n (h1 n hn))]
    rw [if_neg (by simp), if_pos (hpos _ ⟨n, hn, (htag _ _).2 ht⟩), hhead]
  · rintro h1 ⟨n, hn, hm⟩
    unfold ExtractMainContent.content
    simp only
    rw [hzero _ (fun n hn => hnot _ n (h1 n hn).1), hzero _ (fun n hn => hnot _ n (h1 n hn).2)]
    rw [if_neg (by simp), if_neg (by simp), if_pos (hpos _ ⟨n, hn, hm⟩),
      MatchAllList_eq_filter]
    rfl
  · intro h1
    have e : ExtractMainContent.content caseTable doc = selectBestContent caseTable
        ((elements (RemoveAll boilerplate doc)).filter (Selector.Match [.tag (bytes "body")])) := by
      unfold ExtractMainContent.content
      simp only
      rw [hzero _ (fun n hn => hnot _ n (h1 n hn).1),
        hzero _ (fun n hn => hnot _ n (h1 n hn).2.1), hzero _ (fun n hn => (h1 n hn).2.2)]
      rw [if_neg (by simp), if_neg (by simp), if_neg (by simp), MatchAllList_eq_filter]
      rfl
    refine ⟨e, ?_⟩
    intro b hb
    rw [e, hb, selectBestContent_singleton]

/-- C20 as stated fails: in a document whose `body` has two `div` children, with
150 and 5 letters of text, and no `article`, `main` or marked element, the
content is the `body` element, not a child of it. -/
theorem mainContent_is_body :
    ExtractMainContent.content id sample.page = some sample.pageBody
    ∧ tagOf sample.pageBody = some (bytes "body")
    ∧ sample.pageBody.children = [sample.textDiv 150, sample.textDiv 5]
    ∧ calculateContentScore id (sample.textDiv 150) = 150
    ∧ ∀ c ∈ sample.pageBody.children, ExtractMainContent.content id sample.page ≠ some c := by
  refine ⟨mainContent_page, rfl, rfl, score_candidates_2, ?_⟩
  intro c hc h
  rw [mainContent_page, Option.some.injEq] at h
  subst h
  have : ∀ d ∈ sample.pageBody.children, tagOf d = some (bytes "div") := by
    intro d hd
    simp only [sample.pageBody, Node.children, List.mem_cons, List.mem_singleton,
      List.not_mem_nil, or_false] at hd
    rcases hd with rfl | rfl <;> rfl
  have h2 := this _ hc
  revert h2
  decide

end crawler

/-! ## The crawl: what `Crawl` returns -/

namespace crawler

open queue models

theorem run_append (caseTable : Nat → Nat) (cm : CrawlManager) (config : CrawlConfig) :
    ∀ (es fs : List Event) (s s1 s2 : State), run caseTable cm config es s = some s1 →
      run caseTable cm config fs s1 = some s2 → run caseTable cm config (es ++ fs) s = some s2 := by
  intro es
  induction es with
  | nil =>
    intro fs s s1 s2 h1 h2
    simp only [run, Option.some.injEq] at h1
    subst h1
    exact h2
  | cons e es ih =>
    intro fs s s1 s2 h1 h2
    simp only [run, List.cons_append] at h1 ⊢
    cases hstep : step caseTable cm config e s with
    | none => rw [hstep] at h1; exact absurd h1 (by simp)
    | some t =>
      rw [hstep] at h1
      simp only at h1 ⊢
      exact ih fs t s1 s2 h1 h2

/-- Once the context is cancelled, a worker that has not returned takes a step
towards its return, whatever the program point. -/
theorem workerStep_failing (caseTable : Nat → Nat) (config : CrawlConfig) (s : State) (i : Nat)
    (pc : WorkerPC) (hc : s.cancelled = true) (hpc : s.workers[i]? = some pc)
    (hd : pc ≠ .done) :
    ∃ s1 pc1, workerStep caseTable config Oracle.failing i s = some s1
      ∧ s1.workers = s.workers.set i pc1 ∧ s1.cancelled = true
      ∧ s.results <+: s1.results ∧ pc1.stepsLeft < pc.stepsLeft := by
  cases pc <;> simp only [workerStep, hpc, Oracle.failing, State.goto] <;>
    (repeat' split) <;>
    first
    | exact absurd rfl hd
    | (refine ⟨_, _, rfl, rfl, hc, ?_, ?_⟩
       · first
         | exact List.prefix_rfl
         | exact List.prefix_append _ _
       · simp only [WorkerPC.stepsLeft, List.length_cons]
         omega)
    | (exfalso
       simp_all)

/-- Once the context is cancelled, every worker can run to its return: the other
workers stay where they are and no result is lost. -/
theorem worker_returns (caseTable : Nat → Nat) (cm : CrawlManager) (config : CrawlConfig) :
    ∀ (n : Nat) (s : State) (i : Nat) (pc : WorkerPC), s.cancelled = true →
      s.workers[i]? = some pc → pc.stepsLeft ≤ n →
      ∃ es s1, run caseTable cm config es s = some s1 ∧ s1.cancelled = true
        ∧ s1.workers = s.workers.set i .done ∧ s.results <+: s1.results := by
  intro n
  induction n with
  | zero =>
    intro s i pc hc hpc hn
    have hd : pc = .done := by
      cases pc <;> first | rfl | (simp [WorkerPC.stepsLeft] at hn)
    subst hd
    refine ⟨[], s, rfl, hc, ?_, List.prefix_rfl⟩
    apply List.ext_getElem?
    intro j
    by_cases hj : i = j
    · subst hj
      rw [List.getElem?_set]
      obtain ⟨hlt, -⟩ := List.getElem?_eq_some_iff.1 hpc
      simp [hlt, hpc]
    · rw [List.getElem?_set_ne hj]
  | succ n ih =>
    intro s i pc hc hpc hn
    by_cases hd : pc = .done
    · exact ih s i pc hc hpc (by rw [hd]; simp [WorkerPC.stepsLeft])
    · obtain ⟨s1, pc1, hstep, hw, hc1, hr, hlt⟩ :=
        workerStep_failing caseTable config s i pc hc hpc hd
      have hpc1 : s1.workers[i]? = some pc1 := by
        rw [hw, List.getElem?_set]
        obtain ⟨hlt, -⟩ := List.getElem?_eq_some_iff.1 hpc
        simp [hlt]
      obtain ⟨es, s2, hrun, hc2, hw2, hr2⟩ := ih s1 i pc1 hc1 hpc1 (by omega)
      refine ⟨.work i Oracle.failing :: es, s2, ?_, hc2, ?_, hr.trans hr2⟩
      · simp only [run, step, hstep]
        exact hrun
      · rw [hw2, hw, List.set_set]

/-- Once the context is cancelled, the workers can all run to their return. -/
theorem workers_return (caseTable : Nat → Nat) (cm : CrawlManager) (config : CrawlConfig) :
    ∀ (k : Nat) (s : State), s.cancelled = true →
      ∃ es s1, run caseTable cm config es s = some s1 ∧ s1.cancelled = true
        ∧ s1.workers.length = s.workers.length
        ∧ (∀ j, j < k → j < s.workers.length → s1.workers[j]? = some .done)
        ∧ (∀ j, k ≤ j → s1.workers[j]? = s.workers[j]?)
        ∧ s.results <+: s1.results := by
  intro k
  induction k with
  | zero =>
    intro s hc
    exact ⟨[], s, rfl, hc, rfl, fun j hj => absurd hj (Nat.not_lt_zero _), fun _ _ => rfl,
      List.prefix_rfl⟩
  | succ k ih =>
    intro s hc
    obtain ⟨es, s1, hrun, hc1, hlen, hdone, hrest, hr⟩ := ih s hc
    by_cases hk : k < s.workers.length
    · obtain ⟨pc, hpc⟩ : ∃ pc, s1.workers[k]? = some pc :=
        ⟨s1.workers[k], List.getElem?_eq_getElem (by omega)⟩
      obtain ⟨fs, s2, hrun2, hc2, hw2, hr2⟩ :=
        worker_returns caseTable cm config pc.stepsLeft s1 k pc hc1 hpc (le_refl _)
      refine ⟨es ++ fs, s2, run_append caseTable cm config es fs s s1 s2 hrun hrun2, hc2, ?_, ?_,
        ?_, hr.trans hr2⟩
      · rw [hw2, List.length_set, hlen]
      · intro j hj hjl
        rw [hw2, List.getElem?_set]
        by_cases hjk : k = j
        · subst hjk; simp [hlen, hjl]
        · rw [if_neg hjk]
          exact hdone j (by omega) hjl
      · intro j hj
        rw [hw2, List.getElem?_set_ne (by omega)]
        exact hrest j (by omega)
    · refine ⟨es, s1, hrun, hc1, hlen, ?_, fun j hj => hrest j (by omega), hr⟩
      intro j hj hjl
      exact hdone j (by omega) hjl

/-- From every state, `Crawl` can go on to return, with the results collected so
far among those it returns. -/
theorem can_return (caseTable : Nat → Nat) (cm : CrawlManager) (config : CrawlConfig)
    (s : State) :
    ∃ es s1, run caseTable cm config es s = some s1 ∧ s1.returned = true
      ∧ s.results <+: s1.results := by
  obtain ⟨es, s1, hrun, -, hlen, hdone, -, hr⟩ :=
    workers_return caseTable cm config s.workers.length { s with cancelled := true } rfl
  refine ⟨.cancel :: es, s1, ?_, ?_, hr⟩
  · simp only [run, step]
    exact hrun
  · unfold State.returned
    rw [List.all_eq_true]
    intro w hw
    obtain ⟨j, hj, rfl⟩ := List.getElem_of_mem hw
    have := hdone j (by simpa [hlen] using hj) (by simpa [hlen] using hj)
    rw [List.getElem?_eq_getElem hj, Option.some.injEq] at this
    rw [this]
    rfl

end crawler

namespace crawler

open queue models

theorem NormalizeURL_of_start_ok (caseTable : Nat → Nat) (cm : CrawlManager) {startURL : GoString}
    {s0 : State} (h : Crawl.start caseTable cm startURL = .ok s0) :
    ∃ c, utils.NormalizeURL caseTable startURL = .ok c := by
  unfold Crawl.start at h
  cases hn : utils.NormalizeURL caseTable startURL with
  | error e => rw [hn] at h; exact absurd h (by simp)
  | ok c => exact ⟨c, rfl⟩

theorem start_of_NormalizeURL_error (caseTable : Nat → Nat) (cm : CrawlManager)
    {startURL : GoString} {e : utils.Error} (h : utils.NormalizeURL caseTable startURL = .error e) :
    Crawl.start caseTable cm startURL = .error e := by
  unfold Crawl.start
  rw [h]

/-- C12. What `Crawl` returns has a non-nil error exactly when
`NormalizeURL(startURL)` fails, and then it has no results; when `NormalizeURL`
fails `Crawl` returns at once, no state of the crawl being reached; and from
every state a crawl reaches, whatever was cancelled or failed before, `Crawl` can
go on to return, and then returns a nil error with results that include those
collected so far. -/
theorem Crawl_error_iff (caseTable : Nat → Nat) (cm : CrawlManager) (config : CrawlConfig)
    (startURL : GoString) :
    (∀ results err, Crawl.Returns caseTable cm config startURL results err →
      (err ≠ none ↔ ∃ e, utils.NormalizeURL caseTable startURL = .error e)
      ∧ (err ≠ none → results = [])
      ∧ (err = none → ∃ s, Reachable caseTable cm config startURL s ∧ s.returned = true
          ∧ results = s.results))
    ∧ (∀ e, utils.NormalizeURL caseTable startURL = .error e →
        Crawl.Returns caseTable cm config startURL [] (some e)
        ∧ ∀ s, ¬ Reachable caseTable cm config startURL s)
    ∧ (∀ s, Reachable caseTable cm config startURL s →
        ∃ es s1, run caseTable cm config es s = some s1 ∧ s1.returned = true
          ∧ s.results <+: s1.results
          ∧ Crawl.Returns caseTable cm config startURL s1.results none) := by
  refine ⟨?_, ?_, ?_⟩
  · intro results err h
    unfold Crawl.Returns at h
    cases hs : Crawl.start caseTable cm startURL with
    | error e =>
      rw [hs] at h
      obtain ⟨h1, h2⟩ := h
      have hn : utils.NormalizeURL caseTable startURL = .error e := by
        unfold Crawl.start at hs
        cases hn : utils.NormalizeURL caseTable startURL with
        | error e1 => rw [hn] at hs; simp only [Except.error.injEq] at hs; rw [hs]
        | ok c => rw [hn] at hs; exact absurd hs (by simp)
      refine ⟨⟨fun _ => ⟨e, hn⟩, fun _ => by rw [h2]; simp⟩, fun _ => h1, ?_⟩
      intro h0
      rw [h2] at h0
      exact absurd h0 (by simp)
    | ok s0 =>
      rw [hs] at h
      obtain ⟨es, s, hrun, hret, hres, herr⟩ := h
      obtain ⟨c, hc⟩ := NormalizeURL_of_start_ok caseTable cm hs
      refine ⟨⟨fun h0 => absurd herr h0, ?_⟩, fun h0 => absurd herr h0, ?_⟩
      · rintro ⟨e, he⟩
        rw [hc] at he
        exact absurd he (by simp)
      · intro _
        exact ⟨s, ⟨s0, es, hs, hrun⟩, hret, hres⟩
  · intro e he
    have hs := start_of_NormalizeURL_error caseTable cm he
    constructor
    · unfold Crawl.Returns
      rw [hs]
      exact ⟨rfl, rfl⟩
    · rintro s ⟨s0, es, h0, -⟩
      rw [hs] at h0
      exact absurd h0 (by simp)
  · rintro s ⟨s0, es, h0, hrun⟩
    obtain ⟨fs, s1, hrun1, hret, hr⟩ := can_return caseTable cm config s
    refine ⟨fs, s1, hrun1, hret, hr, ?_⟩
    unfold Crawl.Returns
    rw [h0]
    exact ⟨es ++ fs, s1, run_append caseTable cm config es fs s0 s s1 hrun hrun1, hret, rfl, rfl⟩

/-- Two executions of C12: the one page is saved and the context then cancelled,
and the rendering of the one page fails; both return a nil error, with one
result and with none. -/
theorem Crawl_error_iff_witness :
    Crawl.Returns id sample.cm sample.config sample.startURL sample.cancelledFinal.results none
    ∧ sample.cancelledFinal.results.length = 1
    ∧ Crawl.Returns id sample.cm sample.config sample.startURL sample.failedFinal.results none
    ∧ sample.failedFinal.results = []
    ∧ Crawl.Returns id sample.cm sample.config (bytes "ftp://example.com") []
        (some .badScheme) :=
  ⟨⟨sample.cancelledEvents, sample.cancelledFinal, rfl, rfl, rfl, rfl⟩, by decide,
    ⟨sample.failedEvents, sample.failedFinal, rfl, rfl, rfl, rfl⟩, by decide,
    ((Crawl_error_iff id sample.cm sample.config (bytes "ftp://example.com")).2.1
      .badScheme rfl).1⟩

end crawler

/-! ## The rate limiter -/

namespace crawler

open models

/-- A rate in `[0, 2^63)` converts to its integer part. -/
theorem intOfFloat64_floor (outOfRange : Rat → Int) (x : Rat) (h0 : 0 ≤ x) (h1 : x < 2 ^ 63) :
    intOfFloat64 outOfRange x = ⌊x⌋ := by
  have hf0 : (0 : Int) ≤ ⌊x⌋ := Int.floor_nonneg.mpr h0
  have hf1 : ⌊x⌋ < (2 : Int) ^ 63 := by
    have : ((⌊x⌋ : Int) : Rat) < ((2 ^ 63 : Int) : Rat) := by
      push_cast
      exact lt_of_le_of_lt (Int.floor_le x) h1
    exact_mod_cast this
  simp only [intOfFloat64, if_pos h0]
  rw [if_pos ⟨by omega, hf1⟩]

/-- Without a positive rate `Crawl` builds no limiter. -/
theorem rateLimiter_none (outOfRange : Rat → Int) (config : CrawlConfig)
    (h : config.RateLimit ≤ 0) : Crawl.rateLimiter outOfRange config = none := by
  simp [Crawl.rateLimiter, not_lt.mpr h]

/-- With a positive rate the bucket refills at this rate and holds its integer
part. -/
theorem rateLimiter_some (outOfRange : Rat → Int) (config : CrawlConfig)
    (h0 : 0 < config.RateLimit) (h1 : config.RateLimit < 2 ^ 63) :
    Crawl.rateLimiter outOfRange config
      = some { limit := config.RateLimit, burst := ⌊config.RateLimit⌋ } := by
  simp [Crawl.rateLimiter, h0, rate.NewLimiter, intOfFloat64_floor outOfRange _ h0.le h1]

/-- The capacity is the rate exactly when the rate is a whole number. -/
theorem rateLimiter_burst_eq_iff (outOfRange : Rat → Int) (config : CrawlConfig)
    (h0 : 0 < config.RateLimit) (h1 : config.RateLimit < 2 ^ 63) :
    (∃ lim, Crawl.rateLimiter outOfRange config = some lim ∧ (lim.burst : Rat) = config.RateLimit)
      ↔ ∃ n : Int, config.RateLimit = n := by
  rw [rateLimiter_some outOfRange config h0 h1]
  constructor
  · rintro ⟨lim, hl, hb⟩
    simp only [Option.some.injEq] at hl
    subst hl
    exact ⟨_, hb.symm⟩
  · rintro ⟨n, hn⟩
    refine ⟨_, rfl, ?_⟩
    simp [hn]

/-- A rate below one request per second gives a bucket that holds no token, and
`Wait` fails on it at once. -/
theorem rateLimiter_below_one (outOfRange : Rat → Int) (config : CrawlConfig)
    (h0 : 0 < config.RateLimit) (h1 : config.RateLimit < 1) :
    ∃ lim, Crawl.rateLimiter outOfRange config = some lim ∧ lim.burst = 0
      ∧ lim.exceedsBurst 1 = true := by
  have h2 : config.RateLimit < 2 ^ 63 := lt_trans h1 (by norm_num)
  have hf : ⌊config.RateLimit⌋ = 0 := by
    rw [Int.floor_eq_iff]; exact ⟨by simpa using h0.le, by simpa using h1⟩
  refine ⟨_, rateLimiter_some outOfRange config h0 h2, hf, ?_⟩
  have hI : config.RateLimit ≠ rate.Inf := by
    have : (1 : Rat) < rate.Inf := by unfold rate.Inf; norm_num
    exact (lt_trans h1 this).ne
  simp [rate.Limiter.exceedsBurst, hf, hI]

/-- A rate of at least one request per second gives a bucket with a token. -/
theorem rateLimiter_one_le (outOfRange : Rat → Int) (config : CrawlConfig)
    (h0 : 1 ≤ config.RateLimit) (h1 : config.RateLimit < 2 ^ 63) :
    ∃ lim, Crawl.rateLimiter outOfRange config = some lim ∧ 1 ≤ lim.burst
      ∧ lim.exceedsBurst 1 = false := by
  refine ⟨_, rateLimiter_some outOfRange config (lt_of_lt_of_le one_pos h0) h1, ?_, ?_⟩
  · exact Int.le_floor.mpr (by simpa using h0)
  · have : (1 : Int) ≤ ⌊config.RateLimit⌋ := Int.le_floor.mpr (by simpa using h0)
    simp [rate.Limiter.exceedsBurst, this]

/-- C30. With `RateLimit` 0.5 (one request every two seconds) `Crawl` builds a
limiter of rate 1/2 whose capacity `int(0.5)` is 0, not 1/2 and not at least one
token: the test `n > burst` of `Wait` holds for the single token a worker asks
for, so `Wait` fails at once and the worker of lines 112 to 118 drops each URL
it receives without rendering it. -/
theorem Crawl_rateLimiter_capacity_truncated :
    (∀ outOfRange, Crawl.rateLimiter outOfRange sample.halfConfig
      = some { limit := 1 / 2, burst := 0 })
    ∧ ({ limit := 1 / 2, burst := 0 } : rate.Limiter).exceedsBurst 1 = true
    ∧ (∀ (caseTable : Nat → Nat) (i : Nat) (s : State) (ud : urlDepth) (o : Oracle),
        s.workers[i]? = some (.limiter ud) → o.waitErr = true →
        workerStep caseTable sample.halfConfig o i s = some (s.goto i .recv)) := by
  have h0 : (0 : Rat) < sample.halfConfig.RateLimit := by
    show (0 : Rat) < 1 / 2; norm_num
  refine ⟨fun outOfRange => ?_, ?_, ?_⟩
  · obtain ⟨lim, hl, hb, -⟩ := rateLimiter_below_one outOfRange sample.halfConfig h0
      (by show (1 / 2 : Rat) < 1; norm_num)
    rw [hl]
    have h2 := rateLimiter_some outOfRange sample.halfConfig h0
      (by show (1 / 2 : Rat) < 2 ^ 63; norm_num)
    rw [hl] at h2
    simp only [Option.some.injEq] at h2
    rw [h2] at hb ⊢
    simp only at hb
    rw [hb]; rfl
  · have hI : (2⁻¹ : Rat) ≠ rate.Inf := by unfold rate.Inf; norm_num
    simp [rate.Limiter.exceedsBurst, hI]
  · intro caseTable i s ud o hw ho
    simp only [workerStep, hw]
    rw [if_pos ⟨h0, ho⟩]

end crawler

/-! ## `ExtractLinks` -/

namespace crawler

open utils

variable (caseTable : Nat → Nat)

theorem firstIndex_append_of_mem {x : GoString} {l : List GoString} (l2 : List GoString)
    (h : x ∈ l) : firstIndex x (l ++ l2) = firstIndex x l := by
  induction l with
  | nil => simp at h
  | cons y ys ih =>
    by_cases hy : y = x
    · simp [firstIndex, hy]
    · have hx : x ∈ ys := by
        rcases List.mem_cons.1 h with h | h
        · exact absurd h.symm hy
        · exact h
      simp [firstIndex, hy, ih hx]

theorem firstIndex_append_of_not_mem {x : GoString} {l : List GoString} (l2 : List GoString)
    (h : x ∉ l) : firstIndex x (l ++ l2) = l.length + firstIndex x l2 := by
  induction l with
  | nil => simp
  | cons y ys ih =>
    have hy : y ≠ x := fun e => h (by simp [e])
    have hx : x ∉ ys := fun e => h (List.mem_cons_of_mem _ e)
    simp [firstIndex, hy, ih hx]
    omega

theorem firstIndex_lt_length {x : GoString} {l : List GoString} (h : x ∈ l) :
    firstIndex x l < l.length := by
  induction l with
  | nil => simp at h
  | cons y ys ih =>
    by_cases hy : y = x
    · simp [firstIndex, hy]
    · have hx : x ∈ ys := by
        rcases List.mem_cons.1 h with h | h
        · exact absurd h.symm hy
        · exact h
      simp [firstIndex, hy, ih hx]

/-- The callback of `Each` in terms of the link it accepts. -/
theorem extractLink_eq (baseURL : GoString) (allowedDomains : List GoString)
    (acc : List GoString × GoMap GoString Bool) (a : GoString) :
    extractLink caseTable baseURL allowedDomains acc a
      = match acceptedLink caseTable baseURL allowedDomains a with
        | none => acc
        | some n =>
          if acc.2.get n false = true then acc else (acc.1 ++ [n], acc.2.set n true) := by
  unfold extractLink acceptedLink
  cases hn : NormalizeURL caseTable a with
  | error e => rfl
  | ok n =>
    simp only
    by_cases h1 : IsValidURL n = true
    · by_cases h2 : domainAllowed baseURL n allowedDomains = true
      · by_cases h3 : GoMap.get acc.2 n false = true
        · simp [h1, h2, h3]
        · simp [h1, h2, h3]
      · simp [h1, h2]
    · simp [h1]

/-- What `ExtractLinks` has after the hrefs `rs`: the map `seen` holds the links
returned so far, these are distinct, they are the accepted links, and they stand
in the order of their first occurrence. -/
theorem extractLinks_fold (baseURL : GoString) (allowedDomains : List GoString) :
    ∀ rs : List GoString,
      let r := rs.foldl (extractLink caseTable baseURL allowedDomains) ([], [])
      let acc := rs.filterMap (acceptedLink caseTable baseURL allowedDomains)
      (∀ x, r.2.get x false = true ↔ x ∈ r.1) ∧ r.1.Nodup ∧ (∀ x, x ∈ r.1 ↔ x ∈ acc)
        ∧ (r.1.map (fun x => firstIndex x acc)).Pairwise (· < ·) := by
  intro rs
  induction rs using List.reverseRecOn with
  | nil =>
    refine ⟨fun x => ?_, List.nodup_nil, fun x => Iff.rfl, List.Pairwise.nil⟩
    simp [GoMap.get, List.lookup]
  | append_singleton rs a ih =>
    obtain ⟨hs, hnd, hm, ho⟩ := ih
    simp only [List.foldl_append, List.foldl_cons, List.foldl_nil, List.filterMap_append,
      List.filterMap_cons, List.filterMap_nil]
    rw [extractLink_eq]
    cases hg : acceptedLink caseTable baseURL allowedDomains a with
    | none =>
      simp only [List.append_nil]
      exact ⟨hs, hnd, hm, ho⟩
    | some n =>
      simp only
      by_cases hseen : GoMap.get (rs.foldl (extractLink caseTable baseURL allowedDomains) ([], [])).2
          n false = true
      · rw [if_pos hseen]
        have hn : n ∈ rs.filterMap (acceptedLink caseTable baseURL allowedDomains) :=
          (hm n).1 ((hs n).1 hseen)
        refine ⟨hs, hnd, fun x => ?_, ?_⟩
        · rw [hm x]
          constructor
          · intro h; exact List.mem_append_left _ h
          · intro h
            rcases List.mem_append.1 h with h | h
            · exact h
            · simp only [List.mem_singleton] at h; subst h; exact hn
        · have e : (rs.foldl (extractLink caseTable baseURL allowedDomains) ([], [])).1.map
              (fun x => firstIndex x
                (rs.filterMap (acceptedLink caseTable baseURL allowedDomains) ++ [n]))
            = (rs.foldl (extractLink caseTable baseURL allowedDomains) ([], [])).1.map
              (fun x => firstIndex x
                (rs.filterMap (acceptedLink caseTable baseURL allowedDomains))) := by
            apply List.map_congr_left
            intro x hx
            exact firstIndex_append_of_mem _ ((hm x).1 hx)
          rw [e]; exact ho
      · rw [if_neg hseen]
        have hn1 : n ∉ (rs.foldl (extractLink caseTable baseURL allowedDomains) ([], [])).1 :=
          fun h => hseen ((hs n).2 h)
        have hn2 : n ∉ rs.filterMap (acceptedLink caseTable baseURL allowedDomains) :=
          fun h => hn1 ((hm n).2 h)
        refine ⟨fun x => ?_, ?_, fun x => ?_, ?_⟩
        · by_cases hx : x = n
          · subst hx
            simp [GoMap.get_set_self]
          · rw [GoMap.get_set_of_ne _ _ _ hx, hs x]
            simp [hx]
        · exact List.Nodup.append hnd (List.nodup_singleton n)
            (by
              intro y hy hy2
              simp only [List.mem_singleton] at hy2
              subst hy2; exact hn1 hy)
        · simp only [List.mem_append, List.mem_singleton, hm x]
        · rw [List.map_append, List.pairwise_append]
          refine ⟨?_, by simp, ?_⟩
          · have e : (rs.foldl (extractLink caseTable baseURL allowedDomains) ([], [])).1.map
                (fun x => firstIndex x
                  (rs.filterMap (acceptedLink caseTable baseURL allowedDomains) ++ [n]))
              = (rs.foldl (extractLink caseTable baseURL allowedDomains) ([], [])).1.map
                (fun x => firstIndex x
                  (rs.filterMap (acceptedLink caseTable baseURL allowedDomains))) := by
              apply List.map_congr_left
              intro x hx
              exact firstIndex_append_of_mem _ ((hm x).1 hx)
            rw [e]; exact ho
          · intro i hi j hj
            simp only [List.map_cons, List.map_nil, List.mem_singleton] at hj
            obtain ⟨x, hx, rfl⟩ := List.mem_map.1 hi
            subst hj
            rw [firstIndex_append_of_mem _ ((hm x).1 hx), firstIndex_append_of_not_mem _ hn2]
            have := firstIndex_lt_length ((hm x).1 hx)
            omega

/-- The test of lines 51 to 78 on a normalised link, in terms of parsed URLs. -/
theorem accepted_iff (baseURL : GoString) (allowedDomains : List GoString) (x : GoString) :
    (IsValidURL x = true ∧ domainAllowed baseURL x allowedDomains = true)
      ↔ ∃ u, url.Parse x = .ok u ∧ (u.Scheme = bytes "http" ∨ u.Scheme = bytes "https")
          ∧ (allowedDomains ≠ [] →
              ∃ d ∈ allowedDomains, ∃ ud, url.Parse (domainURL d) = .ok ud ∧ u.Host = ud.Host)
          ∧ (allowedDomains = [] → ∃ ub, url.Parse baseURL = .ok ub ∧ u.Host = ub.Host) := by
  unfold IsValidURL domainAllowed IsSameDomain
  cases hx : url.Parse x with
  | error e => simp
  | ok u =>
    simp only [Bool.or_eq_true, beq_iff_eq, Except.ok.injEq, exists_eq_left']
    apply and_congr_right
    intro _
    cases allowedDomains with
    | nil =>
      simp only [List.length_nil, gt_iff_lt, lt_self_iff_false, if_false, ne_eq,
        not_true_eq_false, false_implies, true_and, forall_true_left]
      cases hb : url.Parse baseURL with
      | error e => simp
      | ok ub => simp
    | cons d ds =>
      simp only [List.length_cons, gt_iff_lt, Nat.zero_lt_succ, if_true, ne_eq, reduceCtorEq,
        not_false_eq_true, forall_true_left, false_implies, and_true, List.any_eq_true]
      constructor
      · rintro ⟨e, he, h⟩
        refine ⟨e, he, ?_⟩
        unfold domainURL
        revert h
        split
        · rename_i u1 u2 h1 h2
          intro h
          simp only [Except.ok.injEq] at h1
          subst h1
          exact ⟨u2, h2, by simpa using h⟩
        · intro h; exact absurd h (by simp)
      · rintro ⟨e, he, ud, hud, hh⟩
        refine ⟨e, he, ?_⟩
        unfold domainURL at hud
        simp only [hud]
        simpa using hh

end crawler

namespace crawler

open utils

variable (caseTable : Nat → Nat)

/-- Two URLs that parse, with scheme `http` or `https`, and differ only in the
letter case of the host, in one trailing slash after a path that is not empty and
does not end in a slash, or in the fragment, have the same canonical form. -/
theorem NormalizeURL_eq_of_variant (raw1 raw2 : GoString)
    (u1 u2 : url.URL) (h1 : url.Parse raw1 = .ok u1) (h2 : url.Parse raw2 = .ok u2)
    (hs : u1.Scheme = bytes "http" ∨ u1.Scheme = bytes "https")
    (hd : (∃ host, strings.SameUpToASCIICase u1.Host host ∧ u2 = { u1 with Host := host })
        ∨ (u1.Path ≠ [] ∧ strings.HasSuffix u1.Path (bytes "/") = false ∧ u1.RawPath = []
            ∧ u2 = { u1 with Path := u1.Path ++ bytes "/" })
        ∨ (∃ f rf, u2 = { u1 with Fragment := f, RawFragment := rf })) :
    NormalizeURL caseTable raw1 = NormalizeURL caseTable raw2 := by
  rw [NormalizeURL_of_parse caseTable h1 hs]
  rcases hd with ⟨host, hh, rfl⟩ | ⟨hne, hsl, hraw, rfl⟩ | ⟨f, rf, rfl⟩
  · rw [NormalizeURL_of_parse caseTable h2 hs]
    simp only [strings.ToLower_congr caseTable hh]
  · rw [NormalizeURL_of_parse caseTable h2 hs]
    have e1 : u1.Path ≠ bytes "/" := by
      intro h; rw [h] at hsl; revert hsl; decide
    have e2 : u1.Path ++ bytes "/" ≠ bytes "/" := by
      rw [bytes_slash]
      intro h
      cases hp : u1.Path with
      | nil => exact hne hp
      | cons a l => rw [hp] at h; simp at h
    simp only [e1, e2, ne_eq, not_false_eq_true, if_true,
      strings.TrimSuffix_append_self, strings.TrimSuffix_of_not_HasSuffix hsl]
  · rw [NormalizeURL_of_parse caseTable h2 hs]
    simp only [url.URL.String, url.URL.EscapedPath, ne_eq, not_true_eq_false, if_false]

theorem acceptedLink_congr (baseURL : GoString) (allowedDomains : List GoString)
    {a b : GoString} (h : NormalizeURL caseTable a = NormalizeURL caseTable b) :
    acceptedLink caseTable baseURL allowedDomains a
      = acceptedLink caseTable baseURL allowedDomains b := by
  unfold acceptedLink; rw [h]

theorem filter_eq_length_le_one {l : List GoString} (h : l.Nodup) (c : GoString) :
    (l.filter (fun y => decide (y = c))).length ≤ 1 := by
  induction l with
  | nil => simp
  | cons y ys ih =>
    rw [List.nodup_cons] at h
    by_cases hy : y = c
    · subst hy
      have : ys.filter (fun z => decide (z = y)) = [] := by
        rw [List.filter_eq_nil_iff]
        intro z hz
        simp only [decide_eq_true_eq]
        intro e; subst e; exact h.1 hz
      simp [List.filter, this]
    · simpa [List.filter, hy] using ih h.2

/-- The links `ExtractLinks` returns for a page with two hrefs, from the links
accepted for them. -/
theorem ExtractLinks_pair (baseURL a b : GoString) (allowedDomains : List GoString) :
    ExtractLinks caseTable baseURL [a, b] allowedDomains
      = match acceptedLink caseTable baseURL allowedDomains a,
          acceptedLink caseTable baseURL allowedDomains b with
        | none, none => []
        | some x, none => [x]
        | none, some y => [y]
        | some x, some y => if y = x then [x] else [x, y] := by
  simp only [ExtractLinks, List.foldl, extractLink_eq]
  cases acceptedLink caseTable baseURL allowedDomains a with
  | none =>
    cases acceptedLink caseTable baseURL allowedDomains b with
    | none => rfl
    | some y => simp [GoMap.get, List.lookup]
  | some x =>
    cases acceptedLink caseTable baseURL allowedDomains b with
    | none => simp [GoMap.get, List.lookup]
    | some y =>
      have h0 : GoMap.get ([] : GoMap GoString Bool) x false = false := rfl
      simp only [h0, Bool.false_eq_true, if_false, List.nil_append]
      by_cases hy : y = x
      · subst hy; simp [GoMap.get_set_self]
      · rw [GoMap.get_set_of_ne _ _ _ hy]
        simp [hy, GoMap.get, List.lookup]

theorem acceptedLink_of_ok (baseURL : GoString) (allowedDomains : List GoString)
    {a n : GoString} (h : NormalizeURL caseTable a = .ok n)
    (hv : (IsValidURL n && domainAllowed baseURL n allowedDomains) = true) :
    acceptedLink caseTable baseURL allowedDomains a = some n := by
  unfold acceptedLink; rw [h]; simp only [hv, if_true]

theorem acceptedLink_of_error (baseURL : GoString) (allowedDomains : List GoString)
    {a : GoString} {e : Error} (h : NormalizeURL caseTable a = .error e) :
    acceptedLink caseTable baseURL allowedDomains a = none := by
  unfold acceptedLink; rw [h]

theorem acceptedLink_of_not (baseURL : GoString) (allowedDomains : List GoString)
    {a n : GoString} (h : NormalizeURL caseTable a = .ok n)
    (hv : (IsValidURL n && domainAllowed baseURL n allowedDomains) = false) :
    acceptedLink caseTable baseURL allowedDomains a = none := by
  unfold acceptedLink; rw [h]; simp only [hv, Bool.false_eq_true, if_false]

/-- `ExtractLinks` on a page with one more href in front. -/
theorem ExtractLinks_cons_none (baseURL a : GoString) (rs allowedDomains : List GoString)
    (h : acceptedLink caseTable baseURL allowedDomains a = none) :
    ExtractLinks caseTable baseURL (a :: rs) allowedDomains
      = ExtractLinks caseTable baseURL rs allowedDomains := by
  simp only [ExtractLinks, List.foldl, extractLink_eq, h]

/-- C25 fails as stated: a page at `https://example.com` whose anchors resolve to
`https://example.com` and `https://example.com/`, two URLs that differ only in
the trailing slash, gets both strings back: the root path keeps its slash in
`NormalizeURL`. -/
theorem ExtractLinks_root_slash_twice :
    url.Parse (bytes "https://example.com")
      = .ok { Scheme := bytes "https", Host := bytes "example.com" }
    ∧ url.Parse (bytes "https://example.com/")
      = .ok { Scheme := bytes "https", Host := bytes "example.com", Path := bytes "/" }
    ∧ ∀ caseTable, ExtractLinks caseTable (bytes "https://example.com")
        [bytes "https://example.com", bytes "https://example.com/"] []
      = [bytes "https://example.com", bytes "https://example.com/"] := by
  refine ⟨rfl, rfl, fun caseTable => ?_⟩
  rw [ExtractLinks_pair,
    acceptedLink_of_ok caseTable _ _
      (show NormalizeURL caseTable (bytes "https://example.com")
        = .ok (bytes "https://example.com") from rfl) (by decide),
    acceptedLink_of_ok caseTable _ _
      (show NormalizeURL caseTable (bytes "https://example.com/")
        = .ok (bytes "https://example.com/") from rfl) (by decide)]
  decide

/-- C25 (amended). The list `ExtractLinks` returns has no duplicate string, holds
exactly the links accepted for the resolved hrefs of the page, and lists them in
the order of their first occurrence in the document.  Two resolved hrefs with the
same canonical form are accepted or dropped together and give at most one entry;
such are two URLs with scheme `http` or `https` that differ only in the fragment,
in the letter case of the host, or in one trailing slash after a path that is not
empty and does not end in a slash. -/
theorem ExtractLinks_first_seen (baseURL : GoString) (resolved allowedDomains : List GoString) :
    (ExtractLinks caseTable baseURL resolved allowedDomains).Nodup
    ∧ (∀ x, x ∈ ExtractLinks caseTable baseURL resolved allowedDomains
        ↔ x ∈ resolved.filterMap (acceptedLink caseTable baseURL allowedDomains))
    ∧ ((ExtractLinks caseTable baseURL resolved allowedDomains).map
        (fun x => firstIndex x
          (resolved.filterMap (acceptedLink caseTable baseURL allowedDomains)))).Pairwise (· < ·)
    ∧ (∀ a b, NormalizeURL caseTable a = NormalizeURL caseTable b →
        acceptedLink caseTable baseURL allowedDomains a
          = acceptedLink caseTable baseURL allowedDomains b
        ∧ ∀ c, NormalizeURL caseTable a = .ok c →
            ((ExtractLinks caseTable baseURL resolved allowedDomains).filter
              (fun y => decide (y = c))).length ≤ 1)
    ∧ (∀ (raw1 raw2 : GoString) (u1 u2 : url.URL),
        url.Parse raw1 = .ok u1 → url.Parse raw2 = .ok u2 →
        (u1.Scheme = bytes "http" ∨ u1.Scheme = bytes "https") →
        ((∃ host, strings.SameUpToASCIICase u1.Host host ∧ u2 = { u1 with Host := host })
          ∨ (u1.Path ≠ [] ∧ strings.HasSuffix u1.Path (bytes "/") = false ∧ u1.RawPath = []
              ∧ u2 = { u1 with Path := u1.Path ++ bytes "/" })
          ∨ (∃ f rf, u2 = { u1 with Fragment := f, RawFragment := rf })) →
        NormalizeURL caseTable raw1 = NormalizeURL caseTable raw2) := by
  obtain ⟨-, hnd, hm, ho⟩ := extractLinks_fold caseTable baseURL allowedDomains resolved
  refine ⟨hnd, hm, ho, fun a b h => ⟨acceptedLink_congr caseTable baseURL allowedDomains h,
    fun c _ => filter_eq_length_le_one hnd c⟩, ?_⟩
  intro raw1 raw2 u1 u2 h1 h2 hs hd
  exact NormalizeURL_eq_of_variant caseTable raw1 raw2 u1 u2 h1 h2 hs hd

/-- C26. A string is returned by `ExtractLinks` exactly when it is the
`NormalizeURL` form of one of the resolved hrefs of the page, parses with scheme
`http` or `https`, and has the host of an entry of `allowedDomains` (read as
`https://` followed by the entry when the entry starts with neither `http://` nor
`https://`) or, when `allowedDomains` is empty, the host of the base URL.  The
function returns a list in every case: hrefs with the schemes `mailto`,
`javascript` and `ftp` are dropped and the links after them are still returned. -/
theorem ExtractLinks_mem_iff (baseURL : GoString) (resolved allowedDomains : List GoString)
    (x : GoString) :
    (x ∈ ExtractLinks caseTable baseURL resolved allowedDomains
      ↔ ∃ a ∈ resolved, NormalizeURL caseTable a = .ok x
          ∧ ∃ u, url.Parse x = .ok u ∧ (u.Scheme = bytes "http" ∨ u.Scheme = bytes "https")
            ∧ (allowedDomains ≠ [] →
                ∃ d ∈ allowedDomains, ∃ ud, url.Parse (domainURL d) = .ok ud ∧ u.Host = ud.Host)
            ∧ (allowedDomains = [] → ∃ ub, url.Parse baseURL = .ok ub ∧ u.Host = ub.Host))
    ∧ ExtractLinks caseTable (bytes "https://example.com/index.html")
        [bytes "mailto:me@example.com", bytes "javascript:void(0)",
         bytes "ftp://example.com/file", bytes "https://example.com/a"] []
      = [bytes "https://example.com/a"]
    ∧ ExtractLinks caseTable (bytes "https://example.com/index.html")
        [bytes "https://other.org/x", bytes "http://docs.example.com/y"]
        [bytes "other.org", bytes "http://docs.example.com"]
      = [bytes "https://other.org/x", bytes "http://docs.example.com/y"] := by
  refine ⟨?_, ?_, ?_⟩
  · obtain ⟨-, -, hm, -⟩ := extractLinks_fold caseTable baseURL allowedDomains resolved
    show x ∈ (resolved.foldl (extractLink caseTable baseURL allowedDomains) ([], [])).1 ↔ _
    rw [hm x, List.mem_filterMap]
    apply exists_congr
    intro a
    apply and_congr_right
    intro _
    rw [← accepted_iff]
    unfold acceptedLink
    cases hn : NormalizeURL caseTable a with
    | error e => simp
    | ok n =>
      simp only [Except.ok.injEq]
      constructor
      · intro h
        split at h
        · rename_i hc
          simp only [Option.some.injEq] at h
          subst h
          simp only [Bool.and_eq_true] at hc
          exact ⟨rfl, hc⟩
        · exact absurd h (by simp)
      · rintro ⟨rfl, h1, h2⟩
        simp [h1, h2]
  · rw [ExtractLinks_cons_none caseTable _ _ _ _ (acceptedLink_of_error caseTable _ _
        (show NormalizeURL caseTable (bytes "mailto:me@example.com") = .error .badScheme
          from rfl)),
      ExtractLinks_cons_none caseTable _ _ _ _ (acceptedLink_of_error caseTable _ _
        (show NormalizeURL caseTable (bytes "javascript:void(0)") = .error .badScheme
          from rfl)),
      ExtractLinks_pair,
      acceptedLink_of_error caseTable _ _
        (show NormalizeURL caseTable (bytes "ftp://example.com/file") = .error .badScheme
          from rfl),
      acceptedLink_of_ok caseTable _ _
        (show NormalizeURL caseTable (bytes "https://example.com/a")
          = .ok (bytes "https://example.com/a") from rfl) (by decide)]
  · rw [ExtractLinks_pair,
      acceptedLink_of_ok caseTable _ _
        (show NormalizeURL caseTable (bytes "https://other.org/x")
          = .ok (bytes "https://other.org/x") from rfl) (by decide),
      acceptedLink_of_ok caseTable _ _
        (show NormalizeURL caseTable (bytes "http://docs.example.com/y")
          = .ok (bytes "http://docs.example.com/y") from rfl) (by decide)]
    decide

end crawler

namespace crawler

open html cascadia goquery

/-! ## The cleaning of the content -/

mutual
theorem Node_induct_node {P : Node → Prop} (htext : ∀ d, P (.text d)) (hother : P .other)
    (helem : ∀ t a cs, (∀ c ∈ cs, P c) → P (.elem t a cs)) : ∀ n : Node, P n
  | .text d => htext d
  | .other => hother
  | .elem t a cs => helem t a cs (Node_induct_list htext hother helem cs)
/-- Induction on trees: a property of every node that holds of an element as soon
as it holds of its children. -/
theorem Node_induct_list {P : Node → Prop} (htext : ∀ d, P (.text d)) (hother : P .other)
    (helem : ∀ t a cs, (∀ c ∈ cs, P c) → P (.elem t a cs)) : ∀ ns : List Node, ∀ c ∈ ns, P c
  | [] => fun c hc => absurd hc (List.not_mem_nil c)
  | n :: ns => fun c hc => by
    rcases List.mem_cons.1 hc with h | h
    · rw [h]; exact Node_induct_node htext hother helem n
    · exact Node_induct_list htext hother helem ns c h
end

theorem elements_nil : elements [] = [] := by simp [elements, MatchAllList]

theorem elements_cons (n : Node) (ns : List Node) :
    elements (n :: ns) = MatchAll [.universal] n ++ elements ns := by
  simp [elements, MatchAllList]

theorem MatchAll_universal_elem (t : GoString) (a : List (GoString × GoString))
    (cs : List Node) :
    MatchAll [.universal] (.elem t a cs) = .elem t a cs :: elements cs := by
  rw [MatchAll, cascadia.Match_universal_elem, if_pos rfl]; rfl

theorem MatchAll_universal_text (d : GoString) : MatchAll [.universal] (.text d) = [] := by
  simp [MatchAll]

theorem MatchAll_universal_other : MatchAll [.universal] .other = [] := by
  simp [MatchAll]

theorem elements_append (l1 l2 : List Node) : elements (l1 ++ l2) = elements l1 ++ elements l2 := by
  induction l1 with
  | nil => simp [elements_nil]
  | cons n ns ih => simp [elements_cons, ih]

/-- The elements of a list of trees are the elements of its trees. -/
theorem mem_elements_iff {e : Node} {ns : List Node} :
    e ∈ elements ns ↔ ∃ n ∈ ns, e ∈ MatchAll [.universal] n := by
  induction ns with
  | nil => simp [elements_nil]
  | cons n ns ih => simp [elements_cons, ih]

/-- Every member of `elements` is an element. -/
theorem isElem_of_mem_MatchAll {e : Node} : ∀ n : Node, e ∈ MatchAll [.universal] n →
    ∃ t a cs, e = .elem t a cs := by
  apply Node_induct_node
  · intro d h; simp [MatchAll_universal_text] at h
  · intro h; simp [MatchAll_universal_other] at h
  · intro t a cs ih h
    rw [MatchAll_universal_elem, List.mem_cons] at h
    rcases h with h | h
    · exact ⟨t, a, cs, h⟩
    · obtain ⟨c, hc, hec⟩ := mem_elements_iff.1 h
      exact ih c hc hec

theorem isElem_of_mem_elements {e : Node} {ns : List Node} (h : e ∈ elements ns) :
    ∃ t a cs, e = .elem t a cs := by
  obtain ⟨n, _, hn⟩ := mem_elements_iff.1 h
  exact isElem_of_mem_MatchAll n hn

/-- The elements below an element of a tree are elements of the tree. -/
theorem MatchAll_trans {e x : Node} : ∀ n : Node, e ∈ MatchAll [.universal] n →
    x ∈ elements e.children → x ∈ MatchAll [.universal] n := by
  apply Node_induct_node
  · intro d h; simp [MatchAll_universal_text] at h
  · intro h; simp [MatchAll_universal_other] at h
  · intro t a cs ih h hx
    rw [MatchAll_universal_elem, List.mem_cons] at h ⊢
    rcases h with h | h
    · subst h; exact Or.inr hx
    · obtain ⟨c, hc, hec⟩ := mem_elements_iff.1 h
      exact Or.inr (mem_elements_iff.2 ⟨c, hc, ih c hc hec hx⟩)

theorem elements_children_subset {e x : Node} {ns : List Node} (h : e ∈ elements ns)
    (hx : x ∈ elements e.children) : x ∈ elements ns := by
  obtain ⟨n, hn, hen⟩ := mem_elements_iff.1 h
  exact mem_elements_iff.2 ⟨n, hn, MatchAll_trans n hen hx⟩

/-- What `MatchAll` finds are elements of the tree. -/
theorem MatchAllList_subset_elements (sel : Selector) (ns : List Node) {e : Node}
    (h : e ∈ MatchAllList sel ns) : e ∈ elements ns := by
  rw [cascadia.MatchAllList_eq_filter] at h
  exact (List.mem_filter.1 h).1

/-! ### `RemoveWhere` -/

theorem RemoveWhereIn_elem (p : Node → Bool) (t : GoString) (a : List (GoString × GoString))
    (cs : List Node) : RemoveWhereIn p (.elem t a cs) = .elem t a (RemoveWhere p cs) := by
  rw [RemoveWhereIn]

theorem RemoveWhere_cons (p : Node → Bool) (n : Node) (ns : List Node) :
    RemoveWhere p (n :: ns)
      = if p n then RemoveWhere p ns else RemoveWhereIn p n :: RemoveWhere p ns := by
  rw [RemoveWhere]

theorem RemoveWhere_nil (p : Node → Bool) : RemoveWhere p [] = [] := by
  rw [RemoveWhere]

/-- The nodes `RemoveWhere` keeps on a level are those of which `p` is false. -/
theorem RemoveWhere_eq_map (p : Node → Bool) (ns : List Node) :
    RemoveWhere p ns = (ns.filter (fun n => !p n)).map (RemoveWhereIn p) := by
  induction ns with
  | nil => simp [RemoveWhere_nil]
  | cons n ns ih =>
    rw [RemoveWhere_cons]
    by_cases h : p n = true
    · simp [h, ih]
    · simp [h, ih]

/-- `doc.Find(selector).Remove()` is the loop that removes what the selector
matches. -/
theorem RemoveIn_eq_RemoveWhereIn (sel : Selector) :
    ∀ n : Node, RemoveIn sel n = RemoveWhereIn (Selector.Match sel) n := by
  apply Node_induct_node
  · intro d; rw [RemoveIn, RemoveWhereIn]
  · rw [RemoveIn, RemoveWhereIn]
  · intro t a cs ih
    rw [RemoveIn, RemoveWhereIn]
    congr 1
    induction cs with
    | nil => rw [RemoveAll, RemoveWhere]
    | cons c cs ihc =>
      rw [RemoveAll, RemoveWhere, ih c (List.mem_cons_self _ _),
        ihc (fun x hx => ih x (List.mem_cons_of_mem _ hx))]

theorem RemoveAll_eq_RemoveWhere (sel : Selector) (ns : List Node) :
    RemoveAll sel ns = RemoveWhere (Selector.Match sel) ns := by
  induction ns with
  | nil => rw [RemoveAll, RemoveWhere]
  | cons c cs ihc => rw [RemoveAll, RemoveWhere, RemoveIn_eq_RemoveWhereIn, ihc]

/-- Every element of the tree after the loop is an element of the tree before
that the loop has not removed, with its own subtree run through the loop. -/
theorem elements_RemoveWhereIn (p : Node → Bool) {e : Node} :
    ∀ n : Node, e ∈ elements (RemoveWhereIn p n).children →
      ∃ e0 ∈ elements n.children, p e0 = false ∧ e = RemoveWhereIn p e0 := by
  apply Node_induct_node
  · intro d h; simp [RemoveWhereIn, Node.children, elements_nil] at h
  · intro h; simp [RemoveWhereIn, Node.children, elements_nil] at h
  · intro t a cs ih h
    simp only [RemoveWhereIn_elem, Node.children] at h ⊢
    rw [RemoveWhere_eq_map] at h
    obtain ⟨n, hn, hen⟩ := mem_elements_iff.1 h
    obtain ⟨c, hc, rfl⟩ := List.mem_map.1 hn
    rw [List.mem_filter] at hc
    have hpc : p c = false := by simpa using hc.2
    cases c with
    | text d => simp [RemoveWhereIn, MatchAll_universal_text] at hen
    | other => simp [RemoveWhereIn, MatchAll_universal_other] at hen
    | elem t1 a1 cs1 =>
      rw [RemoveWhereIn_elem, MatchAll_universal_elem, List.mem_cons] at hen
      rcases hen with hen | hen
      · refine ⟨.elem t1 a1 cs1, ?_, hpc, by rw [hen, RemoveWhereIn_elem]⟩
        exact mem_elements_iff.2 ⟨_, hc.1, by rw [MatchAll_universal_elem]; exact List.mem_cons_self _ _⟩
      · have h2 := ih _ hc.1 (by simpa only [RemoveWhereIn_elem, Node.children] using hen)
        obtain ⟨e0, he0, hp0, he⟩ := h2
        refine ⟨e0, ?_, hp0, he⟩
        simp only [Node.children] at he0
        exact mem_elements_iff.2 ⟨_, hc.1, by
          rw [MatchAll_universal_elem]; exact List.mem_cons_of_mem _ he0⟩

theorem elements_RemoveWhere (p : Node → Bool) {e : Node} (ns : List Node)
    (h : e ∈ elements (RemoveWhere p ns)) :
    ∃ e0 ∈ elements ns, p e0 = false ∧ e = RemoveWhereIn p e0 := by
  have := @elements_RemoveWhereIn p e (.elem [] [] ns)
    (by simpa only [RemoveWhereIn_elem, Node.children] using h)
  simpa only [Node.children] using this

/-! ### The attributes -/

theorem stripAttrs_elem (t : GoString) (a : List (GoString × GoString)) (cs : List Node) :
    stripAttrs (.elem t a cs) = .elem t (keptAttrs t a) (stripAttrsList cs) := by
  rw [stripAttrs]

theorem stripAttrsList_eq_map (ns : List Node) : stripAttrsList ns = ns.map stripAttrs := by
  induction ns with
  | nil => rw [stripAttrsList]; rfl
  | cons n ns ih => rw [stripAttrsList, ih]; rfl

/-- Every element of the tree after the third loop is an element of the tree
before, run through the loop. -/
theorem elements_stripAttrs {e : Node} :
    ∀ n : Node, e ∈ MatchAll [.universal] (stripAttrs n) →
      ∃ e0 ∈ MatchAll [.universal] n, e = stripAttrs e0 := by
  apply Node_induct_node
  · intro d h; simp [stripAttrs, MatchAll_universal_text] at h
  · intro h; simp [stripAttrs, MatchAll_universal_other] at h
  · intro t a cs ih h
    rw [stripAttrs_elem, MatchAll_universal_elem, List.mem_cons] at h
    rcases h with h | h
    · refine ⟨.elem t a cs, ?_, by rw [h, stripAttrs_elem]⟩
      rw [MatchAll_universal_elem]; exact List.mem_cons_self _ _
    · rw [stripAttrsList_eq_map] at h
      obtain ⟨n, hn, hen⟩ := mem_elements_iff.1 h
      obtain ⟨c, hc, rfl⟩ := List.mem_map.1 hn
      obtain ⟨e0, he0, he⟩ := ih c hc hen
      refine ⟨e0, ?_, he⟩
      rw [MatchAll_universal_elem]
      exact List.mem_cons_of_mem _ (mem_elements_iff.2 ⟨c, hc, he0⟩)

theorem elements_stripAttrsList {e : Node} (ns : List Node)
    (h : e ∈ elements (stripAttrsList ns)) : ∃ e0 ∈ elements ns, e = stripAttrs e0 := by
  rw [stripAttrsList_eq_map] at h
  obtain ⟨n, hn, hen⟩ := mem_elements_iff.1 h
  obtain ⟨c, hc, rfl⟩ := List.mem_map.1 hn
  obtain ⟨e0, he0, he⟩ := elements_stripAttrs c hen
  exact ⟨e0, mem_elements_iff.2 ⟨c, hc, he0⟩, he⟩

/-- `removeAttr` adds no attribute. -/
theorem removeAttr_subset (attr : List (GoString × GoString)) (attrName : GoString) :
    ∀ x ∈ removeAttr attr attrName, x ∈ attr := by
  intro x hx
  unfold removeAttr at hx
  split at hx
  · rename_i i last _ hl
    have h1 := List.dropLast_subset _ hx
    rcases List.mem_or_eq_of_mem_set h1 with h | h
    · exact h
    · rw [h]; exact List.mem_of_getLast?_eq_some hl
  · exact hx

/-- The third loop adds no attribute. -/
theorem keptAttrs_subset (t : GoString) (attr : List (GoString × GoString)) :
    ∀ x ∈ keptAttrs t attr, x ∈ attr := by
  intro x hx
  unfold keptAttrs at hx
  split_ifs at hx
  · exact hx
  · exact hx
  · exact removeAttr_subset _ _ _ (removeAttr_subset _ _ _ (removeAttr_subset _ _ _
      (removeAttr_subset _ _ _ hx)))

/-- An element that matches a selector still matches it with more attributes. -/
theorem Match_mono_attr (sel : Selector) (t : GoString) {a1 a2 : List (GoString × GoString)}
    (cs1 cs2 : List Node) (h : ∀ x ∈ a1, x ∈ a2)
    (hm : Selector.Match sel (.elem t a1 cs1) = true) :
    Selector.Match sel (.elem t a2 cs2) = true := by
  unfold Selector.Match at hm ⊢
  rw [List.any_eq_true] at hm ⊢
  obtain ⟨m, hm1, hm2⟩ := hm
  refine ⟨m, hm1, ?_⟩
  cases m with
  | tag name => simpa [Simple.Match] using hm2
  | universal => simp [Simple.Match]
  | cls name =>
    simp only [Simple.Match, List.any_eq_true] at hm2 ⊢
    obtain ⟨x, hx, hx2⟩ := hm2
    exact ⟨x, h x hx, hx2⟩

theorem Match_RemoveWhereIn (sel : Selector) (p : Node → Bool) (n : Node) :
    Selector.Match sel (RemoveWhereIn p n) = Selector.Match sel n := by
  cases n with
  | text d => rw [RemoveWhereIn]
  | other => rw [RemoveWhereIn]
  | elem t a cs =>
    rw [RemoveWhereIn_elem]
    cases h : Selector.Match sel (.elem t a cs) with
    | true => exact Match_mono_attr sel t cs _ (fun x hx => hx) h
    | false =>
      cases h2 : Selector.Match sel (.elem t a (RemoveWhere p cs)) with
      | false => rfl
      | true => rw [Match_mono_attr sel t _ cs (fun x hx => hx) h2] at h; exact h

theorem Match_stripAttrs (sel : Selector) (n : Node)
    (h : Selector.Match sel (stripAttrs n) = true) : Selector.Match sel n = true := by
  cases n with
  | text d => rw [stripAttrs] at h; exact h
  | other => rw [stripAttrs] at h; exact h
  | elem t a cs =>
    rw [stripAttrs_elem] at h
    exact Match_mono_attr sel t _ cs (keptAttrs_subset t a) h

/-! ### The selection `content` -/

theorem selectBestLoop_mem (caseTable : Nat → Nat) (all : List Node) :
    ∀ (l : List Node) (b : Rat) (o : Option Node), (∀ s ∈ l, s ∈ all) →
      (∀ s, o = some s → s ∈ all) →
      ∀ s, (selectBestLoop caseTable l (b, o)).2 = some s → s ∈ all := by
  intro l
  induction l with
  | nil => intro b o _ ho s hs; exact ho s hs
  | cons x rest ih =>
    intro b o hl ho s hs
    simp only [selectBestLoop] at hs
    split_ifs at hs
    · exact ih _ _ (fun t ht => hl t (List.mem_cons_of_mem _ ht))
        (fun t ht => by
          simp only [Option.some.injEq] at ht
          rw [← ht]; exact hl x (List.mem_cons_self _ _)) s hs
    · exact ih _ _ (fun t ht => hl t (List.mem_cons_of_mem _ ht)) ho s hs

/-- The selection `selectBestContent` returns is one of the candidates. -/
theorem selectBestContent_mem (caseTable : Nat → Nat) (l : List Node) (s : Node)
    (h : selectBestContent caseTable l = some s) : s ∈ l := by
  unfold selectBestContent at h
  split at h
  · exact List.mem_of_mem_head? h
  · rename_i s1 hs1
    simp only [Option.some.injEq] at h
    subst h
    exact selectBestLoop_mem caseTable l l 0 none (fun _ h => h) (fun _ h => by simp at h) _ hs1

/-- The selection `content` is an element of the document without the boilerplate
elements. -/
theorem content_mem_elements (caseTable : Nat → Nat) (doc : List Node) (c : Node)
    (h : ExtractMainContent.content caseTable doc = some c) :
    c ∈ elements (RemoveAll boilerplate doc) := by
  unfold ExtractMainContent.content at h
  simp only at h
  split_ifs at h
  · exact MatchAllList_subset_elements _ _ (List.mem_of_mem_head? h)
  · exact MatchAllList_subset_elements _ _ (List.mem_of_mem_head? h)
  · exact MatchAllList_subset_elements _ _ (selectBestContent_mem caseTable _ _ h)
  · exact MatchAllList_subset_elements _ _ (selectBestContent_mem caseTable _ _ h)

/-- The elements that `Find(selector).Remove()` leaves do not match the
selector. -/
theorem not_Match_of_mem_RemoveAll (sel : Selector) (doc : List Node) {e : Node}
    (h : e ∈ elements (RemoveAll sel doc)) : Selector.Match sel e = false := by
  rw [RemoveAll_eq_RemoveWhere] at h
  obtain ⟨e0, _, hp, rfl⟩ := elements_RemoveWhere _ doc h
  rw [Match_RemoveWhereIn]; exact hp

/-! ### The fragment -/

/-- Every element below the cleaned content comes from an element of the document
that no loop has removed: it has the tag of that element, the attributes the
third loop leaves of its attributes, and what the loops leave of its children. -/
theorem cleanContent_element (caseTable : Nat → Nat) (doc : List Node) (c e : Node)
    (hc : ExtractMainContent.content caseTable doc = some c)
    (he : e ∈ elements (cleanContent c).children) :
    ∃ t a cs, .elem t a cs ∈ elements doc
      ∧ Selector.Match boilerplate (.elem t a cs) = false
      ∧ emptyBlock (.elem t a (RemoveAll boilerplate cs)) = false
      ∧ blankElement (.elem t a (RemoveWhere emptyBlock (RemoveAll boilerplate cs))) = false
      ∧ e = .elem t (keptAttrs t a)
          (stripAttrsList (RemoveWhere blankElement (RemoveWhere emptyBlock
            (RemoveAll boilerplate cs)))) := by
  have hcm := content_mem_elements caseTable doc c hc
  obtain ⟨tc, ac, csc, rfl⟩ := isElem_of_mem_elements hcm
  simp only [cleanContent, Node.children] at he
  obtain ⟨e0, he0, rfl⟩ := elements_stripAttrsList _ he
  obtain ⟨e1, he1, hp1, rfl⟩ := elements_RemoveWhere _ _ he0
  obtain ⟨e2, he2, hp2, rfl⟩ := elements_RemoveWhere _ _ he1
  have he2d : e2 ∈ elements (RemoveAll boilerplate doc) :=
    elements_children_subset hcm (by simpa only [Node.children] using he2)
  rw [RemoveAll_eq_RemoveWhere] at he2d
  obtain ⟨d, hd, hpd, rfl⟩ := elements_RemoveWhere _ _ he2d
  obtain ⟨t, a, cs, rfl⟩ := isElem_of_mem_elements hd
  refine ⟨t, a, cs, hd, hpd, ?_, ?_, ?_⟩
  · rw [RemoveAll_eq_RemoveWhere]; simpa only [RemoveWhereIn_elem] using hp2
  · rw [RemoveAll_eq_RemoveWhere]; simpa only [RemoveWhereIn_elem] using hp1
  · rw [RemoveAll_eq_RemoveWhere]; simp only [RemoveWhereIn_elem, stripAttrs_elem]

/-- The elements of the fragment, as `cleanContent_element` has them. -/
theorem fragment_element (caseTable : Nat → Nat) (doc frag : List Node) (e : Node)
    (h : ExtractMainContent.fragment caseTable doc = some frag) (he : e ∈ elements frag) :
    ∃ t a cs, .elem t a cs ∈ elements doc
      ∧ Selector.Match boilerplate (.elem t a cs) = false
      ∧ emptyBlock (.elem t a (RemoveAll boilerplate cs)) = false
      ∧ blankElement (.elem t a (RemoveWhere emptyBlock (RemoveAll boilerplate cs))) = false
      ∧ e = .elem t (keptAttrs t a)
          (stripAttrsList (RemoveWhere blankElement (RemoveWhere emptyBlock
            (RemoveAll boilerplate cs)))) := by
  unfold ExtractMainContent.fragment at h
  cases hc : ExtractMainContent.content caseTable doc with
  | none =>
    rw [hc] at h
    simp only [Option.some.injEq] at h
    subst h
    simp [elements_nil] at he
  | some c =>
    rw [hc] at h
    simp only at h
    split_ifs at h
    simp only [Option.some.injEq] at h
    subst h
    exact cleanContent_element caseTable doc c e hc he

/-- The second loop removes every element without child nodes. -/
theorem blankElement_childless (t : GoString) (a : List (GoString × GoString)) :
    blankElement (.elem t a []) = true := by
  unfold blankElement
  rw [Match_universal_elem]
  have h1 : strings.TrimSpace (Text (.elem t a [])) = [] := by
    rw [Text, TextList]; decide
  simp [h1, htmlBlank, Node.children]

/-! ### Text nodes -/

theorem textNodesList_eq_flatMap (ns : List Node) :
    textNodesList ns = (ns.map textNodes).flatten := by
  induction ns with
  | nil => rw [textNodesList]; rfl
  | cons n ns ih => rw [textNodesList, ih]; rfl

theorem textNodes_elem (t : GoString) (a : List (GoString × GoString)) (cs : List Node) :
    textNodes (.elem t a cs) = textNodesList cs := by
  rw [textNodes]

theorem textNodesList_cons (n : Node) (ns : List Node) :
    textNodesList (n :: ns) = textNodes n ++ textNodesList ns := by
  rw [textNodesList]

/-- The third loop leaves the text nodes as they are. -/
theorem textNodes_stripAttrs : ∀ n : Node, textNodes (stripAttrs n) = textNodes n := by
  apply Node_induct_node
  · intro d; rw [stripAttrs]
  · rw [stripAttrs]
  · intro t a cs ih
    rw [stripAttrs_elem, textNodes_elem, textNodes_elem]
    induction cs with
    | nil => rw [stripAttrsList]
    | cons c cs ihc =>
      rw [stripAttrsList, textNodesList_cons, textNodesList_cons, ih c (List.mem_cons_self _ _),
        ihc (fun x hx => ih x (List.mem_cons_of_mem _ hx))]

theorem textNodesList_stripAttrsList (ns : List Node) :
    textNodesList (stripAttrsList ns) = textNodesList ns := by
  induction ns with
  | nil => rw [stripAttrsList]
  | cons c cs ihc =>
    rw [stripAttrsList, textNodesList_cons, textNodesList_cons, textNodes_stripAttrs, ihc]

/-- A removing loop leaves text nodes of the tree, in their order. -/
theorem textNodes_RemoveWhereIn (p : Node → Bool) :
    ∀ n : Node, (textNodes (RemoveWhereIn p n)).Sublist (textNodes n) := by
  apply Node_induct_node
  · intro d; rw [RemoveWhereIn]
  · rw [RemoveWhereIn]
  · intro t a cs ih
    rw [RemoveWhereIn_elem, textNodes_elem, textNodes_elem]
    induction cs with
    | nil => rw [RemoveWhere]
    | cons c cs ihc =>
      have h2 := ihc (fun x hx => ih x (List.mem_cons_of_mem _ hx))
      rw [RemoveWhere_cons, textNodesList_cons]
      split_ifs
      · exact List.Sublist.trans h2 (List.sublist_append_right _ _)
      · rw [textNodesList_cons]
        exact List.Sublist.append (ih c (List.mem_cons_self _ _)) h2

theorem textNodesList_RemoveWhere (p : Node → Bool) (ns : List Node) :
    (textNodesList (RemoveWhere p ns)).Sublist (textNodesList ns) := by
  have := textNodes_RemoveWhereIn p (.elem [] [] ns)
  simpa only [RemoveWhereIn_elem, textNodes_elem] using this

/-- The text nodes of an element of a tree are text nodes of the tree. -/
theorem textNodes_of_mem_MatchAll {e : Node} :
    ∀ n : Node, e ∈ MatchAll [.universal] n → (textNodes e).Sublist (textNodes n) := by
  apply Node_induct_node
  · intro d h; simp [MatchAll_universal_text] at h
  · intro h; simp [MatchAll_universal_other] at h
  · intro t a cs ih h
    rw [MatchAll_universal_elem, List.mem_cons] at h
    rcases h with h | h
    · rw [h]
    · obtain ⟨c, hc, hec⟩ := mem_elements_iff.1 h
      refine List.Sublist.trans (ih c hc hec) ?_
      rw [textNodes_elem, textNodesList_eq_flatMap]
      exact List.sublist_flatten_of_mem (List.mem_map_of_mem _ hc)

theorem textNodes_of_mem_elements {e : Node} {ns : List Node} (h : e ∈ elements ns) :
    (textNodes e).Sublist (textNodesList ns) := by
  obtain ⟨n, hn, hen⟩ := mem_elements_iff.1 h
  refine List.Sublist.trans (textNodes_of_mem_MatchAll n hen) ?_
  rw [textNodesList_eq_flatMap]
  exact List.sublist_flatten_of_mem (List.mem_map_of_mem _ hn)

/-- The text nodes of the fragment are text nodes of the document that lie in no
boilerplate element. -/
theorem fragment_textNodes (caseTable : Nat → Nat) (doc frag : List Node)
    (h : ExtractMainContent.fragment caseTable doc = some frag) :
    (textNodesList frag).Sublist (textNodesList (RemoveAll boilerplate doc)) := by
  unfold ExtractMainContent.fragment at h
  cases hc : ExtractMainContent.content caseTable doc with
  | none =>
    rw [hc] at h
    simp only [Option.some.injEq] at h
    subst h
    rw [textNodesList]; exact List.nil_sublist _
  | some c =>
    rw [hc] at h
    simp only at h
    split_ifs at h
    simp only [Option.some.injEq] at h
    subst h
    have hcm := content_mem_elements caseTable doc c hc
    obtain ⟨tc, ac, csc, rfl⟩ := isElem_of_mem_elements hcm
    simp only [cleanContent, Node.children]
    rw [textNodesList_stripAttrsList]
    refine List.Sublist.trans (textNodesList_RemoveWhere _ _) ?_
    refine List.Sublist.trans (textNodesList_RemoveWhere _ _) ?_
    have := textNodes_of_mem_elements hcm
    rwa [textNodes_elem] at this

/-! ### `Html()` returns -/

theorem render1Status_elem (t : GoString) (a : List (GoString × GoString)) (cs : List Node) :
    render1Status (.elem t a cs)
      = if t ∈ voidElements then (if cs.isEmpty then .ok else .error)
        else
          match render1StatusList cs with
          | .ok => if t = bytes "plaintext" then .plaintextAbort else .ok
          | r => r := by
  rw [render1Status]

theorem render1StatusList_cons (n : Node) (ns : List Node) :
    render1StatusList (n :: ns)
      = match render1Status n with
        | .ok => render1StatusList ns
        | r => r := by
  rw [render1StatusList]

theorem render1StatusList_ne_error (ns : List Node)
    (h : ∀ n ∈ ns, render1Status n ≠ .error) : render1StatusList ns ≠ .error := by
  induction ns with
  | nil => rw [render1StatusList]; decide
  | cons n ns ih =>
    rw [render1StatusList_cons]
    have h1 := h n (List.mem_cons_self _ _)
    have h2 := ih (fun x hx => h x (List.mem_cons_of_mem _ hx))
    cases hn : render1Status n with
    | ok => exact h2
    | plaintextAbort => simp
    | error => exact absurd hn h1

/-- `Render` returns no error on a tree whose void elements have no child
nodes. -/
theorem render1Status_ne_error : ∀ n : Node,
    (∀ e ∈ MatchAll [.universal] n, voidChildless e = true) → render1Status n ≠ .error := by
  apply Node_induct_node
  · intro d _; rw [render1Status]; decide
  · intro _; rw [render1Status]; decide
  · intro t a cs ih h
    rw [render1Status_elem]
    have hself := h (.elem t a cs) (by rw [MatchAll_universal_elem]; exact List.mem_cons_self _ _)
    by_cases hv : t ∈ voidElements
    · rw [if_pos hv]
      have : cs.isEmpty = true := by simpa [voidChildless, hv] using hself
      rw [if_pos this]; decide
    · rw [if_neg hv]
      have hl := render1StatusList_ne_error cs (fun c hc => ih c hc (fun e he =>
        h e (by
          rw [MatchAll_universal_elem]
          exact List.mem_cons_of_mem _ (mem_elements_iff.2 ⟨c, hc, he⟩))))
      cases hs : render1StatusList cs with
      | ok => simp only; split_ifs <;> decide
      | plaintextAbort => simp
      | error => exact absurd hs hl

/-- `ExtractMainContent` returns a fragment for every document whose void
elements have no child nodes. -/
theorem fragment_returns (caseTable : Nat → Nat) (doc : List Node)
    (h : ∀ e ∈ elements doc, voidChildless e = true) :
    ∃ frag, ExtractMainContent.fragment caseTable doc = some frag := by
  unfold ExtractMainContent.fragment
  cases hc : ExtractMainContent.content caseTable doc with
  | none => exact ⟨[], rfl⟩
  | some c =>
    simp only
    have hf : htmlFails (cleanContent c) = false := by
      unfold htmlFails
      rw [Bool.eq_false_iff]
      intro hany
      rw [List.any_eq_true] at hany
      obtain ⟨x, hx, hxf⟩ := hany
      have hne : render1Status x ≠ .error := by
        apply render1Status_ne_error
        intro e he
        obtain ⟨t, a, cs, hd, -, -, -, rfl⟩ := cleanContent_element caseTable doc c e hc
          (mem_elements_iff.2 ⟨x, hx, he⟩)
        have h0 := h _ hd
        simp only [voidChildless, Bool.or_eq_true, Bool.not_eq_true', decide_eq_false_iff_not,
          List.isEmpty_iff] at h0 ⊢
        rcases h0 with h0 | h0
        · exact Or.inl h0
        · right; subst h0
          rw [RemoveAll, RemoveWhere, RemoveWhere, stripAttrsList]
      exact hne (by simpa [renderFails] using hxf)
    rw [hf]
    exact ⟨_, rfl⟩

end crawler

namespace crawler

open html cascadia goquery

/-- What it is for an element not to match the selector of line 27. -/
theorem not_Match_boilerplate_iff (t : GoString) (a : List (GoString × GoString))
    (cs : List Node) :
    Selector.Match boilerplate (.elem t a cs) = false
      ↔ t ∉ [bytes "script", bytes "style", bytes "nav", bytes "header", bytes "footer",
            bytes "aside", bytes "iframe", bytes "embed", bytes "object"]
        ∧ ∀ kv ∈ a, kv.1 = bytes "class" →
            ∀ m ∈ [bytes "ad", bytes "advertisement", bytes "sidebar", bytes "navigation",
                   bytes "menu", bytes "social", bytes "share", bytes "comments",
                   bytes "comment"], matchInclude m kv.2 = false := by
  simp only [boilerplate, Selector.Match, List.any_cons, List.any_nil, Simple.Match,
    Bool.or_false, Bool.or_eq_false_iff, beq_eq_false_iff_ne, ne_eq, List.any_eq_false,
    Bool.and_eq_true, beq_iff_eq, not_and, Bool.not_eq_true, List.mem_cons, List.mem_singleton,
    not_or, forall_eq_or_imp, forall_eq, List.not_mem_nil, false_implies, implies_true,
    and_true, List.mem_nil_iff]
  constructor
  · rintro ⟨h1, h2, h3, h4, h5, h6, h7, h8, h9, h10, h11, h12, h13, h14, h15, h16, h17, h18⟩
    exact ⟨⟨h1, h2, h3, h4, h5, h6, h16, h17, h18, not_false⟩, fun kv hkv hc =>
      ⟨h7 kv hkv hc, h8 kv hkv hc, h9 kv hkv hc, h10 kv hkv hc, h11 kv hkv hc, h12 kv hkv hc,
        h13 kv hkv hc, h14 kv hkv hc, h15 kv hkv hc⟩⟩
  · rintro ⟨⟨h1, h2, h3, h4, h5, h6, h16, h17, h18⟩, h⟩
    exact ⟨h1, h2, h3, h4, h5, h6, fun kv hkv hc => (h kv hkv hc).1,
      fun kv hkv hc => (h kv hkv hc).2.1, fun kv hkv hc => (h kv hkv hc).2.2.1,
      fun kv hkv hc => (h kv hkv hc).2.2.2.1, fun kv hkv hc => (h kv hkv hc).2.2.2.2.1,
      fun kv hkv hc => (h kv hkv hc).2.2.2.2.2.1, fun kv hkv hc => (h kv hkv hc).2.2.2.2.2.2.1,
      fun kv hkv hc => (h kv hkv hc).2.2.2.2.2.2.2.1,
      fun kv hkv hc => (h kv hkv hc).2.2.2.2.2.2.2.2, h16, h17, h18.1⟩

/-- C21. For the page `<article><a href="/x" onclick="track()" class="btn"
id="more">link</a><p onmouseover="peek()" title="t" class="lead">text</p></article>`
the fragment keeps the `a` element with `onclick`, `class` and `id`, and the `p`
element with `onmouseover` and `title`: the third loop of `cleanContent` returns
at once for `img` and `a`, which keep every attribute, and removes from the other
elements the four attributes `class`, `id`, `style` and `onclick` only. -/
theorem cleanContent_keeps_handlers :
    (∀ caseTable, ExtractMainContent.fragment caseTable sample.handlerPage
      = some [sample.handlerLink,
              .elem (bytes "p") [(bytes "onmouseover", bytes "peek()"), (bytes "title", bytes "t")]
                [.text (bytes "text")]])
    ∧ AttrOr sample.handlerLink (bytes "onclick") [] = bytes "track()"
    ∧ (∀ t a, t = bytes "a" ∨ t = bytes "img" → keptAttrs t a = a)
    ∧ (∀ caseTable doc frag e, ExtractMainContent.fragment caseTable doc = some frag →
        e ∈ elements frag →
        ∃ t a cs, .elem t a cs ∈ elements doc ∧ tagOf e = some t ∧ e.attr = keptAttrs t a) := by
  refine ⟨fun _ => rfl, by decide, ?_, ?_⟩
  · rintro t a (rfl | rfl)
    · rfl
    · rfl
  · intro caseTable doc frag e h he
    obtain ⟨t, a, cs, hd, -, -, -, rfl⟩ := fragment_element caseTable doc frag e h he
    exact ⟨t, a, cs, hd, rfl, rfl⟩

/-- C22. For the page `<article><p>Some text</p><img src="a.png" alt="A"></article>`
the fragment has the paragraph and no `img` element; and so it is for every
document: the second loop of `cleanContent` removes each element whose text and
inner HTML are blank, which an `img` element, having no child nodes, always
is. -/
theorem cleanContent_removes_images :
    (∀ caseTable, ExtractMainContent.fragment caseTable sample.picturePage
      = some [.elem (bytes "p") [] [.text (bytes "Some text")]])
    ∧ sample.picture ∈ elements sample.picturePage
    ∧ blankElement sample.picture = true
    ∧ (∀ caseTable doc frag,
        (∀ e ∈ elements doc, tagOf e = some (bytes "img") → e.children = []) →
        ExtractMainContent.fragment caseTable doc = some frag →
        ∀ e ∈ elements frag, tagOf e ≠ some (bytes "img")) := by
  refine ⟨fun _ => rfl, ?_, blankElement_childless _ _, ?_⟩
  · simp only [sample.picturePage, sample.articlePage, elements_cons, MatchAll_universal_elem,
      elements_nil, MatchAll_universal_text, List.append_nil, List.nil_append, List.cons_append]
    unfold sample.picture
    rw [MatchAll_universal_elem]
    simp
  · intro caseTable doc frag hdoc h e he ht
    obtain ⟨t, a, cs, hd, -, -, hb, rfl⟩ := fragment_element caseTable doc frag e h he
    simp only [tagOf, Option.some.injEq] at ht
    subst ht
    have hcs : cs = [] := hdoc _ hd rfl
    subst hcs
    rw [RemoveAll, RemoveWhere, blankElement_childless] at hb
    exact absurd hb (by decide)

/-- C23 fails as stated: for the page `<article><div class="ads">Buy now</div>
<a id="sidebar" href="/s">Side links</a><p>Text</p></article>` the fragment has
the `a` element with the id `sidebar` and the text of the element of class
`ads`. -/
theorem fragment_keeps_marked :
    (∀ caseTable, ExtractMainContent.fragment caseTable sample.markedPage
      = some [.elem (bytes "div") [] [.text (bytes "Buy now")],
              .elem (bytes "a") [(bytes "id", bytes "sidebar"), (bytes "href", bytes "/s")]
                [.text (bytes "Side links")],
              .elem (bytes "p") [] [.text (bytes "Text")]])
    ∧ AttrOr (.elem (bytes "a") [(bytes "id", bytes "sidebar"), (bytes "href", bytes "/s")]
        [.text (bytes "Side links")]) (bytes "id") [] = bytes "sidebar" :=
  ⟨fun _ => rfl, by decide⟩

/-- C23 (amended). `ExtractMainContent` returns a fragment for every document in
which no void element has child nodes, and a fragment it returns has no `script`,
`style`, `nav`, `header`, `footer`, `aside`, `iframe`, `embed` or `object`
element and no element with one of the words `ad`, `advertisement`, `sidebar`,
`navigation`, `menu`, `social`, `share`, `comments`, `comment` in a `class`
attribute; its text nodes are, in their order, text nodes of the document that
lie in no such element. -/
theorem fragment_without_boilerplate (caseTable : Nat → Nat) (doc : List Node) :
    ((∀ e ∈ elements doc, voidChildless e = true) →
      ∃ frag, ExtractMainContent.fragment caseTable doc = some frag)
    ∧ ∀ frag, ExtractMainContent.fragment caseTable doc = some frag →
        (∀ e ∈ elements frag, Selector.Match boilerplate e = false)
        ∧ (∀ t a cs, .elem t a cs ∈ elements frag →
            t ∉ [bytes "script", bytes "style", bytes "nav", bytes "header", bytes "footer",
                 bytes "aside", bytes "iframe", bytes "embed", bytes "object"]
            ∧ ∀ kv ∈ a, kv.1 = bytes "class" →
                ∀ m ∈ [bytes "ad", bytes "advertisement", bytes "sidebar", bytes "navigation",
                       bytes "menu", bytes "social", bytes "share", bytes "comments",
                       bytes "comment"], matchInclude m kv.2 = false)
        ∧ (textNodesList frag).Sublist (textNodesList (RemoveAll boilerplate doc)) := by
  refine ⟨fragment_returns caseTable doc, fun frag h => ?_⟩
  have key : ∀ e ∈ elements frag, Selector.Match boilerplate e = false := by
    intro e he
    obtain ⟨t, a, cs, -, hm, -, -, rfl⟩ := fragment_element caseTable doc frag e h he
    cases hx : Selector.Match boilerplate (.elem t (keptAttrs t a)
        (stripAttrsList (RemoveWhere blankElement (RemoveWhere emptyBlock
          (RemoveAll boilerplate cs))))) with
    | false => rfl
    | true =>
      rw [Match_mono_attr boilerplate t _ cs (keptAttrs_subset t a) hx] at hm
      exact hm
  exact ⟨key, fun t a cs he => (not_Match_boilerplate_iff t a cs).1 (key _ he),
    fragment_textNodes caseTable doc frag h⟩

/-- The witness of C23: the page of `TestExtractor_ExtractMainContent`.  Its
fragment is what the `article` element holds, with the text `Main Title` and
without the texts of the `nav` and `aside` elements. -/
theorem fragment_without_boilerplate_witness :
    ExtractMainContent.fragment id sample.testPage = some sample.testArticle
    ∧ ((∀ e ∈ elements sample.testArticle, Selector.Match boilerplate e = false)
        ∧ (∀ t a cs, .elem t a cs ∈ elements sample.testArticle →
            t ∉ [bytes "script", bytes "style", bytes "nav", bytes "header", bytes "footer",
                 bytes "aside", bytes "iframe", bytes "embed", bytes "object"]
            ∧ ∀ kv ∈ a, kv.1 = bytes "class" →
                ∀ m ∈ [bytes "ad", bytes "advertisement", bytes "sidebar", bytes "navigation",
                       bytes "menu", bytes "social", bytes "share", bytes "comments",
                       bytes "comment"], matchInclude m kv.2 = false)
        ∧ (textNodesList sample.testArticle).Sublist
            (textNodesList (RemoveAll boilerplate sample.testPage)))
    ∧ bytes "Main Title" ∈ textNodesList sample.testArticle
    ∧ bytes "Navigation" ∈ textNodesList sample.testPage
    ∧ bytes "Sidebar" ∈ textNodesList sample.testPage
    ∧ (∀ t ∈ textNodesList sample.testArticle,
        strings.Contains t (bytes "Navigation") = false
          ∧ strings.Contains t (bytes "Sidebar") = false) :=
  ⟨rfl, (fragment_without_boilerplate id sample.testPage).2 sample.testArticle rfl,
    by decide, by decide, by decide, by decide⟩

end crawler

namespace crawler

open queue models utils

variable (caseTable : Nat → Nat)

/-! ## The crawl with `MaxDepth = 0` -/

theorem holds_le_sum {f : WorkerPC → Nat} : ∀ {l : List WorkerPC} {i : Nat} {a : WorkerPC},
    l[i]? = some a → f a ≤ (l.map f).sum
  | [], i, a, h => by simp at h
  | x :: l, 0, a, h => by
    simp only [List.getElem?_cons_zero, Option.some.injEq] at h
    subst h; simp
  | x :: l, i + 1, a, h => by
    simp only [List.getElem?_cons_succ] at h
    have := @holds_le_sum f l i a h
    simp only [List.map_cons, List.sum_cons]
    omega

theorem sum_map_set {f : WorkerPC → Nat} : ∀ {l : List WorkerPC} {i : Nat} {a : WorkerPC}
    (b : WorkerPC), l[i]? = some a → ((l.set i b).map f).sum = (l.map f).sum - f a + f b
  | [], i, a, b, h => by simp at h
  | x :: l, 0, a, b, h => by
    simp only [List.getElem?_cons_zero, Option.some.injEq] at h
    subst h
    simp only [List.set_cons_zero, List.map_cons, List.sum_cons]
    omega
  | x :: l, i + 1, a, b, h => by
    simp only [List.getElem?_cons_succ] at h
    have h1 := @sum_map_set f l i a b h
    have h2 := @holds_le_sum f l i a h
    simp only [List.set_cons_succ, List.map_cons, List.sum_cons, h1]
    omega

theorem workerStep_seedInv {config : CrawlConfig} {o : Oracle} {i : Nat} {seed : List GoString}
    {s s1 : State} (h : workerStep caseTable config o i s = some s1)
    (hD : config.MaxDepth = 0) (dinv : DepthInv config.MaxDepth s) (inv : SeedInv seed s) :
    SeedInv seed s1 := by
  obtain ⟨hn, ht, hs, hp, hh, hd⟩ := inv
  cases hpc : s.workers[i]? with
  | none => simp [workerStep, hpc] at h
  | some pc =>
    have hok := dinv.workers pc (List.getElem?_mem hpc)
    have hle := @holds_le_sum WorkerPC.holds _ _ _ hpc
    cases pc <;> simp only [workerStep, hpc] at h <;> (repeat' split at h) <;>
      (try simp only [Option.some.injEq, reduceCtorEq] at h) <;> (try subst h)
    all_goals (try (exfalso; have h1 := hok.1; have h2 := hok.2; omega))
    all_goals (refine ⟨goto_workers i hn rfl, ?_, ?_, ?_, ?_, ?_⟩)
    all_goals (try simp only [State.goto])
    all_goals (try assumption)
    all_goals (rw [sum_map_set _ hpc])
    all_goals (simp only [WorkerPC.holds] at hle ⊢)
    all_goals (try simp_all only [List.length_cons, List.length_append, List.length_singleton, List.length_nil])
    all_goals omega

theorem dispatchStep_seedInv {cm : CrawlManager} {config : CrawlConfig} {o : Oracle}
    {seed : List GoString} {s s1 : State}
    (h : dispatchStep caseTable cm config o s = some s1) (inv : SeedInv seed s) :
    SeedInv seed s1 := by
  obtain ⟨hn, ht, hs, hp, hh, hd⟩ := inv
  cases hpc : s.dispatcher <;> rw [hpc] at ht hs hh <;> simp only [dispatchStep, hpc] at h <;>
    (repeat' split at h) <;>
    (try simp only [Option.some.injEq, reduceCtorEq] at h) <;> (try subst h)
  all_goals (try rename_i hpop)
  all_goals (try have hpop := Pop_true hpop)
  all_goals (refine ⟨hn, ?_, ?_, ?_, ?_, ?_⟩)
  all_goals (try simp only [State.dispatchReturn, MarkVisited_urls])
  all_goals (simp only [DispatchPC.holds, DispatchPC.url?, List.length_append,
    List.length_singleton, Option.some.injEq, reduceCtorEq, false_implies, implies_true,
    forall_eq'] at ht hs hh ⊢)
  all_goals (try assumption)
  all_goals (try (rw [hpop.1] at ht hs; simp only [List.length_cons] at ht hs))
  all_goals (try omega)
  all_goals (try (rw [hpop.1] at hp))
  all_goals (try (exact hp _ (List.mem_cons_self _ _)))
  all_goals (try (intro u hu; exact hp u (List.mem_cons_of_mem _ hu)))
  all_goals (intro x hx
             rcases List.mem_append.1 hx with hx | hx
             · exact hd x hx
             · simp only [List.mem_singleton] at hx; subst hx; exact hh)

theorem step_seedInv {cm : CrawlManager} {config : CrawlConfig} {e : Event}
    {seed : List GoString} {s s1 : State} (h : step caseTable cm config e s = some s1)
    (hD : config.MaxDepth = 0) (dinv : DepthInv config.MaxDepth s) (inv : SeedInv seed s) :
    SeedInv seed s1 := by
  cases e with
  | cancel =>
    simp only [step, Option.some.injEq] at h; subst h
    exact ⟨inv.noLinks, inv.tokens, inv.sent, inv.pending, inv.held, inv.dispatched⟩
  | dispatch o => exact dispatchStep_seedInv caseTable h inv
  | work i o => exact workerStep_seedInv caseTable h hD dinv inv

theorem run_seedInv {cm : CrawlManager} {config : CrawlConfig} (hD : config.MaxDepth = 0)
    {seed : List GoString} (es : List Event) :
    ∀ {s s1 : State}, run caseTable cm config es s = some s1 →
      DepthInv config.MaxDepth s → SeedInv seed s → SeedInv seed s1 := by
  induction es with
  | nil => intro s s1 h _ inv; simp only [run, Option.some.injEq] at h; subst h; exact inv
  | cons e es ih =>
    intro s s1 h dinv inv
    simp only [run] at h
    cases he : step caseTable cm config e s with
    | none => simp [he] at h
    | some s2 =>
      rw [he] at h
      exact ih h (step_depthInv caseTable he (by omega) dinv)
        (step_seedInv caseTable he hD dinv inv)

/-- The frontier after the seeding holds at most the canonical form of the
normalised start URL. -/
theorem start_seed {cm : CrawlManager} {startURL : GoString} {s0 : State}
    (h : Crawl.start caseTable cm startURL = .ok s0) :
    s0.q.urls.length ≤ 1
    ∧ ∀ u ∈ s0.q.urls, ∃ n, NormalizeURL caseTable startURL = .ok n
        ∧ NormalizeURL caseTable n = .ok u := by
  unfold Crawl.start at h
  split at h
  · simp at h
  · rename_i n hn
    simp only [Except.ok.injEq] at h; subst h
    simp only
    rcases Add_cases caseTable NewQueue n with h1 | ⟨c, hc, -, -, h1⟩
    · rw [h1]; simp [NewQueue]
    · rw [h1]
      simp only [NewQueue, List.nil_append, List.length_singleton, le_refl, List.mem_singleton,
        forall_eq, true_and]
      exact ⟨n, hn, hc⟩

theorem start_seedInv {cm : CrawlManager} {startURL : GoString} {s0 : State}
    (h : Crawl.start caseTable cm startURL = .ok s0) : SeedInv s0.q.urls s0 := by
  have hlen := (start_seed caseTable h).1
  unfold Crawl.start at h
  split at h
  · simp at h
  · simp only [Except.ok.injEq] at h; subst h
    refine ⟨?_, ?_, ?_, fun u hu => hu, ?_, ?_⟩
    · intro w hw
      rw [List.eq_of_mem_replicate hw]; rfl
    · have : (List.map WorkerPC.holds (List.replicate cm.maxWorkers WorkerPC.recv)).sum = 0 := by
        simp [WorkerPC.holds]
      simp only at hlen ⊢
      simp only [this, DispatchPC.holds, List.length_nil]
      omega
    · simp only at hlen ⊢
      simp only [DispatchPC.holds, List.length_nil]
      omega
    · intro u hu; simp [DispatchPC.url?] at hu
    · intro ud hud; simp at hud

end crawler

namespace crawler

open queue models utils

variable (caseTable : Nat → Nat)

/-! ## The crawl: what is reported has been sent -/

theorem workerStep_dispatched {config : CrawlConfig} {o : Oracle} {i : Nat}
    {s s1 : State} (h : workerStep caseTable config o i s = some s1) :
    s1.dispatched = s.dispatched := by
  cases hpc : s.workers[i]? with
  | none => simp [workerStep, hpc] at h
  | some pc =>
    cases pc <;> simp only [workerStep, hpc] at h <;> (repeat' split at h) <;>
      (try simp only [Option.some.injEq, reduceCtorEq] at h) <;> (try subst h)
    all_goals rfl

theorem workerStep_sentInv {config : CrawlConfig} {o : Oracle} {i : Nat}
    {s s1 : State} (h : workerStep caseTable config o i s = some s1) (inv : SentInv s) :
    SentInv s1 := by
  obtain ⟨hc, hw, hr⟩ := inv
  cases hpc : s.workers[i]? with
  | none => simp [workerStep, hpc] at h
  | some pc =>
    have hok := hw pc (List.getElem?_mem hpc)
    cases pc <;> simp only [workerStep, hpc] at h <;> (repeat' split at h) <;>
      (try simp only [Option.some.injEq, reduceCtorEq] at h) <;> (try subst h)
    all_goals (refine ⟨?_, goto_workers i hw ?_, ?_⟩)
    all_goals (try simp only [State.goto])
    all_goals (simp only [WorkerPC.ud?, Option.some.injEq, reduceCtorEq, false_implies,
      implies_true, forall_eq'] at hok ⊢)
    all_goals (try assumption)
    all_goals first
      | (intro x hx; apply hc; simp [*])
      | (apply hc; simp [*])
      | (intro r hx
         rcases List.mem_append.1 hx with hx | hx
         · exact hr r hx
         · simp only [List.mem_singleton] at hx; subst hx; exact hok)

theorem dispatchStep_sentInv {cm : CrawlManager} {config : CrawlConfig} {o : Oracle}
    {s s1 : State} (h : dispatchStep caseTable cm config o s = some s1) (inv : SentInv s) :
    SentInv s1 := by
  obtain ⟨hc, hw, hr⟩ := inv
  cases hpc : s.dispatcher <;> simp only [dispatchStep, hpc] at h <;>
    (repeat' split at h) <;>
    (try simp only [Option.some.injEq, reduceCtorEq] at h) <;> (try subst h)
  all_goals (first
    | exact ⟨hc, hw, hr⟩
    | (refine ⟨?_, ?_, ?_⟩
       · intro x hx
         rcases List.mem_append.1 hx with hx | hx
         · exact List.mem_append_left _ (hc x hx)
         · exact List.mem_append_right _ hx
       · intro w hw1 ud hud
         exact List.mem_append_left _ (hw w hw1 ud hud)
       · intro r hr1
         exact List.mem_append_left _ (hr r hr1)))

theorem step_sentInv {cm : CrawlManager} {config : CrawlConfig} {e : Event}
    {s s1 : State} (h : step caseTable cm config e s = some s1) (inv : SentInv s) :
    SentInv s1 := by
  cases e with
  | cancel =>
    simp only [step, Option.some.injEq] at h; subst h
    exact ⟨inv.urlChan, inv.workers, inv.results⟩
  | dispatch o => exact dispatchStep_sentInv caseTable h inv
  | work i o => exact workerStep_sentInv caseTable h inv

theorem run_sentInv {cm : CrawlManager} {config : CrawlConfig} (es : List Event) :
    ∀ {s s1 : State}, run caseTable cm config es s = some s1 → SentInv s → SentInv s1 := by
  induction es with
  | nil => intro s s1 h inv; simp only [run, Option.some.injEq] at h; subst h; exact inv
  | cons e es ih =>
    intro s s1 h inv
    simp only [run] at h
    cases he : step caseTable cm config e s with
    | none => simp [he] at h
    | some s2 => rw [he] at h; exact ih h (step_sentInv caseTable he inv)

theorem start_sentInv {cm : CrawlManager} {startURL : GoString} {s0 : State}
    (h : Crawl.start caseTable cm startURL = .ok s0) : SentInv s0 := by
  unfold Crawl.start at h
  split at h
  · simp at h
  · simp only [Except.ok.injEq] at h; subst h
    refine ⟨by simp, ?_, by simp⟩
    intro w hw ud hud
    rw [List.eq_of_mem_replicate hw] at hud
    simp [WorkerPC.ud?] at hud

/-- A step adds to the list of the URLs sent, at its end, and changes no entry. -/
theorem step_dispatched_grows {cm : CrawlManager} {config : CrawlConfig} {e : Event}
    {s s1 : State} (h : step caseTable cm config e s = some s1) :
    s.dispatched <+: s1.dispatched := by
  cases e with
  | cancel => simp only [step, Option.some.injEq] at h; subst h; exact List.prefix_refl _
  | work i o => rw [workerStep_dispatched caseTable h]
  | dispatch o =>
    simp only [step] at h
    cases hpc : s.dispatcher <;> simp only [dispatchStep, hpc] at h <;>
      (repeat' split at h) <;>
      (try simp only [Option.some.injEq, reduceCtorEq] at h) <;> (try subst h)
    all_goals (first
      | exact List.prefix_refl _
      | exact List.prefix_append _ _)

/-- A step adds to the results, at their end, and changes no entry. -/
theorem step_results_grows {cm : CrawlManager} {config : CrawlConfig} {e : Event}
    {s s1 : State} (h : step caseTable cm config e s = some s1) :
    s.results <+: s1.results := by
  rcases step_results caseTable h with h1 | ⟨r, h1, -⟩
  · rw [h1]
  · rw [h1]; exact List.prefix_append _ _

end crawler

/-! ## The crawl: depths -/

namespace crawler

open queue models utils

variable (caseTable : Nat → Nat)

/-- The two invariants of a crawl with `MaxDepth = 0`, in every state. -/
theorem reachable_seedInv {cm : CrawlManager} {config : CrawlConfig} {startURL : GoString}
    {s0 s : State} (hD : config.MaxDepth = 0) (es : List Event)
    (h0 : Crawl.start caseTable cm startURL = .ok s0)
    (hrun : run caseTable cm config es s0 = some s) :
    DepthInv config.MaxDepth s ∧ SeedInv s0.q.urls s :=
  ⟨run_depthInv caseTable (by omega) es hrun (start_depthInv caseTable _ (by omega) h0),
   run_seedInv caseTable hD es hrun (start_depthInv caseTable _ (by omega) h0)
     (start_seedInv caseTable h0)⟩

/-- C29. With `MaxDepth = 0`, in every state of every execution: no worker is
inside the link extraction, and a worker that comes to the test of line 168
goes back to the channel without calling `ExtractLinks`; every URL in the
frontier and every URL sent to a worker is the seed (the canonical form of the
normalised start URL, as `Add` stored it), sent with depth 0 and at most once;
the result list has at most one entry, of depth 0, and so has the list that
`Crawl` returns. -/
theorem Crawl_MaxDepth_zero (cm : CrawlManager) (config : CrawlConfig) (startURL : GoString)
    (s : State) (hD : config.MaxDepth = 0)
    (hs : Reachable caseTable cm config startURL s) :
    (∀ w ∈ s.workers, w.inLinks = false)
    ∧ (∀ i o ud html, s.workers[i]? = some (.links ud html) →
        workerStep caseTable config o i s = some (s.goto i .recv))
    ∧ (∀ u ∈ s.q.urls, ∃ n, NormalizeURL caseTable startURL = .ok n
        ∧ NormalizeURL caseTable n = .ok u)
    ∧ (∀ ud ∈ s.dispatched, (∃ n, NormalizeURL caseTable startURL = .ok n
        ∧ NormalizeURL caseTable n = .ok ud.url) ∧ ud.depth = 0)
    ∧ s.dispatched.length ≤ 1
    ∧ s.results.length ≤ 1
    ∧ (∀ r ∈ s.results, r.Depth = 0)
    ∧ (∀ results err, Crawl.Returns caseTable cm config startURL results err →
        results.length ≤ 1 ∧ ∀ r ∈ results, r.Depth = 0) := by
  obtain ⟨s0, es, h0, hrun⟩ := hs
  obtain ⟨dinv, sinv⟩ := reachable_seedInv caseTable hD es h0 hrun
  have hseed := (start_seed caseTable h0).2
  refine ⟨sinv.noLinks, ?_, fun u hu => hseed u (sinv.pending u hu), ?_, ?_, ?_, ?_, ?_⟩
  · intro i o ud html hw
    have hok := dinv.workers _ (List.getElem?_mem hw)
    have h1 : ¬ ud.depth < config.MaxDepth := by
      have := hok.1; omega
    simp only [workerStep, hw, if_neg h1]
  · intro ud hud
    refine ⟨hseed _ (sinv.dispatched ud hud), ?_⟩
    have := dinv.dispatched ud hud
    have h1 := this.1; have h2 := this.2
    omega
  · have := sinv.sent; omega
  · have := sinv.tokens; omega
  · intro r hr
    have := dinv.results r hr
    have h1 := this.1; have h2 := this.2
    omega
  · intro results err hret
    unfold Crawl.Returns at hret
    rw [h0] at hret
    obtain ⟨es1, s1, hrun1, -, hres, -⟩ := hret
    obtain ⟨dinv1, sinv1⟩ := reachable_seedInv caseTable hD es1 h0 hrun1
    subst hres
    refine ⟨by have := sinv1.tokens; omega, fun r hr => ?_⟩
    have := dinv1.results r hr
    have h1 := this.1; have h2 := this.2
    omega

/-- The witness of C29: the sample execution with `MaxDepth = 0`; the seed is
handled and its link is not enqueued. -/
theorem Crawl_MaxDepth_zero_witness :
    sample.seedOnlyConfig.MaxDepth = 0
    ∧ Reachable id sample.cm sample.seedOnlyConfig sample.startURL sample.seedOnlyFinal
    ∧ sample.seedOnlyFinal.results.length = 1
    ∧ sample.seedOnlyFinal.q.urls = []
    ∧ sample.seedOnlyFinal.results.length ≤ 1
    ∧ (∀ r ∈ sample.seedOnlyFinal.results, r.Depth = 0) :=
  ⟨rfl, ⟨sample.start, sample.seedOnlyEvents, rfl, rfl⟩, rfl, rfl,
   (Crawl_MaxDepth_zero id sample.cm sample.seedOnlyConfig sample.startURL sample.seedOnlyFinal
      rfl ⟨sample.start, sample.seedOnlyEvents, rfl, rfl⟩).2.2.2.2.2.1,
   (Crawl_MaxDepth_zero id sample.cm sample.seedOnlyConfig sample.startURL sample.seedOnlyFinal
      rfl ⟨sample.start, sample.seedOnlyEvents, rfl, rfl⟩).2.2.2.2.2.2.1⟩

/-- C27 fails as stated: with one worker and `MaxDepth = 2`, the seed links to
`/a` and `/b`, which are enqueued with depth 1; the page `/a`, handled while `/b`
is still pending, links to `/b` again and the worker writes depth 2 for it; `/b`
is then sent, and reported, with depth 2. -/
theorem Crawl_depth_overwritten_while_queued :
    Reachable id sample.cm sample.deepConfig sample.startURL sample.seedDone
    ∧ sample.seedDone.depthMap.get (bytes "https://example.com/b") 0 = 1
    ∧ bytes "https://example.com/b" ∈ sample.seedDone.q.urls
    ∧ run id sample.cm sample.deepConfig sample.rediscoverEvents sample.seedDone
        = some sample.rediscovered
    ∧ sample.rediscovered.dispatched
        = [⟨bytes "https://example.com", 0⟩, ⟨bytes "https://example.com/a", 1⟩,
           ⟨bytes "https://example.com/b", 2⟩]
    ∧ sample.rediscovered.results.map (fun r => (r.URL, r.Depth))
        = [(bytes "https://example.com", 0), (bytes "https://example.com/a", 1),
           (bytes "https://example.com/b", 2)] :=
  ⟨⟨sample.start, sample.seedEvents, rfl, rfl⟩, rfl, by decide, rfl, rfl, rfl⟩

/-- C27 (amended). The depth of a URL is fixed when the dispatch goroutine reads
`depthMap` for it at line 271, just before the URL is marked visited and sent: a
URL is sent with one depth only, every result has the URL and the depth of a
message sent, no step changes a message sent or a result, and a worker that
finds a link visited at line 174 leaves `depthMap` and the frontier as they are.
(A link found again while it is still pending gets its depth written anew.) -/
theorem Crawl_depth_fixed_at_dispatch (cm : CrawlManager) (config : CrawlConfig)
    (startURL : GoString) (s : State) (hT : strings.CaseTableOK caseTable)
    (hs : Reachable caseTable cm config startURL s) :
    (∀ a ∈ s.dispatched, ∀ b ∈ s.dispatched, a.url = b.url → a.depth = b.depth)
    ∧ (∀ r ∈ s.results, (⟨r.URL, r.Depth⟩ : urlDepth) ∈ s.dispatched)
    ∧ (∀ e s1, step caseTable cm config e s = some s1 →
        s.dispatched <+: s1.dispatched ∧ s.results <+: s1.results)
    ∧ (∀ i o ud link todo n, s.workers[i]? = some (.linkVisited ud (link :: todo) n) →
        s.q.IsVisited caseTable link = true →
        workerStep caseTable config o i s = some (s.goto i (.linkVisited ud todo n)))
    ∧ (∀ o url, s.dispatcher = .depth url →
        dispatchStep caseTable cm config o s
          = some { s with dispatcher := .mark url (s.depthMap.get url 0) }) := by
  obtain ⟨s0, es, h0, hrun⟩ := hs
  have inv := run_dispatchInv caseTable hT es hrun (start_dispatchInv caseTable hT h0)
  have sinv := run_sentInv caseTable es hrun (start_sentInv caseTable h0)
  refine ⟨?_, sinv.results, fun e s1 h =>
    ⟨step_dispatched_grows caseTable h, step_results_grows caseTable h⟩, ?_, ?_⟩
  · intro a ha b hb hab
    by_cases hne : a = b
    · rw [hne]
    · exfalso
      have hsym : Symmetric (fun a b : urlDepth =>
          NormalizeURL caseTable a.url ≠ NormalizeURL caseTable b.url) :=
        fun x y hxy h => hxy h.symm
      exact inv.distinct.forall hsym ha hb hne (by rw [hab])
  · intro i o ud link todo n hw hv
    simp only [workerStep, hw, hv, if_true]
  · intro o url hd
    simp only [dispatchStep, hd]

/-- The witness of C27: the sample execution. -/
theorem Crawl_depth_fixed_at_dispatch_witness :
    strings.CaseTableOK id
    ∧ Reachable id sample.cm sample.config sample.startURL sample.final
    ∧ (∀ r ∈ sample.final.results, (⟨r.URL, r.Depth⟩ : urlDepth) ∈ sample.final.dispatched) :=
  ⟨CaseTableOK_id, ⟨sample.start, sample.events, rfl, rfl⟩,
   (Crawl_depth_fixed_at_dispatch id sample.cm sample.config sample.startURL sample.final
      CaseTableOK_id ⟨sample.start, sample.events, rfl, rfl⟩).2.1⟩

/-- C28. With one worker and `MaxDepth = 2`, the seed `http://example.com` has
one anchor, which resolves to `http://example.com/a//`.  `ExtractLinks` returns
`http://example.com/a/`, and the worker writes depth 1 under this key; `Add`
normalises the link once more and stores `http://example.com/a`; the dispatch
goroutine pops that, finds no depth for it and sends it with depth 0, and its
result is reported with depth 0. -/
theorem Crawl_discovered_link_at_depth_zero :
    Reachable id sample.cm sample.deepConfig sample.plainURL sample.slashFinal
    ∧ ExtractLinks id sample.plainURL [bytes "http://example.com/a//"] []
        = [bytes "http://example.com/a/"]
    ∧ sample.slashFinal.depthMap.get (bytes "http://example.com/a/") 0 = 1
    ∧ sample.slashFinal.depthMap.get (bytes "http://example.com/a") 0 = 0
    ∧ sample.slashFinal.dispatched
        = [⟨bytes "http://example.com", 0⟩, ⟨bytes "http://example.com/a", 0⟩]
    ∧ sample.slashFinal.results.map (fun r => (r.URL, r.Depth))
        = [(bytes "http://example.com", 0), (bytes "http://example.com/a", 0)] :=
  ⟨⟨sample.plainStart, sample.slashEvents, rfl, rfl⟩, rfl, rfl, rfl, rfl, rfl⟩

end crawler

namespace strings

/-! ## `strings.ReplaceAll` on a run of line feeds -/

theorem Index_run_three (k : Nat) :
    Index (List.replicate (k + 3) 10) [10, 10, 10] = some 0 := by
  simp [List.replicate_succ, Index, HasPrefix]

theorem Index_run_short : ∀ k, k < 3 → Index (List.replicate k 10) [10, 10, 10] = none := by
  intro k hk
  interval_cases k <;> decide

theorem countLoop_run : ∀ (n fuel : Nat), n / 3 < fuel →
    countLoop [10, 10, 10] fuel (List.replicate n 10) = n / 3 := by
  intro n
  induction n using Nat.strong_induction_on with
  | _ n ih =>
    intro fuel hf
    cases fuel with
    | zero => omega
    | succ fuel =>
      by_cases hn : n < 3
      · rw [countLoop, Index_run_short n hn]
        simp only
        omega
      · obtain ⟨k, rfl⟩ : ∃ k, n = k + 3 := ⟨n - 3, by omega⟩
        rw [countLoop, Index_run_three]
        simp only [List.length_cons, List.length_nil, Nat.zero_add, List.drop_replicate,
          Nat.add_sub_cancel]
        rw [ih k (by omega) fuel (by omega)]
        omega

theorem replaceLoop_run : ∀ (m n : Nat), 3 * m ≤ n →
    replaceLoop [10, 10, 10] [10, 10] m true (List.replicate n 10)
        = List.replicate (n - m) 10
      ∧ replaceLoop [10, 10, 10] [10, 10] m false (List.replicate n 10)
        = List.replicate (n - m) 10 := by
  intro m
  induction m with
  | zero => intro n _; simp [replaceLoop]
  | succ m ih =>
    intro n hn
    obtain ⟨k, rfl⟩ : ∃ k, n = k + 3 := ⟨n - 3, by omega⟩
    have h1 := (ih k (by omega)).2
    have e : k + 3 - (m + 1) = (k - m) + 2 := by omega
    have hne : ([10, 10, 10] : GoString) ≠ [] := by decide
    simp only [replaceLoop, if_neg hne, Index_run_three, Option.getD_some, List.take_zero,
      List.nil_append, List.length_cons, List.length_nil, Nat.zero_add, List.drop_replicate,
      Nat.add_sub_cancel, h1, e, and_self]
    simp [List.replicate_succ]

/-- One pass of `ReplaceAll` over a run of `n` line feeds leaves `n - n / 3` of
them: each full group of three becomes two. -/
theorem ReplaceAll_run (n : Nat) :
    ReplaceAll (List.replicate n 10) [10, 10, 10] [10, 10] = List.replicate (n - n / 3) 10 := by
  unfold ReplaceAll Replace
  have h1 : ¬ (([10, 10, 10] : GoString) = [10, 10] ∨ (-1 : Int) = 0) := by decide
  have hne : ([10, 10, 10] : GoString) ≠ [] := by decide
  rw [if_neg h1]
  simp only [Count, if_neg hne, List.length_replicate]
  rw [countLoop_run n (n + 1) (by omega)]
  by_cases h0 : n / 3 = 0
  · rw [if_pos h0, h0]; rfl
  · rw [if_neg h0]
    have : ((-1 : Int) < 0 ∨ ((n / 3 : Nat) : Int) < -1) := Or.inl (by decide)
    rw [if_pos this]
    exact (replaceLoop_run (n / 3) n (by omega)).1

end strings

namespace crawler

open html cascadia goquery

/-- C24. For the page `<body><h1>Title</h1>`, four line feeds, `<p>Text</p></body>`
the text returned is `Title`, three line feeds, `Text`: a run of three line feeds
is left.  `ReplaceAll` goes over the text once, from the left, and a run of `n`
line feeds keeps `n - n / 3` of them, which is 2 for a run of 3 only (and 3 for
4, 4 for 5 and 6). -/
theorem ExtractText_leaves_three_newlines :
    ExtractText.text (sample.gapPage 4) = bytes "Title\n\n\nText"
    ∧ strings.Contains (ExtractText.text (sample.gapPage 4)) (bytes "\n\n\n") = true
    ∧ ExtractText.text (sample.gapPage 3) = bytes "Title\n\nText"
    ∧ (∀ n, strings.ReplaceAll (List.replicate n 10) (bytes "\n\n\n") (bytes "\n\n")
        = List.replicate (n - n / 3) 10) :=
  ⟨by decide, by decide, by decide, strings.ReplaceAll_run⟩

end crawler

namespace crawler

open float64

/-! ## `Render` -/

theorem Render_fn_none_iff (caseTable : Nat → Nat) (renderPage : Nat → Except GoError GoString)
    (k : Nat) :
    Render.fn caseTable renderPage k = none
      ↔ ∀ e, renderPage k = .error e → IsRetryableError caseTable (some e) = false := by
  unfold Render.fn
  cases h : renderPage k with
  | ok html => simp
  | error e =>
    by_cases hr : IsRetryableError caseTable (some e) = true
    · simp [hr]
    · simp [hr]

theorem Render_fn_some (caseTable : Nat → Nat) (renderPage : Nat → Except GoError GoString)
    (k : Nat) (h : Render.fn caseTable renderPage k ≠ none) :
    ∃ e, renderPage k = .error e ∧ IsRetryableError caseTable (some e) = true
      ∧ Render.fn caseTable renderPage k = some e := by
  unfold Render.fn at h ⊢
  cases hk : renderPage k with
  | ok html => simp [hk] at h
  | error e =>
    by_cases hr : IsRetryableError caseTable (some e) = true
    · exact ⟨e, rfl, hr, by simp [hr]⟩
    · simp [hk, hr] at h

/-- `Render` when `renderPage` first returns something that is not a retryable
error on invocation `k + 1`, one of the four allowed. -/
theorem Render_of_stop (caseTable : Nat → Nat) (outOfRange : F64 → Int)
    (renderPage : Nat → Except GoError GoString) {k : Nat} (hk : k ≤ 3)
    (hj : ∀ j < k, Render.fn caseTable renderPage j ≠ none)
    (h0 : Render.fn caseTable renderPage k = none) :
    Render caseTable outOfRange renderPage
      = some (match renderPage k with
          | .error lastErr =>
            { html := [], err := some (.op lastErr), calls := k + 1,
              sleeps := List.iterate (nextDelay outOfRange DefaultRetryConfig)
                DefaultRetryConfig.InitialDelay k }
          | .ok html =>
            { html := html, err := none, calls := k + 1,
              sleeps := List.iterate (nextDelay outOfRange DefaultRetryConfig)
                DefaultRetryConfig.InitialDelay k }) := by
  unfold Render
  rw [Retry_success outOfRange (fun _ => false) (Render.fn caseTable renderPage)
    DefaultRetryConfig (fun _ => rfl) (show (k : Int) ≤ DefaultRetryConfig.MaxRetries by
      show (k : Int) ≤ 3; omega) hj h0]
  simp only [Nat.add_one_ne_zero, if_false, Nat.add_sub_cancel]
  cases renderPage k <;> rfl

/-- `Render` when each of the four invocations of `renderPage` returns a
retryable error. -/
theorem Render_of_exhausted (caseTable : Nat → Nat) (outOfRange : F64 → Int)
    (renderPage : Nat → Except GoError GoString)
    (hj : ∀ j ≤ 3, Render.fn caseTable renderPage j ≠ none) :
    ∃ e, renderPage 3 = .error e ∧ IsRetryableError caseTable (some e) = true
      ∧ Render caseTable outOfRange renderPage
        = some { html := [], err := some (.op e), calls := 4,
                 sleeps := List.iterate (nextDelay outOfRange DefaultRetryConfig)
                   DefaultRetryConfig.InitialDelay 3 } := by
  obtain ⟨e, he, hr, hf⟩ := Render_fn_some caseTable renderPage 3 (hj 3 (le_refl _))
  refine ⟨e, he, hr, ?_⟩
  obtain ⟨e1, he1, hR⟩ := Retry_failure outOfRange (fun _ => false)
    (Render.fn caseTable renderPage) DefaultRetryConfig (fun _ => rfl) (by decide)
    (fun j hjm => hj j (by
      have : (j : Int) ≤ 3 := hjm
      omega))
  have h3 : DefaultRetryConfig.MaxRetries.toNat = 3 := rfl
  rw [h3] at he1 hR
  rw [hf] at he1
  simp only [Option.some.injEq] at he1
  subst he1
  unfold Render
  rw [hR]

/-- C31. `Render` returns, after one to four invocations of `renderPage`, with one
backoff sleep between two invocations and none after the last.  Every invocation
but the last returned a retryable error.  If the last one returned the HTML,
this HTML is returned with a nil error; if it returned an error, the empty string
and this error are returned, and when this error is retryable the invocation was
the fourth. -/
theorem Render_attempts (caseTable : Nat → Nat) (outOfRange : F64 → Int)
    (renderPage : Nat → Except GoError GoString) :
    ∃ r, Render caseTable outOfRange renderPage = some r
      ∧ 1 ≤ r.calls ∧ r.calls ≤ 4
      ∧ r.sleeps = List.iterate (nextDelay outOfRange DefaultRetryConfig)
          DefaultRetryConfig.InitialDelay (r.calls - 1)
      ∧ r.sleeps.length = r.calls - 1
      ∧ (∀ j < r.calls - 1, ∃ e, renderPage j = .error e
          ∧ IsRetryableError caseTable (some e) = true)
      ∧ (∀ html, renderPage (r.calls - 1) = .ok html → r.html = html ∧ r.err = none)
      ∧ (∀ e, renderPage (r.calls - 1) = .error e →
          r.html = [] ∧ r.err = some (.op e)
          ∧ (IsRetryableError caseTable (some e) = true → r.calls = 4)) := by
  have stop : ∀ k, k ≤ 3 → (∀ j < k, Render.fn caseTable renderPage j ≠ none) →
      Render.fn caseTable renderPage k = none → _ := fun k hk hj h0 =>
    Render_of_stop caseTable outOfRange renderPage hk hj h0
  have fin : ∀ k, k ≤ 3 → (∀ j < k, Render.fn caseTable renderPage j ≠ none) →
      Render.fn caseTable renderPage k = none →
      ∃ r, Render caseTable outOfRange renderPage = some r
      ∧ 1 ≤ r.calls ∧ r.calls ≤ 4
      ∧ r.sleeps = List.iterate (nextDelay outOfRange DefaultRetryConfig)
          DefaultRetryConfig.InitialDelay (r.calls - 1)
      ∧ r.sleeps.length = r.calls - 1
      ∧ (∀ j < r.calls - 1, ∃ e, renderPage j = .error e
          ∧ IsRetryableError caseTable (some e) = true)
      ∧ (∀ html, renderPage (r.calls - 1) = .ok html → r.html = html ∧ r.err = none)
      ∧ (∀ e, renderPage (r.calls - 1) = .error e →
          r.html = [] ∧ r.err = some (.op e)
          ∧ (IsRetryableError caseTable (some e) = true → r.calls = 4)) := by
    intro k hk hj h0
    have hR := stop k hk hj h0
    have hnone := (Render_fn_none_iff caseTable renderPage k).1 h0
    cases hp : renderPage k with
    | ok html =>
      rw [hp] at hR
      refine ⟨_, hR, by simp, by simp; omega, by simp, by simp [List.length_iterate], ?_, ?_, ?_⟩
      · intro j hjk
        simp only [Nat.add_sub_cancel] at hjk
        obtain ⟨e, he, hr, -⟩ := Render_fn_some caseTable renderPage j (hj j hjk)
        exact ⟨e, he, hr⟩
      · intro html1 h1
        simp only [Nat.add_sub_cancel] at h1
        rw [hp] at h1
        simp only [Except.ok.injEq] at h1
        exact ⟨h1, rfl⟩
      · intro e h1
        simp only [Nat.add_sub_cancel] at h1
        rw [hp] at h1
        exact absurd h1 (by simp)
    | error e0 =>
      rw [hp] at hR
      refine ⟨_, hR, by simp, by simp; omega, by simp, by simp [List.length_iterate], ?_, ?_, ?_⟩
      · intro j hjk
        simp only [Nat.add_sub_cancel] at hjk
        obtain ⟨e, he, hr, -⟩ := Render_fn_some caseTable renderPage j (hj j hjk)
        exact ⟨e, he, hr⟩
      · intro html1 h1
        simp only [Nat.add_sub_cancel] at h1
        rw [hp] at h1
        exact absurd h1 (by simp)
      · intro e h1
        simp only [Nat.add_sub_cancel] at h1
        rw [hp] at h1
        simp only [Except.error.injEq] at h1
        subst h1
        refine ⟨rfl, rfl, fun hr => ?_⟩
        rw [hnone e0 hp] at hr
        exact absurd hr (by simp)
  by_cases h0 : Render.fn caseTable renderPage 0 = none
  · exact fin 0 (by omega) (fun j hj => absurd hj (by omega)) h0
  by_cases h1 : Render.fn caseTable renderPage 1 = none
  · exact fin 1 (by omega) (fun j hj => by
      obtain rfl : j = 0 := by omega
      exact h0) h1
  by_cases h2 : Render.fn caseTable renderPage 2 = none
  · exact fin 2 (by omega) (fun j hj => by
      rcases (show j = 0 ∨ j = 1 by omega) with rfl | rfl
      · exact h0
      · exact h1) h2
  by_cases h3 : Render.fn caseTable renderPage 3 = none
  · exact fin 3 (by omega) (fun j hj => by
      rcases (show j = 0 ∨ j = 1 ∨ j = 2 by omega) with rfl | rfl | rfl
      · exact h0
      · exact h1
      · exact h2) h3
  have hall : ∀ j ≤ 3, Render.fn caseTable renderPage j ≠ none := by
    intro j hj
    rcases (show j = 0 ∨ j = 1 ∨ j = 2 ∨ j = 3 by omega) with rfl | rfl | rfl | rfl
    · exact h0
    · exact h1
    · exact h2
    · exact h3
  obtain ⟨e, he, hr, hR⟩ := Render_of_exhausted caseTable outOfRange renderPage hall
  refine ⟨_, hR, by simp, by simp, by simp, by simp [List.length_iterate], ?_, ?_, ?_⟩
  · intro j hjk
    simp only [Nat.add_one_sub_one] at hjk
    obtain ⟨e1, he1, hr1, -⟩ := Render_fn_some caseTable renderPage j (hall j (by omega))
    exact ⟨e1, he1, hr1⟩
  · intro html h1
    simp only [Nat.add_one_sub_one] at h1
    rw [he] at h1
    exact absurd h1 (by simp)
  · intro e1 h1
    simp only [Nat.add_one_sub_one] at h1
    rw [he] at h1
    simp only [Except.error.injEq] at h1
    subst h1
    exact ⟨rfl, rfl, fun _ => rfl⟩

end crawler

namespace crawler

open queue models utils

variable (caseTable : Nat → Nat)

/-! ## The crawl: the counters of the dispatch loop -/

theorem PollInv_of_same {log : List Poll} {s s1 : State} (inv : PollInv log s)
    (h1 : s1.emptyCount = s.emptyCount) (h2 : s1.stableCount = s.stableCount)
    (h3 : ∀ c qs, s1.dispatcher = .visited1 c qs → qs = 0) : PollInv log s1 := by
  obtain ⟨heq, ⟨k, pre, hk, hlog⟩, -⟩ := inv
  exact ⟨by rw [h1, h2]; exact heq, ⟨k, pre, by rw [h1]; exact hk, hlog⟩, h3⟩

theorem PollInv_reset (log : List Poll) {s1 : State}
    (h1 : s1.emptyCount = 0) (h2 : s1.stableCount = 0)
    (h3 : ∀ c qs, s1.dispatcher = .visited1 c qs → qs = 0) : PollInv log s1 :=
  ⟨by rw [h1, h2], ⟨0, log, by rw [h1]; rfl, by simp⟩, h3⟩

theorem workerStep_counters {config : CrawlConfig} {o : Oracle} {i : Nat}
    {s s1 : State} (h : workerStep caseTable config o i s = some s1) :
    s1.emptyCount = s.emptyCount ∧ s1.stableCount = s.stableCount
      ∧ s1.dispatcher = s.dispatcher ∧ s1.lastQueueSize = s.lastQueueSize := by
  cases hpc : s.workers[i]? with
  | none => simp [workerStep, hpc] at h
  | some pc =>
    cases pc <;> simp only [workerStep, hpc] at h <;> (repeat' split at h) <;>
      (try simp only [Option.some.injEq, reduceCtorEq] at h) <;> (try subst h)
    all_goals exact ⟨rfl, rfl, rfl, rfl⟩

theorem dispatchStep_pollInv {cm : CrawlManager} {config : CrawlConfig} {o : Oracle}
    {log : List Poll} {s s1 : State}
    (h : dispatchStep caseTable cm config o s = some s1) (inv : PollInv log s) :
    PollInv (log ++ (pollOf s).toList) s1 := by
  have hsize : (0 : Int) ≤ s.q.Size := by unfold Queue.Size; omega
  cases hpc : s.dispatcher with
  | top =>
    have hp : pollOf s = none := by simp [pollOf, hpc]
    rw [hp, Option.toList_none, List.append_nil]
    simp only [dispatchStep, hpc] at h
    split_ifs at h <;> simp only [Option.some.injEq] at h <;> subst h
    all_goals exact PollInv_of_same inv rfl rfl (by intro c qs hd; simp [State.dispatchReturn] at hd)
  | pop c =>
    simp only [dispatchStep, hpc] at h
    split at h
    · rename_i hpop
      have hp : pollOf s = none := by simp [pollOf, hpc, hpop]
      rw [hp, Option.toList_none, List.append_nil]
      simp only [Option.some.injEq] at h; subst h
      exact PollInv_of_same inv rfl rfl (by intro c qs hd; simp at hd)
    · simp only [Option.some.injEq] at h; subst h
      exact PollInv_reset _ rfl rfl (by intro c qs hd; simp at hd)
  | empty c =>
    obtain ⟨heq, ⟨k, pre, hk, hlog⟩, -⟩ := inv
    have hp : pollOf s = some (.empty s.q.Size (decide (s.q.Size = s.lastQueueSize))) := by
      simp [pollOf, hpc]
    rw [hp]
    simp only [dispatchStep, hpc] at h
    by_cases hst : s.q.Size = s.lastQueueSize
    · simp only [hst, if_true] at h
      by_cases h0 : s.lastQueueSize = 0
      · simp only [h0, if_true, Option.some.injEq] at h
        subst h
        refine ⟨by simp only; rw [heq], ⟨k + 1, pre, by simp only; push_cast; rw [hk], ?_⟩,
          by intro c1 qs hd; simp only [DispatchPC.visited1.injEq] at hd; exact hd.2.symm⟩
        rw [hlog, hst, h0, List.replicate_succ']
        simp
      · rw [if_neg h0] at h
        have hpos : s.lastQueueSize > 0 := by rw [← hst]; rw [← hst] at h0; omega
        rw [if_pos hpos] at h
        simp only [Option.some.injEq] at h; subst h
        exact PollInv_reset _ rfl rfl (by intro c qs hd; simp at hd)
    · simp only [hst, if_false] at h
      split_ifs at h <;> simp only [Option.some.injEq] at h <;> subst h
      · exact PollInv_reset _ rfl rfl
          (by intro c1 qs hd; simp only [DispatchPC.visited1.injEq] at hd; rw [← hd.2]; assumption)
      · exact PollInv_reset _ rfl rfl (by intro c qs hd; simp at hd)
      · exact PollInv_reset _ rfl rfl (by intro c qs hd; simp at hd)
  | visited1 c qs =>
    have hp : pollOf s = none := by simp [pollOf, hpc]
    rw [hp, Option.toList_none, List.append_nil]
    simp only [dispatchStep, hpc] at h
    split_ifs at h <;> simp only [Option.some.injEq] at h <;> subst h
    all_goals exact PollInv_of_same inv rfl rfl (by intro c qs hd; simp [State.dispatchReturn] at hd)
  | visited2 c qs =>
    have hp : pollOf s = none := by simp [pollOf, hpc]
    rw [hp, Option.toList_none, List.append_nil]
    simp only [dispatchStep, hpc] at h
    split_ifs at h <;> simp only [Option.some.injEq] at h <;> subst h
    · exact PollInv_reset _ rfl rfl (by intro c qs hd; simp at hd)
    · exact PollInv_of_same inv rfl rfl (by intro c qs hd; simp at hd)
  | size url =>
    have hp : pollOf s = none := by simp [pollOf, hpc]
    rw [hp, Option.toList_none, List.append_nil]
    simp only [dispatchStep, hpc, Option.some.injEq] at h; subst h
    exact PollInv_of_same inv rfl rfl (by intro c qs hd; simp at hd)
  | isVisited url =>
    have hp : pollOf s = none := by simp [pollOf, hpc]
    rw [hp, Option.toList_none, List.append_nil]
    simp only [dispatchStep, hpc] at h
    split_ifs at h <;> simp only [Option.some.injEq] at h <;> subst h
    all_goals exact PollInv_of_same inv rfl rfl (by intro c qs hd; simp at hd)
  | depth url =>
    have hp : pollOf s = none := by simp [pollOf, hpc]
    rw [hp, Option.toList_none, List.append_nil]
    simp only [dispatchStep, hpc, Option.some.injEq] at h; subst h
    exact PollInv_of_same inv rfl rfl (by intro c qs hd; simp at hd)
  | mark url d =>
    have hp : pollOf s = none := by simp [pollOf, hpc]
    rw [hp, Option.toList_none, List.append_nil]
    simp only [dispatchStep, hpc, Option.some.injEq] at h; subst h
    exact PollInv_of_same inv rfl rfl (by intro c qs hd; simp at hd)
  | send url d =>
    have hp : pollOf s = none := by simp [pollOf, hpc]
    rw [hp, Option.toList_none, List.append_nil]
    simp only [dispatchStep, hpc] at h
    split_ifs at h <;> simp only [Option.some.injEq, reduceCtorEq] at h <;> subst h
    all_goals exact PollInv_of_same inv rfl rfl (by intro c qs hd; simp [State.dispatchReturn] at hd)
  | done => simp [dispatchStep, hpc] at h

theorem run_pollInv {cm : CrawlManager} {config : CrawlConfig} (es : List Event) :
    ∀ {s s1 : State} {log : List Poll}, run caseTable cm config es s = some s1 →
      PollInv log s → PollInv (log ++ pollLog caseTable cm config es s) s1 := by
  induction es with
  | nil =>
    intro s s1 log h inv
    simp only [run, Option.some.injEq] at h; subst h
    simpa [pollLog] using inv
  | cons e es ih =>
    intro s s1 log h inv
    simp only [run] at h
    cases he : step caseTable cm config e s with
    | none => simp [he] at h
    | some s2 =>
      rw [he] at h
      simp only [pollLog, he]
      rw [← List.append_assoc]
      refine ih h ?_
      cases e with
      | cancel =>
        simp only [step, Option.some.injEq] at he; subst he
        rw [List.append_nil]
        exact PollInv_of_same inv rfl rfl inv.size
      | work i o =>
        obtain ⟨h1, h2, h3, -⟩ := workerStep_counters caseTable he
        rw [List.append_nil]
        exact PollInv_of_same inv h1 h2 (by rw [h3]; exact inv.size)
      | dispatch o => exact dispatchStep_pollInv caseTable he inv

theorem start_pollInv {cm : CrawlManager} {startURL : GoString} {s0 : State}
    (h : Crawl.start caseTable cm startURL = .ok s0) : PollInv [] s0 := by
  unfold Crawl.start at h
  split at h
  · simp at h
  · simp only [Except.ok.injEq] at h; subst h
    exact PollInv_reset _ rfl rfl (by intro c qs hd; simp at hd)

/-- The counters and the record of the polls in every state of an execution. -/
theorem reachable_pollInv {cm : CrawlManager} {config : CrawlConfig} {startURL : GoString}
    {s0 s : State} (es : List Event) (h0 : Crawl.start caseTable cm startURL = .ok s0)
    (hrun : run caseTable cm config es s0 = some s) :
    PollInv (pollLog caseTable cm config es s0) s := by
  simpa using run_pollInv caseTable es hrun (start_pollInv caseTable h0)

end crawler

namespace crawler

open queue models utils

variable (caseTable : Nat → Nat)

set_option maxRecDepth 100000

/-- The steps on which the dispatch goroutine returns. -/
theorem dispatchStep_done {cm : CrawlManager} {config : CrawlConfig} {o : Oracle}
    {s s1 : State} (h : dispatchStep caseTable cm config o s = some s1)
    (hd : s1.dispatcher = .done) :
    s.cancelled = true ∨ (s.results.length : Int) ≥ config.MaxPages
      ∨ ∃ c qs, s.dispatcher = .visited1 c qs ∧ s.q.VisitedCount > 0
          ∧ s.emptyCount ≥ 50 ∧ s.stableCount ≥ 20 := by
  cases hpc : s.dispatcher <;> simp only [dispatchStep, hpc] at h <;>
    (repeat' split at h) <;>
    (try simp only [Option.some.injEq, reduceCtorEq] at h) <;> (try subst h)
  all_goals (try (simp only [reduceCtorEq] at hd))
  all_goals first
    | (left; assumption)
    | (right; left; assumption)
    | (right; right; exact ⟨_, _, rfl, by assumption, (by assumption : _ ∧ _).1,
        (by assumption : _ ∧ _).2⟩)
    | (left; exact (by assumption : _ ∧ _).1)

/-- C32. In every state of every execution, a step on which the dispatch
goroutine returns is taken with the context cancelled, or with `MaxPages`
results or more, or at the test of line 238 with the size 0 read from the
queue, a visited URL, `emptyCount >= 50` and `stableCount >= 20`, and then the
last 50 polls of the goroutine have each found the queue empty with the size 0
it had before.  A `Pop` that finds the queue empty leads to the counting of
line 221, not to the return; a `Pop` that gives a URL, and a `Size` that
differs from the size seen last, set both counters to 0. -/
theorem dispatch_stops_when (cm : CrawlManager) (config : CrawlConfig) (startURL : GoString)
    (s0 s : State) (es : List Event) (h0 : Crawl.start caseTable cm startURL = .ok s0)
    (hrun : run caseTable cm config es s0 = some s) :
    (∀ e s1, step caseTable cm config e s = some s1 → s.dispatcher ≠ .done →
      s1.dispatcher = .done →
      s.cancelled = true ∨ (s.results.length : Int) ≥ config.MaxPages
      ∨ (∃ c, s.dispatcher = .visited1 c 0 ∧ s.q.VisitedCount > 0
          ∧ s.emptyCount ≥ 50 ∧ s.stableCount ≥ 20
          ∧ ∃ pre, pollLog caseTable cm config es s0
              = pre ++ List.replicate 50 (.empty 0 true)))
    ∧ (∀ o s1 c, s.dispatcher = .pop c → s.q.Pop.2.2 = false →
        dispatchStep caseTable cm config o s = some s1 → s1.dispatcher = .empty c)
    ∧ (∀ o s1 c, s.dispatcher = .pop c → s.q.Pop.2.2 = true →
        dispatchStep caseTable cm config o s = some s1 →
        s1.emptyCount = 0 ∧ s1.stableCount = 0)
    ∧ (∀ o s1 c, s.dispatcher = .empty c → s.q.Size ≠ s.lastQueueSize →
        dispatchStep caseTable cm config o s = some s1 →
        s1.emptyCount = 0 ∧ s1.stableCount = 0) := by
  have inv := reachable_pollInv caseTable es h0 hrun
  refine ⟨?_, ?_, ?_, ?_⟩
  · intro e s1 he hnd hd
    cases e with
    | cancel =>
      simp only [step, Option.some.injEq] at he; subst he
      exact absurd hd hnd
    | work i o =>
      obtain ⟨-, -, h3, -⟩ := workerStep_counters caseTable he
      rw [h3] at hd
      exact absurd hd hnd
    | dispatch o =>
      rcases dispatchStep_done caseTable he hd with h | h | ⟨c, qs, hpc, hv, he50, hs20⟩
      · exact Or.inl h
      · exact Or.inr (Or.inl h)
      · right; right
        obtain rfl := inv.size c qs hpc
        obtain ⟨k, pre, hk, hlog⟩ := inv.tail
        refine ⟨c, hpc, hv, he50, hs20, pre ++ List.replicate (k - 50) (.empty 0 true), ?_⟩
        have hk50 : 50 ≤ k := by omega
        rw [hlog, List.append_assoc, ← List.replicate_add]
        congr 2
        omega
  · intro o s1 c hpc hpop h
    simp only [dispatchStep, hpc] at h
    split at h
    · simp only [Option.some.injEq] at h; subst h; rfl
    · rename_i heq
      rw [heq] at hpop
      exact absurd hpop (by simp)
  · intro o s1 c hpc hpop h
    simp only [dispatchStep, hpc] at h
    split at h
    · rename_i heq
      rw [heq] at hpop
      exact absurd hpop (by simp)
    · simp only [Option.some.injEq] at h; subst h; exact ⟨rfl, rfl⟩
  · intro o s1 c hpc hne h
    simp only [dispatchStep, hpc, hne, if_false] at h
    split_ifs at h <;> simp only [Option.some.injEq] at h <;> subst h <;> exact ⟨rfl, rfl⟩

/-- The witness of C32: after the seed, the dispatch goroutine finds the queue
empty fifty times; its next step is the return, and the last 50 polls found the
queue empty. -/
theorem dispatch_stops_when_witness :
    Crawl.start id sample.cm sample.startURL = .ok sample.start
    ∧ run id sample.cm sample.idleConfig sample.idleEvents sample.start = some sample.idle
    ∧ (step id sample.cm sample.idleConfig (.dispatch sample.oracle) sample.idle
        = some sample.idle.dispatchReturn)
    ∧ (sample.idle.cancelled = true
      ∨ (sample.idle.results.length : Int) ≥ sample.idleConfig.MaxPages
      ∨ (∃ c, sample.idle.dispatcher = .visited1 c 0 ∧ sample.idle.q.VisitedCount > 0
          ∧ sample.idle.emptyCount ≥ 50 ∧ sample.idle.stableCount ≥ 20
          ∧ ∃ pre, pollLog id sample.cm sample.idleConfig sample.idleEvents sample.start
              = pre ++ List.replicate 50 (.empty 0 true))) :=
  ⟨rfl, rfl, rfl,
   (dispatch_stops_when id sample.cm sample.idleConfig sample.startURL sample.start sample.idle
      sample.idleEvents rfl rfl).1 (.dispatch sample.oracle) sample.idle.dispatchReturn rfl
      (by decide) rfl⟩

/-- C33. In every state of every execution the counters `emptyCount` and
`stableCount` of the dispatch loop are equal (the model counts and compares
within one step, lines 221 to 232), so that at the test of line 238 the
condition `emptyCount >= 50 && stableCount >= 20` holds exactly when
`emptyCount >= 50` does, and the goroutine returns there exactly in this case. -/
theorem dispatch_counters_equal (cm : CrawlManager) (config : CrawlConfig)
    (startURL : GoString) (s : State) (hs : Reachable caseTable cm config startURL s) :
    s.emptyCount = s.stableCount
    ∧ ((s.emptyCount ≥ 50 ∧ s.stableCount ≥ 20) ↔ s.emptyCount ≥ 50)
    ∧ (∀ o c qs, s.dispatcher = .visited1 c qs → s.q.VisitedCount > 0 →
        (dispatchStep caseTable cm config o s = some s.dispatchReturn ↔ s.emptyCount ≥ 50)) := by
  obtain ⟨s0, es, h0, hrun⟩ := hs
  have inv := reachable_pollInv caseTable es h0 hrun
  have heq := inv.equal
  refine ⟨heq, ⟨fun h => h.1, fun h => ⟨h, by omega⟩⟩, ?_⟩
  intro o c qs hpc hv
  simp only [dispatchStep, hpc, hv, if_true]
  by_cases h50 : s.emptyCount ≥ 50
  · have : s.emptyCount ≥ 50 ∧ s.stableCount ≥ 20 := ⟨h50, by omega⟩
    simp [this, h50]
  · have : ¬ (s.emptyCount ≥ 50 ∧ s.stableCount ≥ 20) := fun h => h50 h.1
    rw [if_neg this]
    simp only [Option.some.injEq, h50, iff_false]
    intro h
    have hd := congrArg State.dispatcher h
    simp [State.dispatchReturn, hpc] at hd

/-- The witness of C33: the state in which the dispatch goroutine has found the
queue empty fifty times; both counters are 50. -/
theorem dispatch_counters_equal_witness :
    Reachable id sample.cm sample.idleConfig sample.startURL sample.idle
    ∧ sample.idle.emptyCount = 50
    ∧ sample.idle.emptyCount = sample.idle.stableCount :=
  ⟨⟨sample.start, sample.idleEvents, rfl, rfl⟩, rfl,
   (dispatch_counters_equal id sample.cm sample.idleConfig sample.startURL sample.idle
      ⟨sample.start, sample.idleEvents, rfl, rfl⟩).1⟩

end crawler

/-! ## The command line -/

namespace crawler

open utils

/-- `ExtractLinks` on a page with one href. -/
theorem ExtractLinks_single (caseTable : Nat → Nat) (baseURL a : GoString)
    (allowedDomains : List GoString) :
    ExtractLinks caseTable baseURL [a] allowedDomains
      = (acceptedLink caseTable baseURL allowedDomains a).toList := by
  simp only [ExtractLinks, List.foldl, extractLink_eq]
  cases acceptedLink caseTable baseURL allowedDomains a with
  | none => rfl
  | some x => simp [GoMap.get, List.lookup]

end crawler

namespace cli

open utils crawler

set_option maxRecDepth 100000

/-- C34. For the command line `-url https://Example.com` the start URL is
normalised to `https://example.com` while `AllowedDomains` is the host as typed,
`Example.com`.  The link `https://example.com/about`, on the host of the
normalised start URL, does not pass the domain filter of `ExtractLinks`:
`IsSameDomain` compares `example.com` with `Example.com`.  With the host typed in
lower case the same link passes. -/
theorem allowedDomains_keeps_letter_case :
    (∀ caseTable, NormalizeURL caseTable (bytes "https://Example.com")
      = .ok (bytes "https://example.com"))
    ∧ allowedDomains (bytes "https://Example.com") = .ok [bytes "Example.com"]
    ∧ (∃ u1 u2, url.Parse (bytes "https://example.com/about") = .ok u1
        ∧ url.Parse (bytes "https://example.com") = .ok u2 ∧ u1.Host = u2.Host)
    ∧ IsSameDomain (bytes "https://example.com/about") (bytes "https://Example.com") = false
    ∧ (∀ caseTable, ExtractLinks caseTable (bytes "https://example.com")
        [bytes "https://example.com/about"] [bytes "Example.com"] = [])
    ∧ allowedDomains (bytes "https://example.com") = .ok [bytes "example.com"]
    ∧ (∀ caseTable, ExtractLinks caseTable (bytes "https://example.com")
        [bytes "https://example.com/about"] [bytes "example.com"]
        = [bytes "https://example.com/about"]) := by
  refine ⟨fun _ => rfl, rfl, ⟨_, _, rfl, rfl, rfl⟩, by decide, fun caseTable => ?_, rfl,
    fun caseTable => ?_⟩
  · rw [ExtractLinks_single, acceptedLink_of_not caseTable _ _
      (show NormalizeURL caseTable (bytes "https://example.com/about")
        = .ok (bytes "https://example.com/about") from rfl) (by decide)]
    rfl
  · rw [ExtractLinks_single, acceptedLink_of_ok caseTable _ _
      (show NormalizeURL caseTable (bytes "https://example.com/about")
        = .ok (bytes "https://example.com/about") from rfl) (by decide)]
    rfl

/-- C35. The canonical URLs `https://example.com/a/b` and
`https://example.com/a_b`, first and second in a result list, get the one name
`example_com_a_b.md`, and so do two URLs that differ in the query only, and the
URLs `https://example.com` and `https://example.com/`: the index is used only
when the URL does not parse or has neither host nor path.  In directory mode the
second page is written over the first. -/
theorem sanitizeFilename_same_name :
    sanitizeFilename (bytes "https://example.com/a/b") 0 = bytes "example_com_a_b.md"
    ∧ sanitizeFilename (bytes "https://example.com/a_b") 1 = bytes "example_com_a_b.md"
    ∧ bytes "https://example.com/a/b" ≠ bytes "https://example.com/a_b"
    ∧ (∀ caseTable, NormalizeURL caseTable (bytes "https://example.com/a/b")
        = .ok (bytes "https://example.com/a/b"))
    ∧ (∀ caseTable, NormalizeURL caseTable (bytes "https://example.com/a_b")
        = .ok (bytes "https://example.com/a_b"))
    ∧ fileNames [⟨bytes "https://example.com/a/b", bytes "first", 1⟩,
                 ⟨bytes "https://example.com/a_b", bytes "second", 1⟩]
        = [bytes "example_com_a_b.md", bytes "example_com_a_b.md"]
    ∧ sanitizeFilename (bytes "https://example.com/p?id=1") 0 = bytes "example_com_p.md"
    ∧ sanitizeFilename (bytes "https://example.com/p?id=2") 1 = bytes "example_com_p.md"
    ∧ sanitizeFilename (bytes "https://example.com") 0 = bytes "example_com_index.md"
    ∧ sanitizeFilename (bytes "https://example.com/") 1 = bytes "example_com_index.md"
    ∧ sanitizeFilename (bytes ":") 6 = bytes "page_007.md" := by
  refine ⟨by decide, by decide, by decide, fun _ => rfl, fun _ => rfl, by decide,
    by decide, by decide, by decide, by decide, by decide⟩

end cli

end Flaremind
